import Mathlib

/-!
# CGoGN combinatorial maps: topological kernel

A shallow embedding of the dart algebra of `cgogn/core/cmap/cmap1.h`,
`cgogn/core/map/map1.h`, `cgogn/core/cmap/cmap3.h` and of the line allocator of
`cgogn/core/container/chunk_array_container.h`, with the properties of the
sewing primitives and of the face construction operators.

Conventions of the embedding:
* a `ChunkArray<T>` is a total map from line index to value (`Nat → T`); a
  write `(*a)[i] = v` is `Function.update a i v`;
* `uint32` counters are natural numbers reduced modulo `2 ^ 32` where the code
  does arithmetic on them;
* an assertion that fails makes the operation return `none`;
* loops whose termination depends on the state take a fuel argument and return
  `none` when it runs out.
-/

namespace cgogn

/-- A dart: an index into the topology container (`d.index` in the sources). -/
structure Dart where
  index : Nat
deriving DecidableEq, Repr

/-- Number of values of a `uint32`. -/
abbrev UINT32_RANGE : Nat := 4294967296

/-- The cycle of `d` under the relation `phi` has length `n`: `n` is the least
`k > 0` with `phi^k(d) = d`. -/
def cycle_length {α : Type} (phi : α → α) (d : α) (n : Nat) : Prop :=
  0 < n ∧ phi^[n] d = d ∧ ∀ k < n, 0 < k → phi^[k] d ≠ d

/-! ## The line allocator of `ChunkArrayContainer` -/

/-- Modelled from the spec: a chunk array of the container (`chunk_array.h` is
not among the sources), "a single typed attribute" array with "O(1) indexed
access".  The element type `T` of a `ChunkArray<T>` is identified by its type
name (`name_of_type(T())`), the elements are given by their codes. -/
structure ChunkArrayGen where
  type_name : String
  data : Nat → Nat

/-- The state of `ChunkArrayContainer<CHUNKSIZE, T_REF>`: the marker arrays,
the reference counts `refs_` with their number of chunks, the stack of holes
(top of the stack first), the two line counters, and the attribute arrays
`table_arrays_` with their names `names_` and type names `type_names_`.  The
template parameter `CHUNKSIZE` is carried as a field.  The relation arrays of
the topology container are held by the map structures below.  Every array of
a container has the number of chunks of `refs_` (`insert_lines`, `compact`
and `add_attribute` give all of them the same number), which
`refs_nb_chunks_` carries. -/
structure ChunkArrayContainer where
  CHUNKSIZE : Nat
  table_marker_arrays_ : List (Nat → Bool)
  refs_ : Nat → Nat
  refs_nb_chunks_ : Nat
  holes_stack_ : List Nat
  nb_used_lines_ : Nat
  nb_max_lines_ : Nat
  table_arrays_ : List ChunkArrayGen := []
  names_ : List String := []
  type_names_ : List String := []

namespace ChunkArrayContainer

/-- Source `used(index)`: `refs_[index] != 0`. -/
def used (c : ChunkArrayContainer) (index : Nat) : Bool :=
  c.refs_ index != 0

/-- Source `size()`: the number of used lines. -/
def size (c : ChunkArrayContainer) : Nat :=
  c.nb_used_lines_

/-- The loop `for (i = 0; i < PRIMSIZE; ++i) refs_.set_value(index + i, v)` of
`insert_lines` and `remove_lines`. -/
def set_refs (refs : Nat → Nat) (index PRIMSIZE v : Nat) : Nat → Nat :=
  (List.range PRIMSIZE).foldl
    (fun r i => Function.update r ((index + i) % UINT32_RANGE) v) refs

/-- Source `insert_lines<PRIMSIZE>()`: the new state and the index of the first
line of the inserted group. -/
def insert_lines (PRIMSIZE : Nat) (c : ChunkArrayContainer) :
    ChunkArrayContainer × Nat :=
  match c.holes_stack_ with
  | [] =>
    let chunks1 :=
      if c.nb_max_lines_ = 0 then c.refs_nb_chunks_ + 1 else c.refs_nb_chunks_
    let chunks2 :=
      if ((c.nb_max_lines_ + PRIMSIZE) % UINT32_RANGE) % c.CHUNKSIZE < PRIMSIZE
      then chunks1 + 1 else chunks1
    let index := c.nb_max_lines_
    ({ c with
        refs_nb_chunks_ := chunks2
        nb_max_lines_ := (c.nb_max_lines_ + PRIMSIZE) % UINT32_RANGE
        refs_ := set_refs c.refs_ index PRIMSIZE 1
        nb_used_lines_ := (c.nb_used_lines_ + PRIMSIZE) % UINT32_RANGE }, index)
  | index :: rest =>
    ({ c with
        holes_stack_ := rest
        refs_ := set_refs c.refs_ index PRIMSIZE 1
        nb_used_lines_ := (c.nb_used_lines_ + PRIMSIZE) % UINT32_RANGE }, index)

/-- Source `init_markers_of_line(index)`: asserts that the line is used and
clears it in every marker array. -/
def init_markers_of_line (c : ChunkArrayContainer) (index : Nat) :
    Option ChunkArrayContainer :=
  if c.used index then
    some { c with
      table_marker_arrays_ :=
        c.table_marker_arrays_.map (fun a => Function.update a index false) }
  else none

/-- Allocator invariant for groups of `PRIMSIZE` lines: the counter of lines
fits a `uint32`, the holes are pairwise distinct unused lines below
`nb_max_lines_`, no line at or after `nb_max_lines_` is used, and the used
lines and the holes account for all the lines. -/
def well_formed (c : ChunkArrayContainer) (PRIMSIZE : Nat) : Prop :=
  c.nb_max_lines_ < UINT32_RANGE ∧
  (∀ h ∈ c.holes_stack_, h < c.nb_max_lines_ ∧ c.refs_ h = 0) ∧
  c.holes_stack_.Nodup ∧
  (∀ i, c.nb_max_lines_ ≤ i → c.refs_ i = 0) ∧
  c.nb_used_lines_ + PRIMSIZE * c.holes_stack_.length = c.nb_max_lines_

end ChunkArrayContainer

/-! ## `MapBase` -/

namespace MapBase

/-- Source `MapBase::add_topology_element()` with `PRIM_SIZE = 1`: inserts a
line in the topology container and initialises its markers. -/
def add_topology_element (topology_ : ChunkArrayContainer) :
    Option (ChunkArrayContainer × Nat) :=
  let r := topology_.insert_lines 1
  match r.1.init_markers_of_line r.2 with
  | none => none
  | some t => some (t, r.2)

end MapBase

/-! ## The 1D kernel: `CMap1_T` and `Map1` -/

/-- The state of a 1D map (`CMap1_T` and `Map1` hold the same members): the
topology container and the chunk arrays `phi1_` and `phi_1_`, which `init()`
registers in the topology container. -/
structure CMap1 where
  topology_ : ChunkArrayContainer
  phi1_ : Nat → Dart
  phi_1_ : Nat → Dart

/-- The class `Map1` of `map1.h` has the members of `CMap1_T`. -/
abbrev Map1 := CMap1

namespace CMap0

/-- Modelled from the spec: `CMap0_T::add_dart_internal` (`cmap0.h` is not
among the sources).  "A dart is created via container insertion (assigned an
index ...)": a line of the topology container is inserted, as
`MapBase::add_topology_element` does for `Map1::add_dart`. -/
def add_dart_internal (topology_ : ChunkArrayContainer) :
    Option (ChunkArrayContainer × Dart) :=
  match MapBase.add_topology_element topology_ with
  | none => none
  | some (t, di) => some (t, ⟨di⟩)

end CMap0

namespace CMap1

/-- Source `phi1(d)`. -/
def phi1 (m : CMap1) (d : Dart) : Dart :=
  m.phi1_ d.index

/-- Source `phi_1(d)`. -/
def phi_1 (m : CMap1) (d : Dart) : Dart :=
  m.phi_1_ d.index

/-- A live dart: its line is used in the topology container. -/
def is_dart (m : CMap1) (d : Dart) : Prop :=
  m.topology_.used d.index = true

/-- Source `CMap1_T::add_dart_internal()`. -/
def add_dart_internal (m : CMap1) : Option (CMap1 × Dart) :=
  match CMap0.add_dart_internal m.topology_ with
  | none => none
  | some (t, d) =>
    some ({ topology_ := t
            phi1_ := Function.update m.phi1_ d.index d
            phi_1_ := Function.update m.phi_1_ d.index d }, d)

/-- Source `CMap1_T::phi1_sew(d, e)`. -/
def phi1_sew (m : CMap1) (d e : Dart) : CMap1 :=
  let f := m.phi1 d
  let g := m.phi1 e
  { m with
    phi1_ := Function.update (Function.update m.phi1_ d.index g) e.index f
    phi_1_ := Function.update (Function.update m.phi_1_ g.index d) f.index e }

/-- Source `CMap1_T::phi1_unsew(d)`. -/
def phi1_unsew (m : CMap1) (d : Dart) : CMap1 :=
  let e := m.phi1 d
  let f := m.phi1 e
  { m with
    phi1_ := Function.update (Function.update m.phi1_ d.index f) e.index e
    phi_1_ := Function.update (Function.update m.phi_1_ f.index d) e.index e }

/-- Source `CMap1_T::cut_edge_topo(d)`. -/
def cut_edge_topo (m : CMap1) (d : Dart) : Option (CMap1 × Dart) :=
  match m.add_dart_internal with
  | none => none
  | some (m1, e) => some (m1.phi1_sew d e, e)

/-- The loop `for (i = 1; i < size; ++i) cut_edge_topo(d);` of `add_face_topo`,
run `n` times. -/
def add_face_topo_loop (d : Dart) : Nat → CMap1 → Option CMap1
  | 0, m => some m
  | n + 1, m =>
    match m.cut_edge_topo d with
    | none => none
    | some (m1, _) => add_face_topo_loop d n m1

/-- Source `CMap1_T::add_face_topo(size)`. -/
def add_face_topo (m : CMap1) (size : Nat) : Option (CMap1 × Dart) :=
  if size > 0 then
    match m.add_dart_internal with
    | none => none
    | some (m1, d) =>
      match add_face_topo_loop d (size - 1) m1 with
      | none => none
      | some m2 => some (m2, d)
  else none

/-- The loop of `foreach_dart_of_PHI1`:
`do { f(it); it = phi1(it); } while (it != d);` with the visitor `f` acting on
an accumulator. -/
def foreach_dart_of_PHI1_loop {σ : Type} (m : CMap1) (d : Dart)
    (f : σ → Dart → σ) : Nat → Dart → σ → Option σ
  | 0, _, _ => none
  | fuel + 1, it, s =>
    let s1 := f s it
    let it1 := m.phi1 it
    if it1 ≠ d then foreach_dart_of_PHI1_loop m d f fuel it1 s1 else some s1

/-- Source `CMap1_T::foreach_dart_of_PHI1(d, f)`. -/
def foreach_dart_of_PHI1 {σ : Type} (m : CMap1) (d : Dart) (f : σ → Dart → σ)
    (fuel : Nat) (s : σ) : Option σ :=
  foreach_dart_of_PHI1_loop m d f fuel d s

/-- Modelled from the spec: `nb_darts(f)` is declared in a header that is not
among the sources; it counts the darts that the orbit traversal of the cell
visits. -/
def nb_darts (m : CMap1) (f : Dart) (fuel : Nat) : Option Nat :=
  m.foreach_dart_of_PHI1 f (fun n _ => n + 1) fuel 0

/-- Source `CMap1_T::degree(Face f)`. -/
def degree (m : CMap1) (f : Dart) (fuel : Nat) : Option Nat :=
  m.nb_darts f fuel

/-- The phi1-cycle of `d` has length `n`: `n` is the least `k > 0` with
`phi1^k(d) = d`. -/
def is_cycle_length (m : CMap1) (d : Dart) (n : Nat) : Prop :=
  cycle_length m.phi1 d n

/-- The dart `x` lies in the phi1-cycle of `d`. -/
def in_cycle (m : CMap1) (d x : Dart) : Prop :=
  ∃ k, (m.phi1)^[k] d = x

/-- The relation `phi1` is a permutation of the darts of the map: the live darts
are lines below `nb_max_lines_`, and `phi1` maps live darts to live darts
injectively. -/
def phi1_is_permutation (m : CMap1) : Prop :=
  (∀ x, m.is_dart x → x.index < m.topology_.nb_max_lines_) ∧
  (∀ x, m.is_dart x → m.is_dart (m.phi1 x)) ∧
  (∀ x y, m.is_dart x → m.is_dart y → m.phi1 x = m.phi1 y → x = y)

/-- On the set `S` of darts, `phi1` and `phi_1` stay inside `S` and are inverse
to each other. -/
def inverse_on (m : CMap1) (S : Dart → Prop) : Prop :=
  ∀ x, S x →
    S (m.phi1 x) ∧ S (m.phi_1 x) ∧ m.phi_1 (m.phi1 x) = x ∧ m.phi1 (m.phi_1 x) = x

end CMap1

namespace Map1

/-- Source `Map1::phi1(d)`. -/
def phi1 (m : Map1) (d : Dart) : Dart :=
  m.phi1_ d.index

/-- Source `Map1::phi_1(d)`. -/
def phi_1 (m : Map1) (d : Dart) : Dart :=
  m.phi_1_ d.index

/-- Source `Map1::phi1_sew(d, e)`. -/
def phi1_sew (m : Map1) (d e : Dart) : Map1 :=
  let f := Map1.phi1 m d
  let g := Map1.phi1 m e
  { m with
    phi1_ := Function.update (Function.update m.phi1_ d.index g) e.index f
    phi_1_ := Function.update (Function.update m.phi_1_ g.index d) f.index e }

/-- Source `Map1::phi1_unsew(d)`. -/
def phi1_unsew (m : Map1) (d : Dart) : Map1 :=
  let e := Map1.phi1 m d
  let f := Map1.phi1 m e
  { m with
    phi1_ := Function.update (Function.update m.phi1_ d.index f) e.index e
    phi_1_ := Function.update (Function.update m.phi_1_ f.index d) e.index e }

/-- Source `Map1::add_dart()`. -/
def add_dart (m : Map1) : Option (Map1 × Dart) :=
  match MapBase.add_topology_element m.topology_ with
  | none => none
  | some (t, di) =>
    some ({ topology_ := t
            phi1_ := Function.update m.phi1_ di ⟨di⟩
            phi_1_ := Function.update m.phi_1_ di ⟨di⟩ }, ⟨di⟩)

/-- Source `Map1::cut_edge_topo(d)`. -/
def cut_edge_topo (m : Map1) (d : Dart) : Option (Map1 × Dart) :=
  match Map1.add_dart m with
  | none => none
  | some (m1, e) => some (Map1.phi1_sew m1 d e, e)

/-- The loop `for (i = 1; i < nb_edges; ++i) cut_edge_topo(d);` of
`add_cycle_topo`, run `n` times. -/
def add_cycle_topo_loop (d : Dart) : Nat → Map1 → Option Map1
  | 0, m => some m
  | n + 1, m =>
    match Map1.cut_edge_topo m d with
    | none => none
    | some (m1, _) => add_cycle_topo_loop d n m1

/-- Source `Map1::add_cycle_topo(nb_edges)`. -/
def add_cycle_topo (m : Map1) (nb_edges : Nat) : Option (Map1 × Dart) :=
  if nb_edges > 0 then
    match Map1.add_dart m with
    | none => none
    | some (m1, d) =>
      match add_cycle_topo_loop d (nb_edges - 1) m1 with
      | none => none
      | some m2 => some (m2, d)
  else none

end Map1

/-! ## The 2D and 3D kernels -/

/-- The state of a 2D map: `CMap2_T` adds the relation `phi2` to the 1D map. -/
structure CMap2 extends CMap1 where
  phi2_ : Nat → Dart

namespace CMap2

/-- Source `phi2(d)` (used by `cmap3.h` and by the tests). -/
def phi2 (m : CMap2) (d : Dart) : Dart :=
  m.phi2_ d.index

/-- Modelled from the spec: `CMap2_T::phi2_sew` (`cmap2.h` is not among the
sources).  "`phi2_sew(d,e)` ... require phi2(d)==d and phi2(e)==e ... as a
precondition ... asserted, not silently overwritten; sets them to point at
each other." -/
def phi2_sew (m : CMap2) (d e : Dart) : Option CMap2 :=
  if m.phi2 d = d then
    if m.phi2 e = e then
      some { m with
        phi2_ := Function.update (Function.update m.phi2_ d.index e) e.index d }
    else none
  else none

/-- Modelled from the spec: `CMap2_T::phi2_unsew` (`cmap2.h` is not among the
sources).  "`phi2_unsew(d)` ... resets d and its current partner to fixed
points." -/
def phi2_unsew (m : CMap2) (d : Dart) : CMap2 :=
  let e := m.phi2 d
  { m with
    phi2_ := Function.update (Function.update m.phi2_ d.index d) e.index e }

/-- Modelled from the spec: `CMap2_T::init_dart` (`cmap2.h` is not among the
sources).  A new dart is "initialized as fixed point for every relation": the
relations `phi1`, `phi_1` of the 1D level and `phi2`. -/
def init_dart (m : CMap2) (d : Dart) : CMap2 :=
  { m with
    phi1_ := Function.update m.phi1_ d.index d
    phi_1_ := Function.update m.phi_1_ d.index d
    phi2_ := Function.update m.phi2_ d.index d }

end CMap2

/-- The state of a 3D map: `CMap3_T` adds the relation `phi3` to the 2D map. -/
structure CMap3 extends CMap2 where
  phi3_ : Nat → Dart

namespace CMap3

/-- Source `CMap3_T::phi3(d)`. -/
def phi3 (m : CMap3) (d : Dart) : Dart :=
  m.phi3_ d.index

/-- Source `CMap3_T::init_dart(d)`. -/
def init_dart (m : CMap3) (d : Dart) : CMap3 :=
  { toCMap2 := m.toCMap2.init_dart d
    phi3_ := Function.update m.phi3_ d.index d }

/-- Source `CMap3_T::phi3_sew(d, e)`. -/
def phi3_sew (m : CMap3) (d e : Dart) : Option CMap3 :=
  if m.phi3 d = d then
    if m.phi3 e = e then
      some { m with
        phi3_ := Function.update (Function.update m.phi3_ d.index e) e.index d }
    else none
  else none

/-- Source `CMap3_T::phi3_unsew(d)`. -/
def phi3_unsew (m : CMap3) (d : Dart) : CMap3 :=
  let e := m.phi3 d
  { m with
    phi3_ := Function.update (Function.update m.phi3_ d.index d) e.index e }

end CMap3

/-! ## Example maps -/

/-- An example topology container: the lines 0 to 3 are used, there is no
hole. -/
def example_container : ChunkArrayContainer :=
  { CHUNKSIZE := 4096
    table_marker_arrays_ := []
    refs_ := fun i => if i < 4 then 1 else 0
    refs_nb_chunks_ := 1
    holes_stack_ := []
    nb_used_lines_ := 4
    nb_max_lines_ := 4 }

/-- An example 1D map: the face `0 → 1 → 2 → 0` and the isolated dart `3`. -/
def example_map : CMap1 :=
  { topology_ := example_container
    phi1_ := fun i =>
      if i = 0 then ⟨1⟩ else if i = 1 then ⟨2⟩ else if i = 2 then ⟨0⟩ else ⟨i⟩
    phi_1_ := fun i =>
      if i = 0 then ⟨2⟩ else if i = 1 then ⟨0⟩ else if i = 2 then ⟨1⟩ else ⟨i⟩ }

/-- An example 2D map on the darts of `example_map`: the darts `0` and `1` are
linked by `phi2`, the other darts are fixed points. -/
def example_map2 : CMap2 :=
  { toCMap1 := example_map
    phi2_ := fun i => if i = 0 then ⟨1⟩ else if i = 1 then ⟨0⟩ else ⟨i⟩ }

/-- An example 3D map on the darts of `example_map2`: the darts `2` and `3` are
linked by `phi3`, the other darts are fixed points. -/
def example_map3 : CMap3 :=
  { toCMap2 := example_map2
    phi3_ := fun i => if i = 2 then ⟨3⟩ else if i = 3 then ⟨2⟩ else ⟨i⟩ }

/-- The topology container as its constructor leaves it: no line, no hole, no
chunk. -/
def empty_container : ChunkArrayContainer :=
  { CHUNKSIZE := 4096
    table_marker_arrays_ := []
    refs_ := fun _ => 0
    refs_nb_chunks_ := 0
    holes_stack_ := []
    nb_used_lines_ := 0
    nb_max_lines_ := 0 }

/-- The 1D map without dart. -/
def empty_map : CMap1 :=
  { topology_ := empty_container
    phi1_ := fun i => ⟨i⟩
    phi_1_ := fun i => ⟨i⟩ }

/-! ## Removal of darts -/

/-- Source `remove_lines<PRIMSIZE>(index)`: asserts that the first line of the
group is used, pushes it on the stack of holes, clears the reference counts of
the group and decrements the number of used lines. -/
def ChunkArrayContainer.remove_lines (PRIMSIZE : Nat) (c : ChunkArrayContainer)
    (index : Nat) : Option ChunkArrayContainer :=
  let begin_prim_idx := (index / PRIMSIZE) * PRIMSIZE
  if c.used begin_prim_idx then
    some { c with
      holes_stack_ := begin_prim_idx :: c.holes_stack_
      refs_ := ChunkArrayContainer.set_refs c.refs_ begin_prim_idx PRIMSIZE 0
      nb_used_lines_ :=
        (c.nb_used_lines_ + (UINT32_RANGE - PRIMSIZE % UINT32_RANGE)) % UINT32_RANGE }
  else none

/-- Modelled from the spec: `remove_dart(d)` is declared in a header that is
not among the sources.  A dart is "destroyed via container removal": its line
is removed from the topology container (`PRIM_SIZE = 1`). -/
def CMap1.remove_dart (m : CMap1) (d : Dart) : Option CMap1 :=
  match m.topology_.remove_lines 1 d.index with
  | none => none
  | some t => some { m with topology_ := t }

/-- Source `CMap1_T::collapse_edge_topo(d)`. -/
def CMap1.collapse_edge_topo (m : CMap1) (d : Dart) : Option CMap1 :=
  let e := m.phi_1 d
  if e ≠ d then (m.phi1_unsew e).remove_dart d else none

/-- The loop `while (e != d) { f = phi1(e); remove_dart(e); e = f; }` of
`remove_face_topo`. -/
def CMap1.remove_face_topo_loop (d : Dart) : Nat → CMap1 → Dart → Option CMap1
  | 0, m, e => if e ≠ d then none else some m
  | fuel + 1, m, e =>
    if e ≠ d then
      let f := m.phi1 e
      match m.remove_dart e with
      | none => none
      | some m1 => CMap1.remove_face_topo_loop d fuel m1 f
    else some m

/-- Source `CMap1_T::remove_face_topo(d)`. -/
def CMap1.remove_face_topo (m : CMap1) (d : Dart) (fuel : Nat) : Option CMap1 :=
  match CMap1.remove_face_topo_loop d fuel m (m.phi1 d) with
  | none => none
  | some m1 => m1.remove_dart d


/-! ## Reversing a face -/

/-- The loop `while (dNext != d) { phi1_unsew(d); phi1_sew(e, dNext);
dNext = phi1(d); }` of `reverse_face_topo`. -/
def CMap1.reverse_face_topo_loop (d e : Dart) : Nat → CMap1 → Dart → Option CMap1
  | 0, m, dNext => if dNext ≠ d then none else some m
  | fuel + 1, m, dNext =>
    if dNext ≠ d then
      let m1 := (m.phi1_unsew d).phi1_sew e dNext
      CMap1.reverse_face_topo_loop d e fuel m1 (m1.phi1 d)
    else some m

/-- Source `CMap1_T::reverse_face_topo(d)`. -/
def CMap1.reverse_face_topo (m : CMap1) (d : Dart) (fuel : Nat) : Option CMap1 :=
  let e := m.phi1 d
  if e = d then some m
  else if m.phi1 e = d then some m
  else
    let m1 := m.phi1_unsew d
    match CMap1.reverse_face_topo_loop d e fuel m1 (m1.phi1 d) with
    | none => none
    | some m2 => some (m2.phi1_sew e d)

/-- The relations of the map `m` read on the positions of the darts
`x i = phi1^i(d)` (`i < n`) of a cycle of the map `m0`: `phi1(x i) = x (a i)`
and `phi_1(x i) = x (b i)`, and `m` agrees with `m0` outside the cycle. -/
def CMap1.cycle_rep (m0 : CMap1) (d : Dart) (n : Nat) (m : CMap1) (a b : Nat → Nat) :
    Prop :=
  (∀ i, i < n → m.phi1 ((m0.phi1)^[i] d) = (m0.phi1)^[a i] d ∧ a i < n) ∧
  (∀ i, i < n → m.phi_1 ((m0.phi1)^[i] d) = (m0.phi1)^[b i] d ∧ b i < n) ∧
  (∀ y, (∀ i, i < n → y ≠ (m0.phi1)^[i] d) →
    m.phi1 y = m0.phi1 y ∧ m.phi_1 y = m0.phi_1 y) ∧
  m.topology_ = m0.topology_

/-- Positions of the successors in a cycle of length `n` after `j` turns of the
loop of `reverse_face_topo`. -/
def reverse_next (n j i : Nat) : Nat :=
  if i = 0 then (if j + 2 = n then 0 else j + 2)
  else if i = 1 then j + 1
  else if i ≤ j + 1 then i - 1
  else (if i + 1 = n then 0 else i + 1)

/-- Positions of the predecessors in a cycle of length `n` after `j` turns of
the loop of `reverse_face_topo`. -/
def reverse_prev (n j i : Nat) : Nat :=
  if i = 0 then (if j + 2 = n then 0 else n - 1)
  else if i = j + 1 then 1
  else if i ≤ j then i + 1
  else if i = j + 2 then 0
  else i - 1

/-- Position of the successor in a cycle of length `n`. -/
def cycle_next (n i : Nat) : Nat :=
  if i + 1 = n then 0 else i + 1

/-- Position of the predecessor in a cycle of length `n`. -/
def cycle_prev (n i : Nat) : Nat :=
  if i = 0 then n - 1 else i - 1


/-! ## Traversal of a face in `Map1`, composition of relations in `CMap3` -/

/-- The loop of `Map1::foreach_dart_of_face`:
`do { f(it); it = phi1(it); } while (it != d);`. -/
def Map1.foreach_dart_of_face_loop {σ : Type} (m : Map1) (d : Dart)
    (f : σ → Dart → σ) : Nat → Dart → σ → Option σ
  | 0, _, _ => none
  | fuel + 1, it, s =>
    let s1 := f s it
    let it1 := Map1.phi1 m it
    if it1 ≠ d then Map1.foreach_dart_of_face_loop m d f fuel it1 s1 else some s1

/-- Source `Map1::foreach_dart_of_face(d, f)`. -/
def Map1.foreach_dart_of_face {σ : Type} (m : Map1) (d : Dart) (f : σ → Dart → σ)
    (fuel : Nat) (s : σ) : Option σ :=
  Map1.foreach_dart_of_face_loop m d f fuel d s

/-- Source `CMap3_T::phi<N>(d)`: the `switch` on `N % 10`, whose cases 1, 2, 3
apply `phi1`, `phi2`, `phi3` to `phi<N/10>(d)` and whose default case returns
`d`.  (A digit above 3 is rejected by the `static_assert`.) -/
def CMap3.phi (m : CMap3) (N : Nat) (d : Dart) : Dart :=
  if h1 : N % 10 = 1 then m.phi1 (CMap3.phi m (N / 10) d)
  else if h2 : N % 10 = 2 then m.phi2 (CMap3.phi m (N / 10) d)
  else if h3 : N % 10 = 3 then m.phi3 (CMap3.phi m (N / 10) d)
  else d
termination_by N
decreasing_by all_goals (simp_wf; omega)

/-- The relation named by a decimal digit: `1` is `phi1`, `2` is `phi2`, `3` is
`phi3`. -/
def CMap3.phi_digit (m : CMap3) (a : Nat) (x : Dart) : Dart :=
  if a = 1 then m.phi1 x else if a = 2 then m.phi2 x else if a = 3 then m.phi3 x else x

/-- The composition that the spec gives for `phi<N>`: the relations named by
the decimal digits of `N` are applied one after the other, from the most
significant digit to the least significant one. -/
def CMap3.phi_by_digits (m : CMap3) (N : Nat) (d : Dart) : Dart :=
  (Nat.digits 10 N).reverse.foldl (fun x a => m.phi_digit a x) d

/-- An example container for groups of two lines: the group of the lines 0, 1
is used, the group of the lines 2, 3 is a hole. -/
def example_container_pairs : ChunkArrayContainer :=
  { CHUNKSIZE := 4096
    table_marker_arrays_ := []
    refs_ := fun i => if i < 2 then 1 else 0
    refs_nb_chunks_ := 1
    holes_stack_ := [2]
    nb_used_lines_ := 2
    nb_max_lines_ := 4 }


/-! ## Orbit traversals of `CMap3` -/

/-- The loop of `foreach_dart_of_PHI2_PHI3`:
`do { f(it); it = phi2(it); f(it); it = phi3(it); } while (it != d);`. -/
def CMap3.foreach_dart_of_PHI2_PHI3_loop {σ : Type} (m : CMap3) (d : Dart)
    (f : σ → Dart → σ) : Nat → Dart → σ → Option σ
  | 0, _, _ => none
  | fuel + 1, it, s =>
    let s1 := f s it
    let it1 := m.phi2 it
    let s2 := f s1 it1
    let it2 := m.phi3 it1
    if it2 ≠ d then CMap3.foreach_dart_of_PHI2_PHI3_loop m d f fuel it2 s2 else some s2

/-- Source `CMap3_T::foreach_dart_of_PHI2_PHI3(d, f)`. -/
def CMap3.foreach_dart_of_PHI2_PHI3 {σ : Type} (m : CMap3) (d : Dart) (f : σ → Dart → σ)
    (fuel : Nat) (s : σ) : Option σ :=
  CMap3.foreach_dart_of_PHI2_PHI3_loop m d f fuel d s

/-- On the set `S` of darts, `phi2` and `phi3` stay inside `S` and are
involutions. -/
def CMap3.involutions_on (m : CMap3) (S : Dart → Prop) : Prop :=
  ∀ x, S x →
    S (m.phi2 x) ∧ S (m.phi3 x) ∧ m.phi2 (m.phi2 x) = x ∧ m.phi3 (m.phi3 x) = x

/-- Modelled from the spec: `DartMarkerStore` (`dart_marker.h` is not among the
sources).  "A boolean flag per dart ...; `DartMarkerStore` additionally
records the list of marked darts ... for driving worklist traversals." -/
structure DartMarkerStore where
  mark_attribute_ : Nat → Bool
  marked_darts_ : List Dart

/-- Modelled from the spec: a `DartMarkerStore` as its constructor leaves it,
no dart is marked. -/
def DartMarkerStore.init : DartMarkerStore :=
  { mark_attribute_ := fun _ => false
    marked_darts_ := [] }

/-- Modelled from the spec: `DartMarkerStore::mark(d)` sets the flag of `d` and
records `d` in the list of marked darts. -/
def DartMarkerStore.mark (s : DartMarkerStore) (d : Dart) : DartMarkerStore :=
  { mark_attribute_ := Function.update s.mark_attribute_ d.index true
    marked_darts_ := s.marked_darts_ ++ [d] }

/-- Modelled from the spec: `DartMarkerStore::is_marked(d)` reads the flag of
`d`. -/
def DartMarkerStore.is_marked (s : DartMarkerStore) (d : Dart) : Bool :=
  s.mark_attribute_ d.index

/-- The loop of `foreach_dart_of_PHI21_PHI31`:
`for (i = 0; i < marked_darts->size(); ++i)` with the index `i`, the marker
store and the accumulator of the visitor as state. -/
def CMap3.foreach_dart_of_PHI21_PHI31_loop {σ : Type} (m : CMap3) (f : σ → Dart → σ) :
    Nat → Nat → DartMarkerStore → σ → Option σ
  | 0, _, _, _ => none
  | fuel + 1, i, marker, s =>
    if h : i < marker.marked_darts_.length then
      let curr_dart := marker.marked_darts_.get ⟨i, h⟩
      let s1 := f s curr_dart
      let d_1 := m.phi_1 curr_dart
      let d2_1 := m.phi2 d_1
      let d3_1 := m.phi3 d_1
      let marker1 := if !marker.is_marked d2_1 then marker.mark d2_1 else marker
      let marker2 := if !marker1.is_marked d3_1 then marker1.mark d3_1 else marker1
      CMap3.foreach_dart_of_PHI21_PHI31_loop m f fuel ((i + 1) % UINT32_RANGE) marker2 s1
    else some s

/-- Source `CMap3_T::foreach_dart_of_PHI21_PHI31(d, f)`. -/
def CMap3.foreach_dart_of_PHI21_PHI31 {σ : Type} (m : CMap3) (d : Dart) (f : σ → Dart → σ)
    (fuel : Nat) (s : σ) : Option σ :=
  CMap3.foreach_dart_of_PHI21_PHI31_loop m f fuel 0 (DartMarkerStore.init.mark d) s

/-- The smallest set of darts that contains `d` and is closed under
`x ↦ phi2(phi_1(x))` and `x ↦ phi3(phi_1(x))`. -/
inductive CMap3.orbit_PHI21_PHI31 (m : CMap3) (d : Dart) : Dart → Prop
  | base : CMap3.orbit_PHI21_PHI31 m d d
  | step21 (x : Dart) :
      CMap3.orbit_PHI21_PHI31 m d x → CMap3.orbit_PHI21_PHI31 m d (m.phi2 (m.phi_1 x))
  | step31 (x : Dart) :
      CMap3.orbit_PHI21_PHI31 m d x → CMap3.orbit_PHI21_PHI31 m d (m.phi3 (m.phi_1 x))

/-- A marker store whose flags and list of marked darts agree, where no dart
is recorded twice and every marked dart satisfies `P`. -/
def DartMarkerStore.well_formed (s : DartMarkerStore) (P : Dart → Prop) : Prop :=
  (∀ x, s.is_marked x = true ↔ x ∈ s.marked_darts_) ∧
  s.marked_darts_.Nodup ∧
  (∀ x, x ∈ s.marked_darts_ → P x)


/-! ## The traversal of a connected component of `CMap3` -/

/-- The inner loop of `foreach_dart_of_PHI1_PHI2_PHI3`, over the darts of the
face of `e`: `do { f(it); marker.mark(it); adj2 = phi2(it);
if (!marker.is_marked(adj2)) visited_face2->push_back(adj2); it = phi1(it); }
while (it != e);`. -/
def CMap3.foreach_dart_of_PHI1_PHI2_PHI3_face {σ : Type} (m : CMap3) (f : σ → Dart → σ)
    (e : Dart) : Nat → Dart → DartMarkerStore → List Dart → σ →
      Option (DartMarkerStore × List Dart × σ)
  | 0, _, _, _, _ => none
  | fuel + 1, it, marker, visited_face2, s =>
    let s1 := f s it
    let marker1 := marker.mark it
    let adj2 := m.phi2 it
    let visited1 :=
      if !marker1.is_marked adj2 then visited_face2 ++ [adj2] else visited_face2
    let it1 := m.phi1 it
    if it1 ≠ e then
      CMap3.foreach_dart_of_PHI1_PHI2_PHI3_face m f e fuel it1 marker1 visited1 s1
    else some (marker1, visited1, s1)

/-- The outer loop of `foreach_dart_of_PHI1_PHI2_PHI3`:
`for (i = 0; i < visited_face2->size(); ++i)`; after the walk of the face of
`e` the dart `phi3(e)` is pushed. -/
def CMap3.foreach_dart_of_PHI1_PHI2_PHI3_loop {σ : Type} (m : CMap3) (f : σ → Dart → σ) :
    Nat → Nat → DartMarkerStore → List Dart → σ → Option σ
  | 0, _, _, _, _ => none
  | fuel + 1, i, marker, visited_face2, s =>
    if h : i < visited_face2.length then
      let e := visited_face2.get ⟨i, h⟩
      if !marker.is_marked e then
        match CMap3.foreach_dart_of_PHI1_PHI2_PHI3_face m f e fuel e marker visited_face2 s with
        | none => none
        | some (marker1, visited1, s1) =>
          CMap3.foreach_dart_of_PHI1_PHI2_PHI3_loop m f fuel ((i + 1) % UINT32_RANGE)
            marker1 (visited1 ++ [m.phi3 e]) s1
      else
        CMap3.foreach_dart_of_PHI1_PHI2_PHI3_loop m f fuel ((i + 1) % UINT32_RANGE)
          marker visited_face2 s
    else some s

/-- Source `CMap3_T::foreach_dart_of_PHI1_PHI2_PHI3(d, f)`. -/
def CMap3.foreach_dart_of_PHI1_PHI2_PHI3 {σ : Type} (m : CMap3) (d : Dart)
    (f : σ → Dart → σ) (fuel : Nat) (s : σ) : Option σ :=
  CMap3.foreach_dart_of_PHI1_PHI2_PHI3_loop m f fuel 0 DartMarkerStore.init [d] s

/-- The darts reachable from `d` by compositions of `phi1`, `phi2` and `phi3`:
the connected component of `d`. -/
inductive CMap3.orbit_PHI1_PHI2_PHI3 (m : CMap3) (d : Dart) : Dart → Prop
  | base : CMap3.orbit_PHI1_PHI2_PHI3 m d d
  | step1 (x : Dart) :
      CMap3.orbit_PHI1_PHI2_PHI3 m d x → CMap3.orbit_PHI1_PHI2_PHI3 m d (m.phi1 x)
  | step2 (x : Dart) :
      CMap3.orbit_PHI1_PHI2_PHI3 m d x → CMap3.orbit_PHI1_PHI2_PHI3 m d (m.phi2 x)
  | step3 (x : Dart) :
      CMap3.orbit_PHI1_PHI2_PHI3 m d x → CMap3.orbit_PHI1_PHI2_PHI3 m d (m.phi3 x)

/-- An example 3D map on the lines of `example_container`: the faces
`0 → 1 → 0` and `2 → 3 → 2`, glued by `phi3` (`0` with `3`, `1` with `2`), and
`phi2` without link. -/
def example_map3_glued : CMap3 :=
  { topology_ := example_container
    phi1_ := fun i =>
      if i = 0 then ⟨1⟩ else if i = 1 then ⟨0⟩ else if i = 2 then ⟨3⟩
      else if i = 3 then ⟨2⟩ else ⟨i⟩
    phi_1_ := fun i =>
      if i = 0 then ⟨1⟩ else if i = 1 then ⟨0⟩ else if i = 2 then ⟨3⟩
      else if i = 3 then ⟨2⟩ else ⟨i⟩
    phi2_ := fun i => ⟨i⟩
    phi3_ := fun i =>
      if i = 0 then ⟨3⟩ else if i = 3 then ⟨0⟩ else if i = 1 then ⟨2⟩
      else if i = 2 then ⟨1⟩ else ⟨i⟩ }

/-! ## The `until` variants of the traversals -/

/-- The visits of an `until` traversal along a list of darts: the visitor is
called on the darts in turn, up to the first dart on which it returns false.
The flag of the result tells whether the visitor never returned false. -/
def visit_until {σ : Type} (f : σ → Dart → σ × Bool) : σ → List Dart → σ × Bool
  | s, [] => (s, true)
  | s, x :: xs => if (f s x).2 then visit_until f (f s x).1 xs else ((f s x).1, false)

/-- The loop of `foreach_dart_of_PHI1_until`:
`do { if (!f(it)) break; it = phi1(it); } while (it != d);`. -/
def CMap1.foreach_dart_of_PHI1_until_loop {σ : Type} (m : CMap1) (d : Dart)
    (f : σ → Dart → σ × Bool) : Nat → Dart → σ → Option σ
  | 0, _, _ => none
  | fuel + 1, it, s =>
    let r := f s it
    if !r.2 then some r.1
    else
      let it1 := m.phi1 it
      if it1 ≠ d then CMap1.foreach_dart_of_PHI1_until_loop m d f fuel it1 r.1
      else some r.1

/-- Source `CMap1_T::foreach_dart_of_PHI1_until(d, f)`. -/
def CMap1.foreach_dart_of_PHI1_until {σ : Type} (m : CMap1) (d : Dart)
    (f : σ → Dart → σ × Bool) (fuel : Nat) (s : σ) : Option σ :=
  CMap1.foreach_dart_of_PHI1_until_loop m d f fuel d s

/-- The loop of `foreach_dart_of_PHI2_PHI3_until`. -/
def CMap3.foreach_dart_of_PHI2_PHI3_until_loop {σ : Type} (m : CMap3) (d : Dart)
    (f : σ → Dart → σ × Bool) : Nat → Dart → σ → Option σ
  | 0, _, _ => none
  | fuel + 1, it, s =>
    let r1 := f s it
    if !r1.2 then some r1.1
    else
      let it1 := m.phi2 it
      let r2 := f r1.1 it1
      if !r2.2 then some r2.1
      else
        let it2 := m.phi3 it1
        if it2 ≠ d then CMap3.foreach_dart_of_PHI2_PHI3_until_loop m d f fuel it2 r2.1
        else some r2.1

/-- Source `CMap3_T::foreach_dart_of_PHI2_PHI3_until(d, f)`. -/
def CMap3.foreach_dart_of_PHI2_PHI3_until {σ : Type} (m : CMap3) (d : Dart)
    (f : σ → Dart → σ × Bool) (fuel : Nat) (s : σ) : Option σ :=
  CMap3.foreach_dart_of_PHI2_PHI3_until_loop m d f fuel d s

/-- Source `CMap3_T::foreach_dart_of_PHI1_PHI3(d, f)`: the walk of `phi1` with
the visitor `f(fd); f(phi3(fd));`. -/
def CMap3.foreach_dart_of_PHI1_PHI3 {σ : Type} (m : CMap3) (d : Dart) (f : σ → Dart → σ)
    (fuel : Nat) (s : σ) : Option σ :=
  m.foreach_dart_of_PHI1 d (fun s fd => f (f s fd) (m.phi3 fd)) fuel s

/-- Source `CMap3_T::foreach_dart_of_PHI1_PHI3_until(d, f)`: the `until` walk of
`phi1` with the visitor `if (f(fd)) return f(phi3(fd)); return false;`. -/
def CMap3.foreach_dart_of_PHI1_PHI3_until {σ : Type} (m : CMap3) (d : Dart)
    (f : σ → Dart → σ × Bool) (fuel : Nat) (s : σ) : Option σ :=
  m.foreach_dart_of_PHI1_until d
    (fun s fd => if (f s fd).2 then f (f s fd).1 (m.phi3 fd) else ((f s fd).1, false)) fuel s

/-- The loop of `foreach_dart_of_PHI21_PHI31_until`. -/
def CMap3.foreach_dart_of_PHI21_PHI31_until_loop {σ : Type} (m : CMap3)
    (f : σ → Dart → σ × Bool) : Nat → Nat → DartMarkerStore → σ → Option σ
  | 0, _, _, _ => none
  | fuel + 1, i, marker, s =>
    if h : i < marker.marked_darts_.length then
      let curr_dart := marker.marked_darts_.get ⟨i, h⟩
      let r := f s curr_dart
      if !r.2 then some r.1
      else
        let d_1 := m.phi_1 curr_dart
        let d2_1 := m.phi2 d_1
        let d3_1 := m.phi3 d_1
        let marker1 := if !marker.is_marked d2_1 then marker.mark d2_1 else marker
        let marker2 := if !marker1.is_marked d3_1 then marker1.mark d3_1 else marker1
        CMap3.foreach_dart_of_PHI21_PHI31_until_loop m f fuel ((i + 1) % UINT32_RANGE)
          marker2 r.1
    else some s

/-- Source `CMap3_T::foreach_dart_of_PHI21_PHI31_until(d, f)`. -/
def CMap3.foreach_dart_of_PHI21_PHI31_until {σ : Type} (m : CMap3) (d : Dart)
    (f : σ → Dart → σ × Bool) (fuel : Nat) (s : σ) : Option σ :=
  CMap3.foreach_dart_of_PHI21_PHI31_until_loop m f fuel 0 (DartMarkerStore.init.mark d) s

/-- The inner loop of `foreach_dart_of_PHI1_PHI2_PHI3_until`; the first
component of the result is `none` when the visitor returned false (the
function returns at once) and the marker store with the list of faces
otherwise. -/
def CMap3.foreach_dart_of_PHI1_PHI2_PHI3_until_face {σ : Type} (m : CMap3)
    (f : σ → Dart → σ × Bool) (e : Dart) : Nat → Dart → DartMarkerStore → List Dart → σ →
      Option (Option (DartMarkerStore × List Dart) × σ)
  | 0, _, _, _, _ => none
  | fuel + 1, it, marker, visited_face2, s =>
    let r := f s it
    if !r.2 then some (none, r.1)
    else
      let marker1 := marker.mark it
      let adj2 := m.phi2 it
      let visited1 :=
        if !marker1.is_marked adj2 then visited_face2 ++ [adj2] else visited_face2
      let it1 := m.phi1 it
      if it1 ≠ e then
        CMap3.foreach_dart_of_PHI1_PHI2_PHI3_until_face m f e fuel it1 marker1 visited1 r.1
      else some (some (marker1, visited1), r.1)

/-- The outer loop of `foreach_dart_of_PHI1_PHI2_PHI3_until`. -/
def CMap3.foreach_dart_of_PHI1_PHI2_PHI3_until_loop {σ : Type} (m : CMap3)
    (f : σ → Dart → σ × Bool) : Nat → Nat → DartMarkerStore → List Dart → σ → Option σ
  | 0, _, _, _, _ => none
  | fuel + 1, i, marker, visited_face2, s =>
    if h : i < visited_face2.length then
      let e := visited_face2.get ⟨i, h⟩
      if !marker.is_marked e then
        match CMap3.foreach_dart_of_PHI1_PHI2_PHI3_until_face m f e fuel e marker
            visited_face2 s with
        | none => none
        | some (none, s1) => some s1
        | some (some (marker1, visited1), s1) =>
          CMap3.foreach_dart_of_PHI1_PHI2_PHI3_until_loop m f fuel ((i + 1) % UINT32_RANGE)
            marker1 (visited1 ++ [m.phi3 e]) s1
      else
        CMap3.foreach_dart_of_PHI1_PHI2_PHI3_until_loop m f fuel ((i + 1) % UINT32_RANGE)
          marker visited_face2 s
    else some s

/-- Source `CMap3_T::foreach_dart_of_PHI1_PHI2_PHI3_until(d, f)`. -/
def CMap3.foreach_dart_of_PHI1_PHI2_PHI3_until {σ : Type} (m : CMap3) (d : Dart)
    (f : σ → Dart → σ × Bool) (fuel : Nat) (s : σ) : Option σ :=
  CMap3.foreach_dart_of_PHI1_PHI2_PHI3_until_loop m f fuel 0 DartMarkerStore.init [d] s


/-- In the traversal of a connected component, the dart `z` is covered when
some iterate of `z` by `phi1` is marked (in `M`) or waits in the list of faces
(in `pending`). -/
def CMap3.covered (m : CMap3) (M pending : List Dart) (z : Dart) : Prop :=
  ∃ y k, (y ∈ M ∨ y ∈ pending) ∧ (m.phi1)^[k] z = y


/-! ## Reference counts and scan of the lines of a container -/

/-- Source `unref_line(index)`: asserts that the reference count is greater
than 1 and decrements it; when it reaches 1 the line is released (pushed on
the stack of holes, count 0, one used line less) and `true` is returned. -/
def ChunkArrayContainer.unref_line (c : ChunkArrayContainer) (index : Nat) :
    Option (ChunkArrayContainer × Bool) :=
  if c.refs_ index > 1 then
    let refs1 := Function.update c.refs_ index (c.refs_ index - 1)
    if refs1 index = 1 then
      some ({ c with
        holes_stack_ := index :: c.holes_stack_
        refs_ := Function.update refs1 index 0
        nb_used_lines_ := (c.nb_used_lines_ + (UINT32_RANGE - 1)) % UINT32_RANGE }, true)
    else some ({ c with refs_ := refs1 }, false)
  else none

/-- The loop of `begin()`: `while ((it < nb_max_lines_) && (!used(it))) ++it;`. -/
def ChunkArrayContainer.begin_loop (c : ChunkArrayContainer) : Nat → Nat → Option Nat
  | 0, _ => none
  | fuel + 1, it =>
    if it < c.nb_max_lines_ ∧ c.used it = false then
      ChunkArrayContainer.begin_loop c fuel ((it + 1) % UINT32_RANGE)
    else some it

/-- Source `begin()`: the index of the first used line. -/
def ChunkArrayContainer.begin (c : ChunkArrayContainer) (fuel : Nat) : Option Nat :=
  c.begin_loop fuel 0

/-- Source `end()`: `nb_max_lines_`. -/
def ChunkArrayContainer.end_ (c : ChunkArrayContainer) : Nat :=
  c.nb_max_lines_

/-- Source `next(it)`:
`do { ++it; } while ((it < nb_max_lines_) && (!used(it)));`. -/
def ChunkArrayContainer.next : ChunkArrayContainer → Nat → Nat → Option Nat
  | _, 0, _ => none
  | c, fuel + 1, it =>
    let it1 := (it + 1) % UINT32_RANGE
    if it1 < c.nb_max_lines_ ∧ c.used it1 = false then
      ChunkArrayContainer.next c fuel it1
    else some it1

/-- The loop of `MapBase::foreach_dart`, `for (Dart d : *this) f(d);`, over the
`const_iterator` of the map: `operator!=` compares the darts, `operator++`
calls `topology_.next`. -/
def MapBase.foreach_dart_loop {σ : Type} (topology_ : ChunkArrayContainer)
    (f : σ → Dart → σ) : Nat → Dart → σ → Option σ
  | 0, _, _ => none
  | fuel + 1, it, s =>
    if it ≠ ⟨topology_.end_⟩ then
      match topology_.next fuel it.index with
      | none => none
      | some i1 => MapBase.foreach_dart_loop topology_ f fuel ⟨i1⟩ (f s it)
    else some s

/-- Source `MapBase::foreach_dart(f)`: the iteration from `begin()` to `end()`. -/
def MapBase.foreach_dart {σ : Type} (topology_ : ChunkArrayContainer) (f : σ → Dart → σ)
    (fuel : Nat) (s : σ) : Option σ :=
  match topology_.begin fuel with
  | none => none
  | some i => MapBase.foreach_dart_loop topology_ f fuel ⟨i⟩ s

/-- An example container with a hole: the lines 0, 2 and 3 are used (the line
2 with two references more than its own), the line 1 is a hole. -/
def example_container_hole : ChunkArrayContainer :=
  { CHUNKSIZE := 4096
    table_marker_arrays_ := []
    refs_ := fun i => if i = 0 then 1 else if i = 2 then 3 else if i = 3 then 2 else 0
    refs_nb_chunks_ := 1
    holes_stack_ := [1]
    nb_used_lines_ := 3
    nb_max_lines_ := 4 }


/-! ## The attributes of a container -/

/-- Source `UNKNOWN`: `UINT_MAX`, the index of an attribute that is not
found. -/
def ChunkArrayContainer.UNKNOWN : Nat := 4294967295

/-- The loop of `get_array_index(attribute_name)`:
`for (i = 0; i != names_.size(); ++i) if (names_[i] == attribute_name) return i;`
over the names that remain from the index `i`. -/
def ChunkArrayContainer.get_array_index_loop (attribute_name : String) :
    List String → Nat → Nat
  | [], _ => ChunkArrayContainer.UNKNOWN
  | n :: rest, i =>
    if n = attribute_name then i
    else ChunkArrayContainer.get_array_index_loop attribute_name rest ((i + 1) % UINT32_RANGE)

/-- Source `get_array_index(attribute_name)`. -/
def ChunkArrayContainer.get_array_index (c : ChunkArrayContainer) (attribute_name : String) :
    Nat :=
  ChunkArrayContainer.get_array_index_loop attribute_name c.names_ 0

/-- Source `ChunkArrayGen* get_attribute(attribute_name)`, the overload without
element type: `none` is the null pointer. -/
def ChunkArrayContainer.get_attribute_gen (c : ChunkArrayContainer)
    (attribute_name : String) : Option ChunkArrayGen :=
  let index := c.get_array_index attribute_name
  if index = ChunkArrayContainer.UNKNOWN then none
  else c.table_arrays_[index]?

/-- Source `ChunkArray<T>* get_attribute<T>(attribute_name)`: the array found is
passed through `dynamic_cast<ChunkArray<T>*>`, which gives the null pointer
when the elements of the array are not of type `T` (`T` is given by its type
name). -/
def ChunkArrayContainer.get_attribute (c : ChunkArrayContainer) (T : String)
    (attribute_name : String) : Option ChunkArrayGen :=
  let index := c.get_array_index attribute_name
  if index = ChunkArrayContainer.UNKNOWN then none
  else
    match c.table_arrays_[index]? with
    | none => none
    | some a => if a.type_name = T then some a else none

/-- Source `add_attribute<T>(attribute_name)`: `none` when the assertion on the
name fails; otherwise the container and the pointer returned (`none` for the
null pointer).  The new array gets the number of chunks of `refs_`. -/
def ChunkArrayContainer.add_attribute (c : ChunkArrayContainer) (T : String)
    (attribute_name : String) : Option (ChunkArrayContainer × Option ChunkArrayGen) :=
  if attribute_name.length ≠ 0 then
    let index := c.get_array_index attribute_name
    if index ≠ ChunkArrayContainer.UNKNOWN then some (c, none)
    else
      let carr : ChunkArrayGen := { type_name := T, data := fun _ => 0 }
      some ({ c with
        table_arrays_ := c.table_arrays_ ++ [carr]
        names_ := c.names_ ++ [attribute_name]
        type_names_ := c.type_names_ ++ [T] }, some carr)
  else none

/-- The writes `v[index] = v.back()` (when `replace` holds) and `v.pop_back()`
of `remove_attribute(index)` on one of the three vectors. -/
def ChunkArrayContainer.remove_swap {α : Type} (v : List α) (index : Nat) (replace : Bool) :
    List α :=
  match v.getLast? with
  | none => v
  | some back => (if replace then v.set index back else v).dropLast

/-- Source `remove_attribute(index)`: the last attribute takes the place of the
removed one, in the arrays, the names and the type names. -/
def ChunkArrayContainer.remove_attribute_index (c : ChunkArrayContainer) (index : Nat) :
    ChunkArrayContainer :=
  let replace : Bool := decide (index ≠ c.table_arrays_.length - 1)
  { c with
    table_arrays_ := ChunkArrayContainer.remove_swap c.table_arrays_ index replace
    names_ := ChunkArrayContainer.remove_swap c.names_ index replace
    type_names_ := ChunkArrayContainer.remove_swap c.type_names_ index replace }

/-- Source `remove_attribute(attribute_name)`: the container and the value
returned. -/
def ChunkArrayContainer.remove_attribute (c : ChunkArrayContainer) (attribute_name : String) :
    ChunkArrayContainer × Bool :=
  let index := c.get_array_index attribute_name
  if index = ChunkArrayContainer.UNKNOWN then (c, false)
  else (c.remove_attribute_index index, true)

/-- The names, the type names and the arrays of the attributes are paired (the
three vectors have the same size, below `UNKNOWN`) and no name occurs twice,
as `add_attribute` ensures. -/
def ChunkArrayContainer.attributes_paired (c : ChunkArrayContainer) : Prop :=
  c.names_.length = c.table_arrays_.length ∧
  c.type_names_.length = c.table_arrays_.length ∧
  c.table_arrays_.length < ChunkArrayContainer.UNKNOWN ∧
  c.names_.Nodup

/-- An example container with three attributes on the lines of
`example_container_hole`. -/
def example_container_attributes : ChunkArrayContainer :=
  { example_container_hole with
    table_arrays_ :=
      [{ type_name := "uint32", data := fun i => 10 + i },
       { type_name := "float64", data := fun i => 20 + i },
       { type_name := "uint32", data := fun i => 30 + i }]
    names_ := ["a", "b", "c"]
    type_names_ := ["uint32", "float64", "uint32"] }


/-! ## Compaction of a container -/

/-- The greatest `uint32`, `0xffffffff` (`std::numeric_limits<uint32>::max()`). -/
def UINT32_MAX : Nat := 4294967295

/-- The decrement `--it` of a `uint32`: `0` wraps to `0xffffffff`. -/
def uint32_decr (it : Nat) : Nat :=
  if it = 0 then UINT32_MAX else it - 1

/-- The loop of `rbegin()`: `while ((it != 0xffffffff) && (!used(it))) --it;`. -/
def ChunkArrayContainer.rbegin_loop (c : ChunkArrayContainer) : Nat → Nat → Option Nat
  | 0, _ => none
  | fuel + 1, it =>
    if it ≠ UINT32_MAX ∧ c.used it = false then
      ChunkArrayContainer.rbegin_loop c fuel (uint32_decr it)
    else some it

/-- Source `rbegin()`: the index of the last used line, from
`nb_max_lines_ - 1u` downwards; `0xffffffff` when no line is used. -/
def ChunkArrayContainer.rbegin (c : ChunkArrayContainer) (fuel : Nat) : Option Nat :=
  c.rbegin_loop fuel (uint32_decr c.nb_max_lines_)

/-- Source `rend()`. -/
def ChunkArrayContainer.rend (_c : ChunkArrayContainer) : Nat :=
  UINT32_MAX

/-- Source `rnext(it)`:
`do { --it; } while ((it != 0xffffffff) && (!used(it)));`. -/
def ChunkArrayContainer.rnext : ChunkArrayContainer → Nat → Nat → Option Nat
  | _, 0, _ => none
  | c, fuel + 1, it =>
    let it1 := uint32_decr it
    if it1 ≠ UINT32_MAX ∧ c.used it1 = false then
      ChunkArrayContainer.rnext c fuel it1
    else some it1

/-- Modelled from the spec: `ChunkArrayGen::move_element(dst, src)` and
`copy_element(dst, src)` (`chunk_array.h` is not among the sources): the
element of index `src` is stored at the index `dst` ("move semantics ... for
the ... attribute payloads ... being vacated": the content of `src` is not
read again). -/
def ChunkArrayGen.move_element (a : ChunkArrayGen) (dst src : Nat) : ChunkArrayGen :=
  { a with data := Function.update a.data dst (a.data src) }

/-- Source `move_line(dst, src, copy_markers, copy_refs)`. -/
def ChunkArrayContainer.move_line (c : ChunkArrayContainer) (dst src : Nat)
    (copy_markers copy_refs : Bool) : ChunkArrayContainer :=
  { c with
    table_arrays_ := c.table_arrays_.map (fun a => a.move_element dst src)
    table_marker_arrays_ :=
      if copy_markers then
        c.table_marker_arrays_.map (fun a => Function.update a dst (a src))
      else c.table_marker_arrays_
    refs_ := if copy_refs then Function.update c.refs_ dst (c.refs_ src) else c.refs_ }

/-- The loop `for (i = 0; i < PRIMSIZE; ++i)` of `compact<PRIMSIZE>()`, with the
number of turns that remain: the line `up` is moved to
`rdown = down + PRIMSIZE - 1 - i`, which the map records, and `up` goes to
the used line before it.  A write of `map_old_new[up]` outside the vector
gives no result. -/
def ChunkArrayContainer.compact_move (PRIMSIZE down fuel : Nat) :
    Nat → Nat → ChunkArrayContainer → Nat → List Nat →
      Option (ChunkArrayContainer × Nat × List Nat)
  | 0, _, c, up, map_old_new => some (c, up, map_old_new)
  | n + 1, i, c, up, map_old_new =>
    let rdown := (down + (PRIMSIZE - 1 - i)) % UINT32_RANGE
    if up < map_old_new.length then
      let map1 := map_old_new.set up rdown
      let c1 := c.move_line rdown up true true
      match c1.rnext fuel up with
      | none => none
      | some up1 =>
        ChunkArrayContainer.compact_move PRIMSIZE down fuel n (i + 1) c1 up1 map1
    else none

/-- The loop `do { down = holes_stack_.head(); if (down < nb_used_lines_) ...;
holes_stack_.pop(); } while (!holes_stack_.empty());` of `compact<PRIMSIZE>()`
over the holes that remain on the stack. -/
def ChunkArrayContainer.compact_holes (PRIMSIZE fuel : Nat) :
    List Nat → ChunkArrayContainer → Nat → List Nat →
      Option (ChunkArrayContainer × Nat × List Nat)
  | [], c, up, map_old_new => some (c, up, map_old_new)
  | down :: rest, c, up, map_old_new =>
    if down < c.nb_used_lines_ then
      match ChunkArrayContainer.compact_move PRIMSIZE down fuel PRIMSIZE 0 c up
          map_old_new with
      | none => none
      | some (c1, up1, map1) =>
        ChunkArrayContainer.compact_holes PRIMSIZE fuel rest c1 up1 map1
    else ChunkArrayContainer.compact_holes PRIMSIZE fuel rest c up map_old_new

/-- Source `compact<PRIMSIZE>()`: the container and the vector `map_old_new`
returned.  `set_nb_chunks(new_nb_blocks)` on every array is the write of the
number of chunks that the arrays share. -/
def ChunkArrayContainer.compact (PRIMSIZE : Nat) (c : ChunkArrayContainer) (fuel : Nat) :
    Option (ChunkArrayContainer × List Nat) :=
  if c.holes_stack_ = [] then some (c, [])
  else
    match c.rbegin fuel with
    | none => none
    | some up =>
      let map_old_new := List.replicate ((up + 1) % UINT32_RANGE) UINT32_MAX
      match ChunkArrayContainer.compact_holes PRIMSIZE fuel c.holes_stack_ c up
          map_old_new with
      | none => none
      | some (c1, _, map1) =>
        let old_nb_blocks := (c1.nb_max_lines_ / c1.CHUNKSIZE + 1) % UINT32_RANGE
        let c2 := { c1 with holes_stack_ := [], nb_max_lines_ := c1.nb_used_lines_ }
        let new_nb_blocks := (c2.nb_max_lines_ / c2.CHUNKSIZE + 1) % UINT32_RANGE
        if old_nb_blocks = new_nb_blocks then some (c2, map1)
        else some ({ c2 with refs_nb_chunks_ := new_nb_blocks }, map1)

/-- The allocator invariant for single lines: the holes are exactly the unused
lines below `nb_max_lines_`, each once, and the counters agree with them. -/
def ChunkArrayContainer.holes_exact (c : ChunkArrayContainer) : Prop :=
  c.nb_max_lines_ < UINT32_RANGE ∧
  c.holes_stack_.Nodup ∧
  (∀ i, i ∈ c.holes_stack_ ↔ (i < c.nb_max_lines_ ∧ c.refs_ i = 0)) ∧
  c.nb_used_lines_ + c.holes_stack_.length = c.nb_max_lines_

/-- The container `c` with, at every index `x`, the reference count, the
marker values and the attribute values that `c` holds at the index `phi x`. -/
def ChunkArrayContainer.relocate (c : ChunkArrayContainer) (phi : Nat → Nat) :
    ChunkArrayContainer :=
  { c with
    table_arrays_ := c.table_arrays_.map (fun a => { a with data := fun x => a.data (phi x) })
    table_marker_arrays_ := c.table_marker_arrays_.map (fun a => fun x => a (phi x))
    refs_ := fun x => c.refs_ (phi x) }

/-- In the scan of `compact`, the line `i` has been passed by the cursor
`up`. -/
abbrev compact_passed (up i : Nat) : Prop :=
  up = UINT32_MAX ∨ up < i

/-- The invariant of the scan of `compact<1>()` on the container `c0`, when the
holes `rest` remain on the stack: `phi x` is the line of `c0` whose content
the index `x` holds, `up` is the cursor on the used lines and `m` the vector
`map_old_new`. -/
structure ChunkArrayContainer.compact_inv (c0 : ChunkArrayContainer) (rest : List Nat)
    (phi : Nat → Nat) (up : Nat) (m : List Nat) : Prop where
  moved : ∀ x, phi x ≠ x →
    x ∈ c0.holes_stack_ ∧ x ∉ rest ∧ x < c0.nb_used_lines_ ∧
    c0.nb_used_lines_ ≤ phi x ∧ phi x < c0.nb_max_lines_ ∧ c0.refs_ (phi x) ≠ 0 ∧
    compact_passed up (phi x) ∧ m[phi x]? = some x
  entry : ∀ i t, m[i]? = some t → t ≠ UINT32_MAX → phi t = i ∧ phi t ≠ t
  filled : ∀ x, x ∈ c0.holes_stack_ → x ∉ rest → x < c0.nb_used_lines_ → phi x ≠ x
  passed : ∀ i, c0.nb_used_lines_ ≤ i → i < c0.nb_max_lines_ → c0.refs_ i ≠ 0 →
    compact_passed up i → ∃ t, m[i]? = some t ∧ t ≠ UINT32_MAX
  count : rest.countP (fun d => decide (d < c0.nb_used_lines_)) =
    ((Finset.range c0.nb_max_lines_).filter
      (fun i => c0.nb_used_lines_ ≤ i ∧ ¬ compact_passed up i ∧ c0.refs_ i ≠ 0)).card
  cursor : up = UINT32_MAX ∨
    (up < c0.nb_max_lines_ ∧ c0.refs_ (phi up) ≠ 0 ∧ up < m.length)

/-- An example container with attributes and small chunks (`CHUNKSIZE = 2`):
the lines 0, 2, 3 and 4 are used, the line 1 is a hole. -/
def example_container_compact : ChunkArrayContainer :=
  { CHUNKSIZE := 2
    table_marker_arrays_ := [fun i => decide (i = 4)]
    refs_ := fun i => if i = 0 then 1 else if i = 2 then 3 else if i = 3 then 2
      else if i = 4 then 5 else 0
    refs_nb_chunks_ := 3
    holes_stack_ := [1]
    nb_used_lines_ := 4
    nb_max_lines_ := 5
    table_arrays_ :=
      [{ type_name := "uint32", data := fun i => 10 + i },
       { type_name := "float64", data := fun i => 20 + i }]
    names_ := ["a", "b"]
    type_names_ := ["uint32", "float64"] }

/-- An example container whose last lines are holes (`CHUNKSIZE = 2`): the
lines 0 and 1 are used, the lines 2, 3 and 4 are holes. -/
def example_container_tail_holes : ChunkArrayContainer :=
  { CHUNKSIZE := 2
    table_marker_arrays_ := []
    refs_ := fun i => if i < 2 then 1 else 0
    refs_nb_chunks_ := 3
    holes_stack_ := [4, 3, 2]
    nb_used_lines_ := 2
    nb_max_lines_ := 5 }


/-! ## Persistence of a container

The stream is a list of units of the size of a `char`; a failed read gives no
result. -/

/-- The four bytes of the `uint32` `x mod 2^32`, the least significant first:
what `fs.write(reinterpret_cast<const char*>(&x), sizeof(uint32))` puts on the
stream of a little-endian machine. -/
def uint32_bytes (x : Nat) : List Nat :=
  [x % 256, x / 256 % 256, x / 65536 % 256, x / 16777216 % 256]

/-- The read of one `uint32`,
`fs.read(reinterpret_cast<char*>(&x), sizeof(uint32))`. -/
def read_uint32 : List Nat → Option (Nat × List Nat)
  | a :: b :: c :: d :: fs => some (a + 256 * b + 65536 * c + 16777216 * d, fs)
  | _ => none

/-- The read of `n` values of type `uint32` into a buffer,
`fs.read(reinterpret_cast<char*>(buff), n * sizeof(uint32))`. -/
def read_uint32s : Nat → List Nat → Option (List Nat × List Nat)
  | 0, fs => some ([], fs)
  | n + 1, fs =>
    match read_uint32 fs with
    | none => none
    | some (x, fs1) =>
      match read_uint32s n fs1 with
      | none => none
      | some (xs, fs2) => some (x :: xs, fs2)

/-- The `s.size() + 1` characters at `s.c_str()`, which `save` writes for a
name: the characters of the string and the terminating NUL. -/
def c_str (s : String) : List Nat :=
  s.data.map Char.toNat ++ [0]

/-- The read of a name in `load`, `fs.read(buff3, len)` and then
`std::string(buff3)` with `char buff3[256]`: the characters read up to the
first NUL.  There is no result when `len` exceeds the buffer, when the stream
is too short, or when no NUL is among the characters read (the string would
continue with what the buffer held before). -/
def read_string (len : Nat) (fs : List Nat) : Option (String × List Nat) :=
  if len ≤ 256 ∧ len ≤ fs.length ∧ 0 ∈ fs.take len then
    some (String.mk (((fs.take len).takeWhile (fun x => x != 0)).map Char.ofNat),
      fs.drop len)
  else none

/-- Modelled from the spec: `ChunkArray<T>::save(fs, nb_lines)`
(`chunk_array.h` is not among the sources), the "binary serialization of
exactly nb_lines elements in index order, self-describing enough to
reconstruct element count": the number of elements as a `uint32`, then the
elements, each as one unit of the stream. -/
def chunk_array_save (data : Nat → Nat) (nb_lines : Nat) : List Nat :=
  uint32_bytes nb_lines ++ (List.range nb_lines).map data

/-- Modelled from the spec: `ChunkArray<T>::load(fs)` ("load must restore
values identically"): the elements read, their number and the rest of the
stream.  The indices that were not saved hold the default value. -/
def chunk_array_load (fs : List Nat) : Option ((Nat → Nat) × Nat × List Nat) :=
  match read_uint32 fs with
  | none => none
  | some (n, fs1) =>
    if n ≤ fs1.length then some (fun i => (fs1.take n).getD i 0, n, fs1.drop n)
    else none

/-- Modelled from the spec: `ChunkArrayGen::skip(fs)`, which skips "exactly
its byte span". -/
def ChunkArrayGen.skip (fs : List Nat) : Option (List Nat) :=
  match read_uint32 fs with
  | none => none
  | some (n, fs1) => if n ≤ fs1.length then some (fs1.drop n) else none

/-- Modelled from the spec: `ChunkArrayFactory<CHUNKSIZE>::create(type_name,
name)` with the type names `registered` of the "type registry": a new array
of the type, or null when the "type tag is unknown". -/
def ChunkArrayFactory.create (registered : List String) (type_name _name : String) :
    Option ChunkArrayGen :=
  if type_name ∈ registered then some { type_name := type_name, data := fun _ => 0 }
  else none

/-- Source `save(fs)`: the units written on the stream.  The header
`[table_arrays_.size(), nb_used_lines_, nb_max_lines_]` and the pairs
`[names_[i].size() + 1, type_names_[i].size() + 1]`, the names and type
names with their terminating NUL, the attribute arrays, the reference counts
and the stack of holes (from the bottom).  There is no result when
`names_` or `type_names_` has fewer entries than `table_arrays_`. -/
def ChunkArrayContainer.save (c : ChunkArrayContainer) : Option (List Nat) :=
  let n := c.table_arrays_.length
  if n ≤ c.names_.length ∧ n ≤ c.type_names_.length then
    let names := (c.names_.take n).zip (c.type_names_.take n)
    some (uint32_bytes n ++ (uint32_bytes c.nb_used_lines_ ++
      (uint32_bytes c.nb_max_lines_ ++
      (names.flatMap
          (fun p => uint32_bytes (p.1.length + 1) ++ uint32_bytes (p.2.length + 1)) ++
      (names.flatMap (fun p => c_str p.1 ++ c_str p.2) ++
      (c.table_arrays_.flatMap (fun a => chunk_array_save a.data c.nb_max_lines_) ++
      (chunk_array_save c.refs_ c.nb_max_lines_ ++
        chunk_array_save (fun i => c.holes_stack_.reverse.getD i 0)
          c.holes_stack_.length)))))))
  else none

/-- The loop `for (i = 0; i < buff1[0]; ++i)` of `load` that reads the names
and the type names, with the number of turns that remain; the lengths are
`buff2[2 * i]` and `buff2[2 * i + 1]`. -/
def ChunkArrayContainer.load_names :
    Nat → Nat → List Nat → List Nat → Option (List String × List String × List Nat)
  | 0, _, _, fs => some ([], [], fs)
  | k + 1, i, buff2, fs =>
    match buff2[2 * i]?, buff2[2 * i + 1]? with
    | some len1, some len2 =>
      match read_string len1 fs with
      | none => none
      | some (s1, fs1) =>
        match read_string len2 fs1 with
        | none => none
        | some (s2, fs2) =>
          match ChunkArrayContainer.load_names k (i + 1) buff2 fs2 with
          | none => none
          | some (names, type_names, fs3) => some (s1 :: names, s2 :: type_names, fs3)
    | _, _ => none

/-- The loop `for (i = 0; i < names_.size();)` of `load` over the names and
type names that remain: an array of a registered type is created, appended
and loaded; the name and the type name of an array of another type are
erased and the array is skipped. -/
def ChunkArrayContainer.load_arrays (registered : List String) :
    List String → List String → List ChunkArrayGen → List Nat →
      Option (List String × List String × List ChunkArrayGen × List Nat)
  | name :: names, type_name :: type_names, arrays, fs =>
    match ChunkArrayFactory.create registered type_name name with
    | some cag =>
      match chunk_array_load fs with
      | none => none
      | some (data, _, fs1) =>
        match ChunkArrayContainer.load_arrays registered names type_names
            (arrays ++ [{ cag with data := data }]) fs1 with
        | none => none
        | some (names1, type_names1, arrays1, fs2) =>
          some (name :: names1, type_name :: type_names1, arrays1, fs2)
    | none =>
      match ChunkArrayGen.skip fs with
      | none => none
      | some fs1 =>
        ChunkArrayContainer.load_arrays registered names type_names arrays fs1
  | _, _, arrays, fs => some ([], [], arrays, fs)

/-- Source `load(fs)` on the container `c`, with the registered type names:
the container, the value returned and the rest of the stream.  The stack of
holes is not read.  Modelled from the spec where `ChunkArray::load` is not
among the sources: after the load of `k` reference counts the arrays have
the least number of chunks whose capacity holds `k` elements. -/
def ChunkArrayContainer.load (registered : List String) (c : ChunkArrayContainer)
    (fs : List Nat) : Option (ChunkArrayContainer × Bool × List Nat) :=
  match read_uint32s 3 fs with
  | some ([n, nb_used, nb_max], fs1) =>
    match read_uint32s ((2 * n) % UINT32_RANGE) fs1 with
    | none => none
    | some (buff2, fs2) =>
      match ChunkArrayContainer.load_names n 0 buff2 fs2 with
      | none => none
      | some (names, type_names, fs3) =>
        match ChunkArrayContainer.load_arrays registered names type_names
            c.table_arrays_ fs3 with
        | none => none
        | some (names1, type_names1, arrays, fs4) =>
          match chunk_array_load fs4 with
          | none => none
          | some (refs, k, fs5) =>
            some ({ c with
              nb_used_lines_ := nb_used
              nb_max_lines_ := nb_max
              names_ := names1
              type_names_ := type_names1
              table_arrays_ := arrays
              refs_ := refs
              refs_nb_chunks_ := (k + c.CHUNKSIZE - 1) / c.CHUNKSIZE }, true, fs5)
  | _ => none

/-- An example container with one attribute whose name holds a NUL character:
the name is `a`, NUL, `b`.  The line 0 is used. -/
def example_container_nul_name : ChunkArrayContainer :=
  { CHUNKSIZE := 4096
    table_marker_arrays_ := []
    refs_ := fun i => if i = 0 then 1 else 0
    refs_nb_chunks_ := 1
    holes_stack_ := []
    nb_used_lines_ := 1
    nb_max_lines_ := 1
    table_arrays_ := [{ type_name := "uint32", data := fun i => 10 + i }]
    names_ := [String.mk ['a', Char.ofNat 0, 'b']]
    type_names_ := ["uint32"] }


/-! ## Reference counts of a line, integrity of a dart -/

/-- Source `ref_line(index)`: `refs_[index]++` on a `T_REF`.  The type `T_REF`
of the reference counts is a template parameter of the container, an
unsigned integer type with `T_REF_RANGE` values: the header instantiates the
container with `uint32` (`2^32` values) and with `unsigned char` (`256`
values).  The increment wraps to 0 at the greatest value. -/
def ChunkArrayContainer.ref_line (T_REF_RANGE : Nat) (c : ChunkArrayContainer)
    (index : Nat) : ChunkArrayContainer :=
  { c with refs_ := Function.update c.refs_ index ((c.refs_ index + 1) % T_REF_RANGE) }

/-- An example container whose reference counts are of type `unsigned char`:
the line 0 is used and has the greatest count, 255. -/
def example_container_max_count : ChunkArrayContainer :=
  { CHUNKSIZE := 4096
    table_marker_arrays_ := []
    refs_ := fun i => if i = 0 then 255 else 0
    refs_nb_chunks_ := 1
    holes_stack_ := []
    nb_used_lines_ := 1
    nb_max_lines_ := 1 }

/-- Modelled from the spec: `CMap2_T::check_integrity(d)` (`cmap2.h` is not among
the sources), the check that `CMap3_T::check_integrity` inherits: "phi1 is a
bijection with inverse phi_1 maintained consistently; phi2 ... self-inverse",
without fixed point. -/
def CMap2.check_integrity (m : CMap2) (d : Dart) : Bool :=
  decide (m.phi1 (m.phi_1 d) = d) && decide (m.phi_1 (m.phi1 d) = d) &&
  decide (m.phi2 (m.phi2 d) = d) && decide (m.phi2 d ≠ d)

/-- Source `CMap3_T::check_integrity(d)`.  The inherited check and the query
`is_boundary` are declared in headers that are not among the sources: the
value of `Inherit::check_integrity(d)` and the boundary marker are
parameters. -/
def CMap3.check_integrity (m : CMap3) (inherit_check_integrity : Bool)
    (is_boundary : Dart → Bool) (d : Dart) : Bool :=
  inherit_check_integrity &&
  decide (m.phi3 (m.phi3 d) = d) &&
  decide (m.phi3 d ≠ d) &&
  decide (m.phi3 (m.phi1 (m.phi3 (m.phi1 d))) = d) &&
  (is_boundary d == is_boundary (m.phi2 d))

/-- An example 3D map on the lines of `example_container`: the faces
`0 → 1 → 0` and `2 → 3 → 2`; `phi2` links `0` with `2` and `1` with `3`,
`phi3` links the two darts of each face (`0` with `1`, `2` with `3`). -/
def example_map3_folded : CMap3 :=
  { topology_ := example_container
    phi1_ := fun i =>
      if i = 0 then ⟨1⟩ else if i = 1 then ⟨0⟩ else if i = 2 then ⟨3⟩
      else if i = 3 then ⟨2⟩ else ⟨i⟩
    phi_1_ := fun i =>
      if i = 0 then ⟨1⟩ else if i = 1 then ⟨0⟩ else if i = 2 then ⟨3⟩
      else if i = 3 then ⟨2⟩ else ⟨i⟩
    phi2_ := fun i =>
      if i = 0 then ⟨2⟩ else if i = 2 then ⟨0⟩ else if i = 1 then ⟨3⟩
      else if i = 3 then ⟨1⟩ else ⟨i⟩
    phi3_ := fun i =>
      if i = 0 then ⟨1⟩ else if i = 1 then ⟨0⟩ else if i = 2 then ⟨3⟩
      else if i = 3 then ⟨2⟩ else ⟨i⟩ }

/-! ## The states of the line allocator -/

/-- Source constructor `ChunkArrayContainer()` for the template parameter
`CHUNKSIZE`: no line, no hole, no attribute, no chunk. -/
def ChunkArrayContainer.init (CHUNKSIZE : Nat) : ChunkArrayContainer :=
  { CHUNKSIZE := CHUNKSIZE
    table_marker_arrays_ := []
    refs_ := fun _ => 0
    refs_nb_chunks_ := 0
    holes_stack_ := []
    nb_used_lines_ := 0
    nb_max_lines_ := 0 }

/-- Source `capacity()`, which returns `refs_.capacity()`.  Modelled from the
spec where `chunk_array.h` is not among the sources: "capacity =
chunks_allocated × CHUNK_SIZE". -/
def ChunkArrayContainer.capacity (c : ChunkArrayContainer) : Nat :=
  c.refs_nb_chunks_ * c.CHUNKSIZE

/-- A sequence of `n` calls of `insert_lines<PRIMSIZE>()`: the container and
the indices returned, in the order of the calls. -/
def ChunkArrayContainer.insert_lines_seq (PRIMSIZE : Nat) :
    Nat → ChunkArrayContainer → ChunkArrayContainer × List Nat
  | 0, c => (c, [])
  | n + 1, c =>
    let r := c.insert_lines PRIMSIZE
    let rs := ChunkArrayContainer.insert_lines_seq PRIMSIZE n r.1
    (rs.1, r.2 :: rs.2)

/-- The states reached from the empty container by calls of
`insert_lines<PRIMSIZE>()` and of `remove_lines<PRIMSIZE>(index)` whose
assertion holds, as long as the counter of lines fits a `uint32`. -/
inductive ChunkArrayContainer.reachable (CHUNKSIZE PRIMSIZE : Nat) :
    ChunkArrayContainer → Prop
  | init : ChunkArrayContainer.reachable CHUNKSIZE PRIMSIZE
      (ChunkArrayContainer.init CHUNKSIZE)
  | insert (c : ChunkArrayContainer) :
      ChunkArrayContainer.reachable CHUNKSIZE PRIMSIZE c →
      c.nb_max_lines_ + PRIMSIZE < UINT32_RANGE →
      ChunkArrayContainer.reachable CHUNKSIZE PRIMSIZE (c.insert_lines PRIMSIZE).1
  | remove (c c1 : ChunkArrayContainer) (index : Nat) :
      ChunkArrayContainer.reachable CHUNKSIZE PRIMSIZE c →
      c.remove_lines PRIMSIZE index = some c1 →
      ChunkArrayContainer.reachable CHUNKSIZE PRIMSIZE c1

/-- The invariant of the states of the allocator for blocks of `PRIMSIZE`
lines and chunks of `CHUNKSIZE` lines. -/
structure ChunkArrayContainer.block_inv (CHUNKSIZE PRIMSIZE : Nat)
    (c : ChunkArrayContainer) : Prop where
  chunksize : c.CHUNKSIZE = CHUNKSIZE
  max_lt : c.nb_max_lines_ < UINT32_RANGE
  max_dvd : PRIMSIZE ∣ c.nb_max_lines_
  nodup : c.holes_stack_.Nodup
  holes : ∀ h ∈ c.holes_stack_,
    PRIMSIZE ∣ h ∧ h < c.nb_max_lines_ ∧ ∀ i, i < PRIMSIZE → c.refs_ (h + i) = 0
  beyond : ∀ i, c.nb_max_lines_ ≤ i → c.refs_ i = 0
  blocks : ∀ b, PRIMSIZE ∣ b → b < c.nb_max_lines_ → b ∉ c.holes_stack_ →
    ∀ i, i < PRIMSIZE → c.refs_ (b + i) ≠ 0
  sum : c.nb_used_lines_ + PRIMSIZE * c.holes_stack_.length = c.nb_max_lines_
  count : ((Finset.range c.nb_max_lines_).filter (fun i => c.refs_ i ≠ 0)).card =
    c.nb_used_lines_
  chunks : (c.nb_max_lines_ = 0 ∧ c.refs_nb_chunks_ = 0) ∨
    (0 < c.nb_max_lines_ ∧ c.refs_nb_chunks_ = c.nb_max_lines_ / CHUNKSIZE + 1)


/-! ## Embedding of the orbits of `Map1` -/

/-- Modelled from the spec: `set_embedding(d, orbit, emb)` of `MapBaseData`
(`map_base_data.h` is not among the sources).  The embeddings are, for each
orbit, a "per-dart index into a cell-level attribute container":
`embeddings_ orbit i` is the index that the dart of index `i` carries for
the orbit.  The call writes the "cell-index" `emb` for the dart `d`. -/
def MapBaseData.set_embedding (embeddings_ : Nat → Nat → Nat) (d : Dart) (orbit emb : Nat) :
    Nat → Nat → Nat :=
  Function.update embeddings_ orbit (Function.update (embeddings_ orbit) d.index emb)

/-- Modelled from the spec: `init_embedding(d, orbit, emb)` of `MapBaseData`
(`map_base_data.h` is not among the sources), "used only at creation when no
prior value exists": it writes the "cell-index" `emb` for the dart `d`. -/
def MapBaseData.init_embedding (embeddings_ : Nat → Nat → Nat) (d : Dart) (orbit emb : Nat) :
    Nat → Nat → Nat :=
  Function.update embeddings_ orbit (Function.update (embeddings_ orbit) d.index emb)

/-- Source `Map1::foreach_dart_of_vertex(d, f)`. -/
def Map1.foreach_dart_of_vertex {σ : Type} (_m : Map1) (d : Dart) (f : σ → Dart → σ)
    (s : σ) : σ :=
  f s d

/-- Source `Map1::foreach_dart_of_orbit(d, orbit, f)`, and its variant on a
`Cell<ORBIT>`: the `switch` on the orbit, whose default case fails an
assertion.  The orbit identifiers `VERTEX1` and `FACE2` are declared in a
header that is not among the sources: they are parameters. -/
def Map1.foreach_dart_of_orbit {σ : Type} (VERTEX1 FACE2 : Nat) (m : Map1) (d : Dart)
    (orbit : Nat) (f : σ → Dart → σ) (fuel : Nat) (s : σ) : Option σ :=
  if orbit = VERTEX1 then some (Map1.foreach_dart_of_vertex m d f s)
  else if orbit = FACE2 then Map1.foreach_dart_of_face m d f fuel s
  else none

/-- Source `Map1::init_orbit_embedding(d, orbit, emb)`, and its variant on a
`Cell<ORBIT>`. -/
def Map1.init_orbit_embedding (VERTEX1 FACE2 : Nat) (m : Map1)
    (embeddings_ : Nat → Nat → Nat) (d : Dart) (orbit emb : Nat) (fuel : Nat) :
    Option (Nat → Nat → Nat) :=
  Map1.foreach_dart_of_orbit VERTEX1 FACE2 m d orbit
    (fun e it => MapBaseData.init_embedding e it orbit emb) fuel embeddings_

/-- Source `Map1::set_orbit_embedding(d, orbit, emb)`, and its variant on a
`Cell<ORBIT>`. -/
def Map1.set_orbit_embedding (VERTEX1 FACE2 : Nat) (m : Map1)
    (embeddings_ : Nat → Nat → Nat) (d : Dart) (orbit emb : Nat) (fuel : Nat) :
    Option (Nat → Nat → Nat) :=
  Map1.foreach_dart_of_orbit VERTEX1 FACE2 m d orbit
    (fun e it => MapBaseData.set_embedding e it orbit emb) fuel embeddings_


/-- The allocator invariant for blocks of `PRIMSIZE` lines: `nb_max_lines_`
is a multiple of `PRIMSIZE`; the holes are, each once, starts of blocks of
`PRIMSIZE` unused lines below `nb_max_lines_`, the other blocks are made of
used lines, and `nb_used_lines_` is the number of used lines. -/
structure ChunkArrayContainer.blocks_exact (PRIMSIZE : Nat) (c : ChunkArrayContainer) :
    Prop where
  max_lt : c.nb_max_lines_ < UINT32_RANGE
  max_dvd : PRIMSIZE ∣ c.nb_max_lines_
  nodup : c.holes_stack_.Nodup
  holes : ∀ h ∈ c.holes_stack_, PRIMSIZE ∣ h ∧ h < c.nb_max_lines_ ∧
    ∀ i, i < PRIMSIZE → c.refs_ (h + i) = 0
  blocks : ∀ b, PRIMSIZE ∣ b → b < c.nb_max_lines_ → b ∉ c.holes_stack_ →
    ∀ i, i < PRIMSIZE → c.refs_ (b + i) ≠ 0
  sum : c.nb_used_lines_ + PRIMSIZE * c.holes_stack_.length = c.nb_max_lines_
  count : ((Finset.range c.nb_max_lines_).filter (fun i => c.refs_ i ≠ 0)).card =
    c.nb_used_lines_

/-- The used lines at or above `size()` that the cursor `up` of the scan of
`compact` has not passed. -/
def ChunkArrayContainer.compact_ahead (c0 : ChunkArrayContainer) (up : Nat) : Finset Nat :=
  (Finset.range c0.nb_max_lines_).filter
    (fun i => c0.nb_used_lines_ ≤ i ∧ ¬ compact_passed up i ∧ c0.refs_ i ≠ 0)

/-- An example container of blocks of 2 lines with `CHUNKSIZE = 4`: the block
of the lines 0 and 1 is a hole, the block of the lines 2 and 3 is used. -/
def example_container_blocks : ChunkArrayContainer :=
  { CHUNKSIZE := 4
    table_marker_arrays_ := []
    refs_ := fun i => if i = 2 then 1 else if i = 3 then 1 else 0
    refs_nb_chunks_ := 2
    holes_stack_ := [0]
    nb_used_lines_ := 2
    nb_max_lines_ := 4 }

/-! ## Cycles of a relation and the effect of sewing on them -/

theorem iterate_mod_of_period {α : Type} (phi : α → α) (d : α) (n : Nat) (hn : phi^[n] d = d)
    (k : Nat) : phi^[k % n] d = phi^[k] d :=
  Function.IsPeriodicPt.iterate_mod_apply hn k

theorem iterate_inj_of_cycle {α : Type} (phi : α → α) (d : α) (n : Nat)
    (hn : phi^[n] d = d) (hmin : ∀ k < n, 0 < k → phi^[k] d ≠ d)
    (i j : Nat) (hij : i ≤ j) (hj : j < n) (h : phi^[i] d = phi^[j] d) : i = j := by
  by_contra hne
  have hlt : i < j := lt_of_le_of_ne hij hne
  have h1 : phi^[n - j + i] d = d := by
    rw [Function.iterate_add_apply, h, ← Function.iterate_add_apply,
      Nat.sub_add_cancel (le_of_lt hj), hn]
  exact hmin (n - j + i) (by omega) (by omega) h1

/-- Sewing two darts of distinct cycles: the iterates of the new relation from
`d` run through the former cycle of `e`, then through the former cycle of `d`. -/
theorem sew_merge_iterates {α : Type} [DecidableEq α] (phi phi' : α → α) (d e : α)
    (hphi' : ∀ x, phi' x = if x = e then phi d else if x = d then phi e else phi x)
    (hde : d ≠ e) (nd ne : Nat)
    (hmind : ∀ k < nd, 0 < k → phi^[k] d ≠ d)
    (hne0 : 0 < ne)
    (hne : phi^[ne] e = e) (hmine : ∀ k < ne, 0 < k → phi^[k] e ≠ e)
    (hsep : ∀ k, phi^[k] d ≠ e) :
    (∀ k, phi^[k] e ≠ d) ∧
    (∀ k, 1 ≤ k → k ≤ ne → phi'^[k] d = phi^[k] e) ∧
    (∀ k, 1 ≤ k → k ≤ nd → phi'^[ne + k] d = phi^[k] d) := by
  have hsep' : ∀ k, phi^[k] e ≠ d := by
    intro k hk
    have hr : phi^[k % ne] e = d := by rw [iterate_mod_of_period phi e ne hne k, hk]
    have hlt : k % ne < ne := Nat.mod_lt _ hne0
    apply hsep (ne - k % ne)
    rw [← hr, ← Function.iterate_add_apply, Nat.sub_add_cancel (le_of_lt hlt), hne]
  have h1 : ∀ k, 1 ≤ k → k ≤ ne → phi'^[k] d = phi^[k] e := by
    intro k
    induction k with
    | zero => intro h; omega
    | succ k ih =>
      intro _ hk
      rcases Nat.eq_zero_or_pos k with h0 | hpos
      · subst h0
        simp only [zero_add, Function.iterate_one]
        rw [hphi', if_neg hde, if_pos rfl]
      · rw [Function.iterate_succ_apply', Function.iterate_succ_apply', ih hpos (by omega),
          hphi', if_neg (hmine k (by omega) hpos), if_neg (hsep' k)]
  refine ⟨hsep', h1, ?_⟩
  intro k
  induction k with
  | zero => intro h; omega
  | succ k ih =>
    intro _ hk
    rcases Nat.eq_zero_or_pos k with h0 | hpos
    · subst h0
      rw [← Nat.add_assoc, Function.iterate_succ_apply', Nat.add_zero, h1 ne hne0 le_rfl, hne,
        hphi', if_pos rfl]
      simp
    · rw [← Nat.add_assoc, Function.iterate_succ_apply', ih hpos (by omega),
        Function.iterate_succ_apply', hphi', if_neg (hsep k),
        if_neg (hmind k (by omega) hpos)]


theorem sew_merge_cycle {α : Type} [DecidableEq α] (phi phi' : α → α) (d e : α)
    (hphi' : ∀ x, phi' x = if x = e then phi d else if x = d then phi e else phi x)
    (hde : d ≠ e) (nd ne : Nat)
    (hd : cycle_length phi d nd) (he : cycle_length phi e ne)
    (hsep : ∀ k, phi^[k] d ≠ e) :
    cycle_length phi' d (nd + ne) ∧
    ∀ x, (∃ k, phi'^[k] d = x) ↔ ((∃ k, phi^[k] d = x) ∨ ∃ k, phi^[k] e = x) := by
  obtain ⟨hnd0, hnd, hmind⟩ := hd
  obtain ⟨hne0, hne, hmine⟩ := he
  obtain ⟨hsep', h1, h2⟩ :=
    sew_merge_iterates phi phi' d e hphi' hde nd ne hmind hne0 hne hmine hsep
  have hper : phi'^[nd + ne] d = d := by
    rw [Nat.add_comm, h2 nd hnd0 le_rfl, hnd]
  have hcyc : cycle_length phi' d (nd + ne) := by
    refine ⟨by omega, hper, ?_⟩
    intro k hk hk0
    by_cases hle : k ≤ ne
    · rw [h1 k hk0 hle]; exact hsep' k
    · have hk' : k = ne + (k - ne) := by omega
      rw [hk', h2 (k - ne) (by omega) (by omega)]
      exact hmind (k - ne) (by omega) (by omega)
  refine ⟨hcyc, ?_⟩
  intro x
  constructor
  · rintro ⟨k, hk⟩
    have hk2 : phi'^[k % (nd + ne)] d = x := by
      rw [iterate_mod_of_period phi' d (nd + ne) hper k, hk]
    have hlt : k % (nd + ne) < nd + ne := Nat.mod_lt _ (by omega)
    generalize k % (nd + ne) = r at hk2 hlt
    rcases Nat.eq_zero_or_pos r with h0 | hpos
    · left; exact ⟨0, by rw [← hk2, h0]; rfl⟩
    · by_cases hle : r ≤ ne
      · right; exact ⟨r, by rw [← hk2, h1 r hpos hle]⟩
      · left
        refine ⟨r - ne, ?_⟩
        have hr : r = ne + (r - ne) := by omega
        rw [← hk2, hr, h2 (r - ne) (by omega) (by omega)]
        congr 2
        omega
  · rintro (⟨k, hk⟩ | ⟨k, hk⟩)
    · have hk2 : phi^[k % nd] d = x := by rw [iterate_mod_of_period phi d nd hnd k, hk]
      have hlt : k % nd < nd := Nat.mod_lt _ hnd0
      generalize k % nd = r at hk2 hlt
      rcases Nat.eq_zero_or_pos r with h0 | hpos
      · exact ⟨0, by rw [← hk2, h0]; rfl⟩
      · exact ⟨ne + r, by rw [h2 r hpos (le_of_lt hlt), hk2]⟩
    · have hk2 : phi^[k % ne] e = x := by rw [iterate_mod_of_period phi e ne hne k, hk]
      have hlt : k % ne < ne := Nat.mod_lt _ hne0
      generalize k % ne = r at hk2 hlt
      rcases Nat.eq_zero_or_pos r with h0 | hpos
      · refine ⟨ne, ?_⟩
        rw [h1 ne hne0 le_rfl, hne, ← hk2, h0]
        rfl
      · exact ⟨r, by rw [h1 r hpos (le_of_lt hlt), hk2]⟩

/-- Sewing two darts of one cycle, `e = phi^j(d)`: the iterates of the new
relation from `d` skip the darts up to `e`, and those from `e` run through the
darts skipped. -/
theorem sew_split_iterates {α : Type} [DecidableEq α] (phi phi' : α → α) (d e : α)
    (hphi' : ∀ x, phi' x = if x = e then phi d else if x = d then phi e else phi x)
    (n j : Nat) (hd : cycle_length phi d n) (hj0 : 0 < j) (hjn : j < n)
    (hje : phi^[j] d = e) :
    (∀ k, 1 ≤ k → k ≤ n - j → phi'^[k] d = phi^[j + k] d) ∧
    (∀ k, 1 ≤ k → k ≤ j → phi'^[k] e = phi^[k] d) := by
  obtain ⟨hn0, hn, hmin⟩ := hd
  have hde : d ≠ e := by
    intro h; exact hmin j hjn hj0 (by rw [hje, h])
  have hdist : ∀ i, i < n → i ≠ j → phi^[i] d ≠ e := by
    intro i hi hij h
    rw [← hje] at h
    rcases Nat.lt_or_ge i j with hlt | hge
    · exact hij (iterate_inj_of_cycle phi d n hn hmin i j (le_of_lt hlt) hjn h)
    · exact hij (iterate_inj_of_cycle phi d n hn hmin j i hge hi h.symm).symm
  constructor
  · intro k
    induction k with
    | zero => intro h; omega
    | succ k ih =>
      intro _ hk
      rcases Nat.eq_zero_or_pos k with h0 | hpos
      · subst h0
        simp only [zero_add, Function.iterate_one]
        rw [hphi', if_neg hde, if_pos rfl, Function.iterate_succ_apply', hje]
      · rw [Function.iterate_succ_apply', ih hpos (by omega), ← Nat.add_assoc,
          Function.iterate_succ_apply', hphi',
          if_neg (hdist (j + k) (by omega) (by omega)),
          if_neg (hmin (j + k) (by omega) (by omega))]
  · intro k
    induction k with
    | zero => intro h; omega
    | succ k ih =>
      intro _ hk
      rcases Nat.eq_zero_or_pos k with h0 | hpos
      · subst h0
        simp only [zero_add, Function.iterate_one]
        rw [hphi', if_pos rfl]
      · rw [Function.iterate_succ_apply', ih hpos (by omega),
          Function.iterate_succ_apply', hphi',
          if_neg (hdist k (by omega) (by omega)),
          if_neg (hmin k (by omega) hpos)]


theorem sew_split_cycle {α : Type} [DecidableEq α] (phi phi' : α → α) (d e : α)
    (hphi' : ∀ x, phi' x = if x = e then phi d else if x = d then phi e else phi x)
    (hde : d ≠ e) (n : Nat) (hd : cycle_length phi d n) (hin : ∃ k, phi^[k] d = e) :
    (∃ j, 0 < j ∧ j < n ∧ cycle_length phi' d (n - j) ∧ cycle_length phi' e j) ∧
    (∀ x, ¬ ((∃ k, phi'^[k] d = x) ∧ ∃ k, phi'^[k] e = x)) ∧
    (∀ x, (∃ k, phi^[k] d = x) ↔ ((∃ k, phi'^[k] d = x) ∨ ∃ k, phi'^[k] e = x)) := by
  have hd' := hd
  obtain ⟨hn0, hn, hmin⟩ := hd'
  obtain ⟨k0, hk0⟩ := hin
  have hje : phi^[k0 % n] d = e := by rw [iterate_mod_of_period phi d n hn k0, hk0]
  have hjn : k0 % n < n := Nat.mod_lt _ hn0
  generalize k0 % n = j at hje hjn
  have hj0 : 0 < j := by
    rcases Nat.eq_zero_or_pos j with h0 | hpos
    · exfalso; apply hde; rw [← hje, h0]; rfl
    · exact hpos
  obtain ⟨h1, h2⟩ := sew_split_iterates phi phi' d e hphi' n j hd hj0 hjn hje
  have hinj := iterate_inj_of_cycle phi d n hn hmin
  have hperd : phi'^[n - j] d = d := by
    rw [h1 (n - j) (by omega) le_rfl, Nat.add_sub_cancel' (le_of_lt hjn), hn]
  have hpere : phi'^[j] e = e := by rw [h2 j hj0 le_rfl, hje]
  have hcd : cycle_length phi' d (n - j) := by
    refine ⟨by omega, hperd, ?_⟩
    intro k hk hk0'
    rw [h1 k hk0' (le_of_lt hk)]
    exact hmin (j + k) (by omega) (by omega)
  have hce : cycle_length phi' e j := by
    refine ⟨hj0, hpere, ?_⟩
    intro k hk hk0'
    rw [h2 k hk0' (le_of_lt hk), ← hje]
    intro h
    have := hinj k j (le_of_lt hk) hjn h
    omega
  -- the iterates of the new relation, as iterates of the former one
  have hod : ∀ x, (∃ k, phi'^[k] d = x) ↔ (x = d ∨ ∃ i, j < i ∧ i < n ∧ phi^[i] d = x) := by
    intro x
    constructor
    · rintro ⟨k, hk⟩
      have hk2 : phi'^[k % (n - j)] d = x := by
        rw [iterate_mod_of_period phi' d (n - j) hperd k, hk]
      have hlt : k % (n - j) < n - j := Nat.mod_lt _ (by omega)
      generalize k % (n - j) = r at hk2 hlt
      rcases Nat.eq_zero_or_pos r with h0 | hpos
      · left; rw [← hk2, h0]; rfl
      · right
        exact ⟨j + r, by omega, by omega, by rw [← hk2, h1 r hpos (le_of_lt hlt)]⟩
    · rintro (h | ⟨i, hi1, hi2, hi3⟩)
      · exact ⟨0, h.symm⟩
      · refine ⟨i - j, ?_⟩
        rw [h1 (i - j) (by omega) (by omega), Nat.add_sub_cancel' (le_of_lt hi1), hi3]
  have hoe : ∀ x, (∃ k, phi'^[k] e = x) ↔ (∃ i, 0 < i ∧ i ≤ j ∧ phi^[i] d = x) := by
    intro x
    constructor
    · rintro ⟨k, hk⟩
      have hk2 : phi'^[k % j] e = x := by
        rw [iterate_mod_of_period phi' e j hpere k, hk]
      have hlt : k % j < j := Nat.mod_lt _ hj0
      generalize k % j = r at hk2 hlt
      rcases Nat.eq_zero_or_pos r with h0 | hpos
      · refine ⟨j, hj0, le_rfl, ?_⟩
        rw [hje, ← hk2, h0]; rfl
      · exact ⟨r, hpos, le_of_lt hlt, by rw [← hk2, h2 r hpos (le_of_lt hlt)]⟩
    · rintro ⟨i, hi1, hi2, hi3⟩
      exact ⟨i, by rw [h2 i hi1 hi2, hi3]⟩
  refine ⟨⟨j, hj0, hjn, hcd, hce⟩, ?_, ?_⟩
  · intro x hx
    obtain ⟨hxd, hxe⟩ := hx
    obtain ⟨i, hi1, hi2, hi3⟩ := (hoe x).1 hxe
    rcases (hod x).1 hxd with h | ⟨i', hi1', hi2', hi3'⟩
    · exact hmin i (by omega) hi1 (by rw [hi3, h])
    · have := hinj i i' (by omega) hi2' (by rw [hi3, hi3'])
      omega
  · intro x
    rw [hod x, hoe x]
    constructor
    · rintro ⟨k, hk⟩
      have hk2 : phi^[k % n] d = x := by rw [iterate_mod_of_period phi d n hn k, hk]
      have hlt : k % n < n := Nat.mod_lt _ hn0
      generalize k % n = r at hk2 hlt
      rcases Nat.eq_zero_or_pos r with h0 | hpos
      · left; left; rw [← hk2, h0]; rfl
      · by_cases hle : r ≤ j
        · right; exact ⟨r, hpos, hle, hk2⟩
        · left; right; exact ⟨r, by omega, hlt, hk2⟩
    · rintro ((h | ⟨i, _, _, hi3⟩) | ⟨i, _, _, hi3⟩)
      · exact ⟨0, h.symm⟩
      · exact ⟨i, hi3⟩
      · exact ⟨i, hi3⟩

/-- A point with a positive period has a cycle length. -/
theorem cycle_length_of_period {α : Type} [DecidableEq α] (phi : α → α) (d : α) (p : Nat)
    (hp : 0 < p) (hper : phi^[p] d = d) : ∃ n, n ≤ p ∧ cycle_length phi d n := by
  have hex : ∃ q, 0 < q ∧ phi^[q] d = d := ⟨p, hp, hper⟩
  refine ⟨Nat.find hex, Nat.find_min' hex ⟨hp, hper⟩, (Nat.find_spec hex).1,
    (Nat.find_spec hex).2, ?_⟩
  intro k hk hk0 hkd
  exact Nat.find_min hex hk ⟨hk0, hkd⟩

/-- An injective self-map of a finite set of indexed points: every point of
the set has a finite cycle. -/
theorem cycle_length_of_injective_on {α : Type} [DecidableEq α] (phi : α → α)
    (S : α → Prop) (idx : α → Nat) (N : Nat)
    (hidx : ∀ x y, idx x = idx y → x = y)
    (hbound : ∀ x, S x → idx x < N)
    (hclosed : ∀ x, S x → S (phi x))
    (hinj : ∀ x y, S x → S y → phi x = phi y → x = y)
    (d : α) (hd : S d) : ∃ n, cycle_length phi d n := by
  have hS : ∀ k, S (phi^[k] d) := by
    intro k
    induction k with
    | zero => exact hd
    | succ k ih => rw [Function.iterate_succ_apply']; exact hclosed _ ih
  have hback : ∀ i p, phi^[i] d = phi^[i + p] d → phi^[p] d = d := by
    intro i
    induction i with
    | zero => intro p h; rw [Nat.zero_add] at h; exact h.symm
    | succ i ih =>
      intro p h
      apply ih p
      have h2 : i + 1 + p = (i + p) + 1 := by omega
      rw [h2, Function.iterate_succ_apply', Function.iterate_succ_apply'] at h
      exact hinj _ _ (hS i) (hS (i + p)) h
  let g : Fin (N + 1) → Fin N := fun k => ⟨idx (phi^[k.val] d), hbound _ (hS k.val)⟩
  obtain ⟨a, b, hab, hg⟩ := Fintype.exists_ne_map_eq_of_card_lt g (by simp)
  have hval : phi^[a.val] d = phi^[b.val] d := hidx _ _ (Fin.mk.inj_iff.1 hg)
  have hne : a.val ≠ b.val := fun h => hab (Fin.ext h)
  rcases Nat.lt_or_gt_of_ne hne with hlt | hlt
  · have h := hback a.val (b.val - a.val) (by rw [Nat.add_sub_cancel' (le_of_lt hlt)]; exact hval)
    obtain ⟨n, _, hn⟩ := cycle_length_of_period phi d (b.val - a.val) (by omega) h
    exact ⟨n, hn⟩
  · have h := hback b.val (a.val - b.val) (by rw [Nat.add_sub_cancel' (le_of_lt hlt)]; exact hval.symm)
    obtain ⟨n, _, hn⟩ := cycle_length_of_period phi d (a.val - b.val) (by omega) h
    exact ⟨n, hn⟩

/-! ## Relations after the sewing primitives -/

theorem Dart.eq_iff_index (a b : Dart) : a = b ↔ a.index = b.index := by
  cases a; cases b; simp

theorem CMap1.phi1_sew_phi1 (m : CMap1) (d e x : Dart) :
    (m.phi1_sew d e).phi1 x =
      if x = e then m.phi1 d else if x = d then m.phi1 e else m.phi1 x := by
  simp only [CMap1.phi1_sew, CMap1.phi1, Function.update_apply, Dart.eq_iff_index]

theorem CMap1.phi1_sew_phi_1 (m : CMap1) (d e x : Dart) :
    (m.phi1_sew d e).phi_1 x =
      if x = m.phi1 d then e else if x = m.phi1 e then d else m.phi_1 x := by
  simp only [CMap1.phi1_sew, CMap1.phi1, CMap1.phi_1, Function.update_apply,
    Dart.eq_iff_index]

theorem CMap1.phi1_unsew_phi1 (m : CMap1) (d x : Dart) :
    (m.phi1_unsew d).phi1 x =
      if x = m.phi1 d then m.phi1 d
      else if x = d then m.phi1 (m.phi1 d) else m.phi1 x := by
  simp only [CMap1.phi1_unsew, CMap1.phi1, Function.update_apply, Dart.eq_iff_index]

theorem CMap1.phi1_unsew_phi_1 (m : CMap1) (d x : Dart) :
    (m.phi1_unsew d).phi_1 x =
      if x = m.phi1 d then m.phi1 d
      else if x = m.phi1 (m.phi1 d) then d else m.phi_1 x := by
  simp only [CMap1.phi1_unsew, CMap1.phi1, CMap1.phi_1, Function.update_apply,
    Dart.eq_iff_index]

theorem Map1.phi1_sew_eq (m : Map1) (d e : Dart) :
    Map1.phi1_sew m d e = CMap1.phi1_sew m d e := rfl

theorem Map1.phi1_unsew_eq (m : Map1) (d : Dart) :
    Map1.phi1_unsew m d = CMap1.phi1_unsew m d := rfl

theorem Map1.phi1_eq (m : Map1) (d : Dart) : Map1.phi1 m d = CMap1.phi1 m d := rfl

theorem Map1.phi_1_eq (m : Map1) (d : Dart) : Map1.phi_1 m d = CMap1.phi_1 m d := rfl

/-- Claim C1: with `f = phi1(d)` and `g = phi1(e)` read before the call,
`phi1_sew(d, e)` leaves `phi1(d) = g` and `phi1(e) = f`, and `phi1(x)` is
unchanged for every dart `x` other than `d` and `e`; this holds for the
primitive of `CMap1_T` and for the one of `Map1`. -/
theorem phi1_sew_relation (m : CMap1) (d e : Dart) :
    ((m.phi1_sew d e).phi1 d = m.phi1 e ∧
      (m.phi1_sew d e).phi1 e = m.phi1 d ∧
      ∀ x, x ≠ d → x ≠ e → (m.phi1_sew d e).phi1 x = m.phi1 x) ∧
    (Map1.phi1 (Map1.phi1_sew m d e) d = Map1.phi1 m e ∧
      Map1.phi1 (Map1.phi1_sew m d e) e = Map1.phi1 m d ∧
      ∀ x, x ≠ d → x ≠ e → Map1.phi1 (Map1.phi1_sew m d e) x = Map1.phi1 m x) := by
  have key : (m.phi1_sew d e).phi1 d = m.phi1 e ∧
      (m.phi1_sew d e).phi1 e = m.phi1 d ∧
      ∀ x, x ≠ d → x ≠ e → (m.phi1_sew d e).phi1 x = m.phi1 x := by
    refine ⟨?_, ?_, ?_⟩
    · rw [CMap1.phi1_sew_phi1]
      by_cases h : d = e
      · simp [h]
      · simp [h]
    · rw [CMap1.phi1_sew_phi1]; simp
    · intro x hd he
      rw [CMap1.phi1_sew_phi1]; simp [hd, he]
  exact ⟨key, key⟩

theorem CMap1.inverse_on_phi1_inj (m : CMap1) (S : Dart → Prop) (h : m.inverse_on S)
    (a b : Dart) (ha : S a) (hb : S b) : m.phi1 a = m.phi1 b ↔ a = b := by
  constructor
  · intro hab
    have h1 := (h a ha).2.2.1
    have h2 := (h b hb).2.2.1
    rw [← h1, hab, h2]
  · intro hab; rw [hab]

theorem CMap1.phi1_sew_inverse_on (m : CMap1) (S : Dart → Prop) (h : m.inverse_on S)
    (d e : Dart) (hd : S d) (he : S e) : (m.phi1_sew d e).inverse_on S := by
  have inj := CMap1.inverse_on_phi1_inj m S h
  intro x hx
  obtain ⟨hx1, hx2, hx3, hx4⟩ := h x hx
  have hSd := (h d hd).1
  have hSe := (h e he).1
  refine ⟨?_, ?_, ?_, ?_⟩
  · rw [CMap1.phi1_sew_phi1]; split_ifs <;> assumption
  · rw [CMap1.phi1_sew_phi_1]; split_ifs <;> assumption
  · rw [CMap1.phi1_sew_phi_1, CMap1.phi1_sew_phi1]
    by_cases hxe : x = e
    · simp [hxe]
    · by_cases hxd : x = d
      · have hne : ¬ (d = e) := fun hh => hxe (hxd.trans hh)
        have hne2 : ¬ (m.phi1 e = m.phi1 d) :=
          fun hh => hne ((inj e d he hd).1 hh).symm
        rw [hxd, if_neg hne, if_pos rfl, if_neg hne2, if_pos rfl]
      · simp [hxe, hxd, inj x d hx hd, inj x e hx he, hx3]
  · rw [CMap1.phi1_sew_phi1, CMap1.phi1_sew_phi_1]
    by_cases hxf : x = m.phi1 d
    · simp [hxf]
    · by_cases hxg : x = m.phi1 e
      · have hde : ¬ (d = e) := fun hh => hxf (by rw [hxg, hh])
        have hne2 : ¬ (m.phi1 e = m.phi1 d) :=
          fun hh => hde ((inj e d he hd).1 hh).symm
        rw [hxg, if_neg hne2, if_pos rfl, if_neg hde, if_pos rfl]
      · have h1 : ¬ (m.phi_1 x = e) := fun hh => hxg (by rw [← hh, hx4])
        have h2 : ¬ (m.phi_1 x = d) := fun hh => hxf (by rw [← hh, hx4])
        simp [hxf, hxg, h1, h2, hx4]

theorem CMap1.phi1_unsew_inverse_on (m : CMap1) (S : Dart → Prop) (h : m.inverse_on S)
    (d : Dart) (hd : S d) : (m.phi1_unsew d).inverse_on S := by
  have inj := CMap1.inverse_on_phi1_inj m S h
  have he : S (m.phi1 d) := (h d hd).1
  have hf : S (m.phi1 (m.phi1 d)) := (h _ he).1
  intro x hx
  obtain ⟨hx1, hx2, hx3, hx4⟩ := h x hx
  refine ⟨?_, ?_, ?_, ?_⟩
  · rw [CMap1.phi1_unsew_phi1]; split_ifs <;> assumption
  · rw [CMap1.phi1_unsew_phi_1]; split_ifs <;> assumption
  · rw [CMap1.phi1_unsew_phi_1, CMap1.phi1_unsew_phi1]
    by_cases hxe : x = m.phi1 d
    · simp [← hxe]
    · by_cases hxd : x = d
      · have hfe : ¬ (m.phi1 (m.phi1 d) = m.phi1 d) := by
          intro hh
          have := (inj _ _ he hd).1 hh
          exact hxe (hxd.trans this.symm)
        subst hxd
        simp [hxe, hfe]
      · have h1 : ¬ (m.phi1 x = m.phi1 d) := fun hh => hxd ((inj _ _ hx hd).1 hh)
        have h2 : ¬ (m.phi1 x = m.phi1 (m.phi1 d)) :=
          fun hh => hxe ((inj _ _ hx he).1 hh)
        simp [hxe, hxd, h1, h2, hx3]
  · rw [CMap1.phi1_unsew_phi1, CMap1.phi1_unsew_phi_1]
    by_cases hxe : x = m.phi1 d
    · simp [← hxe]
    · by_cases hxf : x = m.phi1 (m.phi1 d)
      · have hde : ¬ (d = m.phi1 d) := by
          intro hh
          apply hxe
          rw [hxf, ← hh, ← hh]
        have hfe : ¬ (m.phi1 (m.phi1 d) = m.phi1 d) := by rw [← hxf]; exact hxe
        rw [hxf, if_neg hfe, if_pos rfl, if_neg hde, if_pos rfl]
      · have h1 : ¬ (m.phi_1 x = m.phi1 d) := by
          intro hh; apply hxf; rw [← hh, hx4]
        have h2 : ¬ (m.phi_1 x = d) := by
          intro hh; apply hxe; rw [← hh, hx4]
        simp [hxe, hxf, h1, h2, hx4]

/-! ## Insertion of a line in the topology container -/

theorem ChunkArrayContainer.set_refs_one (refs : Nat → Nat) (index v : Nat) :
    ChunkArrayContainer.set_refs refs index 1 v =
      Function.update refs (index % UINT32_RANGE) v := by
  simp [ChunkArrayContainer.set_refs, List.range_succ]

theorem ChunkArrayContainer.insert_lines_one (c : ChunkArrayContainer)
    (hwf : c.well_formed 1) :
    (c.insert_lines 1).2 < UINT32_RANGE ∧
    c.refs_ (c.insert_lines 1).2 = 0 ∧
    (c.insert_lines 1).1.refs_ = Function.update c.refs_ (c.insert_lines 1).2 1 ∧
    (c.insert_lines 1).1.table_marker_arrays_ = c.table_marker_arrays_ ∧
    (c.insert_lines 1).1.CHUNKSIZE = c.CHUNKSIZE ∧
    (c.nb_max_lines_ + 1 < UINT32_RANGE →
      (c.insert_lines 1).1.well_formed 1 ∧
      (c.insert_lines 1).1.nb_used_lines_ = c.nb_used_lines_ + 1 ∧
      (c.insert_lines 1).1.nb_max_lines_ ≤ c.nb_max_lines_ + 1) := by
  obtain ⟨hmax, hholes, hnodup, hbeyond, hcount⟩ := hwf
  unfold ChunkArrayContainer.insert_lines
  cases hh : c.holes_stack_ with
  | nil =>
    simp only [ChunkArrayContainer.set_refs_one]
    rw [hh] at hcount
    simp only [List.length_nil, Nat.mul_zero, Nat.add_zero] at hcount
    rw [Nat.mod_eq_of_lt hmax]
    refine ⟨hmax, hbeyond _ le_rfl, rfl, trivial, trivial, ?_⟩
    intro hlt
    have hu : c.nb_used_lines_ + 1 < UINT32_RANGE := by omega
    rw [Nat.mod_eq_of_lt hlt, Nat.mod_eq_of_lt hu]
    refine ⟨⟨hlt, ?_, ?_, ?_, ?_⟩, rfl, le_rfl⟩
    · intro h hmem; simp [hh] at hmem
    · simp [hh]
    · intro i hi
      have hi' : c.nb_max_lines_ + 1 ≤ i := hi
      show Function.update c.refs_ c.nb_max_lines_ 1 i = 0
      rw [Function.update_noteq (by omega)]
      exact hbeyond i (by omega)
    · simp only [hh, List.length_nil, Nat.mul_zero, Nat.add_zero]
      omega
  | cons index rest =>
    simp only [ChunkArrayContainer.set_refs_one]
    rw [hh] at hholes hnodup hcount
    have hidx := hholes index (List.mem_cons_self _ _)
    have hidx32 : index < UINT32_RANGE := by omega
    rw [Nat.mod_eq_of_lt hidx32]
    simp only [List.length_cons] at hcount
    refine ⟨hidx32, hidx.2, rfl, trivial, trivial, ?_⟩
    intro _
    have hu : c.nb_used_lines_ + 1 < UINT32_RANGE := by omega
    rw [Nat.mod_eq_of_lt hu]
    refine ⟨⟨hmax, ?_, ?_, ?_, ?_⟩, rfl, by simp⟩
    · intro h hmem
      have hne : h ≠ index := by
        intro heq; rw [heq] at hmem
        exact (List.nodup_cons.1 hnodup).1 hmem
      have := hholes h (List.mem_cons_of_mem _ hmem)
      refine ⟨this.1, ?_⟩
      show Function.update c.refs_ index 1 h = 0
      rw [Function.update_noteq hne]; exact this.2
    · exact (List.nodup_cons.1 hnodup).2
    · intro i hi
      show Function.update c.refs_ index 1 i = 0
      have hne : i ≠ index := by
        have : index < c.nb_max_lines_ := hidx.1
        have hi' : c.nb_max_lines_ ≤ i := hi
        omega
      rw [Function.update_noteq hne]; exact hbeyond i hi
    · show c.nb_used_lines_ + 1 + 1 * rest.length = c.nb_max_lines_
      omega

theorem MapBase.add_topology_element_spec (c : ChunkArrayContainer)
    (hwf : c.well_formed 1) :
    ∃ t i, MapBase.add_topology_element c = some (t, i) ∧
      i < UINT32_RANGE ∧ c.refs_ i = 0 ∧ t.refs_ = Function.update c.refs_ i 1 ∧
      (c.nb_max_lines_ + 1 < UINT32_RANGE →
        t.well_formed 1 ∧ t.nb_used_lines_ = c.nb_used_lines_ + 1 ∧
        t.nb_max_lines_ ≤ c.nb_max_lines_ + 1) := by
  obtain ⟨h1, h2, h3, _, _, h6⟩ := ChunkArrayContainer.insert_lines_one c hwf
  have hused : (c.insert_lines 1).1.used (c.insert_lines 1).2 = true := by
    simp [ChunkArrayContainer.used, h3]
  refine ⟨{ (c.insert_lines 1).1 with
      table_marker_arrays_ := (c.insert_lines 1).1.table_marker_arrays_.map
        (fun a => Function.update a (c.insert_lines 1).2 false) },
    (c.insert_lines 1).2, ?_, h1, h2, ?_, ?_⟩
  · simp only [MapBase.add_topology_element, ChunkArrayContainer.init_markers_of_line,
      hused, if_true]
  · exact h3
  · intro hlt
    obtain ⟨hw, hu, hm⟩ := h6 hlt
    exact ⟨hw, hu, hm⟩

theorem Map1.add_dart_eq (m : Map1) : Map1.add_dart m = CMap1.add_dart_internal m := by
  unfold Map1.add_dart CMap1.add_dart_internal CMap0.add_dart_internal
  cases MapBase.add_topology_element m.topology_ with
  | none => rfl
  | some r => rfl

theorem CMap1.is_dart_iff (m : CMap1) (d : Dart) :
    m.is_dart d ↔ m.topology_.refs_ d.index ≠ 0 := by
  simp [CMap1.is_dart, ChunkArrayContainer.used]

/-- Dart creation in a well-formed topology container: the new dart was not a
live dart, it becomes one, it is written as a fixed point of `phi1` and `phi_1`
and nothing else changes. -/
theorem CMap1.add_dart_internal_spec (m : CMap1) (hwf : m.topology_.well_formed 1) :
    ∃ m1 d, m.add_dart_internal = some (m1, d) ∧
      ¬ m.is_dart d ∧
      (∀ x, m1.is_dart x ↔ (m.is_dart x ∨ x = d)) ∧
      m1.phi1_ = Function.update m.phi1_ d.index d ∧
      m1.phi_1_ = Function.update m.phi_1_ d.index d ∧
      (m.topology_.nb_max_lines_ + 1 < UINT32_RANGE →
        m1.topology_.well_formed 1 ∧
        m1.topology_.nb_used_lines_ = m.topology_.nb_used_lines_ + 1 ∧
        m1.topology_.nb_max_lines_ ≤ m.topology_.nb_max_lines_ + 1) := by
  obtain ⟨t, i, h1, _, h3, h4, h5⟩ := MapBase.add_topology_element_spec m.topology_ hwf
  refine ⟨{ topology_ := t, phi1_ := Function.update m.phi1_ i ⟨i⟩,
             phi_1_ := Function.update m.phi_1_ i ⟨i⟩ }, ⟨i⟩, ?_, ?_, ?_, rfl, rfl, h5⟩
  · simp only [CMap1.add_dart_internal, CMap0.add_dart_internal, h1]
  · rw [CMap1.is_dart_iff]; simp [h3]
  · intro x
    rw [CMap1.is_dart_iff, CMap1.is_dart_iff, Dart.eq_iff_index]
    show t.refs_ x.index ≠ 0 ↔ _
    rw [h4, Function.update_apply]
    by_cases hx : x.index = i
    · simp [hx]
    · simp [hx]

/-! ## The traversal of a face -/

theorem CMap1.foreach_dart_of_PHI1_loop_eq {σ : Type} (m : CMap1) (d : Dart)
    (f : σ → Dart → σ) (n : Nat) (hc : cycle_length m.phi1 d n) :
    ∀ (fuel r : Nat) (s : σ), r < n → n - r ≤ fuel →
      CMap1.foreach_dart_of_PHI1_loop m d f fuel ((m.phi1)^[r] d) s =
        some ((List.iterate m.phi1 ((m.phi1)^[r] d) (n - r)).foldl f s) := by
  obtain ⟨_, hn, hmin⟩ := hc
  intro fuel
  induction fuel with
  | zero => intro r s hr hf; omega
  | succ fuel ih =>
    intro r s hr hf
    unfold CMap1.foreach_dart_of_PHI1_loop
    have hsucc : m.phi1 ((m.phi1)^[r] d) = (m.phi1)^[r + 1] d := by
      rw [Function.iterate_succ_apply']
    by_cases hlast : r + 1 = n
    · have hd : m.phi1 ((m.phi1)^[r] d) = d := by rw [hsucc, hlast, hn]
      have h1 : n - r = 1 := by omega
      simp only [hd, ne_eq, not_true_eq_false, if_false, h1]
      rfl
    · have hne : m.phi1 ((m.phi1)^[r] d) ≠ d := by
        rw [hsucc]; exact hmin (r + 1) (by omega) (by omega)
      have h1 : n - r = (n - (r + 1)) + 1 := by omega
      simp only [hne, ne_eq, not_false_eq_true, if_true]
      rw [hsucc, ih (r + 1) _ (by omega) (by omega), h1, List.iterate, ← hsucc]
      rfl

theorem CMap1.foreach_dart_of_PHI1_eq {σ : Type} (m : CMap1) (d : Dart)
    (f : σ → Dart → σ) (n : Nat) (hc : cycle_length m.phi1 d n) (fuel : Nat)
    (hfuel : n ≤ fuel) (s : σ) :
    m.foreach_dart_of_PHI1 d f fuel s = some ((List.iterate m.phi1 d n).foldl f s) := by
  have h := CMap1.foreach_dart_of_PHI1_loop_eq m d f n hc fuel 0 s hc.1 (by omega)
  simpa [CMap1.foreach_dart_of_PHI1] using h

theorem foldl_count_length {α : Type} (l : List α) (a : Nat) :
    l.foldl (fun n _ => n + 1) a = a + l.length := by
  induction l generalizing a with
  | nil => rfl
  | cons x l ih => simp only [List.foldl_cons, List.length_cons, ih]; omega

theorem CMap1.degree_eq (m : CMap1) (d : Dart) (n : Nat) (hc : cycle_length m.phi1 d n)
    (fuel : Nat) (hfuel : n ≤ fuel) : m.degree d fuel = some n := by
  unfold CMap1.degree CMap1.nb_darts
  rw [CMap1.foreach_dart_of_PHI1_eq m d _ n hc fuel hfuel, foldl_count_length,
    List.length_iterate]
  simp

/-! ## Cutting an edge -/

theorem iterate_congr_on {α : Type} (phi psi : α → α) (d : α)
    (h : ∀ k, psi (phi^[k] d) = phi (phi^[k] d)) : ∀ k, psi^[k] d = phi^[k] d := by
  intro k
  induction k with
  | zero => rfl
  | succ k ih =>
    rw [Function.iterate_succ_apply', Function.iterate_succ_apply', ih, h k]

theorem cycle_length_congr {α : Type} (phi psi : α → α) (d : α) (n : Nat)
    (h : ∀ k, psi^[k] d = phi^[k] d) (hc : cycle_length phi d n) :
    cycle_length psi d n := by
  obtain ⟨h0, hn, hmin⟩ := hc
  refine ⟨h0, by rw [h n, hn], ?_⟩
  intro k hk hk0
  rw [h k]
  exact hmin k hk hk0

/-- The effect of `cut_edge_topo(d)` when the topology container is well formed
and the phi1-cycle of `d` has length `k` and consists of live darts. -/
theorem CMap1.cut_edge_topo_spec (m : CMap1) (d : Dart) (k : Nat)
    (hwf : m.topology_.well_formed 1)
    (hcyc : m.is_cycle_length d k)
    (hlive : ∀ x, m.in_cycle d x → m.is_dart x) :
    ∃ m2 e, m.cut_edge_topo d = some (m2, e) ∧
      ¬ m.is_dart e ∧
      (∀ x, m2.is_dart x ↔ (m.is_dart x ∨ x = e)) ∧
      m2.phi1 d = e ∧ m2.phi1 e = m.phi1 d ∧
      m2.phi_1 e = d ∧ m2.phi_1 (m.phi1 d) = e ∧
      (∀ x, x ≠ d → x ≠ e → m2.phi1 x = m.phi1 x) ∧
      (∀ x, x ≠ e → x ≠ m.phi1 d → m2.phi_1 x = m.phi_1 x) ∧
      m2.is_cycle_length d (k + 1) ∧
      (∀ x, m2.in_cycle d x ↔ (m.in_cycle d x ∨ x = e)) ∧
      (m.topology_.nb_max_lines_ + 1 < UINT32_RANGE →
        m2.topology_.well_formed 1 ∧
        m2.topology_.nb_used_lines_ = m.topology_.nb_used_lines_ + 1 ∧
        m2.topology_.nb_max_lines_ ≤ m.topology_.nb_max_lines_ + 1) := by
  obtain ⟨m1, e, hadd, hfresh, hdarts, hp1, hp_1, hcont⟩ :=
    CMap1.add_dart_internal_spec m hwf
  have hm1phi : ∀ x, m1.phi1 x = if x = e then e else m.phi1 x := by
    intro x
    simp only [CMap1.phi1, hp1, Function.update_apply, Dart.eq_iff_index]
  have hm1phi_1 : ∀ x, m1.phi_1 x = if x = e then e else m.phi_1 x := by
    intro x
    simp only [CMap1.phi_1, hp_1, Function.update_apply, Dart.eq_iff_index]
  have hcycne : ∀ j, (m.phi1)^[j] d ≠ e := by
    intro j hj
    exact hfresh (hj ▸ hlive _ ⟨j, rfl⟩)
  have hde : d ≠ e := hcycne 0
  have hfe : m.phi1 d ≠ e := hcycne 1
  have hiter : ∀ j, (m1.phi1)^[j] d = (m.phi1)^[j] d :=
    iterate_congr_on m.phi1 m1.phi1 d (fun j => by rw [hm1phi, if_neg (hcycne j)])
  have hm1d : m1.phi1 d = m.phi1 d := by rw [hm1phi, if_neg hde]
  have hm1e : m1.phi1 e = e := by rw [hm1phi, if_pos rfl]
  have hm2phi : ∀ x, (m1.phi1_sew d e).phi1 x =
      if x = e then m1.phi1 d else if x = d then m1.phi1 e else m1.phi1 x :=
    fun x => CMap1.phi1_sew_phi1 m1 d e x
  have hc1 : cycle_length m1.phi1 d k := cycle_length_congr m.phi1 m1.phi1 d k hiter hcyc
  have hfix : ∀ j, (m1.phi1)^[j] e = e := fun j => Function.iterate_fixed hm1e j
  have hce : cycle_length m1.phi1 e 1 :=
    ⟨Nat.one_pos, hfix 1, fun j hj hj0 => by omega⟩
  obtain ⟨hlen, horb⟩ := sew_merge_cycle m1.phi1 (m1.phi1_sew d e).phi1 d e hm2phi hde k 1
    hc1 hce (fun j => by rw [hiter j]; exact hcycne j)
  refine ⟨m1.phi1_sew d e, e, ?_, hfresh, ?_, ?_, ?_, ?_, ?_, ?_, ?_, hlen, ?_, hcont⟩
  · simp only [CMap1.cut_edge_topo, hadd]
  · intro x; exact hdarts x
  · rw [hm2phi, if_neg hde, if_pos rfl, hm1e]
  · rw [hm2phi, if_pos rfl, hm1d]
  · rw [CMap1.phi1_sew_phi_1, hm1d, hm1e, if_neg (Ne.symm hfe), if_pos rfl]
  · rw [CMap1.phi1_sew_phi_1, hm1d, if_pos rfl]
  · intro x hxd hxe
    rw [hm2phi, if_neg hxe, if_neg hxd, hm1phi, if_neg hxe]
  · intro x hxe hxf
    rw [CMap1.phi1_sew_phi_1, hm1d, hm1e, if_neg hxf, if_neg hxe, hm1phi_1, if_neg hxe]
  · intro x
    show (∃ j, ((m1.phi1_sew d e).phi1)^[j] d = x) ↔ ((∃ j, (m.phi1)^[j] d = x) ∨ x = e)
    rw [horb x]
    constructor
    · rintro (⟨j, hj⟩ | ⟨j, hj⟩)
      · left; exact ⟨j, by rw [← hiter j, hj]⟩
      · right; rw [← hj, hfix j]
    · rintro (⟨j, hj⟩ | hx)
      · left; exact ⟨j, by rw [hiter j, hj]⟩
      · right; exact ⟨0, hx.symm⟩

theorem Map1.cut_edge_topo_eq (m : Map1) (d : Dart) :
    Map1.cut_edge_topo m d = CMap1.cut_edge_topo m d := by
  unfold Map1.cut_edge_topo CMap1.cut_edge_topo
  rw [Map1.add_dart_eq]
  rfl

theorem Map1.add_cycle_topo_loop_eq (d : Dart) (n : Nat) (m : Map1) :
    Map1.add_cycle_topo_loop d n m = CMap1.add_face_topo_loop d n m := by
  induction n generalizing m with
  | zero => rfl
  | succ n ih =>
    unfold Map1.add_cycle_topo_loop CMap1.add_face_topo_loop
    rw [Map1.cut_edge_topo_eq]
    cases CMap1.cut_edge_topo m d with
    | none => rfl
    | some r => exact ih r.1

theorem Map1.add_cycle_topo_eq (m : Map1) (n : Nat) :
    Map1.add_cycle_topo m n = CMap1.add_face_topo m n := by
  unfold Map1.add_cycle_topo CMap1.add_face_topo
  rw [Map1.add_dart_eq]
  by_cases hn : n > 0
  · simp only [hn, if_true]
    cases CMap1.add_dart_internal m with
    | none => rfl
    | some r => simp only [Map1.add_cycle_topo_loop_eq]; rfl
  · simp only [hn, if_false]

/-! ## Building a face -/

theorem cycle_length_iterate_nodup {α : Type} (phi : α → α) (d : α) (n : Nat)
    (hc : cycle_length phi d n) : (List.iterate phi d n).Nodup := by
  obtain ⟨_, hn, hmin⟩ := hc
  rw [← List.range_map_iterate]
  apply List.Nodup.map_on _ (List.nodup_range n)
  intro i hi j hj hij
  rw [List.mem_range] at hi hj
  rcases Nat.le_total i j with hle | hle
  · exact iterate_inj_of_cycle phi d n hn hmin i j hle hj hij
  · exact (iterate_inj_of_cycle phi d n hn hmin j i hle hi hij.symm).symm

theorem cycle_length_mem_iterate {α : Type} (phi : α → α) (d : α) (n : Nat)
    (hc : cycle_length phi d n) (x : α) :
    x ∈ List.iterate phi d n ↔ ∃ k, phi^[k] d = x := by
  obtain ⟨h0, hn, _⟩ := hc
  rw [List.mem_iterate]
  constructor
  · rintro ⟨k, _, hk⟩; exact ⟨k, hk.symm⟩
  · rintro ⟨k, hk⟩
    exact ⟨k % n, Nat.mod_lt _ h0, by rw [iterate_mod_of_period phi d n hn k, hk]⟩

theorem CMap1.add_face_topo_loop_spec (m0 : CMap1) (d : Dart) :
    ∀ (n : Nat) (m : CMap1) (k : Nat),
      m.topology_.well_formed 1 →
      m.topology_.nb_max_lines_ + n < UINT32_RANGE →
      m.is_cycle_length d k →
      (∀ x, m.in_cycle d x → ¬ m0.is_dart x) →
      (∀ x, m.is_dart x ↔ (m0.is_dart x ∨ m.in_cycle d x)) →
      (∀ x, m0.is_dart x → m.phi1 x = m0.phi1 x ∧ m.phi_1 x = m0.phi_1 x) →
      ∃ m2, CMap1.add_face_topo_loop d n m = some m2 ∧
        m2.topology_.well_formed 1 ∧
        m2.topology_.nb_used_lines_ = m.topology_.nb_used_lines_ + n ∧
        m2.topology_.nb_max_lines_ ≤ m.topology_.nb_max_lines_ + n ∧
        m2.is_cycle_length d (k + n) ∧
        (∀ x, m2.in_cycle d x → ¬ m0.is_dart x) ∧
        (∀ x, m2.is_dart x ↔ (m0.is_dart x ∨ m2.in_cycle d x)) ∧
        (∀ x, m0.is_dart x → m2.phi1 x = m0.phi1 x ∧ m2.phi_1 x = m0.phi_1 x) := by
  intro n
  induction n with
  | zero =>
    intro m k hwf _ hcyc hnew hdarts hold
    exact ⟨m, rfl, hwf, rfl, le_rfl, hcyc, hnew, hdarts, hold⟩
  | succ n ih =>
    intro m k hwf hcap hcyc hnew hdarts hold
    have hlive : ∀ x, m.in_cycle d x → m.is_dart x :=
      fun x hx => (hdarts x).2 (Or.inr hx)
    obtain ⟨ma, e, hcut, hfresh, hda, _, _, _, _, hphi, hphi_1, hlen, horb, hcont⟩ :=
      CMap1.cut_edge_topo_spec m d k hwf hcyc hlive
    obtain ⟨hwfa, huseda, hmaxa⟩ := hcont (by omega)
    have he0 : ¬ m0.is_dart e := fun h => hfresh ((hdarts e).2 (Or.inl h))
    have hd_in : m.in_cycle d d := ⟨0, rfl⟩
    have hf_in : m.in_cycle d (m.phi1 d) := ⟨1, rfl⟩
    have hnewa : ∀ x, ma.in_cycle d x → ¬ m0.is_dart x := by
      intro x hx
      rcases (horb x).1 hx with h | h
      · exact hnew x h
      · rw [h]; exact he0
    have hdartsa : ∀ x, ma.is_dart x ↔ (m0.is_dart x ∨ ma.in_cycle d x) := by
      intro x
      rw [hda x, hdarts x, horb x, or_assoc]
    have holda : ∀ x, m0.is_dart x → ma.phi1 x = m0.phi1 x ∧ ma.phi_1 x = m0.phi_1 x := by
      intro x hx
      have hxe : x ≠ e := fun h => he0 (h ▸ hx)
      have hxd : x ≠ d := fun h => hnew d hd_in (h ▸ hx)
      have hxf : x ≠ m.phi1 d := fun h => hnew _ hf_in (h ▸ hx)
      rw [hphi x hxd hxe, hphi_1 x hxe hxf]
      exact hold x hx
    obtain ⟨m2, hloop, hwf2, hused2, hmax2, hlen2, hnew2, hdarts2, hold2⟩ :=
      ih ma (k + 1) hwfa (by omega) hlen hnewa hdartsa holda
    refine ⟨m2, ?_, hwf2, by omega, by omega, ?_, hnew2, hdarts2, hold2⟩
    · simp only [CMap1.add_face_topo_loop, hcut]
      exact hloop
    · have : k + (n + 1) = k + 1 + n := by omega
      rw [this]; exact hlen2

/-! ## Facts about the example maps -/

theorem example_container_well_formed : example_container.well_formed 1 := by
  refine ⟨by decide, ?_, ?_, ?_, ?_⟩
  · intro h hmem; simp [example_container] at hmem
  · simp [example_container]
  · intro i hi
    have hi' : 4 ≤ i := hi
    show (if i < 4 then 1 else 0) = 0
    rw [if_neg (by omega)]
  · rfl

theorem example_map_is_dart (x : Dart) : example_map.is_dart x ↔ x.index < 4 := by
  rw [CMap1.is_dart_iff]
  show (if x.index < 4 then 1 else 0) ≠ 0 ↔ _
  by_cases h : x.index < 4 <;> simp [h]

theorem example_map_inverse_on : example_map.inverse_on (fun x => x.index < 4) := by
  rintro ⟨i⟩ hi
  have hi' : i < 4 := hi
  interval_cases i <;> simp [CMap1.phi1, CMap1.phi_1, example_map]

theorem example_map_permutation : example_map.phi1_is_permutation := by
  refine ⟨?_, ?_, ?_⟩
  · intro x hx; exact (example_map_is_dart x).1 hx
  · rintro ⟨i⟩ hx
    rw [example_map_is_dart] at hx ⊢
    have hi : i < 4 := hx
    interval_cases i <;> simp [CMap1.phi1, example_map]
  · rintro ⟨i⟩ ⟨j⟩ hx hy h
    rw [example_map_is_dart] at hx hy
    have hi : i < 4 := hx
    have hj : j < 4 := hy
    interval_cases i <;> interval_cases j <;>
      simp [CMap1.phi1, example_map] at h ⊢

/-! ## Properties of the sewing primitives of the 1D kernel -/

/-- Claim C2: if `phi_1` is the two-sided inverse of `phi1` on the set `S` of
darts (with `phi1` and `phi_1` mapping `S` to itself), the same holds after
`phi1_sew(d, e)` for every pair of darts `d`, `e` of `S`, and after
`phi1_unsew(d)` for every dart `d` of `S`. -/
theorem phi1_sew_unsew_keep_inverse (m : CMap1) (S : Dart → Prop)
    (h : m.inverse_on S) :
    (∀ d e, S d → S e → (m.phi1_sew d e).inverse_on S) ∧
    (∀ d, S d → (m.phi1_unsew d).inverse_on S) :=
  ⟨fun d e hd he => CMap1.phi1_sew_inverse_on m S h d e hd he,
   fun d hd => CMap1.phi1_unsew_inverse_on m S h d hd⟩

/-- Witness of C2 on the example map, with its four darts as the set `S`. -/
theorem phi1_sew_unsew_keep_inverse_witness :
    example_map.inverse_on (fun x => x.index < 4) ∧
    ((∀ d e : Dart, d.index < 4 → e.index < 4 →
        (example_map.phi1_sew d e).inverse_on (fun x => x.index < 4)) ∧
      (∀ d : Dart, d.index < 4 →
        (example_map.phi1_unsew d).inverse_on (fun x => x.index < 4))) :=
  ⟨example_map_inverse_on,
   phi1_sew_unsew_keep_inverse example_map (fun x => x.index < 4) example_map_inverse_on⟩

/-- Claim C3: in a map where `phi1` is a permutation of the darts, for distinct
darts `d` and `e` with cycles of lengths `nd` and `ne`: if `e` is not in the
phi1-cycle of `d`, then after `phi1_sew(d, e)` the phi1-cycle of `d` is the
union of the two former cycles and its length is `nd + ne`; if `e` is in the
phi1-cycle of `d`, then after `phi1_sew(d, e)` the cycles of `d` and `e` are
disjoint and together contain exactly the darts of the former cycle (their
lengths add up to `nd`). -/
theorem phi1_sew_merges_or_splits (m : CMap1) (d e : Dart)
    (hperm : m.phi1_is_permutation) (hd : m.is_dart d) (he : m.is_dart e)
    (hde : d ≠ e) :
    ∃ nd ne, m.is_cycle_length d nd ∧ m.is_cycle_length e ne ∧
      (¬ m.in_cycle d e →
        (m.phi1_sew d e).is_cycle_length d (nd + ne) ∧
        ∀ x, (m.phi1_sew d e).in_cycle d x ↔ (m.in_cycle d x ∨ m.in_cycle e x)) ∧
      (m.in_cycle d e →
        (∀ x, ¬ ((m.phi1_sew d e).in_cycle d x ∧ (m.phi1_sew d e).in_cycle e x)) ∧
        (∀ x, m.in_cycle d x ↔
          ((m.phi1_sew d e).in_cycle d x ∨ (m.phi1_sew d e).in_cycle e x)) ∧
        ∃ j, 0 < j ∧ j < nd ∧ (m.phi1_sew d e).is_cycle_length d (nd - j) ∧
          (m.phi1_sew d e).is_cycle_length e j) := by
  obtain ⟨hb, hc, hi⟩ := hperm
  obtain ⟨nd, hnd⟩ := cycle_length_of_injective_on m.phi1 m.is_dart Dart.index
    m.topology_.nb_max_lines_ (fun x y h => (Dart.eq_iff_index x y).2 h) hb hc hi d hd
  obtain ⟨ne, hne⟩ := cycle_length_of_injective_on m.phi1 m.is_dart Dart.index
    m.topology_.nb_max_lines_ (fun x y h => (Dart.eq_iff_index x y).2 h) hb hc hi e he
  have hphi := CMap1.phi1_sew_phi1 m d e
  refine ⟨nd, ne, hnd, hne, ?_, ?_⟩
  · intro hnot
    exact sew_merge_cycle m.phi1 (m.phi1_sew d e).phi1 d e hphi hde nd ne hnd hne
      (fun k hk => hnot ⟨k, hk⟩)
  · intro hin
    obtain ⟨hj, hdisj, hunion⟩ :=
      sew_split_cycle m.phi1 (m.phi1_sew d e).phi1 d e hphi hde nd hnd hin
    exact ⟨hdisj, hunion, hj⟩

/-- Witness of C3 on the example map: the darts `0` (in the face of three
darts) and `3` (isolated). -/
theorem phi1_sew_merges_or_splits_witness :
    example_map.phi1_is_permutation ∧ example_map.is_dart ⟨0⟩ ∧
    example_map.is_dart ⟨3⟩ ∧ (⟨0⟩ : Dart) ≠ ⟨3⟩ ∧
    ∃ nd ne, example_map.is_cycle_length ⟨0⟩ nd ∧ example_map.is_cycle_length ⟨3⟩ ne ∧
      (¬ example_map.in_cycle ⟨0⟩ ⟨3⟩ →
        (example_map.phi1_sew ⟨0⟩ ⟨3⟩).is_cycle_length ⟨0⟩ (nd + ne) ∧
        ∀ x, (example_map.phi1_sew ⟨0⟩ ⟨3⟩).in_cycle ⟨0⟩ x ↔
          (example_map.in_cycle ⟨0⟩ x ∨ example_map.in_cycle ⟨3⟩ x)) ∧
      (example_map.in_cycle ⟨0⟩ ⟨3⟩ →
        (∀ x, ¬ ((example_map.phi1_sew ⟨0⟩ ⟨3⟩).in_cycle ⟨0⟩ x ∧
          (example_map.phi1_sew ⟨0⟩ ⟨3⟩).in_cycle ⟨3⟩ x)) ∧
        (∀ x, example_map.in_cycle ⟨0⟩ x ↔
          ((example_map.phi1_sew ⟨0⟩ ⟨3⟩).in_cycle ⟨0⟩ x ∨
            (example_map.phi1_sew ⟨0⟩ ⟨3⟩).in_cycle ⟨3⟩ x)) ∧
        ∃ j, 0 < j ∧ j < nd ∧
          (example_map.phi1_sew ⟨0⟩ ⟨3⟩).is_cycle_length ⟨0⟩ (nd - j) ∧
          (example_map.phi1_sew ⟨0⟩ ⟨3⟩).is_cycle_length ⟨3⟩ j) :=
  ⟨example_map_permutation, (example_map_is_dart ⟨0⟩).2 (by decide),
   (example_map_is_dart ⟨3⟩).2 (by decide), by decide,
   phi1_sew_merges_or_splits example_map ⟨0⟩ ⟨3⟩ example_map_permutation
     ((example_map_is_dart ⟨0⟩).2 (by decide)) ((example_map_is_dart ⟨3⟩).2 (by decide))
     (by decide)⟩

/-- Claim C4: in a map where `phi_1` is the inverse of `phi1` on the set `S` of
darts, for every dart `d` of `S` with `e = phi1(d)` and `f = phi1(e)` read
before the call, `phi1_unsew(d)` leaves `phi1(d) = f`, `phi1(e) = e`,
`phi_1(f) = d` and `phi_1(e) = e`, and `phi1` of every dart other than `d` and
`e` is unchanged; this holds for the primitive of `CMap1_T` and for the one of
`Map1`. -/
theorem phi1_unsew_relation (m : CMap1) (S : Dart → Prop) (h : m.inverse_on S)
    (d : Dart) (hd : S d) :
    ((m.phi1_unsew d).phi1 d = m.phi1 (m.phi1 d) ∧
      (m.phi1_unsew d).phi1 (m.phi1 d) = m.phi1 d ∧
      (m.phi1_unsew d).phi_1 (m.phi1 (m.phi1 d)) = d ∧
      (m.phi1_unsew d).phi_1 (m.phi1 d) = m.phi1 d ∧
      ∀ x, x ≠ d → x ≠ m.phi1 d → (m.phi1_unsew d).phi1 x = m.phi1 x) ∧
    (Map1.phi1 (Map1.phi1_unsew m d) d = Map1.phi1 m (Map1.phi1 m d) ∧
      Map1.phi1 (Map1.phi1_unsew m d) (Map1.phi1 m d) = Map1.phi1 m d ∧
      Map1.phi_1 (Map1.phi1_unsew m d) (Map1.phi1 m (Map1.phi1 m d)) = d ∧
      Map1.phi_1 (Map1.phi1_unsew m d) (Map1.phi1 m d) = Map1.phi1 m d ∧
      ∀ x, x ≠ d → x ≠ Map1.phi1 m d →
        Map1.phi1 (Map1.phi1_unsew m d) x = Map1.phi1 m x) := by
  have he : S (m.phi1 d) := (h d hd).1
  have key : (m.phi1_unsew d).phi1 d = m.phi1 (m.phi1 d) ∧
      (m.phi1_unsew d).phi1 (m.phi1 d) = m.phi1 d ∧
      (m.phi1_unsew d).phi_1 (m.phi1 (m.phi1 d)) = d ∧
      (m.phi1_unsew d).phi_1 (m.phi1 d) = m.phi1 d ∧
      ∀ x, x ≠ d → x ≠ m.phi1 d → (m.phi1_unsew d).phi1 x = m.phi1 x := by
    refine ⟨?_, ?_, ?_, ?_, ?_⟩
    · rw [CMap1.phi1_unsew_phi1]
      by_cases hde : d = m.phi1 d
      · rw [if_pos hde, ← hde, ← hde]
      · rw [if_neg hde, if_pos rfl]
    · rw [CMap1.phi1_unsew_phi1, if_pos rfl]
    · rw [CMap1.phi1_unsew_phi_1]
      by_cases hfe : m.phi1 (m.phi1 d) = m.phi1 d
      · have hed : m.phi1 d = d := (CMap1.inverse_on_phi1_inj m S h _ _ he hd).1 hfe
        rw [if_pos hfe, hed]
      · rw [if_neg hfe, if_pos rfl]
    · rw [CMap1.phi1_unsew_phi_1, if_pos rfl]
    · intro x hxd hxe
      rw [CMap1.phi1_unsew_phi1, if_neg hxe, if_neg hxd]
  exact ⟨key, key⟩

/-- Witness of C4 on the example map: unsewing after the dart `0`. -/
theorem phi1_unsew_relation_witness :
    example_map.inverse_on (fun x => x.index < 4) ∧
    (example_map.phi1_unsew ⟨0⟩).phi1 ⟨0⟩ = ⟨2⟩ ∧
    (example_map.phi1_unsew ⟨0⟩).phi1 ⟨1⟩ = ⟨1⟩ ∧
    (example_map.phi1_unsew ⟨0⟩).phi_1 ⟨2⟩ = ⟨0⟩ ∧
    (example_map.phi1_unsew ⟨0⟩).phi_1 ⟨1⟩ = ⟨1⟩ :=
  have h := (phi1_unsew_relation example_map (fun x => x.index < 4)
    example_map_inverse_on ⟨0⟩ (by decide)).1
  ⟨example_map_inverse_on, h.1, h.2.1, h.2.2.1, h.2.2.2.1⟩

/-! ## Properties of the involutions `phi2` and `phi3` -/

theorem CMap3.phi3_update (m : CMap3) (a b va vb x : Dart) (t : CMap2) :
    CMap3.phi3
      { toCMap2 := t
        phi3_ := Function.update (Function.update m.phi3_ a.index va) b.index vb } x =
      if x = b then vb else if x = a then va else m.phi3 x := by
  simp only [CMap3.phi3, Function.update_apply, Dart.eq_iff_index]

theorem CMap2.phi2_update (m : CMap2) (a b va vb x : Dart) (t : CMap1) :
    CMap2.phi2
      { toCMap1 := t
        phi2_ := Function.update (Function.update m.phi2_ a.index va) b.index vb } x =
      if x = b then vb else if x = a then va else m.phi2 x := by
  simp only [CMap2.phi2, Function.update_apply, Dart.eq_iff_index]

theorem CMap3.phi3_sew_some (m : CMap3) (d e : Dart) (hd : m.phi3 d = d)
    (he : m.phi3 e = e) :
    m.phi3_sew d e = some { m with
      phi3_ := Function.update (Function.update m.phi3_ d.index e) e.index d } := by
  simp only [CMap3.phi3_sew, hd, he, if_true]

theorem CMap3.phi3_unsew_phi3 (m : CMap3) (d x : Dart) :
    (m.phi3_unsew d).phi3 x =
      if x = m.phi3 d then m.phi3 d else if x = d then d else m.phi3 x := by
  unfold CMap3.phi3_unsew
  exact CMap3.phi3_update m d (m.phi3 d) d (m.phi3 d) x m.toCMap2

/-- Claim C5: `phi3_sew(d, e)` succeeds exactly when `phi3(d) = d` and
`phi3(e) = e` (otherwise an assertion fails and no map is produced); when it
succeeds, `phi3(d) = e` and `phi3(e) = d` afterwards, `phi3` of every other
dart is unchanged, the other relations are untouched, and if `phi3` was an
involution on a set `S` of darts before, it is one on `S` after. -/
theorem phi3_sew_spec (m : CMap3) (d e : Dart) :
    ((m.phi3_sew d e).isSome = true ↔ (m.phi3 d = d ∧ m.phi3 e = e)) ∧
    ∀ m1, m.phi3_sew d e = some m1 →
      m1.phi3 d = e ∧ m1.phi3 e = d ∧
      (∀ x, x ≠ d → x ≠ e → m1.phi3 x = m.phi3 x) ∧
      m1.toCMap2 = m.toCMap2 ∧
      ∀ S : Dart → Prop, (∀ x, S x → m.phi3 (m.phi3 x) = x) →
        ∀ x, S x → m1.phi3 (m1.phi3 x) = x := by
  constructor
  · unfold CMap3.phi3_sew
    by_cases hd : m.phi3 d = d
    · by_cases he : m.phi3 e = e
      · simp [hd, he]
      · simp [hd, he]
    · simp [hd]
  · intro m1 hm1
    have hpre : m.phi3 d = d ∧ m.phi3 e = e := by
      unfold CMap3.phi3_sew at hm1
      by_cases hd : m.phi3 d = d
      · by_cases he : m.phi3 e = e
        · exact ⟨hd, he⟩
        · simp [hd, he] at hm1
      · simp [hd] at hm1
    obtain ⟨hd, he⟩ := hpre
    rw [CMap3.phi3_sew_some m d e hd he] at hm1
    have hm1' := (Option.some.inj hm1).symm
    have hphi : ∀ x, m1.phi3 x = if x = e then d else if x = d then e else m.phi3 x := by
      intro x; rw [hm1']; exact CMap3.phi3_update m d e e d x m.toCMap2
    refine ⟨?_, ?_, ?_, ?_, ?_⟩
    · rw [hphi]
      by_cases hde : d = e
      · rw [if_pos hde]; exact hde
      · rw [if_neg hde, if_pos rfl]
    · rw [hphi, if_pos rfl]
    · intro x hxd hxe
      rw [hphi, if_neg hxe, if_neg hxd]
    · rw [hm1']
    · intro S hS x hx
      by_cases hxe : x = e
      · rw [hxe, hphi e, if_pos rfl, hphi d]
        by_cases hde : d = e
        · rw [if_pos hde]; exact hde
        · rw [if_neg hde, if_pos rfl]
      · by_cases hxd : x = d
        · rw [hxd, hphi d, if_neg (fun h => hxe (hxd.trans h)), if_pos rfl, hphi e,
            if_pos rfl]
        · have h1 : m.phi3 x ≠ e := by
            intro hh
            apply hxe
            rw [← hS x hx, hh, he]
          have h2 : m.phi3 x ≠ d := by
            intro hh
            apply hxd
            rw [← hS x hx, hh, hd]
          rw [hphi x, if_neg hxe, if_neg hxd, hphi, if_neg h1, if_neg h2]
          exact hS x hx

/-- Claim C6: for every dart `d` with partner `e = phi3(d)`, `phi3_unsew(d)`
leaves `phi3(d) = d` and `phi3(e) = e` and changes `phi3` of no other dart;
and for darts `d`, `e` that are fixed points of `phi3`, `phi3_sew(d, e)`
followed by `phi3_unsew(d)` gives back the map as it was before the sew. -/
theorem phi3_unsew_spec (m : CMap3) (d e : Dart) :
    ((m.phi3_unsew d).phi3 d = d ∧
      (m.phi3_unsew d).phi3 (m.phi3 d) = m.phi3 d ∧
      (∀ x, x ≠ d → x ≠ m.phi3 d → (m.phi3_unsew d).phi3 x = m.phi3 x)) ∧
    (m.phi3 d = d → m.phi3 e = e →
      ∃ m1, m.phi3_sew d e = some m1 ∧ m1.phi3_unsew d = m) := by
  constructor
  · refine ⟨?_, ?_, ?_⟩
    · rw [CMap3.phi3_unsew_phi3]
      by_cases h : d = m.phi3 d
      · rw [if_pos h]; exact h.symm
      · rw [if_neg h, if_pos rfl]
    · rw [CMap3.phi3_unsew_phi3, if_pos rfl]
    · intro x hxd hxe
      rw [CMap3.phi3_unsew_phi3, if_neg hxe, if_neg hxd]
  · intro hd he
    refine ⟨_, CMap3.phi3_sew_some m d e hd he, ?_⟩
    have hfun : Function.update (Function.update
        (Function.update (Function.update m.phi3_ d.index e) e.index d) d.index d)
        (CMap3.phi3 { m with
          phi3_ := Function.update (Function.update m.phi3_ d.index e) e.index d } d).index
        (CMap3.phi3 { m with
          phi3_ := Function.update (Function.update m.phi3_ d.index e) e.index d } d)
        = m.phi3_ := by
      have hd' : m.phi3_ d.index = d := hd
      have he' : m.phi3_ e.index = e := he
      funext i
      simp only [CMap3.phi3, Function.update_apply]
      by_cases hde : d.index = e.index
      · have hdeq : d = e := (Dart.eq_iff_index d e).2 hde
        subst hdeq
        by_cases hi : i = d.index
        · subst hi; simp [hd']
        · simp [hi]
      · by_cases hi : i = d.index
        · subst hi; simp [hde, hd']
        · by_cases hi2 : i = e.index
          · subst hi2; simp [hde, he']
          · simp [hi, hi2, hde]
    unfold CMap3.phi3_unsew
    cases m with
    | mk t p3 => simp only at hfun ⊢; rw [hfun]

/-- Witness of C6 on the example 3D map: the darts `0` and `1` are fixed
points of `phi3`; sewing them and unsewing `0` gives back the map. -/
theorem phi3_unsew_spec_witness :
    example_map3.phi3 ⟨0⟩ = ⟨0⟩ ∧ example_map3.phi3 ⟨1⟩ = ⟨1⟩ ∧
    ∃ m1, example_map3.phi3_sew ⟨0⟩ ⟨1⟩ = some m1 ∧ m1.phi3_unsew ⟨0⟩ = example_map3 :=
  ⟨by decide, by decide, (phi3_unsew_spec example_map3 ⟨0⟩ ⟨1⟩).2 (by decide) (by decide)⟩

theorem CMap2.phi2_sew_some (m : CMap2) (d e : Dart) (hd : m.phi2 d = d)
    (he : m.phi2 e = e) :
    m.phi2_sew d e = some { m with
      phi2_ := Function.update (Function.update m.phi2_ d.index e) e.index d } := by
  simp only [CMap2.phi2_sew, hd, he, if_true]

theorem CMap2.phi2_unsew_phi2 (m : CMap2) (d x : Dart) :
    (m.phi2_unsew d).phi2 x =
      if x = m.phi2 d then m.phi2 d else if x = d then d else m.phi2 x := by
  unfold CMap2.phi2_unsew
  exact CMap2.phi2_update m d (m.phi2 d) d (m.phi2 d) x m.toCMap1

/-- Claim C7: for every dart `d0` with `d2 = phi2(d0)`, `phi2_unsew(d0)` leaves
`phi2(d0) = d0` and `phi2(d2) = d2`; and for every two darts `d0`, `e0` that
are fixed points of `phi2`, `phi2_sew(d0, e0)` succeeds and leaves
`phi2(d0) = e0` and `phi2(e0) = d0`, and `phi2_unsew(d0)` applied right after
it restores `phi2(d0) = d0` and `phi2(e0) = e0`. -/
theorem phi2_sew_unsew (m : CMap2) (d0 e0 : Dart) :
    ((m.phi2_unsew d0).phi2 d0 = d0 ∧
      (m.phi2_unsew d0).phi2 (m.phi2 d0) = m.phi2 d0) ∧
    (m.phi2 d0 = d0 → m.phi2 e0 = e0 →
      ∃ m1, m.phi2_sew d0 e0 = some m1 ∧
        m1.phi2 d0 = e0 ∧ m1.phi2 e0 = d0 ∧
        (m1.phi2_unsew d0).phi2 d0 = d0 ∧ (m1.phi2_unsew d0).phi2 e0 = e0) := by
  have hunsew : ∀ (m' : CMap2) (d : Dart), (m'.phi2_unsew d).phi2 d = d ∧
      (m'.phi2_unsew d).phi2 (m'.phi2 d) = m'.phi2 d := by
    intro m' d
    constructor
    · rw [CMap2.phi2_unsew_phi2]
      by_cases h : d = m'.phi2 d
      · rw [if_pos h]; exact h.symm
      · rw [if_neg h, if_pos rfl]
    · rw [CMap2.phi2_unsew_phi2, if_pos rfl]
  refine ⟨hunsew m d0, ?_⟩
  intro hd he
  have hphi : ∀ x, CMap2.phi2 { m with
      phi2_ := Function.update (Function.update m.phi2_ d0.index e0) e0.index d0 } x =
      if x = e0 then d0 else if x = d0 then e0 else m.phi2 x :=
    fun x => CMap2.phi2_update m d0 e0 e0 d0 x m.toCMap1
  have h1 : CMap2.phi2 { m with
      phi2_ := Function.update (Function.update m.phi2_ d0.index e0) e0.index d0 } d0 = e0 := by
    rw [hphi]
    by_cases hde : d0 = e0
    · rw [if_pos hde]; exact hde
    · rw [if_neg hde, if_pos rfl]
  refine ⟨_, CMap2.phi2_sew_some m d0 e0 hd he, h1, ?_, (hunsew _ d0).1, ?_⟩
  · rw [hphi, if_pos rfl]
  · have h2 := (hunsew { m with
      phi2_ := Function.update (Function.update m.phi2_ d0.index e0) e0.index d0 } d0).2
    rw [h1] at h2
    exact h2

/-- Witness of C7 on the example 2D map: the darts `2` and `3` are fixed
points of `phi2`. -/
theorem phi2_sew_unsew_witness :
    example_map2.phi2 ⟨2⟩ = ⟨2⟩ ∧ example_map2.phi2 ⟨3⟩ = ⟨3⟩ ∧
    ∃ m1, example_map2.phi2_sew ⟨2⟩ ⟨3⟩ = some m1 ∧
      m1.phi2 ⟨2⟩ = ⟨3⟩ ∧ m1.phi2 ⟨3⟩ = ⟨2⟩ ∧
      (m1.phi2_unsew ⟨2⟩).phi2 ⟨2⟩ = ⟨2⟩ ∧ (m1.phi2_unsew ⟨2⟩).phi2 ⟨3⟩ = ⟨3⟩ :=
  ⟨by decide, by decide, (phi2_sew_unsew example_map2 ⟨2⟩ ⟨3⟩).2 (by decide) (by decide)⟩

/-! ## Dart creation -/

/-- Claim C8: a dart returned by dart creation is a fixed point of every
relation of its level, and the relations of all other darts, in particular of
all previously existing darts, are unchanged: `add_dart_internal` of `CMap1_T`
and `add_dart` of `Map1`, on a well-formed topology container, return a dart
`d` that was not live, with `phi1(d) = d` and `phi_1(d) = d`; `init_dart(d)`
of `CMap3_T` leaves `phi1(d) = d`, `phi_1(d) = d`, `phi2(d) = d` and
`phi3(d) = d`. -/
theorem add_dart_fixed_point (m : CMap1) (hwf : m.topology_.well_formed 1) :
    (∃ m1 d, m.add_dart_internal = some (m1, d) ∧ Map1.add_dart m = some (m1, d) ∧
      ¬ m.is_dart d ∧ m1.is_dart d ∧
      m1.phi1 d = d ∧ m1.phi_1 d = d ∧
      (∀ x, x ≠ d → m1.phi1 x = m.phi1 x ∧ m1.phi_1 x = m.phi_1 x) ∧
      (∀ x, m.is_dart x → m1.is_dart x ∧ m1.phi1 x = m.phi1 x ∧ m1.phi_1 x = m.phi_1 x)) ∧
    (∀ (m3 : CMap3) (d : Dart),
      (m3.init_dart d).phi1 d = d ∧ (m3.init_dart d).phi_1 d = d ∧
      (m3.init_dart d).phi2 d = d ∧ (m3.init_dart d).phi3 d = d ∧
      ∀ x, x ≠ d →
        (m3.init_dart d).phi1 x = m3.phi1 x ∧ (m3.init_dart d).phi_1 x = m3.phi_1 x ∧
        (m3.init_dart d).phi2 x = m3.phi2 x ∧ (m3.init_dart d).phi3 x = m3.phi3 x) := by
  constructor
  · obtain ⟨m1, d, hadd, hfresh, hdarts, hp1, hp_1, _⟩ := CMap1.add_dart_internal_spec m hwf
    have hphi : ∀ x, m1.phi1 x = if x = d then d else m.phi1 x := by
      intro x
      simp only [CMap1.phi1, hp1, Function.update_apply, Dart.eq_iff_index]
    have hphi_1 : ∀ x, m1.phi_1 x = if x = d then d else m.phi_1 x := by
      intro x
      simp only [CMap1.phi_1, hp_1, Function.update_apply, Dart.eq_iff_index]
    have hother : ∀ x, x ≠ d → m1.phi1 x = m.phi1 x ∧ m1.phi_1 x = m.phi_1 x := by
      intro x hx
      rw [hphi, hphi_1, if_neg hx, if_neg hx]
      exact ⟨rfl, rfl⟩
    refine ⟨m1, d, hadd, by rw [Map1.add_dart_eq]; exact hadd, hfresh,
      (hdarts d).2 (Or.inr rfl), by rw [hphi, if_pos rfl], by rw [hphi_1, if_pos rfl],
      hother, ?_⟩
    intro x hx
    have hxd : x ≠ d := fun h => hfresh (h ▸ hx)
    exact ⟨(hdarts x).2 (Or.inl hx), hother x hxd⟩
  · intro m3 d
    refine ⟨?_, ?_, ?_, ?_, ?_⟩
    · simp [CMap3.init_dart, CMap2.init_dart, CMap1.phi1]
    · simp [CMap3.init_dart, CMap2.init_dart, CMap1.phi_1]
    · simp [CMap3.init_dart, CMap2.init_dart, CMap2.phi2]
    · simp [CMap3.init_dart, CMap3.phi3]
    · intro x hx
      have hne : x.index ≠ d.index := fun h => hx ((Dart.eq_iff_index x d).2 h)
      refine ⟨?_, ?_, ?_, ?_⟩
      · simp [CMap3.init_dart, CMap2.init_dart, CMap1.phi1, hne]
      · simp [CMap3.init_dart, CMap2.init_dart, CMap1.phi_1, hne]
      · simp [CMap3.init_dart, CMap2.init_dart, CMap2.phi2, hne]
      · simp [CMap3.init_dart, CMap3.phi3, hne]

/-- Witness of C8: dart creation in the example map returns the dart `4`. -/
theorem add_dart_fixed_point_witness :
    example_map.topology_.well_formed 1 ∧
    ∃ m1 d, example_map.add_dart_internal = some (m1, d) ∧
      Map1.add_dart example_map = some (m1, d) ∧
      ¬ example_map.is_dart d ∧ m1.is_dart d ∧
      m1.phi1 d = d ∧ m1.phi_1 d = d ∧
      (∀ x, x ≠ d → m1.phi1 x = example_map.phi1 x ∧ m1.phi_1 x = example_map.phi_1 x) ∧
      (∀ x, example_map.is_dart x →
        m1.is_dart x ∧ m1.phi1 x = example_map.phi1 x ∧ m1.phi_1 x = example_map.phi_1 x) :=
  ⟨example_container_well_formed,
   (add_dart_fixed_point example_map example_container_well_formed).1⟩

theorem empty_container_well_formed : empty_container.well_formed 1 := by
  refine ⟨by decide, ?_, ?_, ?_, ?_⟩
  · intro h hmem; simp [empty_container] at hmem
  · simp [empty_container]
  · intro i _; rfl
  · rfl

/-! ## Faces: `add_face_topo` and `cut_edge_topo` -/

/-- Claim C9: for every size `n > 0`, on a well-formed topology container with
room for `n` more lines, `add_face_topo(n)` (and `add_cycle_topo(n)` of
`Map1`) succeeds and adds exactly `n` darts to the map: the darts
`d, phi1(d), ..., phi1^(n-1)(d)` from the returned dart `d` are pairwise
distinct, were not live before and are the only new live darts; they form the
phi1-cycle of `d`, of length `n`, so the degree of the returned face is `n`;
`phi1` and `phi_1` of every previously existing dart are unchanged.
`add_face_topo(0)` fails its assertion. -/
theorem add_face_topo_cycle (m : CMap1) (n : Nat) (hn : 0 < n)
    (hwf : m.topology_.well_formed 1)
    (hcap : m.topology_.nb_max_lines_ + n < UINT32_RANGE) :
    (∃ m2 d, m.add_face_topo n = some (m2, d) ∧
      Map1.add_cycle_topo m n = some (m2, d) ∧
      m2.topology_.size = m.topology_.size + n ∧
      (List.iterate m2.phi1 d n).length = n ∧
      (List.iterate m2.phi1 d n).Nodup ∧
      (∀ x, x ∈ List.iterate m2.phi1 d n → ¬ m.is_dart x) ∧
      (∀ x, m2.is_dart x ↔ (m.is_dart x ∨ x ∈ List.iterate m2.phi1 d n)) ∧
      (∀ x, m2.in_cycle d x ↔ x ∈ List.iterate m2.phi1 d n) ∧
      m2.is_cycle_length d n ∧
      (∀ fuel, n ≤ fuel → m2.degree d fuel = some n) ∧
      (∀ x, m.is_dart x → m2.phi1 x = m.phi1 x ∧ m2.phi_1 x = m.phi_1 x)) ∧
    m.add_face_topo 0 = none ∧ Map1.add_cycle_topo m 0 = none := by
  refine ⟨?_, rfl, rfl⟩
  obtain ⟨m1, d, hadd, hfresh, hdarts, hp1, hp_1, hcont⟩ :=
    CMap1.add_dart_internal_spec m hwf
  obtain ⟨hwf1, hused1, hmax1⟩ := hcont (by omega)
  have hphi : ∀ x, m1.phi1 x = if x = d then d else m.phi1 x := by
    intro x
    simp only [CMap1.phi1, hp1, Function.update_apply, Dart.eq_iff_index]
  have hphi_1 : ∀ x, m1.phi_1 x = if x = d then d else m.phi_1 x := by
    intro x
    simp only [CMap1.phi_1, hp_1, Function.update_apply, Dart.eq_iff_index]
  have hfixd : m1.phi1 d = d := by rw [hphi, if_pos rfl]
  have hfix : ∀ j, (m1.phi1)^[j] d = d := fun j => Function.iterate_fixed hfixd j
  have hc1 : m1.is_cycle_length d 1 := ⟨Nat.one_pos, hfix 1, fun j hj hj0 => by omega⟩
  have hin1 : ∀ x, m1.in_cycle d x ↔ x = d := by
    intro x
    constructor
    · rintro ⟨j, hj⟩; rw [← hj, hfix j]
    · intro hx; exact ⟨0, hx.symm⟩
  obtain ⟨m2, hloop, _, hused2, _, hlen2, hnew2, hdarts2, hold2⟩ :=
    CMap1.add_face_topo_loop_spec m d (n - 1) m1 1 hwf1 (by omega) hc1
      (fun x hx => by rw [(hin1 x).1 hx]; exact hfresh)
      (fun x => by rw [hdarts x, hin1 x])
      (fun x hx => by
        have hxd : x ≠ d := fun h => hfresh (h ▸ hx)
        rw [hphi, hphi_1, if_neg hxd, if_neg hxd]
        exact ⟨rfl, rfl⟩)
  have hn1 : 1 + (n - 1) = n := by omega
  rw [hn1] at hlen2
  have hmem := cycle_length_mem_iterate m2.phi1 d n hlen2
  have hface : m.add_face_topo n = some (m2, d) := by
    simp only [CMap1.add_face_topo, hn, gt_iff_lt, if_true, hadd, hloop]
  refine ⟨m2, d, hface, by rw [Map1.add_cycle_topo_eq]; exact hface, ?_,
    List.length_iterate _ _ _, cycle_length_iterate_nodup m2.phi1 d n hlen2, ?_, ?_, ?_,
    hlen2, fun fuel hfuel => CMap1.degree_eq m2 d n hlen2 fuel hfuel, hold2⟩
  · show m2.topology_.nb_used_lines_ = m.topology_.nb_used_lines_ + n
    omega
  · intro x hx
    exact hnew2 x ((hmem x).1 hx)
  · intro x
    rw [hdarts2 x, hmem x]; rfl
  · intro x
    rw [hmem x]; rfl

/-- Witness of C9: a face of 10 darts added to the empty map. -/
theorem add_face_topo_cycle_witness :
    0 < 10 ∧ empty_map.topology_.well_formed 1 ∧
    empty_map.topology_.nb_max_lines_ + 10 < UINT32_RANGE ∧
    ∃ m2 d, empty_map.add_face_topo 10 = some (m2, d) ∧
      m2.topology_.size = 10 ∧ m2.is_cycle_length d 10 ∧
      m2.degree d 10 = some 10 :=
  have h := (add_face_topo_cycle empty_map 10 (by decide) empty_container_well_formed
    (by decide)).1
  ⟨by decide, empty_container_well_formed, by decide,
    h.elim fun m2 h2 => h2.elim fun d h3 =>
      ⟨m2, d, h3.1, by rw [h3.2.2.1]; rfl, h3.2.2.2.2.2.2.2.2.1,
        h3.2.2.2.2.2.2.2.2.2.1 10 (le_refl 10)⟩⟩

theorem CMap1.iterate_is_dart (m : CMap1) (hperm : m.phi1_is_permutation) (d : Dart)
    (hd : m.is_dart d) : ∀ x, m.in_cycle d x → m.is_dart x := by
  rintro x ⟨k, hk⟩
  rw [← hk]
  clear hk
  induction k with
  | zero => exact hd
  | succ k ih => rw [Function.iterate_succ_apply']; exact hperm.2.1 _ ih

/-- Claim C10: in a 1D map with a well-formed topology container and where
`phi1` is a permutation of the darts, for every dart `d`, whose phi1-cycle has
some length `k`, `cut_edge_topo(d)` succeeds and returns a dart `e` that was
not a live dart before the call and is one after it, with `phi1(d) = e` and
`phi1(e)` equal to the former `phi1(d)` afterwards; the length of the
phi1-cycle of `d` is `k + 1` after the call, and so is the degree of its face,
which was `k`. -/
theorem cut_edge_topo_degree (m : CMap1) (d : Dart)
    (hwf : m.topology_.well_formed 1) (hperm : m.phi1_is_permutation)
    (hd : m.is_dart d) :
    ∃ k m2 e, m.is_cycle_length d k ∧ m.cut_edge_topo d = some (m2, e) ∧
      ¬ m.is_dart e ∧ m2.is_dart e ∧
      m2.phi1 d = e ∧ m2.phi1 e = m.phi1 d ∧
      m2.is_cycle_length d (k + 1) ∧
      (∀ fuel, k ≤ fuel → m.degree d fuel = some k) ∧
      (∀ fuel, k + 1 ≤ fuel → m2.degree d fuel = some (k + 1)) := by
  obtain ⟨hb, hc, hi⟩ := hperm
  obtain ⟨k, hk⟩ := cycle_length_of_injective_on m.phi1 m.is_dart Dart.index
    m.topology_.nb_max_lines_ (fun x y h => (Dart.eq_iff_index x y).2 h) hb hc hi d hd
  obtain ⟨m2, e, hcut, hfresh, hda, h1, h2, _, _, _, _, hlen, _, _⟩ :=
    CMap1.cut_edge_topo_spec m d k hwf hk
      (CMap1.iterate_is_dart m ⟨hb, hc, hi⟩ d hd)
  exact ⟨k, m2, e, hk, hcut, hfresh, (hda e).2 (Or.inr rfl), h1, h2, hlen,
    fun fuel hfuel => CMap1.degree_eq m d k hk fuel hfuel,
    fun fuel hfuel => CMap1.degree_eq m2 d (k + 1) hlen fuel hfuel⟩

/-- Witness of C10: cutting the edge of the dart `0` of the example map. -/
theorem cut_edge_topo_degree_witness :
    example_map.topology_.well_formed 1 ∧ example_map.phi1_is_permutation ∧
    example_map.is_dart ⟨0⟩ ∧
    ∃ k m2 e, example_map.is_cycle_length ⟨0⟩ k ∧
      example_map.cut_edge_topo ⟨0⟩ = some (m2, e) ∧
      ¬ example_map.is_dart e ∧ m2.is_dart e ∧
      m2.phi1 ⟨0⟩ = e ∧ m2.phi1 e = example_map.phi1 ⟨0⟩ ∧
      m2.is_cycle_length ⟨0⟩ (k + 1) ∧
      (∀ fuel, k ≤ fuel → example_map.degree ⟨0⟩ fuel = some k) ∧
      (∀ fuel, k + 1 ≤ fuel → m2.degree ⟨0⟩ fuel = some (k + 1)) :=
  ⟨example_container_well_formed, example_map_permutation,
   (example_map_is_dart ⟨0⟩).2 (by decide),
   cut_edge_topo_degree example_map ⟨0⟩ example_container_well_formed
     example_map_permutation ((example_map_is_dart ⟨0⟩).2 (by decide))⟩


/-! ## Removal of a line and of a dart -/

theorem nodup_length_le_of_lt (l : List Nat) (N : Nat) (hnd : l.Nodup)
    (hlt : ∀ x ∈ l, x < N) : l.length ≤ N := by
  have h1 : l.toFinset ⊆ Finset.range N := by
    intro x hx
    rw [List.mem_toFinset] at hx
    exact Finset.mem_range.2 (hlt x hx)
  have h2 := Finset.card_le_card h1
  rw [List.toFinset_card_of_nodup hnd, Finset.card_range] at h2
  exact h2

theorem ChunkArrayContainer.remove_lines_one (c : ChunkArrayContainer)
    (hwf : c.well_formed 1) (idx : Nat) (hused : c.refs_ idx ≠ 0) :
    ∃ c1, c.remove_lines 1 idx = some c1 ∧
      c1.refs_ = Function.update c.refs_ idx 0 ∧
      c1.holes_stack_ = idx :: c.holes_stack_ ∧
      c1.nb_used_lines_ + 1 = c.nb_used_lines_ ∧
      c1.nb_max_lines_ = c.nb_max_lines_ ∧
      c1.well_formed 1 := by
  obtain ⟨hmax, hholes, hnodup, hbeyond, hcount⟩ := hwf
  have hidx : idx < c.nb_max_lines_ := by
    by_contra h
    exact hused (hbeyond idx (by omega))
  have hnotin : idx ∉ c.holes_stack_ := fun h => hused (hholes idx h).2
  have hnd2 : (idx :: c.holes_stack_).Nodup := List.nodup_cons.2 ⟨hnotin, hnodup⟩
  have hlen := nodup_length_le_of_lt (idx :: c.holes_stack_) c.nb_max_lines_ hnd2
    (by
      intro x hx
      rcases List.mem_cons.1 hx with h | h
      · rw [h]; exact hidx
      · exact (hholes x h).1)
  simp only [List.length_cons] at hlen
  have hu : c.used idx = true := by simp [ChunkArrayContainer.used, hused]
  have hmod : idx % UINT32_RANGE = idx := Nat.mod_eq_of_lt (by omega)
  have hnu : (c.nb_used_lines_ + (UINT32_RANGE - 1 % UINT32_RANGE)) % UINT32_RANGE
      = c.nb_used_lines_ - 1 := by
    have h1 : (1 : Nat) % UINT32_RANGE = 1 := by decide
    rw [h1]
    have h2 : c.nb_used_lines_ + (UINT32_RANGE - 1) = (c.nb_used_lines_ - 1) + UINT32_RANGE := by
      omega
    rw [h2, Nat.add_mod_right, Nat.mod_eq_of_lt (by omega)]
  refine ⟨{ c with
      holes_stack_ := idx :: c.holes_stack_
      refs_ := Function.update c.refs_ idx 0
      nb_used_lines_ := c.nb_used_lines_ - 1 }, ?_, rfl, rfl, ?_, rfl, ?_⟩
  · simp only [ChunkArrayContainer.remove_lines, Nat.div_one, Nat.mul_one, hu, if_true,
      ChunkArrayContainer.set_refs_one, hmod, hnu]
  · show c.nb_used_lines_ - 1 + 1 = c.nb_used_lines_
    omega
  · refine ⟨hmax, ?_, hnd2, ?_, ?_⟩
    · intro h hmem
      show h < c.nb_max_lines_ ∧ Function.update c.refs_ idx 0 h = 0
      rcases List.mem_cons.1 hmem with heq | hin
      · rw [heq]; exact ⟨hidx, by simp⟩
      · refine ⟨(hholes h hin).1, ?_⟩
        rw [Function.update_apply]
        split_ifs
        · rfl
        · exact (hholes h hin).2
    · intro i hi
      show Function.update c.refs_ idx 0 i = 0
      rw [Function.update_apply]
      split_ifs
      · rfl
      · exact hbeyond i hi
    · show c.nb_used_lines_ - 1 + 1 * (idx :: c.holes_stack_).length = c.nb_max_lines_
      simp only [List.length_cons]
      omega

/-- Removing a live dart from a well-formed topology container: the dart is no
longer live, the other darts and the relations are untouched. -/
theorem CMap1.remove_dart_spec (m : CMap1) (hwf : m.topology_.well_formed 1) (d : Dart)
    (hd : m.is_dart d) :
    ∃ m1, m.remove_dart d = some m1 ∧
      m1.phi1_ = m.phi1_ ∧ m1.phi_1_ = m.phi_1_ ∧
      (∀ x, m1.is_dart x ↔ (m.is_dart x ∧ x ≠ d)) ∧
      m1.topology_.holes_stack_ = d.index :: m.topology_.holes_stack_ ∧
      m1.topology_.nb_used_lines_ + 1 = m.topology_.nb_used_lines_ ∧
      m1.topology_.nb_max_lines_ = m.topology_.nb_max_lines_ ∧
      m1.topology_.well_formed 1 := by
  obtain ⟨c1, h1, h2, h3, h4, h5, h6⟩ :=
    ChunkArrayContainer.remove_lines_one m.topology_ hwf d.index ((CMap1.is_dart_iff m d).1 hd)
  refine ⟨{ m with topology_ := c1 }, ?_, rfl, rfl, ?_, h3, h4, h5, h6⟩
  · simp only [CMap1.remove_dart, h1]
  · intro x
    have hxi : x ≠ d ↔ x.index ≠ d.index := not_congr (Dart.eq_iff_index x d)
    rw [CMap1.is_dart_iff, CMap1.is_dart_iff, hxi]
    show c1.refs_ x.index ≠ 0 ↔ _
    rw [h2, Function.update_apply]
    by_cases hx : x.index = d.index
    · simp [hx]
    · simp [hx]

/-! ## Collapsing an edge -/

theorem cycle_length_unique {α : Type} (phi : α → α) (d : α) (n n' : Nat)
    (h : cycle_length phi d n) (h' : cycle_length phi d n') : n = n' := by
  obtain ⟨h0, hn, hmin⟩ := h
  obtain ⟨h0', hn', hmin'⟩ := h'
  rcases Nat.lt_trichotomy n n' with hlt | heq | hgt
  · exact absurd hn (hmin' n hlt h0)
  · exact heq
  · exact absurd hn' (hmin n' hgt h0')

theorem cycle_length_succ {α : Type} (phi : α → α) (x : α) (n : Nat)
    (h : cycle_length phi x n) : cycle_length phi (phi x) n := by
  obtain ⟨h0, hn, hmin⟩ := h
  refine ⟨h0, ?_, ?_⟩
  · rw [← Function.iterate_succ_apply, Function.iterate_succ_apply', hn]
  · intro k hk hk0 hkx
    rw [← Function.iterate_succ_apply] at hkx
    have h1 : phi^[k + 1] x = phi^[1] x := hkx
    rcases Nat.lt_or_ge (k + 1) n with hlt | hge
    · have := iterate_inj_of_cycle phi x n hn hmin 1 (k + 1) (by omega) hlt h1.symm
      omega
    · have hkn : k + 1 = n := by omega
      rw [hkn, hn] at h1
      have h2 : phi^[0] x = phi^[1] x := h1
      have := iterate_inj_of_cycle phi x n hn hmin 0 1 (by omega) (by omega) h2
      omega

theorem CMap1.inverse_on_congr (m : CMap1) (S T : Dart → Prop) (h : ∀ x, S x ↔ T x)
    (hS : m.inverse_on S) : m.inverse_on T := by
  intro x hx
  obtain ⟨h1, h2, h3, h4⟩ := hS x ((h x).2 hx)
  exact ⟨(h _).1 h1, (h _).1 h2, h3, h4⟩

theorem CMap1.permutation_of_inverse_on (m : CMap1) (hwf : m.topology_.well_formed 1)
    (hinv : m.inverse_on m.is_dart) : m.phi1_is_permutation := by
  refine ⟨?_, fun x hx => (hinv x hx).1, ?_⟩
  · intro x hx
    by_contra hge
    exact (CMap1.is_dart_iff m x).1 hx (hwf.2.2.2.1 x.index (by omega))
  · intro x y hx hy hxy
    exact (CMap1.inverse_on_phi1_inj m m.is_dart hinv x y hx hy).1 hxy

theorem CMap1.cycle_length_exists (m : CMap1) (hperm : m.phi1_is_permutation) (d : Dart)
    (hd : m.is_dart d) : ∃ n, m.is_cycle_length d n := by
  obtain ⟨hb, hc, hi⟩ := hperm
  exact cycle_length_of_injective_on m.phi1 m.is_dart Dart.index
    m.topology_.nb_max_lines_ (fun x y h => (Dart.eq_iff_index x y).2 h) hb hc hi d hd

/-- Claim C11: in a map with a well-formed topology container where `phi_1` is
the inverse of `phi1` on the live darts, for every live dart `d`: when
`phi_1(d) = d` the assertion of `collapse_edge_topo(d)` fails and no map is
produced; when `phi_1(d) ≠ d`, `collapse_edge_topo(d)` links the predecessor
`p = phi_1(d)` to the successor `s = phi1(d)` (afterwards `phi1(p) = s` and
`phi_1(s) = p`), removes `d` and no other dart from the live darts, and the
phi1-cycle, of length `n` before, is the cycle of `p` of length `n - 1` made
of the former darts other than `d`. -/
theorem collapse_edge_topo_splice (m : CMap1) (d : Dart)
    (hwf : m.topology_.well_formed 1) (hinv : m.inverse_on m.is_dart)
    (hd : m.is_dart d) :
    (m.phi_1 d = d → m.collapse_edge_topo d = none) ∧
    (m.phi_1 d ≠ d →
      ∃ n m2, m.is_cycle_length d n ∧ 2 ≤ n ∧ m.collapse_edge_topo d = some m2 ∧
        m2.phi1 (m.phi_1 d) = m.phi1 d ∧ m2.phi_1 (m.phi1 d) = m.phi_1 d ∧
        ¬ m2.is_dart d ∧ (∀ x, m2.is_dart x ↔ (m.is_dart x ∧ x ≠ d)) ∧
        m2.topology_.size + 1 = m.topology_.size ∧
        m2.is_cycle_length (m.phi_1 d) (n - 1) ∧
        (∀ x, m2.in_cycle (m.phi_1 d) x ↔ (m.in_cycle d x ∧ x ≠ d)) ∧
        (∀ x, x ≠ d → x ≠ m.phi_1 d → m2.phi1 x = m.phi1 x)) := by
  constructor
  · intro h
    simp [CMap1.collapse_edge_topo, h]
  · intro hpd
    obtain ⟨hpS, _, hp3, hp4⟩ := hinv d hd
    have hperm := CMap1.permutation_of_inverse_on m hwf hinv
    have hplive : m.is_dart (m.phi_1 d) := (hinv d hd).2.1
    obtain ⟨n, hn⟩ := CMap1.cycle_length_exists m hperm (m.phi_1 d) hplive
    -- the cycle of d is the cycle of p
    have hnd : m.is_cycle_length d n := by
      have := cycle_length_succ m.phi1 (m.phi_1 d) n hn
      rw [hp4] at this
      exact this
    have hphi : ∀ x, (m.phi1_unsew (m.phi_1 d)).phi1 x =
        if x = d then m.phi1 (m.phi_1 d) else if x = m.phi_1 d then m.phi1 d
        else m.phi1 x := by
      intro x
      rw [CMap1.phi1_unsew_phi1, hp4]
    have hphi_1 : ∀ x, (m.phi1_unsew (m.phi_1 d)).phi_1 x =
        if x = d then d else if x = m.phi1 d then m.phi_1 d else m.phi_1 x := by
      intro x
      rw [CMap1.phi1_unsew_phi_1, hp4]
    have hsd : m.phi1 d ≠ d := by
      intro h
      apply hpd
      have := hp3
      rw [h] at this
      exact this
    obtain ⟨⟨j, hj0, hjn, hcp, hcd⟩, hdisj, hunion⟩ :=
      sew_split_cycle m.phi1 (m.phi1_unsew (m.phi_1 d)).phi1 (m.phi_1 d) d hphi hpd n hn
        ⟨1, hp4⟩
    have hfixd : (m.phi1_unsew (m.phi_1 d)).phi1 d = d := by
      rw [hphi, if_pos rfl, hp4]
    have hfix : ∀ k, ((m.phi1_unsew (m.phi_1 d)).phi1)^[k] d = d :=
      fun k => Function.iterate_fixed hfixd k
    have hj1 : j = 1 :=
      cycle_length_unique _ d j 1 hcd ⟨Nat.one_pos, hfix 1, fun k hk hk0 => by omega⟩
    rw [hj1] at hcp
    have hwf1 : (m.phi1_unsew (m.phi_1 d)).topology_.well_formed 1 := hwf
    have hd1 : (m.phi1_unsew (m.phi_1 d)).is_dart d := hd
    obtain ⟨m2, hrem, hr1, hr2, hr3, _, hr5, _, _⟩ :=
      CMap1.remove_dart_spec (m.phi1_unsew (m.phi_1 d)) hwf1 d hd1
    have hm2phi : ∀ x, m2.phi1 x = (m.phi1_unsew (m.phi_1 d)).phi1 x := by
      intro x; simp only [CMap1.phi1, hr1]
    have hm2phi_1 : ∀ x, m2.phi_1 x = (m.phi1_unsew (m.phi_1 d)).phi_1 x := by
      intro x; simp only [CMap1.phi_1, hr2]
    have hfun : m2.phi1 = (m.phi1_unsew (m.phi_1 d)).phi1 := funext hm2phi
    have hsame : ∀ x, m.in_cycle (m.phi_1 d) x ↔ m.in_cycle d x := by
      intro x
      constructor
      · rintro ⟨k, hk⟩
        rcases Nat.eq_zero_or_pos k with h0 | hpos
        · refine ⟨n - 1, ?_⟩
          have h1 : (m.phi1)^[n - 1] d = (m.phi1)^[n - 1 + 1] (m.phi_1 d) := by
            rw [Function.iterate_succ_apply, hp4]
          rw [h1, Nat.sub_add_cancel hn.1, hn.2.1, ← hk, h0]
          rfl
        · refine ⟨k - 1, ?_⟩
          have h1 : (m.phi1)^[k - 1] d = (m.phi1)^[k - 1 + 1] (m.phi_1 d) := by
            rw [Function.iterate_succ_apply, hp4]
          rw [h1, Nat.sub_add_cancel hpos, hk]
      · rintro ⟨k, hk⟩
        refine ⟨k + 1, ?_⟩
        rw [Function.iterate_succ_apply, hp4, hk]
    refine ⟨n, m2, hnd, by omega, ?_, ?_, ?_, ?_, ?_, ?_, ?_, ?_, ?_⟩
    · simp only [CMap1.collapse_edge_topo, hpd, ne_eq, not_false_eq_true, if_true, hrem]
    · rw [hm2phi, hphi, if_neg hpd, if_pos rfl]
    · rw [hm2phi_1, hphi_1, if_neg hsd, if_pos rfl]
    · intro h; exact ((hr3 d).1 h).2 rfl
    · intro x; exact hr3 x
    · exact hr5
    · show cycle_length m2.phi1 (m.phi_1 d) (n - 1)
      rw [hfun]; exact hcp
    · intro x
      show (∃ k, (m2.phi1)^[k] (m.phi_1 d) = x) ↔ _
      rw [hfun, ← hsame x]
      constructor
      · intro hx
        refine ⟨(hunion x).2 (Or.inl hx), ?_⟩
        intro hxd
        exact hdisj x ⟨hx, ⟨0, hxd.symm⟩⟩
      · rintro ⟨hx, hxd⟩
        rcases (hunion x).1 hx with h | ⟨k, hk⟩
        · exact h
        · exact absurd (by rw [← hk, hfix k]) hxd
    · intro x hxd hxp
      rw [hm2phi, hphi, if_neg hxd, if_neg hxp]

theorem example_map_inverse_on_darts : example_map.inverse_on example_map.is_dart :=
  CMap1.inverse_on_congr example_map (fun x => x.index < 4) example_map.is_dart
    (fun x => (example_map_is_dart x).symm) example_map_inverse_on

/-- Witness of C11 on the example map: collapsing the dart `1` of the face
`0 → 1 → 2 → 0`. -/
theorem collapse_edge_topo_splice_witness :
    example_map.topology_.well_formed 1 ∧ example_map.inverse_on example_map.is_dart ∧
    example_map.is_dart ⟨1⟩ ∧ example_map.phi_1 ⟨1⟩ ≠ ⟨1⟩ ∧
    ∃ n m2, example_map.is_cycle_length ⟨1⟩ n ∧ 2 ≤ n ∧
      example_map.collapse_edge_topo ⟨1⟩ = some m2 ∧
      m2.phi1 (example_map.phi_1 ⟨1⟩) = example_map.phi1 ⟨1⟩ ∧
      m2.phi_1 (example_map.phi1 ⟨1⟩) = example_map.phi_1 ⟨1⟩ ∧
      ¬ m2.is_dart ⟨1⟩ ∧ (∀ x, m2.is_dart x ↔ (example_map.is_dart x ∧ x ≠ ⟨1⟩)) ∧
      m2.topology_.size + 1 = example_map.topology_.size ∧
      m2.is_cycle_length (example_map.phi_1 ⟨1⟩) (n - 1) ∧
      (∀ x, m2.in_cycle (example_map.phi_1 ⟨1⟩) x ↔
        (example_map.in_cycle ⟨1⟩ x ∧ x ≠ ⟨1⟩)) ∧
      (∀ x, x ≠ ⟨1⟩ → x ≠ example_map.phi_1 ⟨1⟩ → m2.phi1 x = example_map.phi1 x) :=
  ⟨example_container_well_formed, example_map_inverse_on_darts,
   (example_map_is_dart ⟨1⟩).2 (by decide), by decide,
   (collapse_edge_topo_splice example_map ⟨1⟩ example_container_well_formed
     example_map_inverse_on_darts ((example_map_is_dart ⟨1⟩).2 (by decide))).2 (by decide)⟩

/-! ## Removing a face -/

theorem CMap1.remove_face_topo_loop_spec (m0 : CMap1) (d : Dart) (n : Nat)
    (hc : cycle_length m0.phi1 d n)
    (hlive : ∀ k, m0.is_dart ((m0.phi1)^[k] d)) :
    ∀ (fuel r : Nat) (m : CMap1), 1 ≤ r → r ≤ n → n - r ≤ fuel →
      m.phi1_ = m0.phi1_ → m.phi_1_ = m0.phi_1_ →
      m.topology_.well_formed 1 →
      (∀ x, m.is_dart x ↔ (m0.is_dart x ∧ ∀ k, 1 ≤ k → k < r → x ≠ (m0.phi1)^[k] d)) →
      m.topology_.holes_stack_ =
        ((List.range (r - 1)).map (fun k => ((m0.phi1)^[k + 1] d).index)).reverse
          ++ m0.topology_.holes_stack_ →
      m.topology_.nb_used_lines_ + (r - 1) = m0.topology_.nb_used_lines_ →
      ∃ m2, CMap1.remove_face_topo_loop d fuel m ((m0.phi1)^[r] d) = some m2 ∧
        m2.phi1_ = m0.phi1_ ∧ m2.phi_1_ = m0.phi_1_ ∧
        m2.topology_.well_formed 1 ∧
        (∀ x, m2.is_dart x ↔
          (m0.is_dart x ∧ ∀ k, 1 ≤ k → k < n → x ≠ (m0.phi1)^[k] d)) ∧
        m2.topology_.holes_stack_ =
          ((List.range (n - 1)).map (fun k => ((m0.phi1)^[k + 1] d).index)).reverse
            ++ m0.topology_.holes_stack_ ∧
        m2.topology_.nb_used_lines_ + (n - 1) = m0.topology_.nb_used_lines_ := by
  obtain ⟨hn0, hn, hmin⟩ := hc
  intro fuel
  induction fuel with
  | zero =>
    intro r m hr1 hrn hfuel hp1 hp_1 hwf hdarts hholes hused
    have hrn' : r = n := by omega
    subst hrn'
    refine ⟨m, ?_, hp1, hp_1, hwf, hdarts, hholes, hused⟩
    simp [CMap1.remove_face_topo_loop, hn]
  | succ fuel ih =>
    intro r m hr1 hrn hfuel hp1 hp_1 hwf hdarts hholes hused
    by_cases hlast : r = n
    · subst hlast
      refine ⟨m, ?_, hp1, hp_1, hwf, hdarts, hholes, hused⟩
      simp [CMap1.remove_face_topo_loop, hn]
    · have hrlt : r < n := by omega
      have hne : (m0.phi1)^[r] d ≠ d := hmin r hrlt (by omega)
      have hinj := iterate_inj_of_cycle m0.phi1 d n hn hmin
      have hxr : m.is_dart ((m0.phi1)^[r] d) := by
        rw [hdarts]
        refine ⟨hlive r, ?_⟩
        intro k hk1 hkr h
        have := hinj k r (by omega) hrlt h.symm
        omega
      obtain ⟨m1, hrem, hr1', hr2', hr3, hr4, hr5, _, hr7⟩ :=
        CMap1.remove_dart_spec m hwf _ hxr
      have hphi : m.phi1 ((m0.phi1)^[r] d) = (m0.phi1)^[r + 1] d := by
        rw [Function.iterate_succ_apply']
        simp only [CMap1.phi1, hp1]
      obtain ⟨m2, hloop, h1, h2, h3, h4, h5, h6⟩ :=
        ih (r + 1) m1 (by omega) (by omega) (by omega) (hr1'.trans hp1) (hr2'.trans hp_1) hr7
          (by
            intro x
            rw [hr3 x, hdarts x]
            constructor
            · rintro ⟨⟨hx0, hxk⟩, hxr'⟩
              refine ⟨hx0, ?_⟩
              intro k hk1 hk2
              by_cases hkr : k = r
              · rw [hkr]; exact hxr'
              · exact hxk k hk1 (by omega)
            · rintro ⟨hx0, hxk⟩
              exact ⟨⟨hx0, fun k hk1 hk2 => hxk k hk1 (by omega)⟩, hxk r hr1 (by omega)⟩)
          (by
            rw [hr4, hholes]
            have hr' : r + 1 - 1 = (r - 1) + 1 := by omega
            rw [hr', List.range_succ, List.map_append, List.reverse_append]
            have hr'' : r - 1 + 1 = r := by omega
            simp only [List.map_cons, List.map_nil, List.reverse_cons, List.reverse_nil,
              List.nil_append, List.cons_append, hr''])
          (by omega)
      refine ⟨m2, ?_, h1, h2, h3, h4, h5, h6⟩
      simp only [CMap1.remove_face_topo_loop, hne, ne_eq, not_false_eq_true, if_true, hrem,
        hphi]
      exact hloop

/-- Claim C12: in a map with a well-formed topology container where `phi1` is
a permutation of the live darts, for a live dart `d` whose phi1-cycle has
length `n`, `remove_face_topo(d)` succeeds (with fuel for the `n - 1` turns of
its loop), removes the darts `phi1(d), phi1^2(d), ..., phi1^n(d) = d` of the
cycle, each once and in that order (they are pairwise distinct and are pushed
in that order on the stack of holes), and no other dart: the live darts
afterwards are the former live darts outside the cycle of `d`, and the number
of live darts decreases by `n`. -/
theorem remove_face_topo_removes_cycle (m : CMap1) (d : Dart)
    (hwf : m.topology_.well_formed 1) (hperm : m.phi1_is_permutation)
    (hd : m.is_dart d) :
    ∃ n, m.is_cycle_length d n ∧
      ∀ fuel, n - 1 ≤ fuel →
        ∃ m2, m.remove_face_topo d fuel = some m2 ∧
          (List.iterate m.phi1 (m.phi1 d) n).Nodup ∧
          (∀ x, x ∈ List.iterate m.phi1 (m.phi1 d) n ↔ m.in_cycle d x) ∧
          m2.topology_.holes_stack_ =
            ((List.iterate m.phi1 (m.phi1 d) n).map Dart.index).reverse
              ++ m.topology_.holes_stack_ ∧
          (∀ x, m2.is_dart x ↔ (m.is_dart x ∧ ¬ m.in_cycle d x)) ∧
          m2.topology_.size + n = m.topology_.size ∧
          m2.phi1_ = m.phi1_ ∧ m2.phi_1_ = m.phi_1_ := by
  obtain ⟨n, hn⟩ := CMap1.cycle_length_exists m hperm d hd
  refine ⟨n, hn, ?_⟩
  intro fuel hfuel
  have hlive : ∀ k, m.is_dart ((m.phi1)^[k] d) :=
    fun k => CMap1.iterate_is_dart m hperm d hd _ ⟨k, rfl⟩
  obtain ⟨hn0, hnd, hmin⟩ := hn
  have hinj := iterate_inj_of_cycle m.phi1 d n hnd hmin
  obtain ⟨m1, hloop, h1, h2, h3, h4, h5, h6⟩ :=
    CMap1.remove_face_topo_loop_spec m d n ⟨hn0, hnd, hmin⟩ hlive fuel 1 m le_rfl hn0
      hfuel rfl rfl hwf
      (fun x => ⟨fun hx => ⟨hx, fun k hk1 hk2 => by omega⟩, fun hx => hx.1⟩)
      (by simp) (by simp)
  have hd1 : m1.is_dart d := by
    rw [h4]
    refine ⟨hd, ?_⟩
    intro k hk1 hkn h
    exact hmin k hkn hk1 h.symm
  obtain ⟨m2, hrem, hr1, hr2, hr3, hr4, hr5, _, _⟩ := CMap1.remove_dart_spec m1 h3 d hd1
  have hsucc : m.is_cycle_length (m.phi1 d) n := cycle_length_succ m.phi1 d n ⟨hn0, hnd, hmin⟩
  have hmem : ∀ x, x ∈ List.iterate m.phi1 (m.phi1 d) n ↔ m.in_cycle d x := by
    intro x
    rw [cycle_length_mem_iterate m.phi1 (m.phi1 d) n hsucc x]
    constructor
    · rintro ⟨k, hk⟩; exact ⟨k + 1, hk⟩
    · rintro ⟨k, hk⟩
      rcases Nat.eq_zero_or_pos k with h0 | hpos
      · refine ⟨n - 1, ?_⟩
        have hs : (m.phi1)^[n - 1] (m.phi1 d) = (m.phi1)^[n - 1 + 1] d := rfl
        rw [hs, Nat.sub_add_cancel hn0, hnd, ← hk, h0]
        rfl
      · refine ⟨k - 1, ?_⟩
        have hs : (m.phi1)^[k - 1] (m.phi1 d) = (m.phi1)^[k - 1 + 1] d := rfl
        rw [hs, Nat.sub_add_cancel hpos, hk]
  have hlist : (List.iterate m.phi1 (m.phi1 d) n).map Dart.index =
      (List.range n).map (fun k => ((m.phi1)^[k + 1] d).index) := by
    rw [← List.range_map_iterate, List.map_map]
    rfl
  refine ⟨m2, ?_, cycle_length_iterate_nodup m.phi1 (m.phi1 d) n hsucc, hmem, ?_, ?_, ?_,
    hr1.trans h1, hr2.trans h2⟩
  · have hloop' : CMap1.remove_face_topo_loop d fuel m (m.phi1 d) = some m1 := hloop
    simp only [CMap1.remove_face_topo, hloop', hrem]
  · rw [hr4, h5, hlist]
    have hn' : n = (n - 1) + 1 := by omega
    conv_rhs => rw [hn', List.range_succ, List.map_append, List.reverse_append]
    have hn'' : n - 1 + 1 = n := by omega
    simp only [List.map_cons, List.map_nil, List.reverse_cons, List.reverse_nil,
      List.nil_append, List.cons_append, hn'', hnd]
  · intro x
    rw [hr3 x, h4 x]
    constructor
    · rintro ⟨⟨hx0, hxk⟩, hxd⟩
      refine ⟨hx0, ?_⟩
      rintro ⟨k, hk⟩
      have hk2 : (m.phi1)^[k % n] d = x := by
        rw [iterate_mod_of_period m.phi1 d n hnd k, hk]
      have hlt : k % n < n := Nat.mod_lt _ hn0
      rcases Nat.eq_zero_or_pos (k % n) with h0 | hpos
      · rw [h0] at hk2; exact hxd hk2.symm
      · exact hxk (k % n) hpos hlt hk2.symm
    · rintro ⟨hx0, hnot⟩
      exact ⟨⟨hx0, fun k _ _ h => hnot ⟨k, h.symm⟩⟩, fun h => hnot ⟨0, h.symm⟩⟩
  · show m2.topology_.nb_used_lines_ + n = m.topology_.nb_used_lines_
    omega

/-- Witness of C12 on the example map: removing the face of the dart `0`. -/
theorem remove_face_topo_removes_cycle_witness :
    example_map.topology_.well_formed 1 ∧ example_map.phi1_is_permutation ∧
    example_map.is_dart ⟨0⟩ ∧
    ∃ n, example_map.is_cycle_length ⟨0⟩ n ∧
      ∀ fuel, n - 1 ≤ fuel →
        ∃ m2, example_map.remove_face_topo ⟨0⟩ fuel = some m2 ∧
          (List.iterate example_map.phi1 (example_map.phi1 ⟨0⟩) n).Nodup ∧
          (∀ x, x ∈ List.iterate example_map.phi1 (example_map.phi1 ⟨0⟩) n ↔
            example_map.in_cycle ⟨0⟩ x) ∧
          m2.topology_.holes_stack_ =
            ((List.iterate example_map.phi1 (example_map.phi1 ⟨0⟩) n).map Dart.index).reverse
              ++ example_map.topology_.holes_stack_ ∧
          (∀ x, m2.is_dart x ↔ (example_map.is_dart x ∧ ¬ example_map.in_cycle ⟨0⟩ x)) ∧
          m2.topology_.size + n = example_map.topology_.size ∧
          m2.phi1_ = example_map.phi1_ ∧ m2.phi_1_ = example_map.phi_1_ :=
  ⟨example_container_well_formed, example_map_permutation,
   (example_map_is_dart ⟨0⟩).2 (by decide),
   remove_face_topo_removes_cycle example_map ⟨0⟩ example_container_well_formed
     example_map_permutation ((example_map_is_dart ⟨0⟩).2 (by decide))⟩


/-! ## Reversing a face -/

theorem CMap1.cycle_rep_congr (m0 : CMap1) (d : Dart) (n : Nat) (m : CMap1)
    (a b a' b' : Nat → Nat) (ha : ∀ i, i < n → a i = a' i) (hb : ∀ i, i < n → b i = b' i)
    (h : m0.cycle_rep d n m a b) : m0.cycle_rep d n m a' b' := by
  obtain ⟨h1, h2, h3, h4⟩ := h
  refine ⟨?_, ?_, h3, h4⟩
  · intro i hi; rw [← ha i hi]; exact h1 i hi
  · intro i hi; rw [← hb i hi]; exact h2 i hi

theorem CMap1.cycle_rep_unsew (m0 : CMap1) (d : Dart) (n : Nat)
    (hc : cycle_length m0.phi1 d n) (m : CMap1) (a b : Nat → Nat) (p : Nat) (hp : p < n)
    (h : m0.cycle_rep d n m a b) :
    m0.cycle_rep d n (m.phi1_unsew ((m0.phi1)^[p] d))
      (fun i => if i = a p then a p else if i = p then a (a p) else a i)
      (fun i => if i = a p then a p else if i = a (a p) then p else b i) := by
  obtain ⟨h1, h2, h3, h4⟩ := h
  obtain ⟨_, hn, hmin⟩ := hc
  have hinj : ∀ i j, i < n → j < n → ((m0.phi1)^[i] d = (m0.phi1)^[j] d ↔ i = j) := by
    intro i j hi hj
    constructor
    · intro hij
      rcases Nat.le_total i j with hle | hle
      · exact iterate_inj_of_cycle m0.phi1 d n hn hmin i j hle hj hij
      · exact (iterate_inj_of_cycle m0.phi1 d n hn hmin j i hle hi hij.symm).symm
    · intro hij; rw [hij]
  have hap := (h1 p hp).2
  have haap := (h1 (a p) hap).2
  have e1 : m.phi1 ((m0.phi1)^[p] d) = (m0.phi1)^[a p] d := (h1 p hp).1
  have e2 : m.phi1 ((m0.phi1)^[a p] d) = (m0.phi1)^[a (a p)] d := (h1 (a p) hap).1
  refine ⟨?_, ?_, ?_, h4⟩
  · intro i hi
    rw [CMap1.phi1_unsew_phi1, e1, e2]
    beta_reduce
    by_cases c1 : i = a p
    · rw [if_pos (by rw [c1]), if_pos c1]; exact ⟨rfl, hap⟩
    · rw [if_neg (fun h => c1 ((hinj i (a p) hi hap).1 h)), if_neg c1]
      by_cases c2 : i = p
      · rw [if_pos (by rw [c2]), if_pos c2]; exact ⟨rfl, haap⟩
      · rw [if_neg (fun h => c2 ((hinj i p hi hp).1 h)), if_neg c2]; exact h1 i hi
  · intro i hi
    rw [CMap1.phi1_unsew_phi_1, e1, e2]
    beta_reduce
    by_cases c1 : i = a p
    · rw [if_pos (by rw [c1]), if_pos c1]; exact ⟨rfl, hap⟩
    · rw [if_neg (fun h => c1 ((hinj i (a p) hi hap).1 h)), if_neg c1]
      by_cases c2 : i = a (a p)
      · rw [if_pos (by rw [c2]), if_pos c2]; exact ⟨rfl, hp⟩
      · rw [if_neg (fun h => c2 ((hinj i (a (a p)) hi haap).1 h)), if_neg c2]
        exact h2 i hi
  · intro y hy
    rw [CMap1.phi1_unsew_phi1, CMap1.phi1_unsew_phi_1, e1, e2,
      if_neg (hy (a p) hap), if_neg (hy p hp), if_neg (hy (a p) hap),
      if_neg (hy (a (a p)) haap)]
    exact h3 y hy

theorem CMap1.cycle_rep_sew (m0 : CMap1) (d : Dart) (n : Nat)
    (hc : cycle_length m0.phi1 d n) (m : CMap1) (a b : Nat → Nat) (p q : Nat) (hp : p < n)
    (hq : q < n) (h : m0.cycle_rep d n m a b) :
    m0.cycle_rep d n (m.phi1_sew ((m0.phi1)^[p] d) ((m0.phi1)^[q] d))
      (fun i => if i = q then a p else if i = p then a q else a i)
      (fun i => if i = a p then q else if i = a q then p else b i) := by
  obtain ⟨h1, h2, h3, h4⟩ := h
  obtain ⟨_, hn, hmin⟩ := hc
  have hinj : ∀ i j, i < n → j < n → ((m0.phi1)^[i] d = (m0.phi1)^[j] d ↔ i = j) := by
    intro i j hi hj
    constructor
    · intro hij
      rcases Nat.le_total i j with hle | hle
      · exact iterate_inj_of_cycle m0.phi1 d n hn hmin i j hle hj hij
      · exact (iterate_inj_of_cycle m0.phi1 d n hn hmin j i hle hi hij.symm).symm
    · intro hij; rw [hij]
  have hap := (h1 p hp).2
  have haq := (h1 q hq).2
  have e1 : m.phi1 ((m0.phi1)^[p] d) = (m0.phi1)^[a p] d := (h1 p hp).1
  have e2 : m.phi1 ((m0.phi1)^[q] d) = (m0.phi1)^[a q] d := (h1 q hq).1
  refine ⟨?_, ?_, ?_, h4⟩
  · intro i hi
    rw [CMap1.phi1_sew_phi1, e1, e2]
    beta_reduce
    by_cases c1 : i = q
    · rw [if_pos (by rw [c1]), if_pos c1]; exact ⟨rfl, hap⟩
    · rw [if_neg (fun h => c1 ((hinj i q hi hq).1 h)), if_neg c1]
      by_cases c2 : i = p
      · rw [if_pos (by rw [c2]), if_pos c2]; exact ⟨rfl, haq⟩
      · rw [if_neg (fun h => c2 ((hinj i p hi hp).1 h)), if_neg c2]; exact h1 i hi
  · intro i hi
    rw [CMap1.phi1_sew_phi_1, e1, e2]
    beta_reduce
    by_cases c1 : i = a p
    · rw [if_pos (by rw [c1]), if_pos c1]; exact ⟨rfl, hq⟩
    · rw [if_neg (fun h => c1 ((hinj i (a p) hi hap).1 h)), if_neg c1]
      by_cases c2 : i = a q
      · rw [if_pos (by rw [c2]), if_pos c2]; exact ⟨rfl, hp⟩
      · rw [if_neg (fun h => c2 ((hinj i (a q) hi haq).1 h)), if_neg c2]
        exact h2 i hi
  · intro y hy
    rw [CMap1.phi1_sew_phi1, CMap1.phi1_sew_phi_1, e1, e2,
      if_neg (hy q hq), if_neg (hy p hp), if_neg (hy (a p) hap), if_neg (hy (a q) haq)]
    exact h3 y hy

theorem reverse_next_zero (n j : Nat) (hj : j + 2 < n) : reverse_next n j 0 = j + 2 := by
  simp only [reverse_next, if_true]
  rw [if_neg (by omega)]

theorem reverse_next_one (n j : Nat) : reverse_next n j 1 = j + 1 := by
  simp [reverse_next]

theorem reverse_next_front (n j : Nat) :
    reverse_next n j (j + 2) = if j + 3 = n then 0 else j + 3 := by
  simp only [reverse_next]
  rw [if_neg (by omega), if_neg (by omega), if_neg (by omega)]

theorem reverse_next_step (n j i : Nat) (hj : j + 2 < n) (hi : i < n) :
    (if i = j + 2 then
        (if 1 = reverse_next n j 0 then reverse_next n j 0
          else if 1 = 0 then reverse_next n j (reverse_next n j 0) else reverse_next n j 1)
      else if i = 1 then
        (if j + 2 = reverse_next n j 0 then reverse_next n j 0
          else if j + 2 = 0 then reverse_next n j (reverse_next n j 0)
          else reverse_next n j (j + 2))
      else
        (if i = reverse_next n j 0 then reverse_next n j 0
          else if i = 0 then reverse_next n j (reverse_next n j 0) else reverse_next n j i))
      = reverse_next n (j + 1) i := by
  have ha0 := reverse_next_zero n j hj
  have ha1 := reverse_next_one n j
  have ha2 := reverse_next_front n j
  simp only [ha0, ha1, ha2]
  clear ha0 ha1 ha2
  by_cases hj3 : j + 3 = n
  · simp only [if_pos hj3, reverse_next]
    split_ifs <;> first | omega | contradiction
  · simp only [if_neg hj3, reverse_next]
    split_ifs <;> first | omega | contradiction

theorem reverse_prev_step (n j i : Nat) (hj : j + 2 < n) (hi : i < n) :
    (if i = (if 1 = reverse_next n j 0 then reverse_next n j 0
          else if 1 = 0 then reverse_next n j (reverse_next n j 0) else reverse_next n j 1)
      then j + 2
      else if i = (if j + 2 = reverse_next n j 0 then reverse_next n j 0
          else if j + 2 = 0 then reverse_next n j (reverse_next n j 0)
          else reverse_next n j (j + 2))
      then 1
      else
        (if i = reverse_next n j 0 then reverse_next n j 0
          else if i = reverse_next n j (reverse_next n j 0) then 0 else reverse_prev n j i))
      = reverse_prev n (j + 1) i := by
  have ha0 := reverse_next_zero n j hj
  have ha1 := reverse_next_one n j
  have ha2 := reverse_next_front n j
  have v1 : (if 1 = j + 2 then j + 2 else if 1 = 0 then (if j + 3 = n then 0 else j + 3)
      else j + 1) = j + 1 := by
    rw [if_neg (by omega), if_neg (by omega)]
  simp only [ha0, ha1, ha2, v1, if_true]
  clear ha0 ha1 ha2 v1
  by_cases hj3 : j + 3 = n
  · simp only [if_pos hj3, reverse_prev]
    split_ifs <;> omega
  · simp only [if_neg hj3, reverse_prev]
    split_ifs <;> omega

theorem CMap1.reverse_face_topo_loop_spec (m0 : CMap1) (d : Dart) (n : Nat)
    (hc : cycle_length m0.phi1 d n) :
    ∀ (fuel j : Nat) (m : CMap1), j + 2 ≤ n → n - 2 - j ≤ fuel →
      m0.cycle_rep d n m (reverse_next n j) (reverse_prev n j) →
      ∃ m2, CMap1.reverse_face_topo_loop d (m0.phi1 d) fuel m (m.phi1 d) = some m2 ∧
        m0.cycle_rep d n m2 (reverse_next n (n - 2)) (reverse_prev n (n - 2)) := by
  have hc' := hc
  obtain ⟨hn0, hn, hmin⟩ := hc'
  have hstep : ∀ (j : Nat) (m : CMap1), j + 2 < n →
      m0.cycle_rep d n m (reverse_next n j) (reverse_prev n j) →
      m.phi1 d ≠ d ∧
      m0.cycle_rep d n ((m.phi1_unsew d).phi1_sew (m0.phi1 d) (m.phi1 d))
        (reverse_next n (j + 1)) (reverse_prev n (j + 1)) := by
    intro j m hj hrep
    have ha0 := reverse_next_zero n j hj
    have hd : m.phi1 d = (m0.phi1)^[j + 2] d := by
      have := (hrep.1 0 hn0).1
      rw [ha0] at this
      exact this
    refine ⟨by rw [hd]; exact hmin (j + 2) hj (by omega), ?_⟩
    have h1 := CMap1.cycle_rep_unsew m0 d n hc m _ _ 0 hn0 hrep
    have h2 := CMap1.cycle_rep_sew m0 d n hc _ _ _ 1 (j + 2) (by omega) hj h1
    rw [hd]
    refine CMap1.cycle_rep_congr m0 d n _ _ _ _ _ ?_ ?_ h2
    · intro i hi
      exact reverse_next_step n j i hj hi
    · intro i hi
      exact reverse_prev_step n j i hj hi
  intro fuel
  induction fuel with
  | zero =>
    intro j m hj hfuel hrep
    have hjn : j = n - 2 := by omega
    have hd : m.phi1 d = d := by
      have := (hrep.1 0 hn0).1
      simp only [reverse_next, if_true] at this
      rw [if_pos (by omega)] at this
      exact this
    refine ⟨m, ?_, by rw [← hjn]; exact hrep⟩
    simp [CMap1.reverse_face_topo_loop, hd]
  | succ fuel ih =>
    intro j m hj hfuel hrep
    by_cases hjn : j + 2 = n
    · have hjn' : j = n - 2 := by omega
      have hd : m.phi1 d = d := by
        have := (hrep.1 0 hn0).1
        simp only [reverse_next, if_true] at this
        rw [if_pos hjn] at this
        exact this
      refine ⟨m, ?_, by rw [← hjn']; exact hrep⟩
      simp [CMap1.reverse_face_topo_loop, hd]
    · obtain ⟨hne, hrep1⟩ := hstep j m (by omega) hrep
      obtain ⟨m2, hloop, hrep2⟩ :=
        ih (j + 1) ((m.phi1_unsew d).phi1_sew (m0.phi1 d) (m.phi1 d)) (by omega) (by omega)
          hrep1
      refine ⟨m2, ?_, hrep2⟩
      simp only [CMap1.reverse_face_topo_loop, hne, ne_eq, not_false_eq_true, if_true]
      exact hloop

theorem reverse_init_next (n i : Nat) (hn : 3 ≤ n) (hi : i < n) :
    (if i = cycle_next n 0 then cycle_next n 0
      else if i = 0 then cycle_next n (cycle_next n 0) else cycle_next n i)
      = reverse_next n 0 i := by
  have h0 : cycle_next n 0 = 1 := by
    simp only [cycle_next]; rw [if_neg (by omega)]
  have h1 : cycle_next n 1 = 2 := by
    simp only [cycle_next]; rw [if_neg (by omega)]
  simp only [h0, h1, reverse_next, cycle_next]
  split_ifs <;> omega

theorem reverse_init_prev (n i : Nat) (hn : 3 ≤ n) :
    (if i = cycle_next n 0 then cycle_next n 0
      else if i = cycle_next n (cycle_next n 0) then 0 else cycle_prev n i)
      = reverse_prev n 0 i := by
  have h0 : cycle_next n 0 = 1 := by
    simp only [cycle_next]; rw [if_neg (by omega)]
  have h1 : cycle_next n 1 = 2 := by
    simp only [cycle_next]; rw [if_neg (by omega)]
  simp only [h0, h1, reverse_prev, cycle_prev]
  split_ifs <;> omega

theorem reverse_last_next (n i : Nat) (hn : 3 ≤ n) (hi : i < n) :
    (if i = 0 then reverse_next n (n - 2) 1
      else if i = 1 then reverse_next n (n - 2) 0 else reverse_next n (n - 2) i)
      = cycle_prev n i := by
  have h0 : reverse_next n (n - 2) 0 = 0 := by
    simp only [reverse_next, if_true]; rw [if_pos (by omega)]
  have h1 : reverse_next n (n - 2) 1 = n - 1 := by
    rw [reverse_next_one]; omega
  rw [h0, h1]
  by_cases c0 : i = 0
  · rw [if_pos c0]; simp only [cycle_prev]; rw [if_pos c0]
  · rw [if_neg c0]
    by_cases c1 : i = 1
    · rw [if_pos c1]; simp only [cycle_prev]; rw [if_neg c0]; omega
    · rw [if_neg c1]
      simp only [reverse_next, cycle_prev]
      rw [if_neg c0, if_neg c1, if_neg c0, if_pos (by omega)]

theorem reverse_last_prev (n i : Nat) (hn : 3 ≤ n) (hi : i < n) :
    (if i = reverse_next n (n - 2) 1 then 0
      else if i = reverse_next n (n - 2) 0 then 1 else reverse_prev n (n - 2) i)
      = cycle_next n i := by
  have h0 : reverse_next n (n - 2) 0 = 0 := by
    simp only [reverse_next, if_true]; rw [if_pos (by omega)]
  have h1 : reverse_next n (n - 2) 1 = n - 1 := by
    rw [reverse_next_one]; omega
  simp only [h0, h1, reverse_prev, cycle_next]
  split_ifs <;> omega

theorem iterate_step {α : Type} (f : α → α) (k : Nat) (x : α) :
    f (f^[k] x) = f^[k + 1] x :=
  (Function.iterate_succ_apply' f k x).symm

/-- The relations of a map on a cycle, read on positions, when `phi_1` is the
inverse of `phi1` on the cycle. -/
theorem CMap1.cycle_rep_self (m : CMap1) (S : Dart → Prop) (hinv : m.inverse_on S)
    (d : Dart) (hd : S d) (n : Nat) (hc : cycle_length m.phi1 d n) :
    m.cycle_rep d n m (cycle_next n) (cycle_prev n) := by
  obtain ⟨hn0, hn, _⟩ := hc
  have hS : ∀ k, S ((m.phi1)^[k] d) := by
    intro k
    induction k with
    | zero => exact hd
    | succ k ih => rw [Function.iterate_succ_apply']; exact (hinv _ ih).1
  refine ⟨?_, ?_, fun y _ => ⟨rfl, rfl⟩, rfl⟩
  · intro i hi
    simp only [cycle_next]
    by_cases h : i + 1 = n
    · rw [if_pos h]
      refine ⟨?_, hn0⟩
      rw [iterate_step m.phi1 i d, h, hn]
      rfl
    · rw [if_neg h]
      exact ⟨iterate_step _ _ _, by omega⟩
  · intro i hi
    simp only [cycle_prev]
    by_cases h : i = 0
    · rw [if_pos h, h]
      refine ⟨?_, by omega⟩
      have h1 : (m.phi1)^[0] d = m.phi1 ((m.phi1)^[n - 1] d) := by
        rw [iterate_step m.phi1 (n - 1) d, Nat.sub_add_cancel hn0, hn]
        rfl
      rw [h1]
      exact (hinv _ (hS (n - 1))).2.2.1
    · rw [if_neg h]
      refine ⟨?_, by omega⟩
      have h1 : (m.phi1)^[i] d = m.phi1 ((m.phi1)^[i - 1] d) := by
        have hi1 : i - 1 + 1 = i := by omega
        rw [iterate_step m.phi1 (i - 1) d, hi1]
      rw [h1]
      exact (hinv _ (hS (i - 1))).2.2.1

theorem CMap1.cycle_rep_reversed (m m2 : CMap1) (d : Dart) (n : Nat)
    (hc : cycle_length m.phi1 d n)
    (h0 : m.cycle_rep d n m (cycle_next n) (cycle_prev n))
    (h2 : m.cycle_rep d n m2 (cycle_prev n) (cycle_next n)) :
    (∀ x, m.in_cycle d x → m2.phi1 x = m.phi_1 x ∧ m2.phi_1 x = m.phi1 x) ∧
    (∀ x, m2.in_cycle d x ↔ m.in_cycle d x) ∧
    (∀ x, ¬ m.in_cycle d x → m2.phi1 x = m.phi1 x ∧ m2.phi_1 x = m.phi_1 x) ∧
    m2.topology_ = m.topology_ := by
  obtain ⟨hn0, hn, _⟩ := hc
  have hpos : ∀ x, m.in_cycle d x → ∃ i, i < n ∧ (m.phi1)^[i] d = x := by
    rintro x ⟨k, hk⟩
    exact ⟨k % n, Nat.mod_lt _ hn0, by rw [iterate_mod_of_period m.phi1 d n hn k, hk]⟩
  refine ⟨?_, ?_, ?_, h2.2.2.2⟩
  · intro x hx
    obtain ⟨i, hi, hxi⟩ := hpos x hx
    rw [← hxi]
    exact ⟨by rw [(h2.1 i hi).1, (h0.2.1 i hi).1], by rw [(h2.2.1 i hi).1, (h0.1 i hi).1]⟩
  · intro x
    constructor
    · rintro ⟨k, hk⟩
      have hall : ∀ k, ∃ i, i < n ∧ (m2.phi1)^[k] d = (m.phi1)^[i] d := by
        intro k
        induction k with
        | zero => exact ⟨0, hn0, rfl⟩
        | succ k ih =>
          obtain ⟨i, hi, hki⟩ := ih
          refine ⟨cycle_prev n i, (h2.1 i hi).2, ?_⟩
          rw [Function.iterate_succ_apply', hki]
          exact (h2.1 i hi).1
      obtain ⟨i, _, hki⟩ := hall k
      exact ⟨i, by rw [← hki, hk]⟩
    · intro hx
      obtain ⟨i, hi, hxi⟩ := hpos x hx
      have hchain : ∀ t, t < n → ∃ k, (m2.phi1)^[k] d = (m.phi1)^[n - 1 - t] d := by
        intro t
        induction t with
        | zero =>
          intro _
          refine ⟨1, ?_⟩
          have := (h2.1 0 hn0).1
          simp only [cycle_prev, if_true] at this
          exact this
        | succ t ih =>
          intro ht
          obtain ⟨k, hk⟩ := ih (by omega)
          refine ⟨k + 1, ?_⟩
          rw [Function.iterate_succ_apply', hk, (h2.1 (n - 1 - t) (by omega)).1]
          simp only [cycle_prev]
          rw [if_neg (by omega)]
          rfl
      obtain ⟨k, hk⟩ := hchain (n - 1 - i) (by omega)
      have hidx : n - 1 - (n - 1 - i) = i := by omega
      rw [hidx] at hk
      exact ⟨k, by rw [hk, hxi]⟩
  · intro x hx
    exact h2.2.2.1 x (fun i _ hxi => hx ⟨i, hxi.symm⟩)

/-- Claim C13: in a map where `phi_1` is the inverse of `phi1` on the set `S`
of darts, for a dart `d` of `S` whose phi1-cycle has length `n`,
`reverse_face_topo(d)` terminates (with fuel for the `n - 2` turns of its
loop); afterwards the new `phi1` is the old `phi_1` and the new `phi_1` is the
old `phi1` on every dart of the cycle of `d`, the set of darts of the cycle
is unchanged, `phi1` and `phi_1` of the darts outside the cycle are unchanged,
and for a face of one or two darts the map is left untouched. -/
theorem reverse_face_topo_reverses (m : CMap1) (S : Dart → Prop) (hinv : m.inverse_on S)
    (d : Dart) (hd : S d) (n : Nat) (hn : m.is_cycle_length d n) (fuel : Nat)
    (hfuel : n - 2 ≤ fuel) :
    ∃ m2, m.reverse_face_topo d fuel = some m2 ∧
      (∀ x, m.in_cycle d x → m2.phi1 x = m.phi_1 x ∧ m2.phi_1 x = m.phi1 x) ∧
      (∀ x, m2.in_cycle d x ↔ m.in_cycle d x) ∧
      (∀ x, ¬ m.in_cycle d x → m2.phi1 x = m.phi1 x ∧ m2.phi_1 x = m.phi_1 x) ∧
      m2.topology_ = m.topology_ ∧
      (n ≤ 2 → m2 = m) := by
  have hc : cycle_length m.phi1 d n := hn
  have hrep0 := CMap1.cycle_rep_self m S hinv d hd n hc
  obtain ⟨hn0, hnd, hmin⟩ := hn
  by_cases hsmall : n ≤ 2
  · have hres : m.reverse_face_topo d fuel = some m := by
      unfold CMap1.reverse_face_topo
      by_cases h1 : n = 1
      · have hfix : m.phi1 d = d := by rw [h1] at hnd; exact hnd
        simp only [hfix, if_true]
      · have h2 : n = 2 := by omega
        have hne : m.phi1 d ≠ d := hmin 1 (by omega) (by omega)
        have hback : m.phi1 (m.phi1 d) = d := by rw [h2] at hnd; exact hnd
        simp only [hne, hback, if_false, if_true]
    have hrep : m.cycle_rep d n m (cycle_prev n) (cycle_next n) := by
      refine CMap1.cycle_rep_congr m d n m _ _ _ _ ?_ ?_ hrep0
      · intro i hi
        simp only [cycle_next, cycle_prev]
        split_ifs <;> omega
      · intro i hi
        simp only [cycle_next, cycle_prev]
        split_ifs <;> omega
    obtain ⟨r1, r2, r3, r4⟩ := CMap1.cycle_rep_reversed m m d n hc hrep0 hrep
    exact ⟨m, hres, r1, r2, r3, r4, fun _ => rfl⟩
  · have hn3 : 3 ≤ n := by omega
    have hne : m.phi1 d ≠ d := hmin 1 (by omega) (by omega)
    have hne2 : m.phi1 (m.phi1 d) ≠ d := hmin 2 (by omega) (by omega)
    have hrep1 : m.cycle_rep d n (m.phi1_unsew d) (reverse_next n 0) (reverse_prev n 0) := by
      have h := CMap1.cycle_rep_unsew m d n hc m _ _ 0 hn0 hrep0
      exact CMap1.cycle_rep_congr m d n _ _ _ _ _
        (fun i hi => reverse_init_next n i hn3 hi) (fun i _ => reverse_init_prev n i hn3) h
    obtain ⟨m2, hloop, hrep2⟩ :=
      CMap1.reverse_face_topo_loop_spec m d n hc fuel 0 (m.phi1_unsew d) (by omega)
        (by omega) hrep1
    have hrep3 : m.cycle_rep d n (m2.phi1_sew (m.phi1 d) d) (cycle_prev n) (cycle_next n) := by
      have h := CMap1.cycle_rep_sew m d n hc m2 _ _ 1 0 (by omega) hn0 hrep2
      exact CMap1.cycle_rep_congr m d n _ _ _ _ _
        (fun i hi => reverse_last_next n i hn3 hi) (fun i hi => reverse_last_prev n i hn3 hi) h
    obtain ⟨r1, r2, r3, r4⟩ :=
      CMap1.cycle_rep_reversed m (m2.phi1_sew (m.phi1 d) d) d n hc hrep0 hrep3
    refine ⟨m2.phi1_sew (m.phi1 d) d, ?_, r1, r2, r3, r4, fun h => absurd h hsmall⟩
    simp only [CMap1.reverse_face_topo, hne, hne2, if_false, hloop]

/-- Witness of C13 on the example map: reversing the face of the dart `0`. -/
theorem reverse_face_topo_reverses_witness :
    example_map.inverse_on (fun x => x.index < 4) ∧ example_map.is_cycle_length ⟨0⟩ 3 ∧
    ∃ m2, example_map.reverse_face_topo ⟨0⟩ 1 = some m2 ∧
      (∀ x, example_map.in_cycle ⟨0⟩ x →
        m2.phi1 x = example_map.phi_1 x ∧ m2.phi_1 x = example_map.phi1 x) ∧
      (∀ x, m2.in_cycle ⟨0⟩ x ↔ example_map.in_cycle ⟨0⟩ x) ∧
      (∀ x, ¬ example_map.in_cycle ⟨0⟩ x →
        m2.phi1 x = example_map.phi1 x ∧ m2.phi_1 x = example_map.phi_1 x) ∧
      m2.topology_ = example_map.topology_ ∧
      (3 ≤ 2 → m2 = example_map) :=
  have hc : example_map.is_cycle_length ⟨0⟩ 3 := by
    refine ⟨by decide, by decide, ?_⟩
    intro k hk hk0
    interval_cases k <;> decide
  ⟨example_map_inverse_on, hc,
   reverse_face_topo_reverses example_map (fun x => x.index < 4) example_map_inverse_on ⟨0⟩
     (by decide) 3 hc 1 (by decide)⟩


/-! ## The traversal of a face visits the cycle -/

theorem Map1.foreach_dart_of_face_loop_eq {σ : Type} (m : Map1) (d : Dart)
    (f : σ → Dart → σ) (fuel : Nat) (it : Dart) (s : σ) :
    Map1.foreach_dart_of_face_loop m d f fuel it s =
      CMap1.foreach_dart_of_PHI1_loop m d f fuel it s := by
  induction fuel generalizing it s with
  | zero => rfl
  | succ fuel ih =>
    unfold Map1.foreach_dart_of_face_loop CMap1.foreach_dart_of_PHI1_loop
    simp only [ih]
    rfl

theorem CMap1.foreach_dart_of_PHI1_loop_none {σ : Type} (m : CMap1) (d : Dart)
    (f : σ → Dart → σ) (n : Nat) (hc : cycle_length m.phi1 d n) :
    ∀ (fuel r : Nat) (s : σ), r < n → fuel < n - r →
      CMap1.foreach_dart_of_PHI1_loop m d f fuel ((m.phi1)^[r] d) s = none := by
  obtain ⟨_, _, hmin⟩ := hc
  intro fuel
  induction fuel with
  | zero => intro r s _ _; rfl
  | succ fuel ih =>
    intro r s hr hf
    unfold CMap1.foreach_dart_of_PHI1_loop
    have hne : m.phi1 ((m.phi1)^[r] d) ≠ d := by
      rw [iterate_step m.phi1 r d]; exact hmin (r + 1) (by omega) (by omega)
    simp only [hne, ne_eq, not_false_eq_true, if_true]
    rw [iterate_step m.phi1 r d]
    exact ih (r + 1) _ (by omega) (by omega)

/-- Claim C14: in a map where `phi1` is a permutation of the (finitely many)
live darts, for a live dart `d`, `foreach_dart_of_PHI1(d, f)` (and
`foreach_dart_of_face` of `Map1`) terminates and calls `f` on the sequence
`d, phi1(d), phi1(phi1(d)), ...` in that order; this sequence has `n` darts,
where `n` is the least `k > 0` with `phi1^k(d) = d`, it has no repetition and
its darts are exactly the darts of the phi1-cycle of `d`.  With fuel for fewer
than `n` calls the traversal does not finish. -/
theorem foreach_dart_of_PHI1_visits_cycle (m : CMap1) (d : Dart)
    (hperm : m.phi1_is_permutation) (hd : m.is_dart d) :
    ∃ n, m.is_cycle_length d n ∧
      (List.iterate m.phi1 d n).length = n ∧
      (List.iterate m.phi1 d n).Nodup ∧
      (∀ x, x ∈ List.iterate m.phi1 d n ↔ m.in_cycle d x) ∧
      (∀ (σ : Type) (f : σ → Dart → σ) (s : σ) (fuel : Nat), n ≤ fuel →
        m.foreach_dart_of_PHI1 d f fuel s = some ((List.iterate m.phi1 d n).foldl f s) ∧
        Map1.foreach_dart_of_face m d f fuel s =
          some ((List.iterate m.phi1 d n).foldl f s)) ∧
      (∀ fuel, n ≤ fuel →
        m.foreach_dart_of_PHI1 d (fun l x => l ++ [x]) fuel [] =
          some (List.iterate m.phi1 d n)) ∧
      (∀ (σ : Type) (f : σ → Dart → σ) (s : σ) (fuel : Nat), fuel < n →
        m.foreach_dart_of_PHI1 d f fuel s = none) := by
  obtain ⟨n, hn⟩ := CMap1.cycle_length_exists m hperm d hd
  have hfold : ∀ (l acc : List Dart), l.foldl (fun l x => l ++ [x]) acc = acc ++ l := by
    intro l
    induction l with
    | nil => intro acc; simp
    | cons x l ih => intro acc; simp [ih]
  refine ⟨n, hn, List.length_iterate _ _ _, cycle_length_iterate_nodup m.phi1 d n hn,
    cycle_length_mem_iterate m.phi1 d n hn, ?_, ?_, ?_⟩
  · intro σ f s fuel hfuel
    have h := CMap1.foreach_dart_of_PHI1_eq m d f n hn fuel hfuel s
    refine ⟨h, ?_⟩
    unfold Map1.foreach_dart_of_face
    rw [Map1.foreach_dart_of_face_loop_eq]
    exact h
  · intro fuel hfuel
    rw [CMap1.foreach_dart_of_PHI1_eq m d _ n hn fuel hfuel, hfold]
    rfl
  · intro σ f s fuel hfuel
    exact CMap1.foreach_dart_of_PHI1_loop_none m d f n hn fuel 0 s hn.1 (by omega)

/-- Witness of C14 on the example map: the traversal of the face of the dart
`0`. -/
theorem foreach_dart_of_PHI1_visits_cycle_witness :
    example_map.phi1_is_permutation ∧ example_map.is_dart ⟨0⟩ ∧
    ∃ n, example_map.is_cycle_length ⟨0⟩ n ∧
      (List.iterate example_map.phi1 ⟨0⟩ n).length = n ∧
      (List.iterate example_map.phi1 ⟨0⟩ n).Nodup ∧
      (∀ x, x ∈ List.iterate example_map.phi1 ⟨0⟩ n ↔ example_map.in_cycle ⟨0⟩ x) ∧
      (∀ (σ : Type) (f : σ → Dart → σ) (s : σ) (fuel : Nat), n ≤ fuel →
        example_map.foreach_dart_of_PHI1 ⟨0⟩ f fuel s =
          some ((List.iterate example_map.phi1 ⟨0⟩ n).foldl f s) ∧
        Map1.foreach_dart_of_face example_map ⟨0⟩ f fuel s =
          some ((List.iterate example_map.phi1 ⟨0⟩ n).foldl f s)) ∧
      (∀ fuel, n ≤ fuel →
        example_map.foreach_dart_of_PHI1 ⟨0⟩ (fun l x => l ++ [x]) fuel [] =
          some (List.iterate example_map.phi1 ⟨0⟩ n)) ∧
      (∀ (σ : Type) (f : σ → Dart → σ) (s : σ) (fuel : Nat), fuel < n →
        example_map.foreach_dart_of_PHI1 ⟨0⟩ f fuel s = none) :=
  ⟨example_map_permutation, (example_map_is_dart ⟨0⟩).2 (by decide),
   foreach_dart_of_PHI1_visits_cycle example_map ⟨0⟩ example_map_permutation
     ((example_map_is_dart ⟨0⟩).2 (by decide))⟩

/-! ## The composition `phi<N>` -/

theorem CMap3.phi_zero (m : CMap3) (d : Dart) : m.phi 0 d = d := by
  rw [CMap3.phi]
  simp

theorem CMap3.phi_step (m : CMap3) (N : Nat) (d : Dart)
    (h : N % 10 = 1 ∨ N % 10 = 2 ∨ N % 10 = 3) :
    m.phi N d = m.phi_digit (N % 10) (m.phi (N / 10) d) := by
  rw [CMap3.phi]
  unfold CMap3.phi_digit
  rcases h with h | h | h <;> simp [h]

theorem CMap3.phi_eq_phi_by_digits (m : CMap3) (d : Dart) :
    ∀ N, (∀ a ∈ Nat.digits 10 N, a = 1 ∨ a = 2 ∨ a = 3) → m.phi N d = m.phi_by_digits N d := by
  intro N
  induction N using Nat.strong_induction_on with
  | _ N ih =>
    intro hdig
    rcases Nat.eq_zero_or_pos N with h0 | hpos
    · subst h0
      rw [CMap3.phi_zero]
      simp [CMap3.phi_by_digits]
    · have hdef : Nat.digits 10 N = (N % 10) :: Nat.digits 10 (N / 10) :=
        Nat.digits_def' (by decide) hpos
      rw [hdef] at hdig
      have hlast := hdig (N % 10) (List.mem_cons_self _ _)
      have htail : ∀ a ∈ Nat.digits 10 (N / 10), a = 1 ∨ a = 2 ∨ a = 3 :=
        fun a ha => hdig a (List.mem_cons_of_mem _ ha)
      rw [CMap3.phi_step m N d hlast, ih (N / 10) (by omega) htail]
      unfold CMap3.phi_by_digits
      rw [hdef, List.reverse_cons, List.foldl_append]
      rfl

/-- Claim C19: for every `N` whose decimal digits are all in `{1, 2, 3}`,
`phi<N>(d)` applies the relations named by the digits of `N` from the most
significant digit to the least significant one (the least significant digit
is applied last); in particular `phi<21>(d) = phi1(phi2(d))`, and
`phi<0>(d) = d`. -/
theorem phi_composition_order (m : CMap3) (d : Dart) (N : Nat)
    (hdig : ∀ a ∈ Nat.digits 10 N, a = 1 ∨ a = 2 ∨ a = 3) :
    m.phi N d = m.phi_by_digits N d ∧
    (N ≠ 0 → m.phi N d = m.phi_digit (N % 10) (m.phi (N / 10) d)) ∧
    m.phi 21 d = m.phi1 (m.phi2 d) ∧
    m.phi 123 d = m.phi3 (m.phi2 (m.phi1 d)) ∧
    m.phi 0 d = d := by
  have h21 : m.phi 21 d = m.phi1 (m.phi2 d) := by
    rw [CMap3.phi_step m 21 d (by decide), CMap3.phi_step m (21 / 10) d (by decide)]
    have h0 : 21 / 10 / 10 = 0 := by decide
    rw [h0, CMap3.phi_zero]
    simp [CMap3.phi_digit]
  have h123 : m.phi 123 d = m.phi3 (m.phi2 (m.phi1 d)) := by
    rw [CMap3.phi_step m 123 d (by decide), CMap3.phi_step m (123 / 10) d (by decide),
      CMap3.phi_step m (123 / 10 / 10) d (by decide)]
    have h0 : 123 / 10 / 10 / 10 = 0 := by decide
    rw [h0, CMap3.phi_zero]
    simp [CMap3.phi_digit]
  refine ⟨CMap3.phi_eq_phi_by_digits m d N hdig, ?_, h21, h123, CMap3.phi_zero m d⟩
  intro hN
  have hpos : 0 < N := Nat.pos_of_ne_zero hN
  have hdef : Nat.digits 10 N = (N % 10) :: Nat.digits 10 (N / 10) :=
    Nat.digits_def' (by decide) hpos
  exact CMap3.phi_step m N d (hdig (N % 10) (by rw [hdef]; exact List.mem_cons_self _ _))

/-- Witness of C19 on the example 3D map: `phi<231>` from the dart `0`. -/
theorem phi_composition_order_witness :
    (∀ a ∈ Nat.digits 10 231, a = 1 ∨ a = 2 ∨ a = 3) ∧
    example_map3.phi 231 ⟨0⟩ = example_map3.phi_by_digits 231 ⟨0⟩ ∧
    example_map3.phi_by_digits 231 ⟨0⟩ = ⟨2⟩ :=
  have hd : ∀ a ∈ Nat.digits 10 231, a = 1 ∨ a = 2 ∨ a = 3 := by
    intro a ha
    have h : Nat.digits 10 231 = [1, 3, 2] := by norm_num
    rw [h] at ha
    simp at ha
    omega
  ⟨hd, (phi_composition_order example_map3 ⟨0⟩ 231 hd).1, by
    have h : Nat.digits 10 231 = [1, 3, 2] := by norm_num
    simp only [CMap3.phi_by_digits, h]
    decide⟩


/-! ## Insertion of a group of lines -/

theorem ChunkArrayContainer.set_refs_apply (refs : Nat → Nat) (index v j : Nat) :
    ∀ P, index + P ≤ UINT32_RANGE →
      ChunkArrayContainer.set_refs refs index P v j =
        if index ≤ j ∧ j < index + P then v else refs j := by
  intro P
  induction P with
  | zero =>
    intro _
    have hn : ¬ (index ≤ j ∧ j < index + 0) := by omega
    rw [if_neg hn]
    rfl
  | succ P ih =>
    intro hP
    have ih1 := ih (by omega)
    unfold ChunkArrayContainer.set_refs at ih1 ⊢
    rw [List.range_succ, List.foldl_append]
    simp only [List.foldl_cons, List.foldl_nil]
    rw [Nat.mod_eq_of_lt (by omega : index + P < UINT32_RANGE)]
    by_cases hj : j = index + P
    · rw [hj, Function.update_same, if_pos (by omega)]
    · rw [Function.update_noteq hj, ih1]
      by_cases hc : index ≤ j ∧ j < index + P
      · rw [if_pos hc, if_pos (by omega)]
      · rw [if_neg hc, if_neg (by omega)]

theorem example_map3_involutions : example_map3.involutions_on (fun x => x.index < 4) := by
  rintro ⟨i⟩ hi
  have hi' : i < 4 := hi
  interval_cases i <;> simp [CMap2.phi2, CMap3.phi3, example_map3, example_map2]

theorem DartMarkerStore.init_well_formed (P : Dart → Prop) :
    DartMarkerStore.init.well_formed P := by
  refine ⟨?_, List.nodup_nil, ?_⟩
  · intro x; simp [DartMarkerStore.init, DartMarkerStore.is_marked]
  · intro x hx; simp [DartMarkerStore.init] at hx

theorem DartMarkerStore.mark_well_formed (s : DartMarkerStore) (P : Dart → Prop)
    (hs : s.well_formed P) (x : Dart) (hx : P x) (hnew : s.is_marked x = false) :
    (s.mark x).well_formed P := by
  obtain ⟨hc, hnd, hP⟩ := hs
  have hxn : x ∉ s.marked_darts_ := by
    intro h
    rw [(hc x).2 h] at hnew
    exact Bool.noConfusion hnew
  refine ⟨?_, ?_, ?_⟩
  · intro y
    show Function.update s.mark_attribute_ x.index true y.index = true ↔
      y ∈ s.marked_darts_ ++ [x]
    rw [List.mem_append, List.mem_singleton]
    by_cases hy : y.index = x.index
    · rw [hy, Function.update_same]
      exact ⟨fun _ => Or.inr ((Dart.eq_iff_index y x).2 hy), fun _ => rfl⟩
    · rw [Function.update_noteq hy]
      have hne : y ≠ x := fun h => hy (by rw [h])
      constructor
      · intro h; exact Or.inl ((hc y).1 h)
      · rintro (h | h)
        · exact (hc y).2 h
        · exact absurd h hne
  · show (s.marked_darts_ ++ [x]).Nodup
    rw [List.nodup_append]
    refine ⟨hnd, List.nodup_singleton x, ?_⟩
    intro a ha hb
    rw [List.mem_singleton] at hb
    exact hxn (hb ▸ ha)
  · intro y hy
    have hy' : y ∈ s.marked_darts_ ++ [x] := hy
    rw [List.mem_append, List.mem_singleton] at hy'
    rcases hy' with h | h
    · exact hP y h
    · rw [h]; exact hx

/-- Marking a dart unless it is marked already: the store stays well formed,
the list of marked darts is extended at its end and holds the dart. -/
theorem DartMarkerStore.mark_if_unmarked (s : DartMarkerStore) (P : Dart → Prop)
    (hs : s.well_formed P) (x : Dart) (hx : P x) :
    (if !s.is_marked x then s.mark x else s).well_formed P ∧
    x ∈ (if !s.is_marked x then s.mark x else s).marked_darts_ ∧
    ∃ extra, (if !s.is_marked x then s.mark x else s).marked_darts_ =
      s.marked_darts_ ++ extra := by
  cases hm : s.is_marked x with
  | false =>
    simp only [Bool.not_false, if_true]
    refine ⟨DartMarkerStore.mark_well_formed s P hs x hx hm, ?_, [x], rfl⟩
    show x ∈ s.marked_darts_ ++ [x]
    simp
  | true =>
    simp only [Bool.not_true, Bool.false_eq_true, if_false]
    exact ⟨hs, (hs.1 x).1 hm, [], by simp⟩

theorem DartMarkerStore.length_le (s : DartMarkerStore) (P : Dart → Prop) (N : Nat)
    (hs : s.well_formed P) (hP : ∀ x, P x → x.index < N) : s.marked_darts_.length ≤ N := by
  have hinj : Function.Injective Dart.index := fun x y h => (Dart.eq_iff_index x y).2 h
  have h := nodup_length_le_of_lt (s.marked_darts_.map Dart.index) N
    (List.Nodup.map hinj hs.2.1) (by
      intro i hi
      rw [List.mem_map] at hi
      obtain ⟨x, hx, rfl⟩ := hi
      exact hP x (hs.2.2 x hx))
  rw [List.length_map] at h
  exact h

theorem CMap3.foreach_dart_of_PHI21_PHI31_loop_spec (m : CMap3) (S : Dart → Prop) (N : Nat)
    (hN : N < UINT32_RANGE) (hfin : ∀ x, S x → x.index < N)
    (hclosed : ∀ x, S x → S (m.phi2 (m.phi_1 x)) ∧ S (m.phi3 (m.phi_1 x))) (d : Dart) :
    ∀ (k i : Nat) (marker : DartMarkerStore),
      marker.well_formed (fun x => S x ∧ m.orbit_PHI21_PHI31 d x) →
      d ∈ marker.marked_darts_ →
      i ≤ marker.marked_darts_.length →
      (∀ x, x ∈ marker.marked_darts_.take i →
        m.phi2 (m.phi_1 x) ∈ marker.marked_darts_ ∧
        m.phi3 (m.phi_1 x) ∈ marker.marked_darts_) →
      N - i ≤ k →
      ∃ L, (marker.marked_darts_ ++ L).Nodup ∧
        (∀ x, x ∈ marker.marked_darts_ ++ L ↔ m.orbit_PHI21_PHI31 d x) ∧
        ∀ (σ : Type) (f : σ → Dart → σ) (s : σ) (fuel : Nat),
          (marker.marked_darts_ ++ L).length - i < fuel →
          CMap3.foreach_dart_of_PHI21_PHI31_loop m f fuel i marker s =
            some (((marker.marked_darts_ ++ L).drop i).foldl f s) := by
  intro k
  induction k with
  | zero =>
    intro i marker hwf hd hi hcl hk
    have hlen := DartMarkerStore.length_le marker _ N hwf (fun x hx => hfin x hx.1)
    have hi2 : i = marker.marked_darts_.length := by omega
    refine ⟨[], ?_, ?_, ?_⟩
    · rw [List.append_nil]; exact hwf.2.1
    · intro x
      rw [List.append_nil]
      constructor
      · intro hx; exact (hwf.2.2 x hx).2
      · intro hx
        induction hx with
        | base => exact hd
        | step21 y _ ih => exact (hcl y (by rw [hi2, List.take_length]; exact ih)).1
        | step31 y _ ih => exact (hcl y (by rw [hi2, List.take_length]; exact ih)).2
    · intro σ f s fuel hfuel
      cases fuel with
      | zero => omega
      | succ fuel =>
        rw [CMap3.foreach_dart_of_PHI21_PHI31_loop, dif_neg (by omega), List.append_nil,
          List.drop_eq_nil_of_le (by omega)]
        rfl
  | succ k ih =>
    intro i marker hwf hd hi hcl hk
    by_cases hlt : i < marker.marked_darts_.length
    · -- one turn of the loop
      have hlen := DartMarkerStore.length_le marker _ N hwf (fun x hx => hfin x hx.1)
      have hcurr : marker.marked_darts_.get ⟨i, hlt⟩ ∈ marker.marked_darts_ :=
        List.get_mem _ _ _
      obtain ⟨hScurr, hOcurr⟩ := hwf.2.2 _ hcurr
      obtain ⟨hw1, hm1, e1, he1⟩ := DartMarkerStore.mark_if_unmarked marker _ hwf
        (m.phi2 (m.phi_1 (marker.marked_darts_.get ⟨i, hlt⟩)))
        ⟨(hclosed _ hScurr).1, CMap3.orbit_PHI21_PHI31.step21 _ hOcurr⟩
      obtain ⟨hw2, hm2, e2, he2⟩ := DartMarkerStore.mark_if_unmarked _ _ hw1
        (m.phi3 (m.phi_1 (marker.marked_darts_.get ⟨i, hlt⟩)))
        ⟨(hclosed _ hScurr).2, CMap3.orbit_PHI21_PHI31.step31 _ hOcurr⟩
      rw [he1] at he2
      have hsub : ∀ x, x ∈ marker.marked_darts_ →
          x ∈ marker.marked_darts_ ++ e1 ++ e2 := by
        intro x hx; simp [hx]
      have hm1' : m.phi2 (m.phi_1 (marker.marked_darts_.get ⟨i, hlt⟩)) ∈
          marker.marked_darts_ ++ e1 ++ e2 := by
        rw [he1] at hm1
        exact List.mem_append_left _ hm1
      obtain ⟨L, hnd, hmem, hrun⟩ := ih (i + 1) _ hw2 (by rw [he2]; exact hsub d hd)
        (by rw [he2]; simp; omega)
        (by
          intro x hx
          rw [he2, List.append_assoc, List.take_append_of_le_length (by omega),
            List.take_succ, List.mem_append] at hx
          rw [he2]
          rcases hx with hx | hx
          · exact ⟨hsub _ (hcl x hx).1, hsub _ (hcl x hx).2⟩
          · rw [List.getElem?_eq_getElem hlt] at hx
            have hx2 : x = marker.marked_darts_.get ⟨i, hlt⟩ := by simpa using hx
            rw [hx2]
            refine ⟨hm1', ?_⟩
            rw [← he2]
            exact hm2)
        (by omega)
      rw [he2] at hnd hmem hrun
      have hfinal : marker.marked_darts_ ++ e1 ++ e2 ++ L =
          marker.marked_darts_ ++ (e1 ++ e2 ++ L) := by simp
      rw [hfinal] at hnd hmem hrun
      refine ⟨e1 ++ e2 ++ L, hnd, hmem, ?_⟩
      intro σ f s fuel hfuel
      cases fuel with
      | zero => omega
      | succ fuel =>
        have hmod : (i + 1) % UINT32_RANGE = i + 1 := Nat.mod_eq_of_lt (by omega)
        have hi3 : i < (marker.marked_darts_ ++ (e1 ++ e2 ++ L)).length := by
          rw [List.length_append]; omega
        rw [CMap3.foreach_dart_of_PHI21_PHI31_loop, dif_pos hlt]
        simp only [hmod]
        rw [hrun σ f _ fuel (by omega), List.drop_eq_getElem_cons hi3,
          List.getElem_append_left hlt]
        rfl
    · have hi2 : i = marker.marked_darts_.length := by omega
      refine ⟨[], ?_, ?_, ?_⟩
      · rw [List.append_nil]; exact hwf.2.1
      · intro x
        rw [List.append_nil]
        constructor
        · intro hx; exact (hwf.2.2 x hx).2
        · intro hx
          induction hx with
          | base => exact hd
          | step21 y _ ih2 => exact (hcl y (by rw [hi2, List.take_length]; exact ih2)).1
          | step31 y _ ih2 => exact (hcl y (by rw [hi2, List.take_length]; exact ih2)).2
      · intro σ f s fuel hfuel
        cases fuel with
        | zero => omega
        | succ fuel =>
          rw [CMap3.foreach_dart_of_PHI21_PHI31_loop, dif_neg hlt, List.append_nil,
            List.drop_eq_nil_of_le (by omega)]
          rfl

/-- Claim C16: in a 3D map where `phi1`, with inverse `phi_1`, is a
permutation and `phi2`, `phi3` are involutions of a finite dart set `S`
(fixed points of `phi2` and `phi3` are allowed), for `d` in `S`,
`foreach_dart_of_PHI21_PHI31(d, f)` terminates and calls `f` on the darts of a
list `L` that starts with `d`, has no repetition and whose darts are exactly
the darts of the smallest set containing `d` and closed under
`x ↦ phi2(phi_1(x))` and `x ↦ phi3(phi_1(x))`. -/
theorem foreach_dart_of_PHI21_PHI31_visits_orbit (m : CMap3) (S : Dart → Prop) (N : Nat)
    (d : Dart) (hN : N < UINT32_RANGE) (hfin : ∀ x, S x → x.index < N)
    (hperm : m.toCMap1.inverse_on S) (hinv : m.involutions_on S) (hd : S d) :
    ∃ L : List Dart, L.Nodup ∧ L.head? = some d ∧
      (∀ x, x ∈ L ↔ m.orbit_PHI21_PHI31 d x) ∧
      ∀ (σ : Type) (f : σ → Dart → σ) (s : σ) (fuel : Nat), L.length < fuel →
        m.foreach_dart_of_PHI21_PHI31 d f fuel s = some (L.foldl f s) := by
  have hclosed : ∀ x, S x → S (m.phi2 (m.phi_1 x)) ∧ S (m.phi3 (m.phi_1 x)) := by
    intro x hx
    have h1 : S (m.phi_1 x) := (hperm x hx).2.1
    exact ⟨(hinv _ h1).1, (hinv _ h1).2.1⟩
  have hwf : (DartMarkerStore.init.mark d).well_formed
      (fun x => S x ∧ m.orbit_PHI21_PHI31 d x) :=
    DartMarkerStore.mark_well_formed _ _ (DartMarkerStore.init_well_formed _) d
      ⟨hd, CMap3.orbit_PHI21_PHI31.base⟩ rfl
  have hmk : (DartMarkerStore.init.mark d).marked_darts_ = [d] := rfl
  obtain ⟨L, hnd, hmem, hrun⟩ := CMap3.foreach_dart_of_PHI21_PHI31_loop_spec m S N hN hfin
    hclosed d N 0 (DartMarkerStore.init.mark d) hwf (by rw [hmk]; simp) (by omega)
    (by intro x hx; simp at hx) (by omega)
  rw [hmk] at hnd hmem hrun
  refine ⟨[d] ++ L, hnd, rfl, hmem, ?_⟩
  intro σ f s fuel hfuel
  exact hrun σ f s fuel (by omega)

/-- Witness of C16 on the example 3D map, where `phi2` and `phi3` have fixed
points: the traversal from the dart `0` visits `0, 2, 3, 1`. -/
theorem foreach_dart_of_PHI21_PHI31_visits_orbit_witness :
    (4 < UINT32_RANGE) ∧
    example_map3.toCMap1.inverse_on (fun x => x.index < 4) ∧
    example_map3.involutions_on (fun x => x.index < 4) ∧
    example_map3.phi2 ⟨2⟩ = ⟨2⟩ ∧ example_map3.phi3 ⟨1⟩ = ⟨1⟩ ∧
    example_map3.foreach_dart_of_PHI21_PHI31 ⟨0⟩ (fun l x => l ++ [x]) 5 [] =
      some [⟨0⟩, ⟨2⟩, ⟨3⟩, ⟨1⟩] ∧
    ∃ L : List Dart, L.Nodup ∧ L.head? = some ⟨0⟩ ∧
      (∀ x, x ∈ L ↔ example_map3.orbit_PHI21_PHI31 ⟨0⟩ x) ∧
      ∀ (σ : Type) (f : σ → Dart → σ) (s : σ) (fuel : Nat), L.length < fuel →
        example_map3.foreach_dart_of_PHI21_PHI31 ⟨0⟩ f fuel s = some (L.foldl f s) :=
  ⟨by decide, example_map_inverse_on, example_map3_involutions, by decide, by decide,
   by decide,
   foreach_dart_of_PHI21_PHI31_visits_orbit example_map3 (fun x => x.index < 4) 4 ⟨0⟩
     (by decide) (fun _ h => h) example_map_inverse_on example_map3_involutions
     (by decide)⟩


/-! ## The `until` variants visit a prefix of the walk -/

theorem visit_until_cons {σ : Type} (f : σ → Dart → σ × Bool) (s : σ) (x : Dart)
    (xs : List Dart) :
    visit_until f s (x :: xs) =
      if (f s x).2 then visit_until f (f s x).1 xs else ((f s x).1, false) := rfl

theorem visit_until_append {σ : Type} (f : σ → Dart → σ × Bool) (L2 : List Dart) :
    ∀ (L1 : List Dart) (s : σ), visit_until f s (L1 ++ L2) =
      if (visit_until f s L1).2 then visit_until f (visit_until f s L1).1 L2
      else ((visit_until f s L1).1, false) := by
  intro L1
  induction L1 with
  | nil => intro s; rfl
  | cons x L1 ih =>
    intro s
    rw [List.cons_append, visit_until_cons, visit_until_cons]
    cases h : (f s x).2 with
    | true => simp only [if_true]; exact ih _
    | false => simp

/-- With a visitor that records the darts and stops where the test `p` fails,
the darts visited along `L` are the darts of `L` up to the first one where `p`
fails, this one included: a prefix of `L`. -/
theorem visit_until_log (p : Dart → Bool) :
    ∀ (L acc : List Dart),
      (visit_until (fun l x => (l ++ [x], p x)) acc L).1 =
        acc ++ (L.takeWhile p ++ (L.dropWhile p).take 1) ∧
      (L.takeWhile p ++ (L.dropWhile p).take 1) <+: L := by
  intro L
  induction L with
  | nil => intro acc; simp [visit_until]
  | cons x L ih =>
    intro acc
    rw [visit_until_cons]
    cases h : p x with
    | true =>
      simp only [if_true, List.takeWhile_cons, List.dropWhile_cons, h]
      refine ⟨?_, ?_⟩
      · rw [(ih (acc ++ [x])).1]; simp
      · exact (List.prefix_cons_inj x).2 (ih acc).2
    | false =>
      simp only [List.takeWhile_cons, List.dropWhile_cons, h]
      simp

theorem CMap1.foreach_dart_of_PHI1_until_loop_eq {σ : Type} (m : CMap1) (d : Dart)
    (f : σ → Dart → σ × Bool) :
    ∀ (fuel : Nat) (it : Dart) (acc R : List Dart) (s : σ),
      CMap1.foreach_dart_of_PHI1_loop m d (fun l x => l ++ [x]) fuel it acc = some R →
      ∃ L, R = acc ++ L ∧
        CMap1.foreach_dart_of_PHI1_until_loop m d f fuel it s = some (visit_until f s L).1 := by
  intro fuel
  induction fuel with
  | zero => intro it acc R s h; cases h
  | succ fuel ih =>
    intro it acc R s h
    unfold CMap1.foreach_dart_of_PHI1_loop at h
    unfold CMap1.foreach_dart_of_PHI1_until_loop
    by_cases hne : m.phi1 it ≠ d
    · simp only [hne, ne_eq, not_false_eq_true, if_true] at h ⊢
      obtain ⟨L, hR, hu⟩ := ih (m.phi1 it) (acc ++ [it]) R (f s it).1 h
      refine ⟨it :: L, by rw [hR]; simp, ?_⟩
      cases hb : (f s it).2 with
      | true => simp [visit_until, hb, hu]
      | false => simp [visit_until, hb]
    · simp only [hne, if_false] at h ⊢
      refine ⟨[it], by cases h; rfl, ?_⟩
      cases hb : (f s it).2 with
      | true => simp [visit_until, hb]
      | false => simp [visit_until, hb]

theorem CMap3.foreach_dart_of_PHI1_PHI3_until_loop_eq {σ : Type} (m : CMap3) (d : Dart)
    (f : σ → Dart → σ × Bool) :
    ∀ (fuel : Nat) (it : Dart) (acc R : List Dart) (s : σ),
      CMap1.foreach_dart_of_PHI1_loop m.toCMap1 d
        (fun l fd => (fun (l : List Dart) x => l ++ [x])
          ((fun (l : List Dart) x => l ++ [x]) l fd) (m.phi3 fd)) fuel it acc = some R →
      ∃ L, R = acc ++ L ∧
        CMap1.foreach_dart_of_PHI1_until_loop m.toCMap1 d
          (fun s fd => if (f s fd).2 then f (f s fd).1 (m.phi3 fd) else ((f s fd).1, false))
          fuel it s = some (visit_until f s L).1 := by
  intro fuel
  induction fuel with
  | zero => intro it acc R s h; cases h
  | succ fuel ih =>
    intro it acc R s h
    unfold CMap1.foreach_dart_of_PHI1_loop at h
    unfold CMap1.foreach_dart_of_PHI1_until_loop
    by_cases hne : m.phi1 it ≠ d
    · simp only [hne, ne_eq, not_false_eq_true, if_true] at h ⊢
      cases hb : (f s it).2 with
      | false => 
        obtain ⟨L, hR, _⟩ := ih (m.phi1 it) _ R s h
        exact ⟨it :: m.phi3 it :: L, by rw [hR]; simp, by simp [visit_until, hb]⟩
      | true =>
        cases hb2 : (f (f s it).1 (m.phi3 it)).2 with
        | false =>
          obtain ⟨L, hR, _⟩ := ih (m.phi1 it) _ R s h
          exact ⟨it :: m.phi3 it :: L, by rw [hR]; simp, by simp [visit_until, hb, hb2]⟩
        | true =>
          obtain ⟨L, hR, hu⟩ := ih (m.phi1 it) _ R (f (f s it).1 (m.phi3 it)).1 h
          exact ⟨it :: m.phi3 it :: L, by rw [hR]; simp, by simp [visit_until, hb, hb2, hu]⟩
    · simp only [hne, if_false] at h ⊢
      refine ⟨[it, m.phi3 it], by cases h; simp, ?_⟩
      cases hb : (f s it).2 with
      | false => simp [visit_until, hb]
      | true =>
        cases hb2 : (f (f s it).1 (m.phi3 it)).2 with
        | false => simp [visit_until, hb, hb2]
        | true => simp [visit_until, hb, hb2]

theorem CMap3.foreach_dart_of_PHI2_PHI3_until_loop_eq {σ : Type} (m : CMap3) (d : Dart)
    (f : σ → Dart → σ × Bool) :
    ∀ (fuel : Nat) (it : Dart) (acc R : List Dart) (s : σ),
      CMap3.foreach_dart_of_PHI2_PHI3_loop m d (fun l x => l ++ [x]) fuel it acc = some R →
      ∃ L, R = acc ++ L ∧
        CMap3.foreach_dart_of_PHI2_PHI3_until_loop m d f fuel it s =
          some (visit_until f s L).1 := by
  intro fuel
  induction fuel with
  | zero => intro it acc R s h; cases h
  | succ fuel ih =>
    intro it acc R s h
    unfold CMap3.foreach_dart_of_PHI2_PHI3_loop at h
    unfold CMap3.foreach_dart_of_PHI2_PHI3_until_loop
    by_cases hne : m.phi3 (m.phi2 it) ≠ d
    · simp only [hne, ne_eq, not_false_eq_true, if_true] at h ⊢
      cases hb : (f s it).2 with
      | false =>
        obtain ⟨L, hR, _⟩ := ih _ _ R s h
        exact ⟨it :: m.phi2 it :: L, by rw [hR]; simp, by simp [visit_until, hb]⟩
      | true =>
        cases hb2 : (f (f s it).1 (m.phi2 it)).2 with
        | false =>
          obtain ⟨L, hR, _⟩ := ih _ _ R s h
          exact ⟨it :: m.phi2 it :: L, by rw [hR]; simp, by simp [visit_until, hb, hb2]⟩
        | true =>
          obtain ⟨L, hR, hu⟩ := ih _ _ R (f (f s it).1 (m.phi2 it)).1 h
          exact ⟨it :: m.phi2 it :: L, by rw [hR]; simp, by simp [visit_until, hb, hb2, hu]⟩
    · simp only [hne, if_false] at h ⊢
      refine ⟨[it, m.phi2 it], by cases h; simp, ?_⟩
      cases hb : (f s it).2 with
      | false => simp [visit_until, hb]
      | true =>
        cases hb2 : (f (f s it).1 (m.phi2 it)).2 with
        | false => simp [visit_until, hb, hb2]
        | true => simp [visit_until, hb, hb2]

theorem CMap3.foreach_dart_of_PHI21_PHI31_until_loop_eq {σ : Type} (m : CMap3)
    (f : σ → Dart → σ × Bool) :
    ∀ (fuel i : Nat) (marker : DartMarkerStore) (acc R : List Dart) (s : σ),
      CMap3.foreach_dart_of_PHI21_PHI31_loop m (fun l x => l ++ [x]) fuel i marker acc =
        some R →
      ∃ L, R = acc ++ L ∧
        CMap3.foreach_dart_of_PHI21_PHI31_until_loop m f fuel i marker s =
          some (visit_until f s L).1 := by
  intro fuel
  induction fuel with
  | zero => intro i marker acc R s h; cases h
  | succ fuel ih =>
    intro i marker acc R s h
    rw [CMap3.foreach_dart_of_PHI21_PHI31_loop] at h
    rw [CMap3.foreach_dart_of_PHI21_PHI31_until_loop]
    by_cases hlt : i < marker.marked_darts_.length
    · rw [dif_pos hlt] at h ⊢
      obtain ⟨L, hR, hu⟩ := ih _ _ _ R (f s (marker.marked_darts_.get ⟨i, hlt⟩)).1 h
      refine ⟨marker.marked_darts_.get ⟨i, hlt⟩ :: L, by rw [hR]; simp, ?_⟩
      rw [visit_until_cons]
      cases hb : (f s (marker.marked_darts_.get ⟨i, hlt⟩)).2 with
      | false => simp only [hb, Bool.not_false, Bool.false_eq_true, if_true, if_false]
      | true =>
        simp only [hb, Bool.not_true, Bool.false_eq_true, if_false, if_true]
        exact hu
    · rw [dif_neg hlt] at h ⊢
      exact ⟨[], by cases h; simp, rfl⟩

theorem CMap3.foreach_dart_of_PHI1_PHI2_PHI3_until_face_eq {σ : Type} (m : CMap3)
    (f : σ → Dart → σ × Bool) (e : Dart) :
    ∀ (fuel : Nat) (it : Dart) (marker : DartMarkerStore) (vis : List Dart)
      (acc : List Dart) (mk1 : DartMarkerStore) (vis1 R : List Dart) (s : σ),
      CMap3.foreach_dart_of_PHI1_PHI2_PHI3_face m (fun l x => l ++ [x]) e fuel it marker
        vis acc = some (mk1, vis1, R) →
      ∃ L, R = acc ++ L ∧
        CMap3.foreach_dart_of_PHI1_PHI2_PHI3_until_face m f e fuel it marker vis s =
          some (if (visit_until f s L).2 then some (mk1, vis1) else none,
            (visit_until f s L).1) := by
  intro fuel
  induction fuel with
  | zero => intro it marker vis acc mk1 vis1 R s h; cases h
  | succ fuel ih =>
    intro it marker vis acc mk1 vis1 R s h
    rw [CMap3.foreach_dart_of_PHI1_PHI2_PHI3_face] at h
    rw [CMap3.foreach_dart_of_PHI1_PHI2_PHI3_until_face]
    by_cases hne : m.phi1 it ≠ e
    · simp only [hne, ne_eq, not_false_eq_true, if_true] at h ⊢
      obtain ⟨L, hR, hu⟩ := ih _ _ _ _ mk1 vis1 R (f s it).1 h
      refine ⟨it :: L, by rw [hR]; simp, ?_⟩
      rw [visit_until_cons]
      cases hb : (f s it).2 with
      | false => simp [hb]
      | true =>
        simp only [hb, Bool.not_true, Bool.false_eq_true, if_false, if_true]
        exact hu
    · simp only [hne, if_false] at h ⊢
      refine ⟨[it], by cases h; rfl, ?_⟩
      rw [visit_until_cons]
      cases hb : (f s it).2 with
      | false => simp [hb]
      | true =>
        cases h
        simp [hb, visit_until]

theorem CMap3.foreach_dart_of_PHI1_PHI2_PHI3_until_loop_eq {σ : Type} (m : CMap3)
    (f : σ → Dart → σ × Bool) :
    ∀ (fuel i : Nat) (marker : DartMarkerStore) (vis : List Dart) (acc R : List Dart)
      (s : σ),
      CMap3.foreach_dart_of_PHI1_PHI2_PHI3_loop m (fun l x => l ++ [x]) fuel i marker vis
        acc = some R →
      ∃ L, R = acc ++ L ∧
        CMap3.foreach_dart_of_PHI1_PHI2_PHI3_until_loop m f fuel i marker vis s =
          some (visit_until f s L).1 := by
  intro fuel
  induction fuel with
  | zero => intro i marker vis acc R s h; cases h
  | succ fuel ih =>
    intro i marker vis acc R s h
    rw [CMap3.foreach_dart_of_PHI1_PHI2_PHI3_loop] at h
    rw [CMap3.foreach_dart_of_PHI1_PHI2_PHI3_until_loop]
    by_cases hlt : i < vis.length
    · rw [dif_pos hlt] at h ⊢
      cases hm : marker.is_marked (vis.get ⟨i, hlt⟩) with
      | true =>
        simp only [hm, Bool.not_true, Bool.false_eq_true, if_false] at h ⊢
        exact ih _ _ _ _ R s h
      | false =>
        simp only [hm, Bool.not_false, if_true] at h ⊢
        cases hface : CMap3.foreach_dart_of_PHI1_PHI2_PHI3_face m (fun l x => l ++ [x])
            (vis.get ⟨i, hlt⟩) fuel (vis.get ⟨i, hlt⟩) marker vis acc with
        | none => rw [hface] at h; cases h
        | some r =>
          obtain ⟨mk1, vis1, R1⟩ := r
          rw [hface] at h
          simp only at h
          obtain ⟨L1, hR1, hu1⟩ := CMap3.foreach_dart_of_PHI1_PHI2_PHI3_until_face_eq m f
            (vis.get ⟨i, hlt⟩) fuel (vis.get ⟨i, hlt⟩) marker vis acc mk1 vis1 R1 s hface
          obtain ⟨L2, hR2, hu2⟩ := ih _ _ _ _ R (visit_until f s L1).1 h
          refine ⟨L1 ++ L2, by rw [hR2, hR1]; simp, ?_⟩
          rw [hu1, visit_until_append]
          cases hb : (visit_until f s L1).2 with
          | false => simp
          | true =>
            simp only [if_true]
            exact hu2
    · rw [dif_neg hlt] at h ⊢
      exact ⟨[], by cases h; simp, rfl⟩

/-- Claim C18: for each of the walks `PHI1`, `PHI2_PHI3`, `PHI1_PHI3`,
`PHI21_PHI31` and `PHI1_PHI2_PHI3`: when the plain variant, run with a visitor
that records the darts, produces the sequence `L`, the `until` variant run
with the same fuel and any visitor `f` terminates, and its visits are those of
`visit_until f s L`: `f` is called on the darts of `L` in order up to the
first dart on which it returns false, and on no dart after it (on the whole of
`L` if it never returns false).  For a visitor that records the darts and
returns the test `p`, the recorded darts are the prefix of `L` that ends at
the first dart where `p` fails. -/
theorem until_variants_stop_early (m : CMap3) (d : Dart) (fuel : Nat) (L : List Dart) :
    (m.toCMap1.foreach_dart_of_PHI1 d (fun l x => l ++ [x]) fuel [] = some L →
      ∀ (σ : Type) (f : σ → Dart → σ × Bool) (s : σ),
        m.toCMap1.foreach_dart_of_PHI1_until d f fuel s = some (visit_until f s L).1) ∧
    (m.foreach_dart_of_PHI2_PHI3 d (fun l x => l ++ [x]) fuel [] = some L →
      ∀ (σ : Type) (f : σ → Dart → σ × Bool) (s : σ),
        m.foreach_dart_of_PHI2_PHI3_until d f fuel s = some (visit_until f s L).1) ∧
    (m.foreach_dart_of_PHI1_PHI3 d (fun l x => l ++ [x]) fuel [] = some L →
      ∀ (σ : Type) (f : σ → Dart → σ × Bool) (s : σ),
        m.foreach_dart_of_PHI1_PHI3_until d f fuel s = some (visit_until f s L).1) ∧
    (m.foreach_dart_of_PHI21_PHI31 d (fun l x => l ++ [x]) fuel [] = some L →
      ∀ (σ : Type) (f : σ → Dart → σ × Bool) (s : σ),
        m.foreach_dart_of_PHI21_PHI31_until d f fuel s = some (visit_until f s L).1) ∧
    (m.foreach_dart_of_PHI1_PHI2_PHI3 d (fun l x => l ++ [x]) fuel [] = some L →
      ∀ (σ : Type) (f : σ → Dart → σ × Bool) (s : σ),
        m.foreach_dart_of_PHI1_PHI2_PHI3_until d f fuel s = some (visit_until f s L).1) ∧
    (∀ (p : Dart → Bool) (acc : List Dart),
      (visit_until (fun l x => (l ++ [x], p x)) acc L).1 =
        acc ++ (L.takeWhile p ++ (L.dropWhile p).take 1) ∧
      (L.takeWhile p ++ (L.dropWhile p).take 1) <+: L) := by
  refine ⟨?_, ?_, ?_, ?_, ?_, fun p acc => visit_until_log p L acc⟩
  · intro h σ f s
    obtain ⟨L1, hL, hu⟩ := CMap1.foreach_dart_of_PHI1_until_loop_eq m.toCMap1 d f fuel d [] L s h
    rw [List.nil_append] at hL
    rw [hL]
    exact hu
  · intro h σ f s
    obtain ⟨L1, hL, hu⟩ := CMap3.foreach_dart_of_PHI2_PHI3_until_loop_eq m d f fuel d [] L s h
    rw [List.nil_append] at hL
    rw [hL]
    exact hu
  · intro h σ f s
    obtain ⟨L1, hL, hu⟩ := CMap3.foreach_dart_of_PHI1_PHI3_until_loop_eq m d f fuel d [] L s h
    rw [List.nil_append] at hL
    rw [hL]
    exact hu
  · intro h σ f s
    obtain ⟨L1, hL, hu⟩ := CMap3.foreach_dart_of_PHI21_PHI31_until_loop_eq m f fuel 0
      (DartMarkerStore.init.mark d) [] L s h
    rw [List.nil_append] at hL
    rw [hL]
    exact hu
  · intro h σ f s
    obtain ⟨L1, hL, hu⟩ := CMap3.foreach_dart_of_PHI1_PHI2_PHI3_until_loop_eq m f fuel 0
      DartMarkerStore.init [d] [] L s h
    rw [List.nil_append] at hL
    rw [hL]
    exact hu

/-- Instances of C18 on the example 3D map, from the dart `0`, with a visitor
that records the darts and returns false on the dart `1`: each `until` walk
stops after its first visit of `1`. -/
theorem until_variants_stop_early_witness :
    (example_map3.toCMap1.foreach_dart_of_PHI1 ⟨0⟩ (fun l x => l ++ [x]) 10 [] =
        some [⟨0⟩, ⟨1⟩, ⟨2⟩] ∧
      example_map3.toCMap1.foreach_dart_of_PHI1_until ⟨0⟩
        (fun l x => (l ++ [x], decide (x ≠ ⟨1⟩))) 10 [] = some [⟨0⟩, ⟨1⟩]) ∧
    (example_map3.foreach_dart_of_PHI2_PHI3 ⟨0⟩ (fun l x => l ++ [x]) 10 [] =
        some [⟨0⟩, ⟨1⟩, ⟨1⟩, ⟨0⟩] ∧
      example_map3.foreach_dart_of_PHI2_PHI3_until ⟨0⟩
        (fun l x => (l ++ [x], decide (x ≠ ⟨1⟩))) 10 [] = some [⟨0⟩, ⟨1⟩]) ∧
    (example_map3.foreach_dart_of_PHI1_PHI3 ⟨0⟩ (fun l x => l ++ [x]) 10 [] =
        some [⟨0⟩, ⟨0⟩, ⟨1⟩, ⟨1⟩, ⟨2⟩, ⟨3⟩] ∧
      example_map3.foreach_dart_of_PHI1_PHI3_until ⟨0⟩
        (fun l x => (l ++ [x], decide (x ≠ ⟨1⟩))) 10 [] = some [⟨0⟩, ⟨0⟩, ⟨1⟩]) ∧
    (example_map3.foreach_dart_of_PHI21_PHI31 ⟨0⟩ (fun l x => l ++ [x]) 10 [] =
        some [⟨0⟩, ⟨2⟩, ⟨3⟩, ⟨1⟩] ∧
      example_map3.foreach_dart_of_PHI21_PHI31_until ⟨0⟩
        (fun l x => (l ++ [x], decide (x ≠ ⟨3⟩))) 10 [] = some [⟨0⟩, ⟨2⟩, ⟨3⟩]) ∧
    (example_map3_glued.foreach_dart_of_PHI1_PHI2_PHI3 ⟨0⟩ (fun l x => l ++ [x]) 10 [] =
        some [⟨0⟩, ⟨1⟩, ⟨3⟩, ⟨2⟩] ∧
      example_map3_glued.foreach_dart_of_PHI1_PHI2_PHI3_until ⟨0⟩
        (fun l x => (l ++ [x], decide (x ≠ ⟨3⟩))) 10 [] = some [⟨0⟩, ⟨1⟩, ⟨3⟩]) :=
  ⟨⟨by decide,
    ((until_variants_stop_early example_map3 ⟨0⟩ 10 [⟨0⟩, ⟨1⟩, ⟨2⟩]).1 (by decide)
      _ _ _).trans (by decide)⟩,
   ⟨by decide,
    ((until_variants_stop_early example_map3 ⟨0⟩ 10 [⟨0⟩, ⟨1⟩, ⟨1⟩, ⟨0⟩]).2.1 (by decide)
      _ _ _).trans (by decide)⟩,
   ⟨by decide,
    ((until_variants_stop_early example_map3 ⟨0⟩ 10
      [⟨0⟩, ⟨0⟩, ⟨1⟩, ⟨1⟩, ⟨2⟩, ⟨3⟩]).2.2.1 (by decide) _ _ _).trans (by decide)⟩,
   ⟨by decide,
    ((until_variants_stop_early example_map3 ⟨0⟩ 10 [⟨0⟩, ⟨2⟩, ⟨3⟩, ⟨1⟩]).2.2.2.1
      (by decide) _ _ _).trans (by decide)⟩,
   ⟨by decide,
    ((until_variants_stop_early example_map3_glued ⟨0⟩ 10
      [⟨0⟩, ⟨1⟩, ⟨3⟩, ⟨2⟩]).2.2.2.2.1 (by decide) _ _ _).trans (by decide)⟩⟩


/-! ## The traversal of a connected component -/

theorem CMap1.iterate_mem_of_inverse_on (m : CMap1) (S : Dart → Prop) (h : m.inverse_on S)
    (x : Dart) (hx : S x) (k : Nat) : S ((m.phi1)^[k] x) := by
  induction k with
  | zero => exact hx
  | succ k ih =>
    rw [Function.iterate_succ_apply']
    exact (h _ ih).1

/-- With the constraint `phi3 ∘ phi1 ∘ phi3 ∘ phi1 = id`, `phi3` maps the face
of `x` to the face of `phi3(x)`, which it runs through backwards. -/
theorem CMap3.phi1_iterate_phi3 (m : CMap3) (S : Dart → Prop)
    (hperm : m.toCMap1.inverse_on S) (hinv : m.involutions_on S)
    (hint : ∀ x, S x → m.phi3 (m.phi1 (m.phi3 (m.phi1 x))) = x) (x : Dart) (hx : S x) :
    ∀ j, (m.phi1)^[j] (m.phi3 ((m.phi1)^[j] x)) = m.phi3 x := by
  have hstep : ∀ y, S y → m.phi1 (m.phi3 (m.phi1 y)) = m.phi3 y := by
    intro y hy
    have hW : S (m.phi1 (m.phi3 (m.phi1 y))) :=
      (hperm _ (hinv _ (hperm y hy).1).2.1).1
    have h := congrArg m.phi3 (hint y hy)
    rw [(hinv _ hW).2.2.2] at h
    exact h
  intro j
  induction j with
  | zero => rfl
  | succ j ih =>
    rw [Function.iterate_succ_apply, Function.iterate_succ_apply',
      hstep _ (CMap1.iterate_mem_of_inverse_on m.toCMap1 S hperm x hx j)]
    exact ih

/-- A set of darts that holds `x` exactly when it holds `phi1(x)` holds `x`
exactly when it holds an iterate of `x`. -/
theorem CMap1.saturated_iterate (m : CMap1) (S : Dart → Prop) (h : m.inverse_on S)
    (M : List Dart) (hsat : ∀ x, S x → (x ∈ M ↔ m.phi1 x ∈ M)) (z : Dart) (hz : S z)
    (k : Nat) : z ∈ M ↔ (m.phi1)^[k] z ∈ M := by
  induction k with
  | zero => rfl
  | succ k ih =>
    rw [Function.iterate_succ_apply', ← hsat _ (CMap1.iterate_mem_of_inverse_on m S h z hz k)]
    exact ih

theorem push_if_eq (c : Bool) (vis : List Dart) (a : Dart) :
    (if c then vis ++ [a] else vis) = vis ++ (if c then [a] else []) := by
  cases c <;> simp

theorem CMap3.foreach_dart_of_PHI1_PHI2_PHI3_face_spec (m : CMap3) (P : Dart → Prop)
    (e : Dart) (n : Nat) (hc : cycle_length m.phi1 e n)
    (hP : ∀ j, P ((m.phi1)^[j] e) ∧ P (m.phi2 ((m.phi1)^[j] e))) :
    ∀ (k r : Nat) (marker : DartMarkerStore) (vis : List Dart),
      n - r = k → r < n → marker.well_formed P →
      (∀ j, r ≤ j → j < n → (m.phi1)^[j] e ∉ marker.marked_darts_) →
      ∃ (mk1 : DartMarkerStore) (ex : List Dart),
        mk1.marked_darts_ =
          marker.marked_darts_ ++ List.iterate m.phi1 ((m.phi1)^[r] e) (n - r) ∧
        mk1.well_formed P ∧ ex.length ≤ n - r ∧ (∀ y, y ∈ ex → P y) ∧
        (∀ j, r ≤ j → j < n →
          m.phi2 ((m.phi1)^[j] e) ∈ mk1.marked_darts_ ∨ m.phi2 ((m.phi1)^[j] e) ∈ ex) ∧
        ∀ (σ : Type) (f : σ → Dart → σ) (s : σ) (fuel : Nat), n - r ≤ fuel →
          CMap3.foreach_dart_of_PHI1_PHI2_PHI3_face m f e fuel ((m.phi1)^[r] e) marker vis s =
            some (mk1, vis ++ ex,
              (List.iterate m.phi1 ((m.phi1)^[r] e) (n - r)).foldl f s) := by
  obtain ⟨_, hn, hmin⟩ := hc
  intro k
  induction k with
  | zero => intro r marker vis hk hr; omega
  | succ k ih =>
    intro r marker vis hk hr hwf hfresh
    have hit : (m.phi1)^[r] e ∉ marker.marked_darts_ := hfresh r le_rfl hr
    have hunm : marker.is_marked ((m.phi1)^[r] e) = false := by
      cases hm : marker.is_marked ((m.phi1)^[r] e) with
      | false => rfl
      | true => exact absurd ((hwf.1 _).1 hm) hit
    have hwf1 : (marker.mark ((m.phi1)^[r] e)).well_formed P :=
      DartMarkerStore.mark_well_formed marker P hwf _ (hP r).1 hunm
    have hmk1 : (marker.mark ((m.phi1)^[r] e)).marked_darts_ =
        marker.marked_darts_ ++ [(m.phi1)^[r] e] := rfl
    have hsucc : m.phi1 ((m.phi1)^[r] e) = (m.phi1)^[r + 1] e := iterate_step m.phi1 r e
    have hadj : m.phi2 ((m.phi1)^[r] e) ∈ (marker.mark ((m.phi1)^[r] e)).marked_darts_ ∨
        m.phi2 ((m.phi1)^[r] e) ∈
          (if !(marker.mark ((m.phi1)^[r] e)).is_marked (m.phi2 ((m.phi1)^[r] e))
            then [m.phi2 ((m.phi1)^[r] e)] else []) := by
      cases hm : (marker.mark ((m.phi1)^[r] e)).is_marked (m.phi2 ((m.phi1)^[r] e)) with
      | false => right; simp
      | true => left; exact (hwf1.1 _).1 hm
    have hexP : ∀ y, y ∈ (if !(marker.mark ((m.phi1)^[r] e)).is_marked
        (m.phi2 ((m.phi1)^[r] e)) then [m.phi2 ((m.phi1)^[r] e)] else []) → P y := by
      intro y hy
      cases hm : (marker.mark ((m.phi1)^[r] e)).is_marked (m.phi2 ((m.phi1)^[r] e)) with
      | false =>
        rw [hm] at hy
        simp at hy
        rw [hy]; exact (hP r).2
      | true =>
        rw [hm] at hy
        simp at hy
    have hexlen : (if !(marker.mark ((m.phi1)^[r] e)).is_marked
        (m.phi2 ((m.phi1)^[r] e)) then [m.phi2 ((m.phi1)^[r] e)] else []).length ≤ 1 := by
      cases (marker.mark ((m.phi1)^[r] e)).is_marked (m.phi2 ((m.phi1)^[r] e)) <;> simp
    by_cases hlast : r + 1 = n
    · -- the last dart of the face
      have hback : m.phi1 ((m.phi1)^[r] e) = e := by rw [hsucc, hlast, hn]
      have h1 : n - r = 1 := by omega
      refine ⟨marker.mark ((m.phi1)^[r] e), _, ?_, hwf1, ?_, hexP, ?_, ?_⟩
      · rw [h1]; rfl
      · rw [h1]; exact hexlen
      · intro j hj1 hj2
        have hjr : j = r := by omega
        rw [hjr]
        exact hadj
      · intro σ f s fuel hfuel
        cases fuel with
        | zero => omega
        | succ fuel =>
          rw [CMap3.foreach_dart_of_PHI1_PHI2_PHI3_face]
          simp only [hback, ne_eq, not_true_eq_false, if_false, h1, push_if_eq]
          rfl
    · have hne : m.phi1 ((m.phi1)^[r] e) ≠ e := by
        rw [hsucc]; exact hmin (r + 1) (by omega) (by omega)
      obtain ⟨mk1, ex, hmk, hwfk, hlen, hexk, hadjk, hrun⟩ := ih (r + 1)
        (marker.mark ((m.phi1)^[r] e))
        (vis ++ (if !(marker.mark ((m.phi1)^[r] e)).is_marked (m.phi2 ((m.phi1)^[r] e))
          then [m.phi2 ((m.phi1)^[r] e)] else []))
        (by omega) (by omega) hwf1 (by
          intro j hj1 hj2 hmem
          rw [hmk1, List.mem_append, List.mem_singleton] at hmem
          rcases hmem with hmem | hmem
          · exact hfresh j (by omega) hj2 hmem
          · have := iterate_inj_of_cycle m.phi1 e n hn hmin r j (by omega) hj2 hmem.symm
            omega)
      have h1 : n - r = (n - (r + 1)) + 1 := by omega
      refine ⟨mk1, (if !(marker.mark ((m.phi1)^[r] e)).is_marked (m.phi2 ((m.phi1)^[r] e))
          then [m.phi2 ((m.phi1)^[r] e)] else []) ++ ex, ?_, hwfk, ?_, ?_, ?_, ?_⟩
      · rw [hmk, hmk1, h1, List.iterate, hsucc]
        simp
      · rw [List.length_append]; omega
      · intro y hy
        rw [List.mem_append] at hy
        rcases hy with hy | hy
        · exact hexP y hy
        · exact hexk y hy
      · intro j hj1 hj2
        by_cases hjr : j = r
        · rw [hjr]
          rcases hadj with h | h
          · left
            rw [hmk]
            exact List.mem_append_left _ h
          · right
            exact List.mem_append_left _ h
        · rcases hadjk j (by omega) hj2 with h | h
          · exact Or.inl h
          · exact Or.inr (List.mem_append_right _ h)
      · intro σ f s fuel hfuel
        cases fuel with
        | zero => omega
        | succ fuel =>
          rw [CMap3.foreach_dart_of_PHI1_PHI2_PHI3_face]
          simp only [hne, ne_eq, not_false_eq_true, if_true, push_if_eq]
          rw [hsucc, hrun σ f _ fuel (by omega), h1, List.iterate, hsucc, List.append_assoc]
          rfl

theorem CMap3.covered_mono (m : CMap3) (M pending M1 pending1 : List Dart) (z : Dart)
    (h : ∀ y, y ∈ M ∨ y ∈ pending → y ∈ M1 ∨ y ∈ pending1)
    (hz : m.covered M pending z) : m.covered M1 pending1 z := by
  obtain ⟨y, k, hy, hk⟩ := hz
  exact ⟨y, k, h y hy, hk⟩

/-- When no face waits any more, the marked darts are the connected
component. -/
theorem CMap3.component_final (m : CMap3) (S : Dart → Prop)
    (hperm : m.toCMap1.inverse_on S) (hinv : m.involutions_on S) (d : Dart) (hd : S d)
    (M : List Dart) (hM : ∀ x, x ∈ M → S x ∧ m.orbit_PHI1_PHI2_PHI3 d x)
    (hsat : ∀ x, S x → (x ∈ M ↔ m.phi1 x ∈ M))
    (hcd : m.covered M [] d)
    (hcov : ∀ x, x ∈ M → m.covered M [] (m.phi2 x) ∧ m.covered M [] (m.phi3 x)) :
    ∀ x, x ∈ M ↔ m.orbit_PHI1_PHI2_PHI3 d x := by
  have hin : ∀ z, S z → m.covered M [] z → z ∈ M := by
    intro z hz hc
    obtain ⟨y, k, hy, hk⟩ := hc
    rcases hy with hy | hy
    · rw [CMap1.saturated_iterate m.toCMap1 S hperm M hsat z hz k]
      change (m.phi1)^[k] z ∈ M
      rw [hk]; exact hy
    · simp at hy
  intro x
  constructor
  · intro hx; exact (hM x hx).2
  · intro hx
    have h : S x ∧ x ∈ M := by
      induction hx with
      | base => exact ⟨hd, hin d hd hcd⟩
      | step1 y _ ih => exact ⟨(hperm y ih.1).1, (hsat y ih.1).1 ih.2⟩
      | step2 y _ ih => exact ⟨(hinv y ih.1).1, hin _ (hinv y ih.1).1 (hcov y ih.2).1⟩
      | step3 y _ ih => exact ⟨(hinv y ih.1).2.1, hin _ (hinv y ih.1).2.1 (hcov y ih.2).2⟩
    exact h.2

/-- The darts of a cycle of `phi1`: a dart of `S` is in the cycle exactly when
its image by `phi1` is. -/
theorem CMap1.cycle_saturated (m : CMap1) (S : Dart → Prop) (hperm : m.inverse_on S)
    (e : Dart) (n : Nat) (hc : cycle_length m.phi1 e n) (x : Dart) (hx : S x)
    (he : S e) :
    x ∈ List.iterate m.phi1 e n ↔ m.phi1 x ∈ List.iterate m.phi1 e n := by
  rw [cycle_length_mem_iterate m.phi1 e n hc, cycle_length_mem_iterate m.phi1 e n hc]
  constructor
  · rintro ⟨k, hk⟩
    exact ⟨k + 1, by rw [Function.iterate_succ_apply', hk]⟩
  · rintro ⟨k, hk⟩
    cases k with
    | zero =>
      refine ⟨n - 1, ?_⟩
      have h1 : (m.phi1)^[(n - 1) + 1] e = e := by
        rw [Nat.sub_add_cancel hc.1]; exact hc.2.1
      rw [Function.iterate_succ_apply'] at h1
      have h2 : m.phi1 ((m.phi1)^[n - 1] e) = m.phi1 x := by rw [h1]; exact hk
      exact (CMap1.inverse_on_phi1_inj m S hperm _ _
        (CMap1.iterate_mem_of_inverse_on m S hperm e he (n - 1)) hx).1 h2
    | succ k =>
      refine ⟨k, ?_⟩
      rw [Function.iterate_succ_apply'] at hk
      exact (CMap1.inverse_on_phi1_inj m S hperm _ _
        (CMap1.iterate_mem_of_inverse_on m S hperm e he k) hx).1 hk

theorem CMap3.foreach_dart_of_PHI1_PHI2_PHI3_loop_spec (m : CMap3) (S : Dart → Prop)
    (N : Nat) (hN : 2 * N + 1 < UINT32_RANGE) (hfin : ∀ x, S x → x.index < N)
    (hperm : m.toCMap1.inverse_on S) (hinv : m.involutions_on S)
    (hint : ∀ x, S x → m.phi3 (m.phi1 (m.phi3 (m.phi1 x))) = x) (d : Dart) (hd : S d) :
    ∀ (k i : Nat) (marker : DartMarkerStore) (vis : List Dart),
      marker.well_formed (fun x => S x ∧ m.orbit_PHI1_PHI2_PHI3 d x) →
      (∀ x, S x → (x ∈ marker.marked_darts_ ↔ m.phi1 x ∈ marker.marked_darts_)) →
      (∀ y, y ∈ vis → S y ∧ m.orbit_PHI1_PHI2_PHI3 d y) →
      i ≤ vis.length →
      vis.length ≤ 2 * marker.marked_darts_.length + 1 →
      m.covered marker.marked_darts_ (vis.drop i) d →
      (∀ x, x ∈ marker.marked_darts_ →
        m.covered marker.marked_darts_ (vis.drop i) (m.phi2 x) ∧
        m.covered marker.marked_darts_ (vis.drop i) (m.phi3 x)) →
      2 * N + 1 - i ≤ k →
      ∃ L, (marker.marked_darts_ ++ L).Nodup ∧
        (∀ x, x ∈ marker.marked_darts_ ++ L ↔ m.orbit_PHI1_PHI2_PHI3 d x) ∧
        ∀ (σ : Type) (f : σ → Dart → σ) (s : σ) (fuel : Nat),
          2 * N + 1 - i + N < fuel →
          CMap3.foreach_dart_of_PHI1_PHI2_PHI3_loop m f fuel i marker vis s =
            some (L.foldl f s) := by
  -- the end of the list of faces
  have hend : ∀ (i : Nat) (marker : DartMarkerStore) (vis : List Dart),
      marker.well_formed (fun x => S x ∧ m.orbit_PHI1_PHI2_PHI3 d x) →
      (∀ x, S x → (x ∈ marker.marked_darts_ ↔ m.phi1 x ∈ marker.marked_darts_)) →
      m.covered marker.marked_darts_ (vis.drop i) d →
      (∀ x, x ∈ marker.marked_darts_ →
        m.covered marker.marked_darts_ (vis.drop i) (m.phi2 x) ∧
        m.covered marker.marked_darts_ (vis.drop i) (m.phi3 x)) →
      ¬ i < vis.length →
      ∃ L, (marker.marked_darts_ ++ L).Nodup ∧
        (∀ x, x ∈ marker.marked_darts_ ++ L ↔ m.orbit_PHI1_PHI2_PHI3 d x) ∧
        ∀ (σ : Type) (f : σ → Dart → σ) (s : σ) (fuel : Nat),
          2 * N + 1 - i + N < fuel →
          CMap3.foreach_dart_of_PHI1_PHI2_PHI3_loop m f fuel i marker vis s =
            some (L.foldl f s) := by
    intro i marker vis hwf hsat hcd hcov hlt
    have hnil : vis.drop i = [] := List.drop_eq_nil_of_le (by omega)
    rw [hnil] at hcd hcov
    refine ⟨[], ?_, ?_, ?_⟩
    · rw [List.append_nil]; exact hwf.2.1
    · rw [List.append_nil]
      exact CMap3.component_final m S hperm hinv d hd _ hwf.2.2 hsat hcd hcov
    · intro σ f s fuel hfuel
      cases fuel with
      | zero => omega
      | succ fuel =>
        rw [CMap3.foreach_dart_of_PHI1_PHI2_PHI3_loop, dif_neg hlt]
        rfl
  intro k
  induction k with
  | zero =>
    intro i marker vis hwf hsat _ _ hlen hcd hcov hk
    have hM := DartMarkerStore.length_le marker _ N hwf (fun x hx => hfin x hx.1)
    exact hend i marker vis hwf hsat hcd hcov (by omega)
  | succ k ih =>
    intro i marker vis hwf hsat hvis hi hlen hcd hcov hk
    have hM := DartMarkerStore.length_le marker _ N hwf (fun x hx => hfin x hx.1)
    by_cases hlt : i < vis.length
    · have hdrop : vis.drop i = vis.get ⟨i, hlt⟩ :: vis.drop (i + 1) := by
        rw [List.drop_eq_getElem_cons hlt]
        rfl
      have hmod : (i + 1) % UINT32_RANGE = i + 1 := Nat.mod_eq_of_lt (by omega)
      obtain ⟨hSe, hOe⟩ := hvis _ (List.get_mem vis i hlt)
      cases hm : marker.is_marked (vis.get ⟨i, hlt⟩) with
      | true =>
        -- the face of this dart has been visited
        have heM : vis.get ⟨i, hlt⟩ ∈ marker.marked_darts_ := (hwf.1 _).1 hm
        have hmono : ∀ y, y ∈ marker.marked_darts_ ∨ y ∈ vis.drop i →
            y ∈ marker.marked_darts_ ∨ y ∈ vis.drop (i + 1) := by
          intro y hy
          rw [hdrop, List.mem_cons] at hy
          rcases hy with hy | hy | hy
          · exact Or.inl hy
          · rw [hy]; exact Or.inl heM
          · exact Or.inr hy
        obtain ⟨L, hnd, hmem, hrun⟩ := ih (i + 1) marker vis hwf hsat hvis (by omega) hlen
          (CMap3.covered_mono m _ _ _ _ d hmono hcd)
          (fun x hx => ⟨CMap3.covered_mono m _ _ _ _ _ hmono (hcov x hx).1,
            CMap3.covered_mono m _ _ _ _ _ hmono (hcov x hx).2⟩)
          (by omega)
        refine ⟨L, hnd, hmem, ?_⟩
        intro σ f s fuel hfuel
        cases fuel with
        | zero => omega
        | succ fuel =>
          rw [CMap3.foreach_dart_of_PHI1_PHI2_PHI3_loop, dif_pos hlt]
          simp only [hm, Bool.not_true, Bool.false_eq_true, if_false, hmod]
          exact hrun σ f s fuel (by omega)
      | false =>
        -- the face of this dart is walked
        have heM : vis.get ⟨i, hlt⟩ ∉ marker.marked_darts_ := by
          intro h
          rw [(hwf.1 _).2 h] at hm
          exact Bool.noConfusion hm
        obtain ⟨n, hn⟩ := cycle_length_of_injective_on m.phi1 S Dart.index N
          (fun x y h => (Dart.eq_iff_index x y).2 h) hfin
          (fun x hx => (hperm x hx).1)
          (fun x y hx hy h => (CMap1.inverse_on_phi1_inj m.toCMap1 S hperm x y hx hy).1 h)
          (vis.get ⟨i, hlt⟩) hSe
        have hSit := CMap1.iterate_mem_of_inverse_on m.toCMap1 S hperm _ hSe
        have hOit : ∀ j, m.orbit_PHI1_PHI2_PHI3 d ((m.phi1)^[j] (vis.get ⟨i, hlt⟩)) := by
          intro j
          induction j with
          | zero => exact hOe
          | succ j ihj =>
            rw [Function.iterate_succ_apply']
            exact CMap3.orbit_PHI1_PHI2_PHI3.step1 _ ihj
        obtain ⟨mk1, ex, hmk, hwf1, hexlen, hexP, hadj, hface⟩ :=
          CMap3.foreach_dart_of_PHI1_PHI2_PHI3_face_spec m
            (fun x => S x ∧ m.orbit_PHI1_PHI2_PHI3 d x) (vis.get ⟨i, hlt⟩) n hn
            (fun j => ⟨⟨hSit j, hOit j⟩, ⟨(hinv _ (hSit j)).1,
              CMap3.orbit_PHI1_PHI2_PHI3.step2 _ (hOit j)⟩⟩)
            n 0 marker vis rfl hn.1 hwf
            (fun j _ _ h => heM
              ((CMap1.saturated_iterate m.toCMap1 S hperm _ hsat _ hSe j).2 h))
        have hz : (m.phi1)^[0] (vis.get ⟨i, hlt⟩) = vis.get ⟨i, hlt⟩ := rfl
        rw [hz, Nat.sub_zero] at hmk hface
        rw [Nat.sub_zero] at hexlen
        have hM1 := DartMarkerStore.length_le mk1 _ N hwf1 (fun x hx => hfin x hx.1)
        have hlen1 : mk1.marked_darts_.length = marker.marked_darts_.length + n := by
          rw [hmk, List.length_append, List.length_iterate]
        have heC : vis.get ⟨i, hlt⟩ ∈ List.iterate m.phi1 (vis.get ⟨i, hlt⟩) n :=
          (cycle_length_mem_iterate m.phi1 _ n hn _).2 ⟨0, rfl⟩
        have hdrop1 : (vis ++ ex ++ [m.phi3 (vis.get ⟨i, hlt⟩)]).drop (i + 1) =
            vis.drop (i + 1) ++ (ex ++ [m.phi3 (vis.get ⟨i, hlt⟩)]) := by
          rw [List.append_assoc, List.drop_append_of_le_length (by omega)]
        have hmono : ∀ y, y ∈ marker.marked_darts_ ∨ y ∈ vis.drop i →
            y ∈ mk1.marked_darts_ ∨
              y ∈ (vis ++ ex ++ [m.phi3 (vis.get ⟨i, hlt⟩)]).drop (i + 1) := by
          intro y hy
          rw [hdrop, List.mem_cons] at hy
          rw [hmk, hdrop1]
          rcases hy with hy | hy | hy
          · exact Or.inl (List.mem_append_left _ hy)
          · rw [hy]; exact Or.inl (List.mem_append_right _ heC)
          · exact Or.inr (List.mem_append_left _ hy)
        obtain ⟨L, hnd, hmem, hrun⟩ := ih (i + 1) mk1
          (vis ++ ex ++ [m.phi3 (vis.get ⟨i, hlt⟩)]) hwf1
          (by
            intro x hx
            rw [hmk, List.mem_append, List.mem_append, hsat x hx,
              CMap1.cycle_saturated m.toCMap1 S hperm _ n hn x hx hSe])
          (by
            intro y hy
            rw [List.mem_append, List.mem_append, List.mem_singleton] at hy
            rcases hy with (hy | hy) | hy
            · exact hvis y hy
            · exact hexP y hy
            · rw [hy]
              exact ⟨(hinv _ hSe).2.1, CMap3.orbit_PHI1_PHI2_PHI3.step3 _ hOe⟩)
          (by simp; omega)
          (by
            have h0 := hn.1
            simp only [List.length_append, List.length_singleton]
            omega)
          (CMap3.covered_mono m _ _ _ _ d hmono hcd)
          (by
            intro x hx
            rw [hmk, List.mem_append] at hx
            rcases hx with hx | hx
            · exact ⟨CMap3.covered_mono m _ _ _ _ _ hmono (hcov x hx).1,
                CMap3.covered_mono m _ _ _ _ _ hmono (hcov x hx).2⟩
            · rw [List.mem_iterate] at hx
              obtain ⟨j, hj, hjx⟩ := hx
              rw [hjx]
              refine ⟨?_, ?_⟩
              · rcases hadj j (by omega) hj with h | h
                · exact ⟨_, 0, Or.inl h, rfl⟩
                · refine ⟨_, 0, Or.inr ?_, rfl⟩
                  rw [hdrop1]
                  exact List.mem_append_right _ (List.mem_append_left _ h)
              · refine ⟨m.phi3 (vis.get ⟨i, hlt⟩), j, Or.inr ?_,
                  CMap3.phi1_iterate_phi3 m S hperm hinv hint _ hSe j⟩
                rw [hdrop1]
                simp)
          (by omega)
        rw [hmk, List.append_assoc] at hnd hmem
        refine ⟨List.iterate m.phi1 (vis.get ⟨i, hlt⟩) n ++ L, hnd, hmem, ?_⟩
        intro σ f s fuel hfuel
        cases fuel with
        | zero => omega
        | succ fuel =>
          rw [CMap3.foreach_dart_of_PHI1_PHI2_PHI3_loop, dif_pos hlt]
          simp only [hm, Bool.not_false, if_true]
          rw [hface σ f s fuel (by omega)]
          simp only [hmod]
          rw [hrun σ f _ fuel (by omega), List.foldl_append]
    · exact hend i marker vis hwf hsat hcd hcov hlt

theorem example_map3_glued_inverse_on :
    example_map3_glued.toCMap1.inverse_on (fun x => x.index < 4) := by
  rintro ⟨i⟩ hi
  have hi' : i < 4 := hi
  interval_cases i <;> simp [CMap1.phi1, CMap1.phi_1, example_map3_glued]

theorem example_map3_glued_involutions :
    example_map3_glued.involutions_on (fun x => x.index < 4) := by
  rintro ⟨i⟩ hi
  have hi' : i < 4 := hi
  interval_cases i <;> simp [CMap2.phi2, CMap3.phi3, example_map3_glued]

theorem example_map3_glued_integrity (x : Dart) (hx : x.index < 4) :
    example_map3_glued.phi3 (example_map3_glued.phi1
      (example_map3_glued.phi3 (example_map3_glued.phi1 x))) = x := by
  obtain ⟨i⟩ := x
  have hi' : i < 4 := hx
  interval_cases i <;> simp [CMap1.phi1, CMap3.phi3, example_map3_glued]

/-- Claim C17, as stated, fails: in the example 3D map `phi1` is a permutation
(with inverse `phi_1`) and `phi2`, `phi3` are involutions of the four darts;
the dart `3 = phi3(phi1(phi1(0)))` is reachable from the dart `0`, but the
traversal from `0` calls the visitor on `0, 1, 2` only: of the face of `0`
only `phi3(0)` is pushed to the list of faces. -/
theorem foreach_dart_of_PHI1_PHI2_PHI3_misses_dart :
    example_map3.toCMap1.inverse_on (fun x => x.index < 4) ∧
    example_map3.involutions_on (fun x => x.index < 4) ∧
    example_map3.foreach_dart_of_PHI1_PHI2_PHI3 ⟨0⟩ (fun l x => l ++ [x]) 10 [] =
      some [⟨0⟩, ⟨1⟩, ⟨2⟩] ∧
    example_map3.orbit_PHI1_PHI2_PHI3 ⟨0⟩ ⟨3⟩ ∧
    (⟨3⟩ : Dart) ∉ [(⟨0⟩ : Dart), ⟨1⟩, ⟨2⟩] :=
  ⟨example_map_inverse_on, example_map3_involutions, by decide,
   CMap3.orbit_PHI1_PHI2_PHI3.step3 _ (CMap3.orbit_PHI1_PHI2_PHI3.step1 _
     (CMap3.orbit_PHI1_PHI2_PHI3.step1 _ CMap3.orbit_PHI1_PHI2_PHI3.base)),
   by decide⟩

/-- Claim C17, amended: in a 3D map where, on a finite dart set `S`, `phi1` is
a permutation with inverse `phi_1`, `phi2` and `phi3` are involutions and
`phi3 ∘ phi1 ∘ phi3 ∘ phi1` is the identity (the constraint of
`check_integrity`), for `d` in `S`, `foreach_dart_of_PHI1_PHI2_PHI3(d, f)`
terminates and calls `f` on the darts of a list without repetition whose darts
are exactly the darts reachable from `d` by compositions of `phi1`, `phi2` and
`phi3`. -/
theorem foreach_dart_of_PHI1_PHI2_PHI3_visits_component (m : CMap3) (S : Dart → Prop)
    (N : Nat) (d : Dart) (hN : 2 * N + 1 < UINT32_RANGE) (hfin : ∀ x, S x → x.index < N)
    (hperm : m.toCMap1.inverse_on S) (hinv : m.involutions_on S)
    (hint : ∀ x, S x → m.phi3 (m.phi1 (m.phi3 (m.phi1 x))) = x) (hd : S d) :
    ∃ L : List Dart, L.Nodup ∧
      (∀ x, x ∈ L ↔ m.orbit_PHI1_PHI2_PHI3 d x) ∧
      ∀ (σ : Type) (f : σ → Dart → σ) (s : σ) (fuel : Nat), 3 * N + 1 < fuel →
        m.foreach_dart_of_PHI1_PHI2_PHI3 d f fuel s = some (L.foldl f s) := by
  have hmk : DartMarkerStore.init.marked_darts_ = [] := rfl
  obtain ⟨L, hnd, hmem, hrun⟩ := CMap3.foreach_dart_of_PHI1_PHI2_PHI3_loop_spec m S N hN
    hfin hperm hinv hint d hd (2 * N + 1) 0 DartMarkerStore.init [d]
    (DartMarkerStore.init_well_formed _)
    (by intro x _; rw [hmk]; simp)
    (by
      intro y hy
      rw [List.mem_singleton] at hy
      rw [hy]
      exact ⟨hd, CMap3.orbit_PHI1_PHI2_PHI3.base⟩)
    (by omega) (by simp)
    ⟨d, 0, Or.inr (by simp), rfl⟩
    (by intro x hx; rw [hmk] at hx; simp at hx)
    (by omega)
  rw [hmk, List.nil_append] at hnd
  simp only [hmk, List.nil_append] at hmem
  refine ⟨L, hnd, hmem, ?_⟩
  intro σ f s fuel hfuel
  exact hrun σ f s fuel (by omega)

/-- Witness of the amended C17 on the example map of two faces glued by
`phi3`: the traversal from the dart `0` visits `0, 1, 3, 2`. -/
theorem foreach_dart_of_PHI1_PHI2_PHI3_visits_component_witness :
    (2 * 4 + 1 < UINT32_RANGE) ∧
    example_map3_glued.toCMap1.inverse_on (fun x => x.index < 4) ∧
    example_map3_glued.involutions_on (fun x => x.index < 4) ∧
    (∀ x : Dart, x.index < 4 →
      example_map3_glued.phi3 (example_map3_glued.phi1
        (example_map3_glued.phi3 (example_map3_glued.phi1 x))) = x) ∧
    example_map3_glued.foreach_dart_of_PHI1_PHI2_PHI3 ⟨0⟩ (fun l x => l ++ [x]) 14 [] =
      some [⟨0⟩, ⟨1⟩, ⟨3⟩, ⟨2⟩] ∧
    ∃ L : List Dart, L.Nodup ∧
      (∀ x, x ∈ L ↔ example_map3_glued.orbit_PHI1_PHI2_PHI3 ⟨0⟩ x) ∧
      ∀ (σ : Type) (f : σ → Dart → σ) (s : σ) (fuel : Nat), 3 * 4 + 1 < fuel →
        example_map3_glued.foreach_dart_of_PHI1_PHI2_PHI3 ⟨0⟩ f fuel s =
          some (L.foldl f s) :=
  ⟨by decide, example_map3_glued_inverse_on, example_map3_glued_involutions,
   example_map3_glued_integrity, by decide,
   foreach_dart_of_PHI1_PHI2_PHI3_visits_component example_map3_glued
     (fun x => x.index < 4) 4 ⟨0⟩ (by decide) (fun _ h => h) example_map3_glued_inverse_on
     example_map3_glued_involutions example_map3_glued_integrity (by decide)⟩


/-! ## Removal and reuse of lines -/

theorem uint_dec_inc (R n : Nat) (hn : n < R) : ((n + (R - 1)) % R + 1) % R = n := by
  rcases Nat.eq_zero_or_pos n with h | h
  · subst h
    have h1 : R - 1 < R := by omega
    have h2 : R - 1 + 1 = R := by omega
    rw [Nat.zero_add, Nat.mod_eq_of_lt h1, h2, Nat.mod_self]
  · have h2 : n + (R - 1) = (n - 1) + R := by omega
    have h3 : n - 1 + 1 = n := by omega
    have h4 : n - 1 < R := by omega
    rw [h2, Nat.add_mod_right, Nat.mod_eq_of_lt h4, h3, Nat.mod_eq_of_lt hn]

theorem uint32_dec_inc (n : Nat) (hn : n < UINT32_RANGE) :
    ((n + (UINT32_RANGE - 1 % UINT32_RANGE)) % UINT32_RANGE + 1) % UINT32_RANGE = n := by
  have h1 : (1 : Nat) % UINT32_RANGE = 1 := by decide
  rw [h1]
  exact uint_dec_inc UINT32_RANGE n hn

/-- Claim C21: for every container state (its counter of used lines being a
`uint32`) and every used line `idx`, `remove_lines<1>(idx)` succeeds and the
`insert_lines<1>()` that follows returns `idx`; `size()` and `end()` are then
equal to their values before the removal, the line `idx` is used again and the
stack of holes is the one before the removal. -/
theorem remove_then_insert_reuses_line (c : ChunkArrayContainer) (idx : Nat)
    (hsize : c.nb_used_lines_ < UINT32_RANGE) (hidx : idx < UINT32_RANGE)
    (hused : c.used idx = true) :
    ∃ c1, c.remove_lines 1 idx = some c1 ∧
      (c1.insert_lines 1).2 = idx ∧
      (c1.insert_lines 1).1.size = c.size ∧
      (c1.insert_lines 1).1.end_ = c.end_ ∧
      (c1.insert_lines 1).1.used idx = true ∧
      (c1.insert_lines 1).1.holes_stack_ = c.holes_stack_ := by
  have hmod : idx % UINT32_RANGE = idx := Nat.mod_eq_of_lt hidx
  obtain ⟨n, hn⟩ : ∃ n,
      (c.nb_used_lines_ + (UINT32_RANGE - 1 % UINT32_RANGE)) % UINT32_RANGE = n := ⟨_, rfl⟩
  have hn1 : (n + 1) % UINT32_RANGE = c.nb_used_lines_ := by
    rw [← hn]
    exact uint32_dec_inc c.nb_used_lines_ hsize
  have hins : ChunkArrayContainer.insert_lines 1 { c with
      holes_stack_ := idx :: c.holes_stack_
      refs_ := Function.update c.refs_ idx 0
      nb_used_lines_ := n } =
      ({ c with
        holes_stack_ := c.holes_stack_
        refs_ := ChunkArrayContainer.set_refs (Function.update c.refs_ idx 0) idx 1 1
        nb_used_lines_ := (n + 1) % UINT32_RANGE }, idx) := rfl
  refine ⟨{ c with
      holes_stack_ := idx :: c.holes_stack_
      refs_ := Function.update c.refs_ idx 0
      nb_used_lines_ := n }, ?_, ?_⟩
  · simp only [ChunkArrayContainer.remove_lines, Nat.div_one, Nat.mul_one, hused, if_true,
      ChunkArrayContainer.set_refs_one, hmod, hn]
  · rw [hins]
    refine ⟨rfl, hn1, rfl, ?_, rfl⟩
    show (ChunkArrayContainer.set_refs (Function.update c.refs_ idx 0) idx 1 1 idx != 0) = true
    rw [ChunkArrayContainer.set_refs_one, hmod, Function.update_same]
    rfl

/-- Witness of C21 on the example container with a hole: the line 2 is removed
and inserted again. -/
theorem remove_then_insert_reuses_line_witness :
    example_container_hole.nb_used_lines_ < UINT32_RANGE ∧ 2 < UINT32_RANGE ∧
    example_container_hole.used 2 = true ∧
    ∃ c1, example_container_hole.remove_lines 1 2 = some c1 ∧
      (c1.insert_lines 1).2 = 2 ∧
      (c1.insert_lines 1).1.size = example_container_hole.size ∧
      (c1.insert_lines 1).1.end_ = example_container_hole.end_ ∧
      (c1.insert_lines 1).1.used 2 = true ∧
      (c1.insert_lines 1).1.holes_stack_ = example_container_hole.holes_stack_ :=
  ⟨by decide, by decide, by decide,
   remove_then_insert_reuses_line example_container_hole 2 (by decide) (by decide)
     (by decide)⟩

theorem uint32_sub_mod (n p : Nat) (hp : p ≤ n) (hn : n < UINT32_RANGE) :
    (n + (UINT32_RANGE - p % UINT32_RANGE)) % UINT32_RANGE = n - p := by
  have h1 : p % UINT32_RANGE = p := Nat.mod_eq_of_lt (by omega)
  have h2 : n + (UINT32_RANGE - p) = (n - p) + UINT32_RANGE := by omega
  have h3 : n - p < UINT32_RANGE := by omega
  rw [h1, h2, Nat.add_mod_right, Nat.mod_eq_of_lt h3]

/-- Claim C22: `remove_lines<PRIMSIZE>(index)` fails its assertion (no state is
produced) when the line `(index / PRIMSIZE) * PRIMSIZE` is not used.  When it
is used (the block lying in the range of `uint32` and `size()` being at least
`PRIMSIZE`), the call pushes this block start on the stack of holes, makes
`used(j)` false for the `PRIMSIZE` lines `j` of the block, decreases `size()`
by `PRIMSIZE` and leaves the reference count of every line outside the block,
`end()` and the rest of the stack unchanged. -/
theorem remove_lines_frees_block (PRIMSIZE : Nat) (c : ChunkArrayContainer) (index : Nat) :
    (c.used ((index / PRIMSIZE) * PRIMSIZE) = false →
      c.remove_lines PRIMSIZE index = none) ∧
    (c.used ((index / PRIMSIZE) * PRIMSIZE) = true →
      (index / PRIMSIZE) * PRIMSIZE + PRIMSIZE ≤ UINT32_RANGE →
      PRIMSIZE ≤ c.nb_used_lines_ → c.nb_used_lines_ < UINT32_RANGE →
      ∃ c1, c.remove_lines PRIMSIZE index = some c1 ∧
        c1.holes_stack_ = (index / PRIMSIZE) * PRIMSIZE :: c.holes_stack_ ∧
        (∀ j, (index / PRIMSIZE) * PRIMSIZE ≤ j →
          j < (index / PRIMSIZE) * PRIMSIZE + PRIMSIZE → c1.used j = false) ∧
        c1.size + PRIMSIZE = c.size ∧
        (∀ j, ¬ ((index / PRIMSIZE) * PRIMSIZE ≤ j ∧
            j < (index / PRIMSIZE) * PRIMSIZE + PRIMSIZE) →
          c1.refs_ j = c.refs_ j ∧ c1.used j = c.used j) ∧
        c1.end_ = c.end_) := by
  refine ⟨?_, ?_⟩
  · intro h
    simp only [ChunkArrayContainer.remove_lines, h, Bool.false_eq_true, if_false]
  · intro h hblock hsize h32
    have hnu := uint32_sub_mod c.nb_used_lines_ PRIMSIZE hsize h32
    refine ⟨{ c with
      holes_stack_ := (index / PRIMSIZE) * PRIMSIZE :: c.holes_stack_
      refs_ := ChunkArrayContainer.set_refs c.refs_ ((index / PRIMSIZE) * PRIMSIZE) PRIMSIZE 0
      nb_used_lines_ := c.nb_used_lines_ - PRIMSIZE }, ?_, rfl, ?_, ?_, ?_, rfl⟩
    · simp only [ChunkArrayContainer.remove_lines, h, if_true, hnu]
    · intro j hj1 hj2
      show (ChunkArrayContainer.set_refs c.refs_ ((index / PRIMSIZE) * PRIMSIZE) PRIMSIZE 0 j
        != 0) = false
      rw [ChunkArrayContainer.set_refs_apply _ _ _ _ _ hblock, if_pos ⟨hj1, hj2⟩]
      rfl
    · show c.nb_used_lines_ - PRIMSIZE + PRIMSIZE = c.nb_used_lines_
      omega
    · intro j hj
      have hr : ChunkArrayContainer.set_refs c.refs_ ((index / PRIMSIZE) * PRIMSIZE)
          PRIMSIZE 0 j = c.refs_ j := by
        rw [ChunkArrayContainer.set_refs_apply _ _ _ _ _ hblock, if_neg hj]
      refine ⟨hr, ?_⟩
      show (ChunkArrayContainer.set_refs c.refs_ ((index / PRIMSIZE) * PRIMSIZE) PRIMSIZE 0 j
        != 0) = (c.refs_ j != 0)
      rw [hr]

/-- Witness of C22 on the example container for groups of two lines: the
removal through the line 1 frees the group of the lines 0 and 1; the removal
through the line 2, whose group is a hole, fails. -/
theorem remove_lines_frees_block_witness :
    example_container_pairs.remove_lines 2 2 = none ∧
    ∃ c1, example_container_pairs.remove_lines 2 1 = some c1 ∧
      c1.holes_stack_ = (1 / 2) * 2 :: example_container_pairs.holes_stack_ ∧
      (∀ j, (1 / 2) * 2 ≤ j → j < (1 / 2) * 2 + 2 → c1.used j = false) ∧
      c1.size + 2 = example_container_pairs.size ∧
      (∀ j, ¬ ((1 / 2) * 2 ≤ j ∧ j < (1 / 2) * 2 + 2) →
        c1.refs_ j = example_container_pairs.refs_ j ∧
        c1.used j = example_container_pairs.used j) ∧
      c1.end_ = example_container_pairs.end_ :=
  ⟨(remove_lines_frees_block 2 example_container_pairs 2).1 (by decide),
   (remove_lines_frees_block 2 example_container_pairs 1).2 (by decide) (by decide)
     (by decide) (by decide)⟩

theorem uint32_dec (n : Nat) (hp : 0 < n) (hn : n < UINT32_RANGE) :
    (n + (UINT32_RANGE - 1)) % UINT32_RANGE = n - 1 := by
  have h2 : n + (UINT32_RANGE - 1) = (n - 1) + UINT32_RANGE := by omega
  have h3 : n - 1 < UINT32_RANGE := by omega
  rw [h2, Nat.add_mod_right, Nat.mod_eq_of_lt h3]

/-- Claim C23: `unref_line(index)` fails its assertion when the reference count
`c` of the line is at most 1.  When `c = 2` it returns `true`: the line becomes
unused (count 0), its index is pushed on the stack of holes and `size()`
decreases by 1.  When `c > 2` it returns `false`: the count becomes `c - 1`,
`size()` and the stack of holes are unchanged.  The other lines keep their
count in both cases. -/
theorem unref_line_releases_at_two (c : ChunkArrayContainer) (index : Nat) :
    (c.refs_ index ≤ 1 → c.unref_line index = none) ∧
    (c.refs_ index = 2 → 0 < c.nb_used_lines_ → c.nb_used_lines_ < UINT32_RANGE →
      ∃ c1, c.unref_line index = some (c1, true) ∧
        c1.used index = false ∧ c1.refs_ index = 0 ∧
        c1.holes_stack_ = index :: c.holes_stack_ ∧
        c1.size + 1 = c.size ∧
        (∀ j, j ≠ index → c1.refs_ j = c.refs_ j)) ∧
    (2 < c.refs_ index →
      ∃ c1, c.unref_line index = some (c1, false) ∧
        c1.refs_ index = c.refs_ index - 1 ∧ c1.used index = true ∧
        c1.holes_stack_ = c.holes_stack_ ∧
        c1.size = c.size ∧
        (∀ j, j ≠ index → c1.refs_ j = c.refs_ j)) := by
  refine ⟨?_, ?_, ?_⟩
  · intro h
    have h1 : ¬ c.refs_ index > 1 := by omega
    simp only [ChunkArrayContainer.unref_line, h1, if_false]
  · intro h hpos h32
    have h1 : c.refs_ index > 1 := by omega
    have h2 : c.refs_ index - 1 = 1 := by omega
    have hnu := uint32_dec c.nb_used_lines_ hpos h32
    refine ⟨{ c with
      holes_stack_ := index :: c.holes_stack_
      refs_ := Function.update (Function.update c.refs_ index (c.refs_ index - 1)) index 0
      nb_used_lines_ := c.nb_used_lines_ - 1 }, ?_, ?_, ?_, rfl, ?_, ?_⟩
    · simp only [ChunkArrayContainer.unref_line, h1, if_true, Function.update_same, h2, hnu]
    · show (Function.update (Function.update c.refs_ index (c.refs_ index - 1)) index 0 index
        != 0) = false
      rw [Function.update_same]
      rfl
    · show Function.update (Function.update c.refs_ index (c.refs_ index - 1)) index 0 index = 0
      rw [Function.update_same]
    · show c.nb_used_lines_ - 1 + 1 = c.nb_used_lines_
      omega
    · intro j hj
      show Function.update (Function.update c.refs_ index (c.refs_ index - 1)) index 0 j =
        c.refs_ j
      rw [Function.update_noteq hj, Function.update_noteq hj]
  · intro h
    have h1 : c.refs_ index > 1 := by omega
    have h2 : ¬ (c.refs_ index - 1 = 1) := by omega
    refine ⟨{ c with
      refs_ := Function.update c.refs_ index (c.refs_ index - 1) }, ?_, ?_, ?_, rfl, rfl, ?_⟩
    · simp only [ChunkArrayContainer.unref_line, h1, if_true, Function.update_same, h2,
        if_false]
    · show Function.update c.refs_ index (c.refs_ index - 1) index = c.refs_ index - 1
      rw [Function.update_same]
    · show (Function.update c.refs_ index (c.refs_ index - 1) index != 0) = true
      rw [Function.update_same]
      have h3 : c.refs_ index - 1 ≠ 0 := by omega
      simp [h3]
    · intro j hj
      show Function.update c.refs_ index (c.refs_ index - 1) j = c.refs_ j
      rw [Function.update_noteq hj]

/-- Witness of C23 on the example container with a hole: the line 0 has count
1 (assertion), the line 3 has count 2 (released), the line 2 has count 3
(kept). -/
theorem unref_line_releases_at_two_witness :
    example_container_hole.unref_line 0 = none ∧
    (∃ c1, example_container_hole.unref_line 3 = some (c1, true) ∧
      c1.used 3 = false ∧ c1.refs_ 3 = 0 ∧
      c1.holes_stack_ = 3 :: example_container_hole.holes_stack_ ∧
      c1.size + 1 = example_container_hole.size ∧
      (∀ j, j ≠ 3 → c1.refs_ j = example_container_hole.refs_ j)) ∧
    (∃ c1, example_container_hole.unref_line 2 = some (c1, false) ∧
      c1.refs_ 2 = example_container_hole.refs_ 2 - 1 ∧ c1.used 2 = true ∧
      c1.holes_stack_ = example_container_hole.holes_stack_ ∧
      c1.size = example_container_hole.size ∧
      (∀ j, j ≠ 2 → c1.refs_ j = example_container_hole.refs_ j)) :=
  ⟨(unref_line_releases_at_two example_container_hole 0).1 (by decide),
   (unref_line_releases_at_two example_container_hole 3).2.1 (by decide) (by decide)
     (by decide),
   (unref_line_releases_at_two example_container_hole 2).2.2 (by decide)⟩

/-! ## The scan of the used lines -/

theorem filter_range'_skip (p : Nat → Bool) :
    ∀ (k a n : Nat), k ≤ n → (∀ j, a ≤ j → j < a + k → p j = false) →
      (List.range' a n).filter p = (List.range' (a + k) (n - k)).filter p := by
  intro k
  induction k with
  | zero => intro a n _ _; rfl
  | succ k ih =>
    intro a n hk hp
    obtain ⟨n1, rfl⟩ : ∃ n1, n = n1 + 1 := ⟨n - 1, by omega⟩
    rw [List.range'_succ, List.filter_cons_of_neg (by rw [hp a le_rfl (by omega)]; simp),
      ih (a + 1) n1 (by omega) (fun j h1 h2 => hp j (by omega) (by omega))]
    have h1 : a + 1 + k = a + (k + 1) := by omega
    have h2 : n1 + 1 - (k + 1) = n1 - k := by omega
    rw [h1, h2]

theorem ChunkArrayContainer.next_spec (c : ChunkArrayContainer)
    (hmax : c.nb_max_lines_ < UINT32_RANGE) :
    ∀ (fuel it : Nat), it < c.nb_max_lines_ → c.nb_max_lines_ - it ≤ fuel →
      ∃ j, c.next fuel it = some j ∧ it < j ∧ j ≤ c.nb_max_lines_ ∧
        (j < c.nb_max_lines_ → c.used j = true) ∧
        ∀ k, it < k → k < j → c.used k = false := by
  intro fuel
  induction fuel with
  | zero => intro it h1 h2; omega
  | succ fuel ih =>
    intro it h1 h2
    have hmod : (it + 1) % UINT32_RANGE = it + 1 := Nat.mod_eq_of_lt (by omega)
    rw [ChunkArrayContainer.next]
    simp only [hmod]
    by_cases hc : it + 1 < c.nb_max_lines_ ∧ c.used (it + 1) = false
    · rw [if_pos hc]
      obtain ⟨j, hj, hlt, hle, hu, hskip⟩ := ih (it + 1) hc.1 (by omega)
      refine ⟨j, hj, by omega, hle, hu, ?_⟩
      intro k hk1 hk2
      by_cases hk : k = it + 1
      · rw [hk]; exact hc.2
      · exact hskip k (by omega) hk2
    · rw [if_neg hc]
      refine ⟨it + 1, rfl, by omega, by omega, ?_, fun k hk1 hk2 => by omega⟩
      intro hlt
      cases hu : c.used (it + 1) with
      | true => rfl
      | false => exact absurd ⟨hlt, hu⟩ hc

theorem ChunkArrayContainer.begin_loop_spec (c : ChunkArrayContainer)
    (hmax : c.nb_max_lines_ < UINT32_RANGE) :
    ∀ (fuel it : Nat), it ≤ c.nb_max_lines_ → c.nb_max_lines_ - it < fuel →
      ∃ j, c.begin_loop fuel it = some j ∧ it ≤ j ∧ j ≤ c.nb_max_lines_ ∧
        (j < c.nb_max_lines_ → c.used j = true) ∧
        ∀ k, it ≤ k → k < j → c.used k = false := by
  intro fuel
  induction fuel with
  | zero => intro it h1 h2; omega
  | succ fuel ih =>
    intro it h1 h2
    rw [ChunkArrayContainer.begin_loop]
    by_cases hc : it < c.nb_max_lines_ ∧ c.used it = false
    · rw [if_pos hc]
      have hmod : (it + 1) % UINT32_RANGE = it + 1 := Nat.mod_eq_of_lt (by omega)
      rw [hmod]
      obtain ⟨j, hj, hlt, hle, hu, hskip⟩ := ih (it + 1) (by omega) (by omega)
      refine ⟨j, hj, by omega, hle, hu, ?_⟩
      intro k hk1 hk2
      by_cases hk : k = it
      · rw [hk]; exact hc.2
      · exact hskip k (by omega) hk2
    · rw [if_neg hc]
      refine ⟨it, rfl, le_rfl, h1, ?_, fun k hk1 hk2 => by omega⟩
      intro hlt
      cases hu : c.used it with
      | true => rfl
      | false => exact absurd ⟨hlt, hu⟩ hc

theorem MapBase.foreach_dart_loop_spec {σ : Type} (c : ChunkArrayContainer)
    (hmax : c.nb_max_lines_ < UINT32_RANGE) (f : σ → Dart → σ) :
    ∀ (fuel it : Nat) (s : σ), it ≤ c.nb_max_lines_ →
      (it < c.nb_max_lines_ → c.used it = true) → c.nb_max_lines_ - it < fuel →
      MapBase.foreach_dart_loop c f fuel ⟨it⟩ s =
        some ((((List.range' it (c.nb_max_lines_ - it)).filter c.used).map Dart.mk).foldl f s) := by
  intro fuel
  induction fuel with
  | zero => intro it s h1 _ h2; omega
  | succ fuel ih =>
    intro it s h1 hu h2
    rw [MapBase.foreach_dart_loop]
    by_cases hend : it = c.nb_max_lines_
    · have h0 : (⟨it⟩ : Dart) = ⟨c.end_⟩ := by rw [hend]; rfl
      rw [if_neg (fun h => h h0), hend, Nat.sub_self]
      rfl
    · have hne : (⟨it⟩ : Dart) ≠ ⟨c.end_⟩ := by
        intro h
        exact hend (Dart.mk.inj h)
      have hlt : it < c.nb_max_lines_ := by omega
      rw [if_pos hne]
      obtain ⟨j, hj, hlt2, hle, huj, hskip⟩ :=
        ChunkArrayContainer.next_spec c hmax fuel it hlt (by omega)
      have hj' : c.next fuel (Dart.index ⟨it⟩) = some j := hj
      rw [hj']
      simp only []
      rw [ih j _ hle huj (by omega)]
      obtain ⟨n1, hn1⟩ : ∃ n1, c.nb_max_lines_ - it = n1 + 1 := ⟨c.nb_max_lines_ - it - 1, by omega⟩
      rw [hn1, List.range'_succ, List.filter_cons_of_pos (hu hlt),
        filter_range'_skip c.used (j - (it + 1)) (it + 1) n1 (by omega)
          (fun k hk1 hk2 => hskip k (by omega) (by omega))]
      have h3 : it + 1 + (j - (it + 1)) = j := by omega
      have h4 : n1 - (j - (it + 1)) = c.nb_max_lines_ - j := by omega
      rw [h3, h4]
      rfl

/-- Claim C24: for every container state (`nb_max_lines_` being a `uint32`), the
iteration `it = begin(); while (it != end()) { visit it; next(it); }`, which is
the loop of `MapBase::foreach_dart`, terminates and visits the indices `i` of
`[0, nb_max_lines_)` with `used(i)`, each once, in strictly increasing
order. -/
theorem foreach_dart_visits_used_lines (c : ChunkArrayContainer)
    (hmax : c.nb_max_lines_ < UINT32_RANGE) :
    (∀ (σ : Type) (f : σ → Dart → σ) (s : σ) (fuel : Nat), c.nb_max_lines_ < fuel →
      MapBase.foreach_dart c f fuel s =
        some ((((List.range c.nb_max_lines_).filter c.used).map Dart.mk).foldl f s)) ∧
    (∀ fuel, c.nb_max_lines_ < fuel →
      MapBase.foreach_dart c (fun l d => l ++ [d.index]) fuel [] =
        some ((List.range c.nb_max_lines_).filter c.used)) ∧
    ((List.range c.nb_max_lines_).filter c.used).Pairwise (fun i j => i < j) ∧
    ((List.range c.nb_max_lines_).filter c.used).Nodup ∧
    (∀ i, i ∈ (List.range c.nb_max_lines_).filter c.used ↔
      (i < c.nb_max_lines_ ∧ c.used i = true)) := by
  have hrun : ∀ (σ : Type) (f : σ → Dart → σ) (s : σ) (fuel : Nat), c.nb_max_lines_ < fuel →
      MapBase.foreach_dart c f fuel s =
        some ((((List.range c.nb_max_lines_).filter c.used).map Dart.mk).foldl f s) := by
    intro σ f s fuel hfuel
    obtain ⟨j, hj, _, hle, huj, hskip⟩ :=
      ChunkArrayContainer.begin_loop_spec c hmax fuel 0 (Nat.zero_le _) (by omega)
    have hb : c.begin fuel = some j := hj
    rw [MapBase.foreach_dart, hb]
    simp only []
    rw [MapBase.foreach_dart_loop_spec c hmax f fuel j s hle huj (by omega),
      List.range_eq_range', filter_range'_skip c.used j 0 c.nb_max_lines_ hle
        (fun k hk1 hk2 => hskip k hk1 (by omega)), Nat.zero_add]
  refine ⟨hrun, ?_, ?_, ?_, ?_⟩
  · intro fuel hfuel
    rw [hrun _ _ _ fuel hfuel]
    have hfold : ∀ (l : List Nat) (acc : List Nat),
        (l.map Dart.mk).foldl (fun l d => l ++ [d.index]) acc = acc ++ l := by
      intro l
      induction l with
      | nil => intro acc; simp
      | cons x l ih => intro acc; simp [ih]
    rw [hfold]
    rfl
  · exact List.Pairwise.filter _ (List.pairwise_lt_range _)
  · exact List.Nodup.filter _ (List.nodup_range _)
  · intro i
    rw [List.mem_filter, List.mem_range]

/-- Witness of C24 on the example container with a hole: the lines 0, 2 and 3
are visited. -/
theorem foreach_dart_visits_used_lines_witness :
    example_container_hole.nb_max_lines_ < UINT32_RANGE ∧
    MapBase.foreach_dart example_container_hole (fun l d => l ++ [d.index]) 5 [] =
      some [0, 2, 3] ∧
    (∀ (σ : Type) (f : σ → Dart → σ) (s : σ) (fuel : Nat),
      example_container_hole.nb_max_lines_ < fuel →
      MapBase.foreach_dart example_container_hole f fuel s =
        some ((((List.range example_container_hole.nb_max_lines_).filter
          example_container_hole.used).map Dart.mk).foldl f s)) :=
  ⟨by decide, by decide, (foreach_dart_visits_used_lines example_container_hole (by decide)).1⟩


/-! ## Look-up, creation and removal of attributes -/

theorem ChunkArrayContainer.get_array_index_loop_not_mem (name : String) :
    ∀ (l : List String) (start : Nat), name ∉ l →
      ChunkArrayContainer.get_array_index_loop name l start = ChunkArrayContainer.UNKNOWN := by
  intro l
  induction l with
  | nil => intro start _; rfl
  | cons n rest ih =>
    intro start h
    rw [List.mem_cons, not_or] at h
    rw [ChunkArrayContainer.get_array_index_loop, if_neg (fun e => h.1 e.symm)]
    exact ih _ h.2

theorem ChunkArrayContainer.get_array_index_loop_mem (name : String) :
    ∀ (l : List String) (start : Nat), name ∈ l → start + l.length ≤ UINT32_RANGE →
      ∃ i, i < l.length ∧ l[i]? = some name ∧ (∀ j, j < i → l[j]? ≠ some name) ∧
        ChunkArrayContainer.get_array_index_loop name l start = start + i := by
  intro l
  induction l with
  | nil => intro start h; simp at h
  | cons n rest ih =>
    intro start h hlen
    rw [List.length_cons] at hlen
    rw [ChunkArrayContainer.get_array_index_loop]
    by_cases hn : n = name
    · rw [if_pos hn]
      exact ⟨0, by simp, by simp [hn], fun j hj => by omega, rfl⟩
    · rw [if_neg hn]
      have hmem : name ∈ rest := by
        rcases List.mem_cons.1 h with h | h
        · exact absurd h.symm hn
        · exact h
      have hmod : (start + 1) % UINT32_RANGE = start + 1 := by
        have : 0 < rest.length := List.length_pos_of_mem hmem
        exact Nat.mod_eq_of_lt (by omega)
      rw [hmod]
      obtain ⟨i, hi, hget, hfirst, hres⟩ := ih (start + 1) hmem (by omega)
      refine ⟨i + 1, by simp; omega, by simpa using hget, ?_, by rw [hres]; omega⟩
      intro j hj
      cases j with
      | zero => simp [hn]
      | succ j => simpa using hfirst j (by omega)

theorem ChunkArrayContainer.get_array_index_spec (c : ChunkArrayContainer)
    (hlen : c.names_.length < ChunkArrayContainer.UNKNOWN) (name : String) :
    (name ∉ c.names_ → c.get_array_index name = ChunkArrayContainer.UNKNOWN) ∧
    (name ∈ c.names_ → ∃ i, i < c.names_.length ∧ c.names_[i]? = some name ∧
      (∀ j, j < i → c.names_[j]? ≠ some name) ∧ c.get_array_index name = i ∧
      i ≠ ChunkArrayContainer.UNKNOWN) := by
  have hlen' : c.names_.length < 4294967295 := hlen
  refine ⟨ChunkArrayContainer.get_array_index_loop_not_mem name c.names_ 0, ?_⟩
  intro h
  obtain ⟨i, hi, hget, hfirst, hres⟩ :=
    ChunkArrayContainer.get_array_index_loop_mem name c.names_ 0 h (by
      show 0 + c.names_.length ≤ 4294967296
      omega)
  rw [Nat.zero_add] at hres
  refine ⟨i, hi, hget, hfirst, hres, ?_⟩
  show i ≠ 4294967295
  omega

theorem ChunkArrayContainer.get_attribute_found (c : ChunkArrayContainer)
    (hp : c.attributes_paired) (T name : String) (h : name ∈ c.names_) :
    ∃ i a, i < c.names_.length ∧ c.names_[i]? = some name ∧
      (∀ j, j < i → c.names_[j]? ≠ some name) ∧
      c.table_arrays_[i]? = some a ∧ c.get_array_index name = i ∧
      c.get_attribute_gen name = some a ∧
      c.get_attribute T name = if a.type_name = T then some a else none := by
  obtain ⟨hn, _, hlen, _⟩ := hp
  obtain ⟨i, hi, hget, hfirst, hres, hne⟩ :=
    (ChunkArrayContainer.get_array_index_spec c (by rw [hn]; exact hlen) name).2 h
  have hi2 : i < c.table_arrays_.length := by rw [← hn]; exact hi
  refine ⟨i, c.table_arrays_[i], hi, hget, hfirst, List.getElem?_eq_getElem hi2, hres, ?_, ?_⟩
  · simp only [ChunkArrayContainer.get_attribute_gen, hres, if_neg hne, List.getElem?_eq_getElem hi2]
  · simp only [ChunkArrayContainer.get_attribute, hres, if_neg hne, List.getElem?_eq_getElem hi2]

/-- Claim C28, as stated, fails for the overload `get_attribute<T>`: in the
example container the attribute `"b"` exists, with elements of type
`float64`, and `get_attribute<uint32>("b")` returns the null pointer (the
`dynamic_cast` fails), while the overload without element type returns the
array. -/
theorem get_attribute_null_on_other_type :
    "b" ∈ example_container_attributes.names_ ∧
    example_container_attributes.attributes_paired ∧
    (example_container_attributes.get_attribute "uint32" "b").isNone = true ∧
    (example_container_attributes.get_attribute_gen "b").isSome = true ∧
    (example_container_attributes.get_attribute "float64" "b").isSome = true :=
  ⟨by decide, ⟨by decide, by decide, by decide, by decide⟩, by decide, by decide, by decide⟩

/-- Claim C28, amended: in a container whose names, type names and arrays are
paired, `get_attribute(name)` without element type returns the null pointer
exactly when no attribute has that name, and otherwise the array registered
under that name (the first one); `get_attribute<T>(name)` returns the null
pointer exactly when no attribute has that name or the array registered under
it does not hold elements of type `T`, and otherwise that array.
`add_attribute<T>(name)` fails its assertion for the empty name, returns the
null pointer and leaves the container unchanged for a name already present,
and for a new name appends an array of type `T`, its name and its type name,
after which both `get_attribute<T>(name)` and `get_attribute(name)` return
this array. -/
theorem get_and_add_attribute (c : ChunkArrayContainer) (hp : c.attributes_paired)
    (T name : String) :
    (c.get_attribute_gen name = none ↔ name ∉ c.names_) ∧
    (name ∈ c.names_ → ∃ i a, i < c.names_.length ∧ c.names_[i]? = some name ∧
      (∀ j, j < i → c.names_[j]? ≠ some name) ∧
      c.table_arrays_[i]? = some a ∧ c.get_attribute_gen name = some a ∧
      c.get_attribute T name = if a.type_name = T then some a else none) ∧
    (c.get_attribute T name = none ↔
      (name ∉ c.names_ ∨ ∃ a, c.get_attribute_gen name = some a ∧ a.type_name ≠ T)) ∧
    (name.length = 0 → c.add_attribute T name = none) ∧
    (name.length ≠ 0 → name ∈ c.names_ → c.add_attribute T name = some (c, none)) ∧
    (name.length ≠ 0 → name ∉ c.names_ →
      c.table_arrays_.length + 1 < ChunkArrayContainer.UNKNOWN →
      ∃ c1 a, c.add_attribute T name = some (c1, some a) ∧ a.type_name = T ∧
        c1.names_ = c.names_ ++ [name] ∧ c1.type_names_ = c.type_names_ ++ [T] ∧
        c1.table_arrays_ = c.table_arrays_ ++ [a] ∧
        c1.get_attribute T name = some a ∧ c1.get_attribute_gen name = some a ∧
        c1.attributes_paired) := by
  have hp' := hp
  obtain ⟨hn, ht, hlen, hnd⟩ := hp'
  have hnl : c.names_.length < ChunkArrayContainer.UNKNOWN := by rw [hn]; exact hlen
  have hmiss : name ∉ c.names_ → c.get_array_index name = ChunkArrayContainer.UNKNOWN :=
    (ChunkArrayContainer.get_array_index_spec c hnl name).1
  refine ⟨?_, ?_, ?_, ?_, ?_, ?_⟩
  · constructor
    · intro h hmem
      obtain ⟨i, a, _, _, _, _, _, hg, _⟩ :=
        ChunkArrayContainer.get_attribute_found c hp T name hmem
      rw [hg] at h
      exact Option.noConfusion h
    · intro h
      simp only [ChunkArrayContainer.get_attribute_gen, hmiss h, if_true]
  · intro hmem
    obtain ⟨i, a, h1, h2, h3, h4, _, h6, h7⟩ :=
      ChunkArrayContainer.get_attribute_found c hp T name hmem
    exact ⟨i, a, h1, h2, h3, h4, h6, h7⟩
  · constructor
    · intro h
      by_cases hmem : name ∈ c.names_
      · right
        obtain ⟨i, a, _, _, _, _, _, hg, hgt⟩ :=
          ChunkArrayContainer.get_attribute_found c hp T name hmem
        refine ⟨a, hg, ?_⟩
        intro hT
        rw [hgt, if_pos hT] at h
        exact Option.noConfusion h
      · exact Or.inl hmem
    · rintro (h | ⟨a, hg, hT⟩)
      · simp only [ChunkArrayContainer.get_attribute, hmiss h, if_true]
      · by_cases hmem : name ∈ c.names_
        · obtain ⟨i, a2, _, _, _, _, _, hg2, hgt⟩ :=
            ChunkArrayContainer.get_attribute_found c hp T name hmem
          rw [hg] at hg2
          cases hg2
          rw [hgt, if_neg hT]
        · simp only [ChunkArrayContainer.get_attribute, hmiss hmem, if_true]
  · intro h
    simp only [ChunkArrayContainer.add_attribute, h, ne_eq, not_true_eq_false, if_false]
  · intro h hmem
    obtain ⟨i, _, _, _, hres, hne⟩ :=
      (ChunkArrayContainer.get_array_index_spec c hnl name).2 hmem
    rw [← hres] at hne
    simp only [ChunkArrayContainer.add_attribute, h, ne_eq, not_false_eq_true, if_true, hne]
  · intro h hmem hroom
    have hroom' : c.table_arrays_.length + 1 < 4294967295 := hroom
    have hpaired : ({ c with
        table_arrays_ := c.table_arrays_ ++ [{ type_name := T, data := fun _ => 0 }]
        names_ := c.names_ ++ [name]
        type_names_ := c.type_names_ ++ [T] } : ChunkArrayContainer).attributes_paired := by
      refine ⟨?_, ?_, ?_, ?_⟩
      · show (c.names_ ++ [name]).length = (c.table_arrays_ ++ _).length
        simp [hn]
      · show (c.type_names_ ++ [T]).length = (c.table_arrays_ ++ _).length
        simp [ht]
      · show (c.table_arrays_ ++ _).length < 4294967295
        simp only [List.length_append, List.length_singleton]
        omega
      · show (c.names_ ++ [name]).Nodup
        rw [List.nodup_append]
        refine ⟨hnd, List.nodup_singleton _, ?_⟩
        intro x hx hy
        rw [List.mem_singleton] at hy
        exact hmem (hy ▸ hx)
    obtain ⟨i, a, hi, hget, hfirst, hta, _, hg, hgt⟩ :=
      ChunkArrayContainer.get_attribute_found _ hpaired T name
        (show name ∈ c.names_ ++ [name] by simp)
    have hi' : i < (c.names_ ++ [name]).length := hi
    have hget' : (c.names_ ++ [name])[i]? = some name := hget
    have hta' : (c.table_arrays_ ++ [({ type_name := T, data := fun _ => 0 } :
        ChunkArrayGen)])[i]? = some a := hta
    have hieq : i = c.names_.length := by
      by_contra hne
      have hlt : i < c.names_.length := by
        rw [List.length_append, List.length_singleton] at hi'
        omega
      rw [List.getElem?_append_left hlt] at hget'
      exact hmem (List.getElem?_mem hget')
    rw [hieq, hn, List.getElem?_append_right (le_refl _), Nat.sub_self] at hta'
    have ha : a = { type_name := T, data := fun _ => 0 } := by
      simpa using hta'.symm
    refine ⟨_, { type_name := T, data := fun _ => 0 }, ?_, rfl, rfl, rfl, rfl, ?_, ?_, hpaired⟩
    · simp only [ChunkArrayContainer.add_attribute, h, ne_eq, not_false_eq_true, if_true,
        hmiss hmem, not_true_eq_false, if_false]
    · rw [hgt, ha, if_pos rfl]
    · rw [hg, ha]

theorem example_container_attributes_paired :
    example_container_attributes.attributes_paired :=
  ⟨by decide, by decide, by decide, by decide⟩


/-- Witness of the amended C28 on the example container: the attribute `"d"`
of type `uint32` is added. -/
theorem get_and_add_attribute_witness :
    example_container_attributes.attributes_paired ∧
    (example_container_attributes.add_attribute "uint32" "b" =
      some (example_container_attributes, none)) ∧
    ∃ c1 a, example_container_attributes.add_attribute "uint32" "d" = some (c1, some a) ∧
      a.type_name = "uint32" ∧
      c1.names_ = example_container_attributes.names_ ++ ["d"] ∧
      c1.type_names_ = example_container_attributes.type_names_ ++ ["uint32"] ∧
      c1.table_arrays_ = example_container_attributes.table_arrays_ ++ [a] ∧
      c1.get_attribute "uint32" "d" = some a ∧ c1.get_attribute_gen "d" = some a ∧
      c1.attributes_paired :=
  ⟨example_container_attributes_paired,
   (get_and_add_attribute example_container_attributes example_container_attributes_paired
     "uint32" "b").2.2.2.2.1 (by decide) (by decide),
   (get_and_add_attribute example_container_attributes example_container_attributes_paired
     "uint32" "d").2.2.2.2.2 (by decide) (by decide) (by decide)⟩


theorem ChunkArrayContainer.remove_swap_getElem? {α : Type} (v : List α) (index : Nat)
    (hi : index < v.length) (k : Nat) :
    (ChunkArrayContainer.remove_swap v index (decide (index ≠ v.length - 1)))[k]? =
      if k < v.length - 1 then (if k = index then v[v.length - 1]? else v[k]?) else none := by
  have hne : v ≠ [] := by
    intro h; rw [h] at hi; simp at hi
  have hlast : v.getLast? = some (v.getLast hne) := List.getLast?_eq_getLast v hne
  have hlast2 : v[v.length - 1]? = some (v.getLast hne) := by
    rw [List.getLast_eq_getElem, List.getElem?_eq_getElem]
  unfold ChunkArrayContainer.remove_swap
  rw [hlast]
  by_cases hrep : index ≠ v.length - 1
  · have hd : decide (index ≠ v.length - 1) = true := decide_eq_true hrep
    rw [hd]
    simp only [if_true]
    rw [List.dropLast_eq_take, List.getElem?_take, List.length_set]
    by_cases hk : k < v.length - 1
    · rw [if_pos hk, if_pos hk, List.getElem?_set]
      by_cases hki : k = index
      · rw [if_pos hki, if_pos hki.symm, hlast2, if_pos (by omega)]
      · rw [if_neg hki, if_neg (fun h => hki h.symm)]
    · rw [if_neg hk, if_neg hk]
  · have hrep' : index = v.length - 1 := not_not.1 hrep
    have hd : decide (index ≠ v.length - 1) = false := decide_eq_false hrep
    rw [hd]
    simp only [Bool.false_eq_true, if_false]
    rw [List.dropLast_eq_take, List.getElem?_take]
    by_cases hk : k < v.length - 1
    · rw [if_pos hk, if_pos hk, if_neg (by omega)]
    · rw [if_neg hk, if_neg hk]

theorem ChunkArrayContainer.remove_swap_length {α : Type} (v : List α) (index : Nat)
    (hi : index < v.length) (b : Bool) :
    (ChunkArrayContainer.remove_swap v index b).length = v.length - 1 := by
  have hne : v ≠ [] := by
    intro h; rw [h] at hi; simp at hi
  unfold ChunkArrayContainer.remove_swap
  rw [List.getLast?_eq_getLast v hne]
  cases b <;> simp

theorem nodup_getElem?_inj {α : Type} (l : List α) (hnd : l.Nodup) (x y : Nat)
    (hx : x < l.length) (h : l[x]? = l[y]?) : x = y := by
  have hy : y < l.length := by
    by_contra hge
    rw [List.getElem?_eq_getElem hx, List.getElem?_eq_none (by omega)] at h
    exact Option.noConfusion h
  rcases Nat.lt_trichotomy x y with hlt | heq | hgt
  · exact absurd h ((List.nodup_iff_getElem?_ne_getElem?.1 hnd) x y hlt hy)
  · exact heq
  · exact absurd h.symm ((List.nodup_iff_getElem?_ne_getElem?.1 hnd) y x hgt hx)

theorem ChunkArrayContainer.paired_lookup (c : ChunkArrayContainer)
    (hp : c.attributes_paired) (k : Nat) (other : String) (hk : c.names_[k]? = some other) :
    c.get_array_index other = k ∧ c.get_attribute_gen other = c.table_arrays_[k]? := by
  have hmem : other ∈ c.names_ := List.getElem?_mem hk
  obtain ⟨i, a, hi, hget, _, hta, hidx, hg, _⟩ :=
    ChunkArrayContainer.get_attribute_found c hp "" other hmem
  have hik : i = k := nodup_getElem?_inj c.names_ hp.2.2.2 i k hi (by rw [hget, hk])
  rw [← hik]
  exact ⟨hidx, by rw [hg, hta]⟩

/-- Claim C29: in a container whose names, type names and arrays are paired,
without repeated name, `remove_attribute(name)` returns `true` exactly when an
attribute with that name exists.  When it returns `false` the container is
unchanged.  When it returns `true` the name is no longer found by
`get_attribute`, the number of attributes has decreased by one, and every
other attribute is still found under its own name, at an index where its own
type name and its own array are stored; the line allocator is untouched. -/
theorem remove_attribute_keeps_pairing (c : ChunkArrayContainer) (hp : c.attributes_paired)
    (name : String) :
    ((c.remove_attribute name).2 = true ↔ name ∈ c.names_) ∧
    (name ∉ c.names_ → c.remove_attribute name = (c, false)) ∧
    (name ∈ c.names_ →
      (c.remove_attribute name).1.get_attribute_gen name = none ∧
      name ∉ (c.remove_attribute name).1.names_ ∧
      (c.remove_attribute name).1.table_arrays_.length + 1 = c.table_arrays_.length ∧
      (c.remove_attribute name).1.attributes_paired ∧
      (∀ (k : Nat) (other : String), other ≠ name → c.names_[k]? = some other →
        ∃ j : Nat, (c.remove_attribute name).1.names_[j]? = some other ∧
          (c.remove_attribute name).1.type_names_[j]? = c.type_names_[k]? ∧
          (c.remove_attribute name).1.table_arrays_[j]? = c.table_arrays_[k]? ∧
          (c.remove_attribute name).1.get_attribute_gen other = c.get_attribute_gen other) ∧
      (c.remove_attribute name).1.refs_ = c.refs_ ∧
      (c.remove_attribute name).1.holes_stack_ = c.holes_stack_ ∧
      (c.remove_attribute name).1.nb_used_lines_ = c.nb_used_lines_ ∧
      (c.remove_attribute name).1.nb_max_lines_ = c.nb_max_lines_) := by
  have hp' := hp
  obtain ⟨hn, ht, hlen, hnd⟩ := hp'
  have hnl : c.names_.length < ChunkArrayContainer.UNKNOWN := by rw [hn]; exact hlen
  have hmiss : name ∉ c.names_ → c.remove_attribute name = (c, false) := by
    intro h
    simp only [ChunkArrayContainer.remove_attribute,
      (ChunkArrayContainer.get_array_index_spec c hnl name).1 h, if_true]
  have hfound : name ∈ c.names_ → ∃ i, i < c.names_.length ∧ c.names_[i]? = some name ∧
      c.remove_attribute name = (c.remove_attribute_index i, true) := by
    intro h
    obtain ⟨i, hi, hget, _, hres, hne⟩ :=
      (ChunkArrayContainer.get_array_index_spec c hnl name).2 h
    refine ⟨i, hi, hget, ?_⟩
    simp only [ChunkArrayContainer.remove_attribute, hres, if_neg hne]
  refine ⟨?_, hmiss, ?_⟩
  · constructor
    · intro h
      by_contra hmem
      rw [hmiss hmem] at h
      exact Bool.noConfusion h
    · intro h
      obtain ⟨i, _, _, hr⟩ := hfound h
      rw [hr]
  · intro h
    obtain ⟨i, hi, hget, hr⟩ := hfound h
    rw [hr]
    have hiT : i < c.table_arrays_.length := by rw [← hn]; exact hi
    have hiY : i < c.type_names_.length := by rw [ht]; exact hiT
    -- the three vectors after the removal
    have hN : ∀ k, (c.remove_attribute_index i).names_[k]? =
        if k < c.names_.length - 1 then
          (if k = i then c.names_[c.names_.length - 1]? else c.names_[k]?) else none := by
      intro k
      have := ChunkArrayContainer.remove_swap_getElem? c.names_ i hi k
      rw [hn] at this ⊢
      exact this
    have hY : ∀ k, (c.remove_attribute_index i).type_names_[k]? =
        if k < c.names_.length - 1 then
          (if k = i then c.type_names_[c.names_.length - 1]? else c.type_names_[k]?)
        else none := by
      intro k
      have := ChunkArrayContainer.remove_swap_getElem? c.type_names_ i hiY k
      rw [ht] at this
      rw [hn]
      exact this
    have hT : ∀ k, (c.remove_attribute_index i).table_arrays_[k]? =
        if k < c.names_.length - 1 then
          (if k = i then c.table_arrays_[c.names_.length - 1]? else c.table_arrays_[k]?)
        else none := by
      intro k
      have := ChunkArrayContainer.remove_swap_getElem? c.table_arrays_ i hiT k
      rw [hn]
      exact this
    have hNlen : (c.remove_attribute_index i).names_.length = c.names_.length - 1 :=
      ChunkArrayContainer.remove_swap_length c.names_ i hi _
    have hYlen : (c.remove_attribute_index i).type_names_.length = c.names_.length - 1 := by
      rw [hn, ← ht]
      exact ChunkArrayContainer.remove_swap_length c.type_names_ i hiY _
    have hTlen : (c.remove_attribute_index i).table_arrays_.length = c.names_.length - 1 := by
      rw [hn]
      exact ChunkArrayContainer.remove_swap_length c.table_arrays_ i hiT _
    -- a name after the removal is a name before it, at another index than `i`
    have hsrc : ∀ k x, (c.remove_attribute_index i).names_[k]? = some x →
        ∃ k0, k0 < c.names_.length ∧ k0 ≠ i ∧ c.names_[k0]? = some x ∧
          (k0 = if k = i then c.names_.length - 1 else k) := by
      intro k x hk
      rw [hN k] at hk
      by_cases hlt : k < c.names_.length - 1
      · rw [if_pos hlt] at hk
        by_cases hki : k = i
        · rw [if_pos hki] at hk
          exact ⟨c.names_.length - 1, by omega, by omega, hk, by rw [if_pos hki]⟩
        · rw [if_neg hki] at hk
          exact ⟨k, by omega, hki, hk, by rw [if_neg hki]⟩
      · rw [if_neg hlt] at hk
        exact Option.noConfusion hk
    have hnotin : name ∉ (c.remove_attribute_index i).names_ := by
      intro hmem
      obtain ⟨k, hk⟩ := List.mem_iff_getElem?.1 hmem
      obtain ⟨k0, hk0, hne, hget0, _⟩ := hsrc k name hk
      exact hne (nodup_getElem?_inj c.names_ hnd k0 i hk0 (by rw [hget0, hget]))
    have hnd1 : (c.remove_attribute_index i).names_.Nodup := by
      rw [List.nodup_iff_getElem?_ne_getElem?]
      intro a b hab hb heq
      rw [hNlen] at hb
      have ha : a < c.names_.length - 1 := by omega
      obtain ⟨x, hx⟩ : ∃ x, (c.remove_attribute_index i).names_[a]? = some x := by
        rw [List.getElem?_eq_getElem (by rw [hNlen]; exact ha)]
        exact ⟨_, rfl⟩
      obtain ⟨ka, hka, _, hgeta, hka2⟩ := hsrc a x hx
      obtain ⟨kb, hkb, _, hgetb, hkb2⟩ := hsrc b x (by rw [← heq]; exact hx)
      have hkk := nodup_getElem?_inj c.names_ hnd ka kb hka (by rw [hgeta, hgetb])
      rw [hka2, hkb2] at hkk
      split_ifs at hkk <;> omega
    have hp1 : (c.remove_attribute_index i).attributes_paired := by
      refine ⟨by rw [hNlen, hTlen], by rw [hYlen, hTlen], ?_, hnd1⟩
      rw [hTlen]
      have hl : c.names_.length < 4294967295 := hnl
      show c.names_.length - 1 < 4294967295
      omega
    refine ⟨?_, hnotin, ?_, hp1, ?_, rfl, rfl, rfl, rfl⟩
    · have hl : (c.remove_attribute_index i).names_.length < ChunkArrayContainer.UNKNOWN := by
        rw [hp1.1]; exact hp1.2.2.1
      simp only [ChunkArrayContainer.get_attribute_gen,
        (ChunkArrayContainer.get_array_index_spec _ hl name).1 hnotin, if_true]
    · rw [hTlen, ← hn]; omega
    · intro k other hne hk
      have hkl : k < c.names_.length := by
        by_contra hge
        rw [List.getElem?_eq_none (by omega)] at hk
        exact Option.noConfusion hk
      have hki : k ≠ i := by
        intro hki
        rw [hki, hget] at hk
        exact hne (Option.some.inj hk).symm
      have hlook := ChunkArrayContainer.paired_lookup c hp k other hk
      by_cases hklast : k = c.names_.length - 1
      · -- the last attribute has taken the place of the removed one
        have hil : i < c.names_.length - 1 := by omega
        have h1 : (c.remove_attribute_index i).names_[i]? = some other := by
          rw [hN i, if_pos hil, if_pos rfl, ← hklast, hk]
        refine ⟨i, h1, ?_, ?_, ?_⟩
        · rw [hY i, if_pos hil, if_pos rfl, ← hklast]
        · rw [hT i, if_pos hil, if_pos rfl, ← hklast]
        · rw [(ChunkArrayContainer.paired_lookup _ hp1 i other h1).2, hlook.2, hT i,
            if_pos hil, if_pos rfl, ← hklast]
      · have hkl2 : k < c.names_.length - 1 := by omega
        have h1 : (c.remove_attribute_index i).names_[k]? = some other := by
          rw [hN k, if_pos hkl2, if_neg hki, hk]
        refine ⟨k, h1, ?_, ?_, ?_⟩
        · rw [hY k, if_pos hkl2, if_neg hki]
        · rw [hT k, if_pos hkl2, if_neg hki]
        · rw [(ChunkArrayContainer.paired_lookup _ hp1 k other h1).2, hlook.2, hT k,
            if_pos hkl2, if_neg hki]

/-- Witness of C29 on the example container: the attribute `"a"` is removed,
the attribute `"c"` takes its place. -/
theorem remove_attribute_keeps_pairing_witness :
    example_container_attributes.attributes_paired ∧
    (example_container_attributes.remove_attribute "a").1.names_ = ["c", "b"] ∧
    (example_container_attributes.remove_attribute "a").1.type_names_ =
      ["uint32", "float64"] ∧
    (example_container_attributes.remove_attribute "d" =
      (example_container_attributes, false)) ∧
    ((example_container_attributes.remove_attribute "a").2 = true ↔
      "a" ∈ example_container_attributes.names_) ∧
    (example_container_attributes.remove_attribute "a").1.attributes_paired :=
  ⟨example_container_attributes_paired, by decide, by decide,
   (remove_attribute_keeps_pairing example_container_attributes
     example_container_attributes_paired "d").2.1 (by decide),
   (remove_attribute_keeps_pairing example_container_attributes
     example_container_attributes_paired "a").1,
   ((remove_attribute_keeps_pairing example_container_attributes
     example_container_attributes_paired "a").2.2 (by decide)).2.2.2.1⟩

theorem uint32_decr_succ (k : Nat) : uint32_decr (k + 1) = k := by
  simp [uint32_decr]

theorem uint32_decr_zero : uint32_decr 0 = UINT32_MAX := by
  simp [uint32_decr]

theorem ChunkArrayContainer.rnext_spec (c : ChunkArrayContainer) :
    ∀ fuel it, it < fuel → it < UINT32_MAX →
      ∃ it1, c.rnext fuel it = some it1 ∧
        (it1 = UINT32_MAX ∨ (it1 < it ∧ c.used it1 = true)) ∧
        ∀ j, j < it → compact_passed it1 j → c.used j = false := by
  intro fuel
  induction fuel with
  | zero => intro it h; omega
  | succ fuel ih =>
    intro it hfuel hit
    cases it with
    | zero =>
      refine ⟨UINT32_MAX, ?_, Or.inl rfl, ?_⟩
      · simp [ChunkArrayContainer.rnext, uint32_decr_zero]
      · intro j hj; omega
    | succ k =>
      by_cases hu : c.used k = false
      · obtain ⟨it1, h1, h2, h3⟩ := ih k (by omega) (by omega)
        have hk : k ≠ UINT32_MAX := by omega
        refine ⟨it1, ?_, ?_, ?_⟩
        · rw [ChunkArrayContainer.rnext]
          simp only [uint32_decr_succ]
          rw [if_pos ⟨hk, hu⟩]
          exact h1
        · rcases h2 with h2 | ⟨h2, h2'⟩
          · exact Or.inl h2
          · exact Or.inr ⟨by omega, h2'⟩
        · intro j hj hp
          by_cases hjk : j = k
          · rw [hjk]; exact hu
          · exact h3 j (by omega) hp
      · have hu' : c.used k = true := by
          cases h : c.used k
          · exact absurd h hu
          · rfl
        refine ⟨k, ?_, Or.inr ⟨by omega, hu'⟩, ?_⟩
        · rw [ChunkArrayContainer.rnext]
          simp only [uint32_decr_succ]
          rw [if_neg (fun h => hu h.2)]
        · intro j hj hp
          rcases hp with hp | hp
          · omega
          · omega

theorem ChunkArrayContainer.rbegin_loop_spec (c : ChunkArrayContainer) :
    ∀ fuel it, (it = UINT32_MAX ∧ 0 < fuel) ∨ (it + 1 < fuel ∧ it < UINT32_MAX) →
      ∃ r, c.rbegin_loop fuel it = some r ∧
        (r = UINT32_MAX ∨ (r ≤ it ∧ it ≠ UINT32_MAX ∧ c.used r = true)) ∧
        ∀ j, it ≠ UINT32_MAX → j ≤ it → compact_passed r j → c.used j = false := by
  intro fuel
  induction fuel with
  | zero => intro it h; omega
  | succ fuel ih =>
    intro it h
    rcases h with ⟨h, _⟩ | ⟨hf, hit⟩
    · refine ⟨UINT32_MAX, ?_, Or.inl rfl, ?_⟩
      · rw [ChunkArrayContainer.rbegin_loop, if_neg (fun hh => hh.1 h)]
        rw [h]
      · intro j hj; exact absurd h hj
    · have hne : it ≠ UINT32_MAX := by omega
      by_cases hu : c.used it = false
      · have hrec : ∃ r, c.rbegin_loop fuel (uint32_decr it) = some r ∧
            (r = UINT32_MAX ∨ (r < it ∧ c.used r = true)) ∧
            ∀ j, j < it → compact_passed r j → c.used j = false := by
          cases it with
          | zero =>
            obtain ⟨r, h1, h2, _⟩ := ih UINT32_MAX (Or.inl ⟨rfl, by omega⟩)
            rw [uint32_decr_zero]
            refine ⟨r, h1, ?_, ?_⟩
            · rcases h2 with h2 | ⟨_, h2, _⟩
              · exact Or.inl h2
              · exact absurd rfl h2
            · intro j hj; omega
          | succ k =>
            obtain ⟨r, h1, h2, h3⟩ := ih k (Or.inr ⟨by omega, by omega⟩)
            rw [uint32_decr_succ]
            refine ⟨r, h1, ?_, ?_⟩
            · rcases h2 with h2 | ⟨h2, _, h2'⟩
              · exact Or.inl h2
              · exact Or.inr ⟨by omega, h2'⟩
            · intro j hj hp
              exact h3 j (by omega) (by omega) hp
        obtain ⟨r, h1, h2, h3⟩ := hrec
        refine ⟨r, ?_, ?_, ?_⟩
        · rw [ChunkArrayContainer.rbegin_loop, if_pos ⟨hne, hu⟩]
          exact h1
        · rcases h2 with h2 | ⟨h2, h2'⟩
          · exact Or.inl h2
          · exact Or.inr ⟨by omega, hne, h2'⟩
        · intro j _ hj hp
          by_cases hjk : j = it
          · rw [hjk]; exact hu
          · exact h3 j (by omega) hp
      · have hu' : c.used it = true := by
          cases h : c.used it
          · exact absurd h hu
          · rfl
        refine ⟨it, ?_, Or.inr ⟨le_refl _, hne, hu'⟩, ?_⟩
        · rw [ChunkArrayContainer.rbegin_loop, if_neg (fun h => hu h.2)]
        · intro j _ hj hp
          rcases hp with hp | hp
          · exact absurd hp hne
          · omega

theorem ChunkArrayContainer.rbegin_spec (c : ChunkArrayContainer) (fuel : Nat)
    (hmax : c.nb_max_lines_ < UINT32_RANGE) (hfuel : c.nb_max_lines_ < fuel) :
    ∃ up, c.rbegin fuel = some up ∧
      (up = UINT32_MAX ∨ (up < c.nb_max_lines_ ∧ c.used up = true)) ∧
      ∀ j, j < c.nb_max_lines_ → compact_passed up j → c.used j = false := by
  have hM : UINT32_MAX = 4294967295 := rfl
  have hmax' : c.nb_max_lines_ < 4294967296 := hmax
  unfold ChunkArrayContainer.rbegin
  cases hN : c.nb_max_lines_ with
  | zero =>
    obtain ⟨r, h1, h2, _⟩ := c.rbegin_loop_spec fuel UINT32_MAX (Or.inl ⟨rfl, by omega⟩)
    rw [uint32_decr_zero]
    refine ⟨r, h1, ?_, ?_⟩
    · rcases h2 with h2 | ⟨_, h2, _⟩
      · exact Or.inl h2
      · exact absurd rfl h2
    · intro j hj; omega
  | succ k =>
    obtain ⟨r, h1, h2, h3⟩ := c.rbegin_loop_spec fuel k (Or.inr ⟨by omega, by omega⟩)
    rw [uint32_decr_succ]
    refine ⟨r, h1, ?_, ?_⟩
    · rcases h2 with h2 | ⟨h2, _, h2'⟩
      · exact Or.inl h2
      · exact Or.inr ⟨by omega, h2'⟩
    · intro j hj hp
      exact h3 j (by omega) (by omega) hp
theorem ChunkArrayContainer.relocate_id (c : ChunkArrayContainer) :
    c.relocate (fun x => x) = c := by
  cases c
  simp [ChunkArrayContainer.relocate]

theorem ChunkArrayContainer.relocate_move_line (c : ChunkArrayContainer)
    (phi : Nat → Nat) (dst src : Nat) :
    (c.relocate phi).move_line dst src true true =
      c.relocate (Function.update phi dst (phi src)) := by
  have hf : ∀ (α : Type) (g : Nat → α),
      Function.update (fun x => g (phi x)) dst (g (phi src)) =
        fun x => g (Function.update phi dst (phi src) x) := by
    intro α g
    funext x
    by_cases hx : x = dst
    · subst hx; simp
    · simp [Function.update_noteq hx]
  unfold ChunkArrayContainer.move_line ChunkArrayContainer.relocate
  simp only [if_true, List.map_map]
  congr 1
  · apply List.map_congr_left
    intro a _
    exact hf Bool a
  · exact hf Nat c.refs_
  · apply List.map_congr_left
    intro a _
    show ChunkArrayGen.move_element _ dst src = _
    unfold ChunkArrayGen.move_element
    simp only
    congr 1
    exact hf Nat a.data

theorem ChunkArrayContainer.holes_count (c : ChunkArrayContainer) (h : c.holes_exact) :
    c.holes_stack_.countP (fun d => decide (d < c.nb_used_lines_)) =
      ((Finset.range c.nb_max_lines_).filter
        (fun i => c.nb_used_lines_ ≤ i ∧ c.refs_ i ≠ 0)).card := by
  obtain ⟨_, hnd, hex, hsum⟩ := h
  have hUN : c.nb_used_lines_ ≤ c.nb_max_lines_ := by omega
  -- the unused lines below `nb_max_lines_` are the holes
  have hB : (Finset.range c.nb_max_lines_).filter (fun i => c.refs_ i = 0) =
      c.holes_stack_.toFinset := by
    ext i
    simp only [Finset.mem_filter, Finset.mem_range, List.mem_toFinset]
    exact (hex i).symm
  have hBc : ((Finset.range c.nb_max_lines_).filter (fun i => c.refs_ i = 0)).card =
      c.holes_stack_.length := by
    rw [hB]; exact List.toFinset_card_of_nodup hnd
  have hA := Finset.filter_card_add_filter_neg_card_eq_card
    (s := Finset.range c.nb_max_lines_) (fun i => c.refs_ i = 0)
  rw [hBc, Finset.card_range] at hA
  -- the used lines, split at `nb_used_lines_`
  have hsplit := Finset.filter_card_add_filter_neg_card_eq_card
    (s := (Finset.range c.nb_max_lines_).filter (fun i => ¬ c.refs_ i = 0))
    (fun i => i < c.nb_used_lines_)
  have hhi : ((Finset.range c.nb_max_lines_).filter (fun i => ¬ c.refs_ i = 0)).filter
      (fun i => ¬ i < c.nb_used_lines_) =
      (Finset.range c.nb_max_lines_).filter
        (fun i => c.nb_used_lines_ ≤ i ∧ c.refs_ i ≠ 0) := by
    ext i
    simp only [Finset.mem_filter, Finset.mem_range]
    constructor
    · rintro ⟨⟨h1, h2⟩, h3⟩; exact ⟨h1, by omega, h2⟩
    · rintro ⟨h1, h2, h3⟩; exact ⟨⟨h1, h3⟩, by omega⟩
  have hlo : ((Finset.range c.nb_max_lines_).filter (fun i => ¬ c.refs_ i = 0)).filter
      (fun i => i < c.nb_used_lines_) =
      (Finset.range c.nb_used_lines_).filter (fun i => ¬ c.refs_ i = 0) := by
    ext i
    simp only [Finset.mem_filter, Finset.mem_range]
    constructor
    · rintro ⟨⟨h1, h2⟩, h3⟩; exact ⟨h3, h2⟩
    · rintro ⟨h1, h2⟩; exact ⟨⟨by omega, h2⟩, h1⟩
  rw [hhi, hlo] at hsplit
  -- the lines below `nb_used_lines_`
  have hU := Finset.filter_card_add_filter_neg_card_eq_card
    (s := Finset.range c.nb_used_lines_) (fun i => c.refs_ i = 0)
  rw [Finset.card_range] at hU
  have hlow : (Finset.range c.nb_used_lines_).filter (fun i => c.refs_ i = 0) =
      (c.holes_stack_.filter (fun d => decide (d < c.nb_used_lines_))).toFinset := by
    ext i
    simp only [Finset.mem_filter, Finset.mem_range, List.mem_toFinset, List.mem_filter,
      decide_eq_true_eq]
    rw [hex i]
    constructor
    · rintro ⟨h1, h2⟩; exact ⟨⟨by omega, h2⟩, h1⟩
    · rintro ⟨⟨_, h2⟩, h1⟩; exact ⟨h1, h2⟩
  have hlowc : ((Finset.range c.nb_used_lines_).filter (fun i => c.refs_ i = 0)).card =
      c.holes_stack_.countP (fun d => decide (d < c.nb_used_lines_)) := by
    rw [hlow, List.toFinset_card_of_nodup (hnd.filter _), List.countP_eq_length_filter]
  rw [hlowc] at hU
  omega
theorem ChunkArrayContainer.relocate_used (c : ChunkArrayContainer) (phi : Nat → Nat)
    (x : Nat) : (c.relocate phi).used x = true ↔ c.refs_ (phi x) ≠ 0 := by
  simp [ChunkArrayContainer.used, ChunkArrayContainer.relocate]

theorem ChunkArrayContainer.relocate_unused (c : ChunkArrayContainer) (phi : Nat → Nat)
    (x : Nat) : (c.relocate phi).used x = false ↔ c.refs_ (phi x) = 0 := by
  simp [ChunkArrayContainer.used, ChunkArrayContainer.relocate]

theorem ChunkArrayContainer.compact_holes_spec (c0 : ChunkArrayContainer)
    (h0 : c0.holes_exact) (fuel : Nat) (hfuel : c0.nb_max_lines_ < fuel) :
    ∀ rest phi up m, (∀ d ∈ rest, d ∈ c0.holes_stack_) → rest.Nodup →
      c0.compact_inv rest phi up m →
      ∃ phi1 up1 m1,
        ChunkArrayContainer.compact_holes 1 fuel rest (c0.relocate phi) up m =
          some (c0.relocate phi1, up1, m1) ∧
        c0.compact_inv [] phi1 up1 m1 ∧ m1.length = m.length := by
  have hM : UINT32_MAX = 4294967295 := rfl
  obtain ⟨hmax, hnd0, hex, hsum⟩ := h0
  have hmax' : c0.nb_max_lines_ < 4294967296 := hmax
  intro rest
  induction rest with
  | nil =>
    intro phi up m _ _ hinv
    exact ⟨phi, up, m, rfl, hinv, rfl⟩
  | cons d rest ih =>
    intro phi up m hsub hnd hinv
    have hdH : d ∈ c0.holes_stack_ := hsub d (List.mem_cons_self _ _)
    have hdrest : d ∉ rest := (List.nodup_cons.mp hnd).1
    have hndrest : rest.Nodup := (List.nodup_cons.mp hnd).2
    have hsubrest : ∀ x ∈ rest, x ∈ c0.holes_stack_ :=
      fun x hx => hsub x (List.mem_cons_of_mem _ hx)
    rw [ChunkArrayContainer.compact_holes]
    have hU : (c0.relocate phi).nb_used_lines_ = c0.nb_used_lines_ := rfl
    rw [hU]
    by_cases hd : d < c0.nb_used_lines_
    · rw [if_pos hd]
      -- a used line remains for the hole
      have hcount := hinv.count
      rw [List.countP_cons, if_pos (decide_eq_true hd)] at hcount
      have hpos : 0 < ((Finset.range c0.nb_max_lines_).filter
          (fun i => c0.nb_used_lines_ ≤ i ∧ ¬ compact_passed up i ∧ c0.refs_ i ≠ 0)).card := by
        omega
      obtain ⟨j, hj⟩ := Finset.card_pos.mp hpos
      simp only [Finset.mem_filter, Finset.mem_range] at hj
      obtain ⟨hjN, hjU, hjp, hjr⟩ := hj
      have hupne : up ≠ UINT32_MAX := fun h => hjp (Or.inl h)
      have hjup : j ≤ up := by
        by_contra hh; exact hjp (Or.inr (by omega))
      obtain ⟨hupN, hupr, hupm⟩ := hinv.cursor.resolve_left hupne
      have hnomove : ∀ x, c0.nb_used_lines_ ≤ x → phi x = x := by
        intro x hx
        by_contra hh
        have := (hinv.moved x hh).2.2.1
        omega
      have hphiup : phi up = up := hnomove up (by omega)
      rw [hphiup] at hupr
      have hrd : (d + (1 - 1 - 0)) % UINT32_RANGE = d := by
        have h1 : d < UINT32_RANGE := by show d < 4294967296; omega
        simpa using Nat.mod_eq_of_lt h1
      obtain ⟨up1, hr1, hr2, hr3⟩ :=
        (c0.relocate (Function.update phi d up)).rnext_spec fuel up (by omega) (by omega)
      have hmove : ChunkArrayContainer.compact_move 1 d fuel 1 0 (c0.relocate phi) up m =
          some (c0.relocate (Function.update phi d up), up1, m.set up d) := by
        simp only [ChunkArrayContainer.compact_move, hrd, if_pos hupm,
          ChunkArrayContainer.relocate_move_line, hphiup, hr1]
      rw [hmove]
      simp only
      have hphi1d : Function.update phi d up d = up := Function.update_same _ _ _
      have hphi1x : ∀ x, x ≠ d → Function.update phi d up x = phi x :=
        fun x hx => Function.update_noteq hx _ _
      have hm1up : (m.set up d)[up]? = some d := by
        rw [List.getElem?_set]; simp [hupm]
      have hm1x : ∀ i, i ≠ up → (m.set up d)[i]? = m[i]? := by
        intro i hi
        rw [List.getElem?_set]; simp [Ne.symm hi]
      have hpass1 : ∀ i, compact_passed up i → compact_passed up1 i := by
        intro i hi
        rcases hi with hi | hi
        · exact absurd hi hupne
        · rcases hr2 with hr2 | ⟨hr2, _⟩
          · exact Or.inl hr2
          · exact Or.inr (by omega)
      have hpassup : compact_passed up1 up := by
        rcases hr2 with hr2 | ⟨hr2, _⟩
        · exact Or.inl hr2
        · exact Or.inr hr2
      have hinv1 : c0.compact_inv rest (Function.update phi d up) up1 (m.set up d) := by
        refine ⟨?_, ?_, ?_, ?_, ?_, ?_⟩
        · intro x hx
          by_cases hxd : x = d
          · subst hxd
            rw [hphi1d]
            exact ⟨hdH, hdrest, hd, by omega, hupN, hupr, hpassup, hm1up⟩
          · rw [hphi1x x hxd] at hx ⊢
            obtain ⟨h1, h2, h3, h4, h5, h6, h7, h8⟩ := hinv.moved x hx
            have hlt : up < phi x := by
              rcases h7 with h7 | h7
              · exact absurd h7 hupne
              · exact h7
            refine ⟨h1, fun hin => h2 (List.mem_cons_of_mem _ hin), h3, h4, h5, h6,
              hpass1 _ h7, ?_⟩
            rw [hm1x _ (by omega)]; exact h8
        · intro i t hit htne
          by_cases hiup : i = up
          · subst hiup
            rw [hm1up] at hit
            have htd : d = t := Option.some.inj hit
            subst htd
            rw [hphi1d]
            exact ⟨rfl, by omega⟩
          · rw [hm1x i hiup] at hit
            obtain ⟨h1, h2⟩ := hinv.entry i t hit htne
            have htd : t ≠ d := by
              intro h
              exact (hinv.moved t h2).2.1 (h ▸ List.mem_cons_self _ _)
            rw [hphi1x t htd]
            exact ⟨h1, h2⟩
        · intro x hxH hxrest hxU
          by_cases hxd : x = d
          · subst hxd; rw [hphi1d]; omega
          · rw [hphi1x x hxd]
            refine hinv.filled x hxH ?_ hxU
            intro hin
            rcases List.mem_cons.mp hin with h | h
            · exact hxd h
            · exact hxrest h
        · intro i hiU hiN hir hip
          by_cases hpi : compact_passed up i
          · obtain ⟨t, ht1, ht2⟩ := hinv.passed i hiU hiN hir hpi
            have hlt : up < i := by
              rcases hpi with h | h
              · exact absurd h hupne
              · exact h
            exact ⟨t, by rw [hm1x i (by omega)]; exact ht1, ht2⟩
          · have hile : i ≤ up := by
              by_contra hh; exact hpi (Or.inr (by omega))
            by_cases hiup : i = up
            · subst hiup
              exact ⟨d, hm1up, by omega⟩
            · exfalso
              have h1 := hr3 i (by omega) hip
              rw [ChunkArrayContainer.relocate_unused, hphi1x i (by omega),
                hnomove i hiU] at h1
              exact hir h1
        · have hS : (Finset.range c0.nb_max_lines_).filter
              (fun i => c0.nb_used_lines_ ≤ i ∧ ¬ compact_passed up1 i ∧ c0.refs_ i ≠ 0) =
              ((Finset.range c0.nb_max_lines_).filter
                (fun i => c0.nb_used_lines_ ≤ i ∧ ¬ compact_passed up i ∧ c0.refs_ i ≠ 0)).erase
                up := by
            ext i
            simp only [Finset.mem_filter, Finset.mem_range, Finset.mem_erase]
            constructor
            · rintro ⟨h1, h2, h3, h4⟩
              have hiup : i ≠ up := fun h => h3 (h ▸ hpassup)
              exact ⟨hiup, h1, h2, fun hp => h3 (hpass1 i hp), h4⟩
            · rintro ⟨h0, h1, h2, h3, h4⟩
              refine ⟨h1, h2, ?_, h4⟩
              intro hp
              have hile : i ≤ up := by
                by_contra hh; exact h3 (Or.inr (by omega))
              have h5 := hr3 i (by omega) hp
              rw [ChunkArrayContainer.relocate_unused, hphi1x i (by omega),
                hnomove i h2] at h5
              exact h4 h5
          have hupS : up ∈ (Finset.range c0.nb_max_lines_).filter
              (fun i => c0.nb_used_lines_ ≤ i ∧ ¬ compact_passed up i ∧ c0.refs_ i ≠ 0) := by
            simp only [Finset.mem_filter, Finset.mem_range]
            refine ⟨hupN, by omega, ?_, hupr⟩
            rintro (h | h)
            · exact hupne h
            · omega
          rw [hS, Finset.card_erase_of_mem hupS]
          omega
        · rcases hr2 with hr2 | ⟨hr2, hr2'⟩
          · exact Or.inl hr2
          · right
            rw [ChunkArrayContainer.relocate_used] at hr2'
            refine ⟨by omega, hr2', ?_⟩
            rw [List.length_set]; omega
      obtain ⟨phi2, up2, m2, h1, h2, h3⟩ :=
        ih (Function.update phi d up) up1 (m.set up d) hsubrest hndrest hinv1
      exact ⟨phi2, up2, m2, h1, h2, by rw [h3, List.length_set]⟩
    · rw [if_neg hd]
      have hinv1 : c0.compact_inv rest phi up m := by
        refine ⟨?_, hinv.entry, ?_, hinv.passed, ?_, hinv.cursor⟩
        · intro x hx
          obtain ⟨h1, h2, h3⟩ := hinv.moved x hx
          exact ⟨h1, fun hin => h2 (List.mem_cons_of_mem _ hin), h3⟩
        · intro x hxH hxrest hxU
          refine hinv.filled x hxH ?_ hxU
          intro hin
          rcases List.mem_cons.mp hin with h | h
          · exact hd (h ▸ hxU)
          · exact hxrest h
        · have hcount := hinv.count
          rw [List.countP_cons, if_neg (by simpa using hd)] at hcount
          exact hcount
      exact ih phi up m hsubrest hndrest hinv1
theorem ChunkArrayContainer.compact_one_spec (c : ChunkArrayContainer) (fuel : Nat)
    (h0 : c.holes_exact) (hne : c.holes_stack_ ≠ []) (hfuel : c.nb_max_lines_ < fuel) :
    ∃ phi up m c1,
      c.compact 1 fuel = some (c1, m) ∧
      c1.refs_ = (fun x => c.refs_ (phi x)) ∧
      c1.table_arrays_ =
        c.table_arrays_.map (fun a => { a with data := fun x => a.data (phi x) }) ∧
      c1.table_marker_arrays_ = c.table_marker_arrays_.map (fun a => fun x => a (phi x)) ∧
      c1.holes_stack_ = [] ∧ c1.nb_used_lines_ = c.nb_used_lines_ ∧
      c1.nb_max_lines_ = c.nb_used_lines_ ∧ c1.CHUNKSIZE = c.CHUNKSIZE ∧
      c.compact_inv [] phi up m ∧
      m.length ≤ c.nb_max_lines_ ∧
      (∀ i, i < c.nb_max_lines_ → c.refs_ i ≠ 0 → i < m.length) ∧
      (∀ i, i < m.length → ∃ j, i ≤ j ∧ j < c.nb_max_lines_ ∧ c.refs_ j ≠ 0) := by
  have hM : UINT32_MAX = 4294967295 := rfl
  have hmax : c.nb_max_lines_ < UINT32_RANGE := h0.1
  have hmax' : c.nb_max_lines_ < 4294967296 := hmax
  obtain ⟨up0, hb1, hb2, hb3⟩ := c.rbegin_spec fuel hmax hfuel
  have hunused : ∀ j, j < c.nb_max_lines_ → compact_passed up0 j → c.refs_ j = 0 := by
    intro j hj hp
    have := hb3 j hj hp
    simpa [ChunkArrayContainer.used] using this
  have hlen : ∀ n, (List.replicate n UINT32_MAX).length = n := fun n => List.length_replicate _ _
  obtain ⟨L, hL⟩ : ∃ L, (up0 + 1) % UINT32_RANGE = L := ⟨_, rfl⟩
  have hLle : L ≤ c.nb_max_lines_ ∧ (up0 ≠ UINT32_MAX → L = up0 + 1) := by
    rcases hb2 with hb2 | ⟨hb2, _⟩
    · subst hb2
      have : L = 0 := by rw [← hL]; rfl
      exact ⟨by omega, fun h => absurd rfl h⟩
    · have h1 : up0 + 1 < UINT32_RANGE := by show up0 + 1 < 4294967296; omega
      rw [Nat.mod_eq_of_lt h1] at hL
      exact ⟨by omega, fun _ => hL.symm⟩
  have hinv0 : c.compact_inv c.holes_stack_ (fun x => x) up0 (List.replicate L UINT32_MAX) := by
    refine ⟨?_, ?_, ?_, ?_, ?_, ?_⟩
    · intro x hx; exact absurd rfl hx
    · intro i t hit htne
      rw [List.getElem?_replicate] at hit
      split at hit
      · exact absurd (Option.some.inj hit).symm htne
      · cases hit
    · intro x hx hx'; exact absurd hx hx'
    · intro i _ hiN hir hip
      exact absurd (hunused i hiN hip) hir
    · rw [c.holes_count h0]
      congr 1
      ext i
      simp only [Finset.mem_filter, Finset.mem_range]
      constructor
      · rintro ⟨h1, h2, h3⟩
        exact ⟨h1, h2, fun hp => h3 (hunused i h1 hp), h3⟩
      · rintro ⟨h1, h2, _, h3⟩
        exact ⟨h1, h2, h3⟩
    · rcases hb2 with hb2 | ⟨hb2, hb2'⟩
      · exact Or.inl hb2
      · right
        refine ⟨hb2, by simpa [ChunkArrayContainer.used] using hb2', ?_⟩
        rw [hlen, hLle.2 (by omega)]
        omega
  obtain ⟨phi, up, m, hh1, hh2, hh3⟩ :=
    c.compact_holes_spec h0 fuel hfuel c.holes_stack_ (fun x => x) up0
      (List.replicate L UINT32_MAX) (fun _ h => h) h0.2.1 hinv0
  rw [ChunkArrayContainer.relocate_id] at hh1
  rw [hlen] at hh3
  have hused : ∀ i, i < c.nb_max_lines_ → c.refs_ i ≠ 0 → i < m.length := by
    intro i hi hr
    rw [hh3]
    by_contra hlt
    apply hr
    apply hunused i hi
    by_cases hup : up0 = UINT32_MAX
    · exact Or.inl hup
    · right
      have := hLle.2 hup
      omega
  have hlast : ∀ i, i < m.length → ∃ j, i ≤ j ∧ j < c.nb_max_lines_ ∧ c.refs_ j ≠ 0 := by
    intro i hi
    rw [hh3] at hi
    by_cases hup : up0 = UINT32_MAX
    · have hz : L = 0 := by rw [← hL, hup]; rfl
      omega
    · have hLup := hLle.2 hup
      rcases hb2 with hb2 | ⟨hb2, hb2'⟩
      · exact absurd hb2 hup
      · exact ⟨up0, by omega, hb2, by simpa [ChunkArrayContainer.used] using hb2'⟩
  unfold ChunkArrayContainer.compact
  rw [if_neg hne, hb1]
  simp only [hL, hh1]
  split
  · exact ⟨phi, up, m, _, rfl, rfl, rfl, rfl, rfl, rfl, rfl, rfl, hh2,
      by rw [hh3]; exact hLle.1, hused, hlast⟩
  · exact ⟨phi, up, m, _, rfl, rfl, rfl, rfl, rfl, rfl, rfl, rfl, hh2,
      by rw [hh3]; exact hLle.1, hused, hlast⟩

theorem ChunkArrayContainer.compact_move_fields (PRIMSIZE down fuel : Nat) :
    ∀ n i (c : ChunkArrayContainer) up m r,
      ChunkArrayContainer.compact_move PRIMSIZE down fuel n i c up m = some r →
      r.1.nb_max_lines_ = c.nb_max_lines_ ∧ r.1.nb_used_lines_ = c.nb_used_lines_ ∧
      r.1.CHUNKSIZE = c.CHUNKSIZE ∧ r.1.refs_nb_chunks_ = c.refs_nb_chunks_ := by
  intro n
  induction n with
  | zero =>
    intro i c up m r h
    rw [ChunkArrayContainer.compact_move] at h
    cases h
    exact ⟨rfl, rfl, rfl, rfl⟩
  | succ n ih =>
    intro i c up m r h
    rw [ChunkArrayContainer.compact_move] at h
    simp only at h
    split at h
    · split at h
      · cases h
      · have h1 := ih _ _ _ _ _ h
        exact h1
    · cases h

theorem ChunkArrayContainer.compact_holes_fields (PRIMSIZE fuel : Nat) :
    ∀ rest (c : ChunkArrayContainer) up m r,
      ChunkArrayContainer.compact_holes PRIMSIZE fuel rest c up m = some r →
      r.1.nb_max_lines_ = c.nb_max_lines_ ∧ r.1.nb_used_lines_ = c.nb_used_lines_ ∧
      r.1.CHUNKSIZE = c.CHUNKSIZE ∧ r.1.refs_nb_chunks_ = c.refs_nb_chunks_ := by
  intro rest
  induction rest with
  | nil =>
    intro c up m r h
    rw [ChunkArrayContainer.compact_holes] at h
    cases h
    exact ⟨rfl, rfl, rfl, rfl⟩
  | cons d rest ih =>
    intro c up m r h
    rw [ChunkArrayContainer.compact_holes] at h
    split at h
    · split at h
      · cases h
      · rename_i c1 up1 m1 hm
        obtain ⟨h1, h2, h3, h4⟩ := ChunkArrayContainer.compact_move_fields _ _ _ _ _ _ _ _ _ hm
        obtain ⟨k1, k2, k3, k4⟩ := ih _ _ _ _ h
        exact ⟨k1.trans h1, k2.trans h2, k3.trans h3, k4.trans h4⟩
    · exact ih _ _ _ _ h
theorem example_container_compact_holes_exact : example_container_compact.holes_exact := by
  refine ⟨by decide, by decide, ?_, by decide⟩
  intro i
  simp only [example_container_compact, List.mem_singleton]
  constructor
  · rintro rfl; decide
  · rintro ⟨h1, h2⟩
    interval_cases i <;> simp_all

theorem example_container_tail_holes_exact : example_container_tail_holes.holes_exact := by
  refine ⟨by decide, by decide, ?_, by decide⟩
  intro i
  simp only [example_container_tail_holes, List.mem_cons, List.mem_singleton]
  constructor
  · rintro (rfl | rfl | rfl | h)
    · decide
    · decide
    · decide
    · cases h
  · rintro ⟨h1, h2⟩
    interval_cases i <;> simp_all

/-- Counterexample to C25 as stated: in the example container the line 0 is
used and is not moved by `compact<1>()`; its entry of the returned map is
`0xffffffff`, which is no line of the container, and the attribute values at
that index are not the values that the line 0 held. -/
theorem compact_unmoved_line_maps_to_max :
    example_container_compact.holes_exact ∧
    example_container_compact.holes_stack_ ≠ [] ∧
    example_container_compact.used 0 = true ∧
    ∃ c1 m, example_container_compact.compact 1 10 = some (c1, m) ∧
      m[0]? = some UINT32_MAX ∧ ¬ UINT32_MAX < c1.end_ ∧
      c1.table_arrays_.map (fun a => a.data UINT32_MAX) ≠
        example_container_compact.table_arrays_.map (fun a => a.data 0) :=
  ⟨example_container_compact_holes_exact, by decide, by decide, _, _, rfl, rfl,
    by decide, by decide⟩
/-- Amended C25: on a container that satisfies the allocator invariant and has
a hole, `compact<1>()` returns, with enough fuel, a container and a map `m`
such that every line `i` used before has an entry `m[i]`; when the entry is
not `0xffffffff` it is smaller than `size()` and the values of every
attribute array that were at `i` are at `m[i]`; when the entry is
`0xffffffff` the line was not moved: `i` is smaller than `size()` and the
values are still at `i`.  The type names of the arrays are unchanged. -/
theorem compact_keeps_values (c : ChunkArrayContainer) (fuel : Nat)
    (h0 : c.holes_exact) (hne : c.holes_stack_ ≠ []) (hfuel : c.nb_max_lines_ < fuel) :
    ∃ c1 m, c.compact 1 fuel = some (c1, m) ∧
      c1.table_arrays_.map (fun a => a.type_name) =
        c.table_arrays_.map (fun a => a.type_name) ∧
      ∀ i, i < c.nb_max_lines_ → c.used i = true →
        ∃ t, m[i]? = some t ∧
          (if t = UINT32_MAX then i else t) < c1.size ∧
          c1.table_arrays_.map (fun a => a.data (if t = UINT32_MAX then i else t)) =
            c.table_arrays_.map (fun a => a.data i) := by
  have hM : UINT32_MAX = 4294967295 := rfl
  obtain ⟨phi, up, m, c1, h1, _, h3, _, _, h6, _, _, hinv, _, hlen, _⟩ :=
    c.compact_one_spec fuel h0 hne hfuel
  refine ⟨c1, m, h1, ?_, ?_⟩
  · rw [h3, List.map_map]; rfl
  intro i hiN hiu
  have hir : c.refs_ i ≠ 0 := by simpa [ChunkArrayContainer.used] using hiu
  have hil : i < m.length := hlen i hiN hir
  refine ⟨m[i], List.getElem?_eq_getElem hil, ?_⟩
  have hmi : m[i]? = some m[i] := List.getElem?_eq_getElem hil
  have hphi : phi (if m[i] = UINT32_MAX then i else m[i]) = i := by
    by_cases ht : m[i] = UINT32_MAX
    · rw [if_pos ht]
      by_contra hh
      have hH := (hinv.moved i hh).1
      exact hir ((h0.2.2.1 i).mp hH).2
    · rw [if_neg ht]
      exact (hinv.entry i _ hmi ht).1
  constructor
  · show _ < c1.nb_used_lines_
    rw [h6]
    by_cases ht : m[i] = UINT32_MAX
    · rw [if_pos ht]
      by_contra hlt
      have hcount := hinv.count
      rw [List.countP_nil] at hcount
      have hemp := Finset.card_eq_zero.mp hcount.symm
      have hpass : compact_passed up i := by
        by_contra hp
        have hmem : i ∈ (Finset.range c.nb_max_lines_).filter
            (fun i => c.nb_used_lines_ ≤ i ∧ ¬ compact_passed up i ∧ c.refs_ i ≠ 0) := by
          simp only [Finset.mem_filter, Finset.mem_range]
          exact ⟨hiN, by omega, hp, hir⟩
        rw [hemp] at hmem
        exact absurd hmem (Finset.not_mem_empty _)
      obtain ⟨t, ht1, ht2⟩ := hinv.passed i (by omega) hiN hir hpass
      rw [hmi] at ht1
      exact ht2 ((Option.some.inj ht1).symm.trans ht)
    · rw [if_neg ht]
      obtain ⟨e1, e2⟩ := hinv.entry i _ hmi ht
      exact (hinv.moved _ e2).2.2.1
  · rw [h3, List.map_map]
    apply List.map_congr_left
    intro a _
    show a.data (phi _) = a.data i
    rw [hphi]

/-- Witness of the amended C25 on the example container: the line 4 moves to
the hole 1, the lines 0, 2 and 3 stay. -/
theorem compact_keeps_values_witness :
    example_container_compact.holes_exact ∧
    ∃ c1 m, example_container_compact.compact 1 10 = some (c1, m) ∧
      c1.table_arrays_.map (fun a => a.type_name) =
        example_container_compact.table_arrays_.map (fun a => a.type_name) ∧
      ∀ i, i < example_container_compact.nb_max_lines_ →
        example_container_compact.used i = true →
        ∃ t, m[i]? = some t ∧
          (if t = UINT32_MAX then i else t) < c1.size ∧
          c1.table_arrays_.map (fun a => a.data (if t = UINT32_MAX then i else t)) =
            example_container_compact.table_arrays_.map (fun a => a.data i) :=
  ⟨example_container_compact_holes_exact,
    compact_keeps_values example_container_compact 10
      example_container_compact_holes_exact (by decide) (by decide)⟩

theorem block_start_eq (P h b i j : Nat) (hh : P ∣ h) (hb : P ∣ b) (hi : i < P)
    (hj : j < P) (heq : h + i = b + j) : h = b := by
  obtain ⟨x, rfl⟩ := hh
  obtain ⟨y, rfl⟩ := hb
  have h1 : (P * x + i) / P = x := by
    rw [Nat.mul_add_div (by omega), Nat.div_eq_of_lt hi, Nat.add_zero]
  have h2 : (P * y + j) / P = y := by
    rw [Nat.mul_add_div (by omega), Nat.div_eq_of_lt hj, Nat.add_zero]
  rw [heq, h2] at h1
  rw [h1]

theorem block_below (P h N : Nat) (hh : P ∣ h) (hN : P ∣ N) (hlt : h < N) : h + P ≤ N := by
  obtain ⟨x, rfl⟩ := hh
  obtain ⟨y, rfl⟩ := hN
  have hP : 0 < P := by
    rcases Nat.eq_zero_or_pos P with h0 | h0
    · subst h0; simp at hlt
    · exact h0
  have hxy : x < y := lt_of_mul_lt_mul_left hlt (Nat.zero_le P)
  calc P * x + P = P * (x + 1) := by ring
    _ ≤ P * y := Nat.mul_le_mul_left P hxy

theorem ChunkArrayContainer.compact_move_returns (c0 : ChunkArrayContainer)
    (P down fuel L : Nat) (hmax : c0.nb_max_lines_ < UINT32_RANGE)
    (hfuel : c0.nb_max_lines_ < fuel) (hL : L ≤ c0.nb_max_lines_)
    (hdown : down + P ≤ c0.nb_used_lines_) :
    ∀ n i (c : ChunkArrayContainer) up m, i + n = P →
      (∀ j, c0.nb_used_lines_ ≤ j → c.refs_ j = c0.refs_ j) →
      c.nb_used_lines_ = c0.nb_used_lines_ → m.length = L →
      (up = UINT32_MAX ∨ (up < L ∧ c.refs_ up ≠ 0)) →
      n ≤ (c0.compact_ahead up).card →
      ∃ c1 up1 m1,
        ChunkArrayContainer.compact_move P down fuel n i c up m = some (c1, up1, m1) ∧
        (∀ j, c0.nb_used_lines_ ≤ j → c1.refs_ j = c0.refs_ j) ∧
        c1.nb_used_lines_ = c0.nb_used_lines_ ∧ m1.length = L ∧
        (up1 = UINT32_MAX ∨ (up1 < L ∧ c1.refs_ up1 ≠ 0)) ∧
        (c0.compact_ahead up1).card + n = (c0.compact_ahead up).card := by
  have hM : UINT32_MAX = 4294967295 := rfl
  have hmax' : c0.nb_max_lines_ < 4294967296 := hmax
  intro n
  induction n with
  | zero =>
    intro i c up m _ h1 h2 h3 h4 _
    exact ⟨c, up, m, by rw [ChunkArrayContainer.compact_move], h1, h2, h3, h4, rfl⟩
  | succ n ih =>
    intro i c up m hin h1 h2 h3 h4 h5
    have hpos : 0 < (c0.compact_ahead up).card := by omega
    obtain ⟨x, hx⟩ := Finset.card_pos.mp hpos
    simp only [ChunkArrayContainer.compact_ahead, Finset.mem_filter, Finset.mem_range,
      not_or] at hx
    obtain ⟨hxN, hxU, ⟨hx1, hx2⟩, hx3⟩ := hx
    have hupL : up < L ∧ c.refs_ up ≠ 0 := by
      rcases h4 with h4 | h4
      · exact absurd h4 hx1
      · exact h4
    have hupU : c0.nb_used_lines_ ≤ up := by omega
    have hupmem : up ∈ c0.compact_ahead up := by
      simp only [ChunkArrayContainer.compact_ahead, Finset.mem_filter, Finset.mem_range,
        not_or]
      refine ⟨by omega, hupU, ⟨hx1, lt_irrefl _⟩, ?_⟩
      rw [← h1 up hupU]
      exact hupL.2
    have hrd : (down + (P - 1 - i)) % UINT32_RANGE = down + (P - 1 - i) := by
      apply Nat.mod_eq_of_lt
      show down + (P - 1 - i) < 4294967296
      omega
    have hrdU : down + (P - 1 - i) < c0.nb_used_lines_ := by omega
    have hc1 : ∀ j, c0.nb_used_lines_ ≤ j →
        (c.move_line (down + (P - 1 - i)) up true true).refs_ j = c0.refs_ j := by
      intro j hj
      show Function.update c.refs_ (down + (P - 1 - i)) (c.refs_ up) j = c0.refs_ j
      rw [Function.update_noteq (by omega)]
      exact h1 j hj
    obtain ⟨up1, hr1, hr2, hr3⟩ :=
      (c.move_line (down + (P - 1 - i)) up true true).rnext_spec fuel up
        (by omega) (by omega)
    have hup1 : up1 = UINT32_MAX ∨
        (up1 < L ∧ (c.move_line (down + (P - 1 - i)) up true true).refs_ up1 ≠ 0) := by
      rcases hr2 with hr2 | ⟨hr2, hr2'⟩
      · exact Or.inl hr2
      · exact Or.inr ⟨by omega, by simpa [ChunkArrayContainer.used] using hr2'⟩
    have herase : c0.compact_ahead up1 = (c0.compact_ahead up).erase up := by
      ext y
      simp only [ChunkArrayContainer.compact_ahead, Finset.mem_filter, Finset.mem_range,
        not_or, Finset.mem_erase]
      constructor
      · rintro ⟨hy1, hy2, ⟨hy3, hy4⟩, hy5⟩
        have hlt : up1 < up := by
          rcases hr2 with hr2 | ⟨hr2, _⟩
          · exact absurd hr2 hy3
          · exact hr2
        exact ⟨by omega, hy1, hy2, ⟨hx1, by omega⟩, hy5⟩
      · rintro ⟨hy0, hy1, hy2, ⟨_, hy4⟩, hy5⟩
        refine ⟨hy1, hy2, ?_, hy5⟩
        have hylt : y < up := by omega
        have hused : (c.move_line (down + (P - 1 - i)) up true true).used y = true := by
          have := hc1 y hy2
          simp only [ChunkArrayContainer.used, this]
          simpa using hy5
        have hnp : ¬ compact_passed up1 y := by
          intro hp
          have := hr3 y hylt hp
          rw [hused] at this
          cases this
        exact not_or.mp hnp
    have hcard : (c0.compact_ahead up1).card + 1 = (c0.compact_ahead up).card := by
      rw [herase, Finset.card_erase_of_mem hupmem]
      omega
    have hlen1 : (m.set up (down + (P - 1 - i))).length = L := by
      rw [List.length_set]; exact h3
    obtain ⟨c2, up2, m2, k1, k2, k3, k4, k5, k6⟩ :=
      ih (i + 1) (c.move_line (down + (P - 1 - i)) up true true) up1
        (m.set up (down + (P - 1 - i))) (by omega) hc1 h2 hlen1 hup1 (by omega)
    refine ⟨c2, up2, m2, ?_, k2, k3, k4, k5, by omega⟩
    rw [ChunkArrayContainer.compact_move]
    simp only [hrd]
    rw [if_pos (by rw [h3]; exact hupL.1), hr1]
    exact k1

theorem ChunkArrayContainer.compact_holes_returns (c0 : ChunkArrayContainer)
    (P fuel L : Nat) (hmax : c0.nb_max_lines_ < UINT32_RANGE)
    (hfuel : c0.nb_max_lines_ < fuel) (hL : L ≤ c0.nb_max_lines_)
    (hU : P ∣ c0.nb_used_lines_) :
    ∀ rest (c : ChunkArrayContainer) up m, (∀ h ∈ rest, P ∣ h) →
      (∀ j, c0.nb_used_lines_ ≤ j → c.refs_ j = c0.refs_ j) →
      c.nb_used_lines_ = c0.nb_used_lines_ → m.length = L →
      (up = UINT32_MAX ∨ (up < L ∧ c.refs_ up ≠ 0)) →
      P * rest.countP (fun d => decide (d < c0.nb_used_lines_)) ≤
        (c0.compact_ahead up).card →
      ∃ r, ChunkArrayContainer.compact_holes P fuel rest c up m = some r := by
  intro rest
  induction rest with
  | nil =>
    intro c up m _ _ _ _ _ _
    exact ⟨_, by rw [ChunkArrayContainer.compact_holes]⟩
  | cons d rest ih =>
    intro c up m hdvd h1 h2 h3 h4 h5
    have hrest : ∀ h ∈ rest, P ∣ h := fun h hh => hdvd h (List.mem_cons_of_mem _ hh)
    rw [ChunkArrayContainer.compact_holes]
    by_cases hd : d < c0.nb_used_lines_
    · rw [if_pos (by rw [h2]; exact hd)]
      rw [List.countP_cons, if_pos (decide_eq_true hd)] at h5
      have hdown : d + P ≤ c0.nb_used_lines_ :=
        block_below P d _ (hdvd d (List.mem_cons_self _ _)) hU hd
      obtain ⟨c1, up1, m1, k1, k2, k3, k4, k5, k6⟩ :=
        c0.compact_move_returns P d fuel L hmax hfuel hL hdown P 0 c up m (by omega)
          h1 h2 h3 h4 (by rw [Nat.mul_add] at h5; omega)
      rw [k1]
      exact ih c1 up1 m1 hrest k2 k3 k4 k5 (by rw [Nat.mul_add] at h5; omega)
    · rw [if_neg (by rw [h2]; exact hd)]
      rw [List.countP_cons, if_neg (by simpa using hd)] at h5
      exact ih c up m hrest h1 h2 h3 h4 (by simpa using h5)

theorem blocks_card (P U : Nat) (refs : Nat → Nat) :
    ∀ l : List Nat, l.Nodup →
      (∀ h ∈ l, P ∣ h ∧ (h < U → h + P ≤ U) ∧ ∀ i, i < P → refs (h + i) = 0) →
      P * l.countP (fun d => decide (d < U)) ≤
        ((Finset.range U).filter
          (fun i => refs i = 0 ∧ ∃ h ∈ l, h ≤ i ∧ i < h + P)).card := by
  intro l
  induction l with
  | nil => intro _ _; simp
  | cons d l ih =>
    intro hnd hl
    have hnd' := List.nodup_cons.mp hnd
    have hl' : ∀ h ∈ l, P ∣ h ∧ (h < U → h + P ≤ U) ∧ ∀ i, i < P → refs (h + i) = 0 :=
      fun h hh => hl h (List.mem_cons_of_mem _ hh)
    have ih1 := ih hnd'.2 hl'
    obtain ⟨hd1, hd2, hd3⟩ := hl d (List.mem_cons_self _ _)
    have hsub : (Finset.range U).filter (fun i => refs i = 0 ∧ ∃ h ∈ l, h ≤ i ∧ i < h + P) ⊆
        (Finset.range U).filter
          (fun i => refs i = 0 ∧ ∃ h ∈ d :: l, h ≤ i ∧ i < h + P) := by
      intro y hy
      simp only [Finset.mem_filter, Finset.mem_range] at hy ⊢
      obtain ⟨hy1, hy2, h, hh, hy3⟩ := hy
      exact ⟨hy1, hy2, h, List.mem_cons_of_mem _ hh, hy3⟩
    by_cases hd : d < U
    · rw [List.countP_cons, if_pos (decide_eq_true hd)]
      have hdisj : Disjoint (Finset.Ico d (d + P))
          ((Finset.range U).filter (fun i => refs i = 0 ∧ ∃ h ∈ l, h ≤ i ∧ i < h + P)) := by
        rw [Finset.disjoint_left]
        intro y hy1 hy2
        simp only [Finset.mem_filter, Finset.mem_range, Finset.mem_Ico] at hy1 hy2
        obtain ⟨_, _, h, hh, hy3, hy4⟩ := hy2
        have heq : d = h :=
          block_start_eq P d h (y - d) (y - h) hd1 (hl' h hh).1 (by omega) (by omega)
            (by omega)
        exact hnd'.1 (heq ▸ hh)
      have hun : Finset.Ico d (d + P) ∪
          ((Finset.range U).filter (fun i => refs i = 0 ∧ ∃ h ∈ l, h ≤ i ∧ i < h + P)) ⊆
          (Finset.range U).filter
            (fun i => refs i = 0 ∧ ∃ h ∈ d :: l, h ≤ i ∧ i < h + P) := by
        apply Finset.union_subset _ hsub
        intro y hy
        simp only [Finset.mem_filter, Finset.mem_range, Finset.mem_Ico] at hy ⊢
        have hle := hd2 hd
        refine ⟨by omega, ?_, d, List.mem_cons_self _ _, hy.1, hy.2⟩
        have := hd3 (y - d) (by omega)
        rwa [Nat.add_sub_cancel' hy.1] at this
      have hc := Finset.card_le_card hun
      rw [Finset.card_union_of_disjoint hdisj, Nat.card_Ico] at hc
      rw [Nat.mul_add]
      omega
    · rw [List.countP_cons, if_neg (by simpa using hd)]
      exact le_trans (by simpa using ih1) (Finset.card_le_card hsub)

theorem ChunkArrayContainer.blocks_exact_tail (P : Nat) (c : ChunkArrayContainer)
    (h0 : c.blocks_exact P) :
    P ∣ c.nb_used_lines_ ∧ c.nb_used_lines_ ≤ c.nb_max_lines_ ∧
    P * c.holes_stack_.countP (fun d => decide (d < c.nb_used_lines_)) ≤
      ((Finset.range c.nb_max_lines_).filter
        (fun i => c.nb_used_lines_ ≤ i ∧ c.refs_ i ≠ 0)).card := by
  have hsum := h0.sum
  have hUN : c.nb_used_lines_ ≤ c.nb_max_lines_ := by omega
  have hU : P ∣ c.nb_used_lines_ := by
    have h1 : P ∣ c.nb_used_lines_ + P * c.holes_stack_.length := by
      rw [hsum]; exact h0.max_dvd
    exact (Nat.dvd_add_left (Dvd.intro _ rfl)).mp h1
  refine ⟨hU, hUN, ?_⟩
  have hcard := blocks_card P c.nb_used_lines_ c.refs_ c.holes_stack_ h0.nodup
    (fun h hh => ⟨(h0.holes h hh).1, fun hlt => block_below P h _ (h0.holes h hh).1 hU hlt,
      (h0.holes h hh).2.2⟩)
  -- the unused lines below `nb_used_lines_`
  have hz : ((Finset.range c.nb_used_lines_).filter
      (fun i => c.refs_ i = 0 ∧ ∃ h ∈ c.holes_stack_, h ≤ i ∧ i < h + P)).card ≤
      ((Finset.range c.nb_used_lines_).filter (fun i => c.refs_ i = 0)).card := by
    apply Finset.card_le_card
    intro y hy
    simp only [Finset.mem_filter, Finset.mem_range] at hy ⊢
    exact ⟨hy.1, hy.2.1⟩
  have hlow := Finset.filter_card_add_filter_neg_card_eq_card
    (s := Finset.range c.nb_used_lines_) (fun i => c.refs_ i = 0)
  rw [Finset.card_range] at hlow
  have hsplit : ((Finset.range c.nb_max_lines_).filter (fun i => c.refs_ i ≠ 0)).card =
      ((Finset.range c.nb_used_lines_).filter (fun i => ¬ c.refs_ i = 0)).card +
      ((Finset.range c.nb_max_lines_).filter
        (fun i => c.nb_used_lines_ ≤ i ∧ c.refs_ i ≠ 0)).card := by
    rw [← Finset.card_union_of_disjoint]
    · congr 1
      ext y
      simp only [Finset.mem_filter, Finset.mem_range, Finset.mem_union]
      constructor
      · rintro ⟨h1, h2⟩
        by_cases hy : y < c.nb_used_lines_
        · exact Or.inl ⟨hy, h2⟩
        · exact Or.inr ⟨h1, by omega, h2⟩
      · rintro (⟨h1, h2⟩ | ⟨h1, _, h2⟩)
        · exact ⟨by omega, h2⟩
        · exact ⟨h1, h2⟩
    · rw [Finset.disjoint_left]
      intro y hy1 hy2
      simp only [Finset.mem_filter, Finset.mem_range] at hy1 hy2
      omega
  have hcount := h0.count
  omega

theorem ChunkArrayContainer.compact_returns (P : Nat) (c : ChunkArrayContainer)
    (fuel : Nat) (h0 : c.blocks_exact P) (hfuel : c.nb_max_lines_ < fuel) :
    ∃ c1 m, c.compact P fuel = some (c1, m) := by
  have hM : UINT32_MAX = 4294967295 := rfl
  have hmax : c.nb_max_lines_ < UINT32_RANGE := h0.max_lt
  have hmax' : c.nb_max_lines_ < 4294967296 := hmax
  obtain ⟨hU, hUN, htail⟩ := c.blocks_exact_tail P h0
  unfold ChunkArrayContainer.compact
  by_cases hne : c.holes_stack_ = []
  · rw [if_pos hne]
    exact ⟨_, _, rfl⟩
  rw [if_neg hne]
  obtain ⟨up0, hb1, hb2, hb3⟩ := c.rbegin_spec fuel hmax hfuel
  obtain ⟨L, hLdef⟩ : ∃ L, (up0 + 1) % UINT32_RANGE = L := ⟨_, rfl⟩
  have hL : L ≤ c.nb_max_lines_ ∧ (up0 ≠ UINT32_MAX → L = up0 + 1) := by
    rcases hb2 with hb2 | ⟨hb2, _⟩
    · have : L = 0 := by rw [← hLdef, hb2]; rfl
      exact ⟨by omega, fun h => absurd hb2 h⟩
    · have h1 : up0 + 1 < UINT32_RANGE := by show up0 + 1 < 4294967296; omega
      rw [Nat.mod_eq_of_lt h1] at hLdef
      exact ⟨by omega, fun _ => hLdef.symm⟩
  have hcur : up0 = UINT32_MAX ∨ (up0 < L ∧ c.refs_ up0 ≠ 0) := by
    rcases hb2 with hb2 | ⟨hb2, hb2'⟩
    · exact Or.inl hb2
    · right
      have := hL.2 (by omega)
      exact ⟨by omega, by simpa [ChunkArrayContainer.used] using hb2'⟩
  have hahead : c.compact_ahead up0 = (Finset.range c.nb_max_lines_).filter
      (fun i => c.nb_used_lines_ ≤ i ∧ c.refs_ i ≠ 0) := by
    ext y
    simp only [ChunkArrayContainer.compact_ahead, Finset.mem_filter, Finset.mem_range]
    constructor
    · rintro ⟨h1, h2, _, h3⟩
      exact ⟨h1, h2, h3⟩
    · rintro ⟨h1, h2, h3⟩
      refine ⟨h1, h2, ?_, h3⟩
      intro hp
      have := hb3 y h1 hp
      simp only [ChunkArrayContainer.used] at this
      exact h3 (by simpa using this)
  obtain ⟨r, hr⟩ := c.compact_holes_returns P fuel L hmax hfuel hL.1 hU c.holes_stack_ c up0
    (List.replicate L UINT32_MAX) (fun h hh => (h0.holes h hh).1) (fun _ _ => rfl) rfl
    (List.length_replicate _ _) hcur (by rw [hahead]; exact htail)
  rw [hb1]
  simp only [hLdef, hr]
  split
  · exact ⟨_, _, rfl⟩
  · exact ⟨_, _, rfl⟩

theorem ChunkArrayContainer.holes_exact_blocks_exact (c : ChunkArrayContainer)
    (h : c.holes_exact) : c.blocks_exact 1 := by
  obtain ⟨hmax, hnd, hex, hsum⟩ := h
  refine ⟨hmax, one_dvd _, hnd, ?_, ?_, by omega, ?_⟩
  · intro x hx
    have := (hex x).mp hx
    refine ⟨one_dvd _, this.1, ?_⟩
    intro i hi
    have hi0 : i = 0 := by omega
    rw [hi0]
    exact this.2
  · intro b _ hb hbh i hi hz
    have hi0 : i = 0 := by omega
    rw [hi0] at hz
    exact hbh ((hex b).mpr ⟨hb, hz⟩)
  · have hz : (Finset.range c.nb_max_lines_).filter (fun i => c.refs_ i = 0) =
        c.holes_stack_.toFinset := by
      ext y
      simp only [Finset.mem_filter, Finset.mem_range, List.mem_toFinset]
      exact (hex y).symm
    have hsplit := Finset.filter_card_add_filter_neg_card_eq_card
      (s := Finset.range c.nb_max_lines_) (fun i => c.refs_ i = 0)
    rw [hz, List.toFinset_card_of_nodup hnd, Finset.card_range] at hsplit
    show ((Finset.range c.nb_max_lines_).filter (fun i => ¬ c.refs_ i = 0)).card = _
    omega

theorem ChunkArrayContainer.block_inv_blocks_exact (CHUNKSIZE PRIMSIZE : Nat)
    (c : ChunkArrayContainer) (h : c.block_inv CHUNKSIZE PRIMSIZE) :
    c.blocks_exact PRIMSIZE :=
  ⟨h.max_lt, h.max_dvd, h.nodup, h.holes, h.blocks, h.sum, h.count⟩

theorem example_container_blocks_exact : example_container_blocks.blocks_exact 2 := by
  refine ⟨by decide, by decide, by decide, ?_, ?_, by decide, by decide⟩
  · intro h hh
    simp only [example_container_blocks, List.mem_singleton] at hh
    subst hh
    refine ⟨by decide, by decide, ?_⟩
    intro i hi
    interval_cases i <;> decide
  · intro b hb hlt hn i hi
    have hlt' : b < 4 := hlt
    have hn' : b ≠ 0 := by
      intro h0
      apply hn
      rw [h0]
      exact List.mem_singleton.mpr rfl
    interval_cases b
    · exact absurd rfl hn'
    · omega
    · interval_cases i <;> decide
    · omega

theorem ChunkArrayContainer.compact_chunks (PRIMSIZE : Nat) (c : ChunkArrayContainer)
    (fuel : Nat) (hmax : c.nb_max_lines_ < UINT32_RANGE)
    (hle : c.nb_used_lines_ ≤ c.nb_max_lines_) (hne : c.holes_stack_ ≠ [])
    (hC : 1 < c.CHUNKSIZE) (c1 : ChunkArrayContainer) (m : List Nat)
    (h : c.compact PRIMSIZE fuel = some (c1, m)) :
    c1.CHUNKSIZE = c.CHUNKSIZE ∧ c1.size = c.size ∧
    c1.refs_nb_chunks_ =
      (if c.nb_max_lines_ / c.CHUNKSIZE = c1.size / c1.CHUNKSIZE then c.refs_nb_chunks_
       else c1.size / c1.CHUNKSIZE + 1) ∧
    (c.refs_nb_chunks_ = c.nb_max_lines_ / c.CHUNKSIZE + 1 →
      c1.refs_nb_chunks_ = c1.size / c1.CHUNKSIZE + 1) := by
  have hdiv : ∀ n, n ≤ c.nb_max_lines_ →
      (n / c.CHUNKSIZE + 1) % UINT32_RANGE = n / c.CHUNKSIZE + 1 := by
    intro n hn
    apply Nat.mod_eq_of_lt
    have h1 : n / c.CHUNKSIZE ≤ n := Nat.div_le_self _ _
    have h2 : n = 0 ∨ n / c.CHUNKSIZE < n := by
      rcases Nat.eq_zero_or_pos n with h | h
      · exact Or.inl h
      · exact Or.inr (Nat.div_lt_self h hC)
    have hmax' : c.nb_max_lines_ < 4294967296 := hmax
    show n / c.CHUNKSIZE + 1 < 4294967296
    omega
  unfold ChunkArrayContainer.compact at h
  rw [if_neg hne] at h
  split at h
  · cases h
  · rename_i up hup
    simp only at h
    split at h
    · cases h
    · rename_i c2 up2 m2 hc2
      obtain ⟨f1, f2, f3, f4⟩ :=
        ChunkArrayContainer.compact_holes_fields _ _ _ _ _ _ _ hc2
      simp only at f1 f2 f3 f4
      split at h
      · rename_i heq
        cases h
        simp only [f1, f2, f3, hdiv _ (le_refl _), hdiv _ hle] at heq
        have hq : c.nb_max_lines_ / c.CHUNKSIZE = c.nb_used_lines_ / c.CHUNKSIZE := by omega
        refine ⟨f3, f2, ?_, ?_⟩
        · show c2.refs_nb_chunks_ = if _ = c2.nb_used_lines_ / c2.CHUNKSIZE then _ else _
          rw [f2, f3, if_pos hq, f4]
        · intro hch
          show c2.refs_nb_chunks_ = c2.nb_used_lines_ / c2.CHUNKSIZE + 1
          rw [f2, f3, f4, hch, hq]
      · rename_i hneq
        cases h
        simp only [f1, f2, f3, hdiv _ (le_refl _), hdiv _ hle] at hneq
        have hq : ¬ c.nb_max_lines_ / c.CHUNKSIZE = c.nb_used_lines_ / c.CHUNKSIZE := by omega
        refine ⟨f3, f2, ?_, ?_⟩
        · show (c2.nb_used_lines_ / c2.CHUNKSIZE + 1) % UINT32_RANGE =
            if _ = c2.nb_used_lines_ / c2.CHUNKSIZE then _ else _
          rw [f2, f3, if_neg hq, hdiv _ hle]
          rfl
        · intro _
          show (c2.nb_used_lines_ / c2.CHUNKSIZE + 1) % UINT32_RANGE =
            c2.nb_used_lines_ / c2.CHUNKSIZE + 1
          rw [f2, f3, hdiv _ hle]

/-- Counterexample to C26 as stated: in the example container with
`CHUNKSIZE = 2`, whose lines 2, 3 and 4 are holes, `compact<1>()` leaves 2
lines and gives the arrays 2 chunks, while one chunk covers 2 lines. -/
theorem compact_keeps_extra_chunk :
    example_container_tail_holes.holes_exact ∧
    example_container_tail_holes.holes_stack_ ≠ [] ∧
    example_container_tail_holes.refs_nb_chunks_ = 3 ∧
    ∃ c1 m, example_container_tail_holes.compact 1 10 = some (c1, m) ∧
      c1.size = 2 ∧ c1.CHUNKSIZE = 2 ∧ c1.refs_nb_chunks_ = 2 ∧
      (c1.size + c1.CHUNKSIZE - 1) / c1.CHUNKSIZE = 1 :=
  ⟨example_container_tail_holes_exact, by decide, rfl, _, _, rfl, rfl, rfl, rfl, rfl⟩

/-- Amended C26: on a container that satisfies the allocator invariant for
blocks of `PRIMSIZE` lines, with at least one hole and `1 < CHUNKSIZE`,
`compact<PRIMSIZE>()` returns with enough fuel; it leaves `size()` unchanged,
it leaves the number of chunks of the arrays unchanged if
`size() / CHUNKSIZE` equals the quotient of the former `end()` by
`CHUNKSIZE`, and sets it to `size() / CHUNKSIZE + 1` otherwise; so the arrays
have `size() / CHUNKSIZE + 1` chunks whenever they had
`end() / CHUNKSIZE + 1` chunks before. -/
theorem compact_sets_chunks (PRIMSIZE : Nat) (c : ChunkArrayContainer) (fuel : Nat)
    (h0 : c.blocks_exact PRIMSIZE) (hne : c.holes_stack_ ≠ [])
    (hfuel : c.nb_max_lines_ < fuel) (hC : 1 < c.CHUNKSIZE) :
    ∃ c1 m, c.compact PRIMSIZE fuel = some (c1, m) ∧
      c1.CHUNKSIZE = c.CHUNKSIZE ∧ c1.size = c.size ∧
      c1.refs_nb_chunks_ =
        (if c.nb_max_lines_ / c.CHUNKSIZE = c1.size / c1.CHUNKSIZE then c.refs_nb_chunks_
         else c1.size / c1.CHUNKSIZE + 1) ∧
      (c.refs_nb_chunks_ = c.nb_max_lines_ / c.CHUNKSIZE + 1 →
        c1.refs_nb_chunks_ = c1.size / c1.CHUNKSIZE + 1) := by
  obtain ⟨c1, m, h⟩ := c.compact_returns PRIMSIZE fuel h0 hfuel
  have hle : c.nb_used_lines_ ≤ c.nb_max_lines_ := by
    have := h0.sum; omega
  exact ⟨c1, m, h, c.compact_chunks PRIMSIZE fuel h0.max_lt hle hne hC c1 m h⟩

/-- Witness of the amended C26, with blocks of 2 lines on the example
container whose first block is a hole, and with single lines on the example
container whose last lines are holes. -/
theorem compact_sets_chunks_witness :
    (example_container_blocks.blocks_exact 2 ∧
     example_container_blocks.holes_stack_ ≠ [] ∧
     ∃ c1 m, example_container_blocks.compact 2 10 = some (c1, m) ∧
      c1.CHUNKSIZE = example_container_blocks.CHUNKSIZE ∧
      c1.size = example_container_blocks.size ∧
      c1.refs_nb_chunks_ =
        (if example_container_blocks.nb_max_lines_ / example_container_blocks.CHUNKSIZE =
            c1.size / c1.CHUNKSIZE
         then example_container_blocks.refs_nb_chunks_
         else c1.size / c1.CHUNKSIZE + 1) ∧
      (example_container_blocks.refs_nb_chunks_ =
          example_container_blocks.nb_max_lines_ / example_container_blocks.CHUNKSIZE + 1 →
        c1.refs_nb_chunks_ = c1.size / c1.CHUNKSIZE + 1)) ∧
    (example_container_tail_holes.blocks_exact 1 ∧
     ∃ c1 m, example_container_tail_holes.compact 1 10 = some (c1, m) ∧
      c1.CHUNKSIZE = example_container_tail_holes.CHUNKSIZE ∧
      c1.size = example_container_tail_holes.size ∧
      c1.refs_nb_chunks_ =
        (if example_container_tail_holes.nb_max_lines_ /
            example_container_tail_holes.CHUNKSIZE = c1.size / c1.CHUNKSIZE
         then example_container_tail_holes.refs_nb_chunks_
         else c1.size / c1.CHUNKSIZE + 1) ∧
      (example_container_tail_holes.refs_nb_chunks_ =
          example_container_tail_holes.nb_max_lines_ /
            example_container_tail_holes.CHUNKSIZE + 1 →
        c1.refs_nb_chunks_ = c1.size / c1.CHUNKSIZE + 1)) :=
  ⟨⟨example_container_blocks_exact, by decide,
    compact_sets_chunks 2 example_container_blocks 10 example_container_blocks_exact
      (by decide) (by decide) (by decide)⟩,
   ⟨example_container_tail_holes.holes_exact_blocks_exact example_container_tail_holes_exact,
    compact_sets_chunks 1 example_container_tail_holes 10
      (example_container_tail_holes.holes_exact_blocks_exact
        example_container_tail_holes_exact) (by decide) (by decide) (by decide)⟩⟩

/-- Counterexample to C27 as stated: in the example container whose lines 2, 3
and 4 are holes, the map returned by `compact<1>()` has two entries, one per
index up to the last used line; the index 4 was a hole and has no entry. -/
theorem compact_map_omits_tail_holes :
    example_container_tail_holes.holes_exact ∧
    4 ∈ example_container_tail_holes.holes_stack_ ∧
    ∃ c1 m, example_container_tail_holes.compact 1 10 = some (c1, m) ∧
      m = [UINT32_MAX, UINT32_MAX] ∧ m[4]? = none :=
  ⟨example_container_tail_holes_exact, by decide, _, _, rfl, rfl, rfl⟩

/-- Amended C27: on a container that satisfies the allocator invariant,
`compact<1>()` returns with enough fuel; afterwards the holes stack is empty,
`end()` equals `size()`, `size()` is unchanged, every index `x` in
`[0, size())` is used and has the reference count of a line `o` of the former
container that now occupies it (`m[o] = x`, or `o = x` and the entry of `x`,
if any, is `0xffffffff`); every index that was a hole and has an entry maps
to `0xffffffff`, and the entries different from `0xffffffff` are pairwise
distinct and smaller than `size()`.  The returned map is empty when there was
no hole; otherwise it has one entry per index up to the last used line of
the former container: an index `i` has an entry exactly when some line at or
above `i` was used.  So a hole below a used line has the entry `0xffffffff`
and a hole above the last used line has no entry. -/
theorem compact_removes_holes (c : ChunkArrayContainer) (fuel : Nat)
    (h0 : c.holes_exact) (hfuel : c.nb_max_lines_ < fuel) :
    ∃ c1 m, c.compact 1 fuel = some (c1, m) ∧
      c1.holes_stack_ = [] ∧ c1.end_ = c1.size ∧ c1.size = c.size ∧
      (∀ x, x < c1.size → c1.used x = true ∧
        ∃ o, o < c.nb_max_lines_ ∧ c1.refs_ x = c.refs_ o ∧
          (m[o]? = some x ∨ (o = x ∧ ∀ t, m[x]? = some t → t = UINT32_MAX))) ∧
      m.length ≤ c.nb_max_lines_ ∧
      (∀ h, h ∈ c.holes_stack_ → h < m.length → m[h]? = some UINT32_MAX) ∧
      (∀ i j : Nat, ∀ t, m[i]? = some t → m[j]? = some t → t ≠ UINT32_MAX → i = j) ∧
      (∀ i : Nat, ∀ t, m[i]? = some t → t ≠ UINT32_MAX → t < c1.size) ∧
      (c.holes_stack_ = [] → m = []) ∧
      (c.holes_stack_ ≠ [] →
        ∀ i : Nat, i < m.length ↔ ∃ j, i ≤ j ∧ j < c.end_ ∧ c.used j = true) ∧
      (∀ h, h ∈ c.holes_stack_ →
        ((∃ j, h ≤ j ∧ j < c.end_ ∧ c.used j = true) → m[h]? = some UINT32_MAX) ∧
        ((∀ j, h ≤ j → j < c.end_ → c.used j = false) → m[h]? = none)) := by
  have hex := h0.2.2.1
  have hsum := h0.2.2.2
  by_cases hne : c.holes_stack_ = []
  · refine ⟨c, [], ?_, hne, ?_, rfl, ?_, ?_, ?_, ?_, ?_, ?_, ?_, ?_⟩
    · unfold ChunkArrayContainer.compact
      rw [if_pos hne]
    · rw [hne] at hsum
      show c.nb_max_lines_ = c.nb_used_lines_
      simpa using hsum.symm
    · intro x hx
      have hx' : x < c.nb_used_lines_ := hx
      have hxN : x < c.nb_max_lines_ := by
        rw [hne] at hsum
        have : c.nb_used_lines_ = c.nb_max_lines_ := by simpa using hsum
        omega
      have hr : c.refs_ x ≠ 0 := by
        intro h
        have := (hex x).mpr ⟨hxN, h⟩
        rw [hne] at this
        cases this
      refine ⟨by simpa [ChunkArrayContainer.used] using hr, x, hxN, rfl, Or.inr ⟨rfl, ?_⟩⟩
      intro t ht
      simp at ht
    · simp
    · intro h hh; rw [hne] at hh; cases hh
    · intro i j t hi; simp at hi
    · intro i t hi; simp at hi
    · intro _; rfl
    · intro h; exact absurd hne h
    · intro h hh; rw [hne] at hh; cases hh
  · obtain ⟨phi, up, m, c1, h1, h2, _, _, h5, h6, h7, _, hinv, hlen, hused, hlast⟩ :=
      c.compact_one_spec fuel h0 hne hfuel
    have hiff : ∀ i : Nat, i < m.length ↔ ∃ j, i ≤ j ∧ j < c.end_ ∧ c.used j = true := by
      intro i
      constructor
      · intro hi
        obtain ⟨j, hj1, hj2, hj3⟩ := hlast i hi
        exact ⟨j, hj1, hj2, by simpa [ChunkArrayContainer.used] using hj3⟩
      · rintro ⟨j, hj1, hj2, hj3⟩
        have hj2' : j < c.nb_max_lines_ := hj2
        have := hused j hj2' (by simpa [ChunkArrayContainer.used] using hj3)
        omega
    have hhole : ∀ h, h ∈ c.holes_stack_ → h < m.length → m[h]? = some UINT32_MAX := by
      intro h hh hhl
      have hmh : m[h]? = some m[h] := List.getElem?_eq_getElem hhl
      rw [hmh]
      congr 1
      by_contra htne
      obtain ⟨e1, e2⟩ := hinv.entry h _ hmh htne
      have m6 := (hinv.moved _ e2).2.2.2.2.2.1
      rw [e1] at m6
      exact m6 ((hex h).mp hh).2
    refine ⟨c1, m, h1, h5, ?_, h6, ?_, hlen, hhole, ?_, ?_, ?_, fun _ => hiff, ?_⟩
    · show c1.nb_max_lines_ = c1.nb_used_lines_
      rw [h6, h7]
    · intro x hx
      have hx' : x < c.nb_used_lines_ := by
        have : x < c1.nb_used_lines_ := hx
        rw [h6] at this; exact this
      by_cases hp : phi x = x
      · have hr : c.refs_ x ≠ 0 := by
          intro h
          have hH := (hex x).mpr ⟨by omega, h⟩
          exact hinv.filled x hH (List.not_mem_nil _) hx' hp
        refine ⟨?_, x, by omega, ?_, Or.inr ⟨rfl, ?_⟩⟩
        · simp only [ChunkArrayContainer.used, h2, hp]
          simpa using hr
        · rw [h2]; show c.refs_ (phi x) = _; rw [hp]
        · intro t ht
          by_contra htne
          obtain ⟨e1, e2⟩ := hinv.entry x t ht htne
          have := (hinv.moved t e2).2.2.2.1
          omega
      · obtain ⟨_, _, _, _, m5, m6, _, m8⟩ := hinv.moved x hp
        refine ⟨?_, phi x, m5, ?_, Or.inl m8⟩
        · simp only [ChunkArrayContainer.used, h2]
          simpa using m6
        · rw [h2]
    · intro i j t hi hj htne
      exact (hinv.entry i t hi htne).1.symm.trans (hinv.entry j t hj htne).1
    · intro i t hi htne
      show t < c1.nb_used_lines_
      rw [h6]
      exact (hinv.moved t (hinv.entry i t hi htne).2).2.2.1
    · intro h; exact absurd h hne
    · intro h hh
      constructor
      · intro hj
        exact hhole h hh ((hiff h).mpr hj)
      · intro hj
        apply List.getElem?_eq_none
        by_contra hlt
        obtain ⟨j, hj1, hj2, hj3⟩ := (hiff h).mp (by omega)
        rw [hj j hj1 hj2] at hj3
        cases hj3

/-- Witness of the amended C27 on the example container whose lines 2, 3 and
4 are holes above the last used line 1: no line moves and the returned map
has the two entries of the lines 0 and 1. -/
theorem compact_removes_holes_witness :
    example_container_tail_holes.holes_exact ∧
    example_container_tail_holes.nb_max_lines_ < 10 ∧
    ∃ c1 m, example_container_tail_holes.compact 1 10 = some (c1, m) ∧
      c1.holes_stack_ = [] ∧ c1.end_ = c1.size ∧ c1.size = example_container_tail_holes.size ∧
      (∀ x, x < c1.size → c1.used x = true ∧
        ∃ o, o < example_container_tail_holes.nb_max_lines_ ∧ c1.refs_ x = example_container_tail_holes.refs_ o ∧
          (m[o]? = some x ∨ (o = x ∧ ∀ t, m[x]? = some t → t = UINT32_MAX))) ∧
      m.length ≤ example_container_tail_holes.nb_max_lines_ ∧
      (∀ h, h ∈ example_container_tail_holes.holes_stack_ → h < m.length → m[h]? = some UINT32_MAX) ∧
      (∀ i j : Nat, ∀ t, m[i]? = some t → m[j]? = some t → t ≠ UINT32_MAX → i = j) ∧
      (∀ i : Nat, ∀ t, m[i]? = some t → t ≠ UINT32_MAX → t < c1.size) ∧
      (example_container_tail_holes.holes_stack_ = [] → m = []) ∧
      (example_container_tail_holes.holes_stack_ ≠ [] →
        ∀ i : Nat, i < m.length ↔ ∃ j, i ≤ j ∧ j < example_container_tail_holes.end_ ∧ example_container_tail_holes.used j = true) ∧
      (∀ h, h ∈ example_container_tail_holes.holes_stack_ →
        ((∃ j, h ≤ j ∧ j < example_container_tail_holes.end_ ∧ example_container_tail_holes.used j = true) → m[h]? = some UINT32_MAX) ∧
        ((∀ j, h ≤ j → j < example_container_tail_holes.end_ → example_container_tail_holes.used j = false) → m[h]? = none)) :=
  ⟨example_container_tail_holes_exact, by decide,
    compact_removes_holes example_container_tail_holes 10
      example_container_tail_holes_exact (by decide)⟩

theorem read_uint32_bytes (x : Nat) (fs : List Nat) (hx : x < UINT32_RANGE) :
    read_uint32 (uint32_bytes x ++ fs) = some (x, fs) := by
  have hx' : x < 4294967296 := hx
  simp only [uint32_bytes, List.cons_append, List.nil_append, read_uint32]
  congr 2
  omega

theorem read_uint32s_pairs {α : Type} (f g : α → Nat) (ps : List α)
    (h : ∀ p ∈ ps, f p < UINT32_RANGE ∧ g p < UINT32_RANGE) (fs : List Nat) :
    read_uint32s (2 * ps.length)
        (ps.flatMap (fun p => uint32_bytes (f p) ++ uint32_bytes (g p)) ++ fs) =
      some (ps.flatMap (fun p => [f p, g p]), fs) := by
  induction ps with
  | nil => rfl
  | cons p ps ih =>
    have h2 : 2 * (p :: ps).length = 2 * ps.length + 1 + 1 := by
      simp only [List.length_cons]; omega
    obtain ⟨hf, hg⟩ := h p (List.mem_cons_self _ _)
    rw [h2, List.flatMap_cons, List.append_assoc, List.append_assoc, read_uint32s,
      read_uint32_bytes _ _ hf]
    simp only
    rw [read_uint32s, read_uint32_bytes _ _ hg]
    simp only
    rw [ih (fun q hq => h q (List.mem_cons_of_mem _ hq))]
    rfl

theorem read_uint32s_header (a b c : Nat) (fs : List Nat) (ha : a < UINT32_RANGE)
    (hb : b < UINT32_RANGE) (hc : c < UINT32_RANGE) :
    read_uint32s 3 (uint32_bytes a ++ (uint32_bytes b ++ (uint32_bytes c ++ fs))) =
      some ([a, b, c], fs) := by
  simp only [read_uint32s, read_uint32_bytes _ _ ha, read_uint32_bytes _ _ hb,
    read_uint32_bytes _ _ hc]

theorem zipWith_map_type_name (N : Nat) :
    ∀ (ts : List String) (arrs : List ChunkArrayGen), ts.length = arrs.length →
      (List.zipWith
        (fun t (a : ChunkArrayGen) =>
          ({ type_name := t, data := fun i => ((List.range N).map a.data).getD i 0 } :
            ChunkArrayGen)) ts arrs).map (fun a => a.type_name) = ts := by
  intro ts
  induction ts with
  | nil => intro arrs _; rfl
  | cons t ts ih =>
    intro arrs h
    cases arrs with
    | nil => simp at h
    | cons a arrs =>
      simp only [List.zipWith_cons_cons, List.map_cons]
      rw [ih arrs (by simpa using h)]

theorem zipWith_map_data (N i : Nat) (hi : i < N) :
    ∀ (ts : List String) (arrs : List ChunkArrayGen), ts.length = arrs.length →
      (List.zipWith
        (fun t (a : ChunkArrayGen) =>
          ({ type_name := t, data := fun i => ((List.range N).map a.data).getD i 0 } :
            ChunkArrayGen)) ts arrs).map (fun a => a.data i) =
        arrs.map (fun a => a.data i) := by
  intro ts
  induction ts with
  | nil =>
    intro arrs h
    have : arrs = [] := List.length_eq_zero.mp h.symm
    subst this; rfl
  | cons t ts ih =>
    intro arrs h
    cases arrs with
    | nil => simp at h
    | cons a arrs =>
      simp only [List.zipWith_cons_cons, List.map_cons]
      rw [ih arrs (by simpa using h)]
      congr 1
      simp [List.getD, hi]

theorem takeWhile_c_str (l : List Nat) (h : ∀ x ∈ l, x ≠ 0) :
    (l ++ [0]).takeWhile (fun x => x != 0) = l := by
  induction l with
  | nil => rfl
  | cons a l ih =>
    have ha : a ≠ 0 := h a (List.mem_cons_self _ _)
    have : (a != 0) = true := by simpa using ha
    rw [List.cons_append, List.takeWhile_cons, this]
    simp only [if_true]
    rw [ih (fun x hx => h x (List.mem_cons_of_mem _ hx))]

theorem read_string_c_str (s : String) (fs : List Nat) (h1 : s.length < 256)
    (h2 : ∀ ch ∈ s.data, ch.toNat ≠ 0) :
    read_string (s.length + 1) (c_str s ++ fs) = some (s, fs) := by
  have hlen : (c_str s).length = s.length + 1 := by
    unfold c_str
    rw [List.length_append, List.length_map]
    rfl
  have htake : (c_str s ++ fs).take (s.length + 1) = c_str s := by
    rw [← hlen]; exact List.take_left' rfl
  have hdrop : (c_str s ++ fs).drop (s.length + 1) = fs := by
    rw [← hlen]; exact List.drop_left' rfl
  have hmem : 0 ∈ c_str s := by simp [c_str]
  have hcond : s.length + 1 ≤ 256 ∧ s.length + 1 ≤ (c_str s ++ fs).length ∧
      0 ∈ (c_str s ++ fs).take (s.length + 1) := by
    refine ⟨by omega, ?_, ?_⟩
    · rw [List.length_append, hlen]; omega
    · rw [htake]; exact hmem
  unfold read_string
  rw [if_pos hcond, htake, hdrop]
  have htw : (c_str s).takeWhile (fun x => x != 0) = s.data.map Char.toNat := by
    unfold c_str
    apply takeWhile_c_str
    intro x hx
    obtain ⟨ch, hch, rfl⟩ := List.mem_map.mp hx
    exact h2 ch hch
  rw [htw, List.map_map]
  have hid : (Char.ofNat ∘ Char.toNat) = id := by
    funext ch
    exact Char.ofNat_toNat ch
  rw [hid, List.map_id]

theorem ChunkArrayContainer.load_names_spec (ps : List (String × String))
    (h : ∀ p ∈ ps, (p.1.length < 256 ∧ ∀ ch ∈ p.1.data, ch.toNat ≠ 0) ∧
      (p.2.length < 256 ∧ ∀ ch ∈ p.2.data, ch.toNat ≠ 0)) :
    ∀ (i : Nat) (pre fs : List Nat), pre.length = 2 * i →
      ChunkArrayContainer.load_names ps.length i
          (pre ++ ps.flatMap (fun p => [p.1.length + 1, p.2.length + 1]))
          (ps.flatMap (fun p => c_str p.1 ++ c_str p.2) ++ fs) =
        some (ps.map Prod.fst, ps.map Prod.snd, fs) := by
  induction ps with
  | nil => intro i pre fs _; rfl
  | cons p ps ih =>
    intro i pre fs hpre
    obtain ⟨hp1, hp2⟩ := h p (List.mem_cons_self _ _)
    have h0 : (pre ++ (p :: ps).flatMap (fun p => [p.1.length + 1, p.2.length + 1]))[2 * i]? =
        some (p.1.length + 1) := by
      rw [List.getElem?_append_right (by omega), hpre]
      simp
    have h1 : (pre ++ (p :: ps).flatMap
        (fun p => [p.1.length + 1, p.2.length + 1]))[2 * i + 1]? =
        some (p.2.length + 1) := by
      rw [List.getElem?_append_right (by omega), hpre]
      simp
    rw [List.length_cons, ChunkArrayContainer.load_names, h0, h1]
    simp only
    rw [List.flatMap_cons, List.append_assoc, List.append_assoc,
      read_string_c_str _ _ hp1.1 hp1.2]
    simp only
    rw [read_string_c_str _ _ hp2.1 hp2.2]
    simp only
    have hpre' : (pre ++ [p.1.length + 1, p.2.length + 1]).length = 2 * (i + 1) := by
      simp [hpre]; omega
    have hbuf : pre ++ (p :: ps).flatMap (fun p => [p.1.length + 1, p.2.length + 1]) =
        (pre ++ [p.1.length + 1, p.2.length + 1]) ++
          ps.flatMap (fun p => [p.1.length + 1, p.2.length + 1]) := by
      simp
    rw [hbuf, ih (fun q hq => h q (List.mem_cons_of_mem _ hq)) (i + 1) _ fs hpre']
    rfl

theorem chunk_array_load_save (data : Nat → Nat) (N : Nat) (fs : List Nat)
    (hN : N < UINT32_RANGE) :
    chunk_array_load (chunk_array_save data N ++ fs) =
      some (fun i => ((List.range N).map data).getD i 0, N, fs) := by
  have hlen : ((List.range N).map data).length = N := by simp
  unfold chunk_array_load chunk_array_save
  rw [List.append_assoc, read_uint32_bytes _ _ hN]
  simp only
  have hle : N ≤ ((List.range N).map data ++ fs).length := by
    rw [List.length_append, hlen]; omega
  rw [if_pos hle]
  have htake : ((List.range N).map data ++ fs).take N = (List.range N).map data :=
    List.take_left' hlen
  have hdrop : ((List.range N).map data ++ fs).drop N = fs := List.drop_left' hlen
  rw [htake, hdrop]

theorem chunk_array_loaded_value (data : Nat → Nat) (N i : Nat) (hi : i < N) :
    ((List.range N).map data).getD i 0 = data i := by
  simp [List.getD, hi]

theorem ChunkArrayContainer.load_arrays_spec (registered : List String) (N : Nat)
    (hN : N < UINT32_RANGE) :
    ∀ (names type_names : List String) (arrs acc : List ChunkArrayGen) (fs : List Nat),
      names.length = arrs.length → type_names.length = arrs.length →
      (∀ t ∈ type_names, t ∈ registered) →
      ChunkArrayContainer.load_arrays registered names type_names acc
          (arrs.flatMap (fun a => chunk_array_save a.data N) ++ fs) =
        some (names, type_names,
          acc ++ List.zipWith
            (fun t (a : ChunkArrayGen) =>
              ({ type_name := t, data := fun i => ((List.range N).map a.data).getD i 0 } :
                ChunkArrayGen))
            type_names arrs, fs) := by
  intro names
  induction names with
  | nil =>
    intro type_names arrs acc fs h1 h2 _
    have harrs : arrs = [] := List.length_eq_zero.mp h1.symm
    subst harrs
    have htn : type_names = [] := List.length_eq_zero.mp h2
    subst htn
    simp [ChunkArrayContainer.load_arrays]
  | cons name names ih =>
    intro type_names arrs acc fs h1 h2 hreg
    cases arrs with
    | nil => simp at h1
    | cons a arrs =>
      cases type_names with
      | nil => simp at h2
      | cons t type_names =>
        have ht : t ∈ registered := hreg t (List.mem_cons_self _ _)
        rw [ChunkArrayContainer.load_arrays]
        simp only [ChunkArrayFactory.create, if_pos ht]
        rw [List.flatMap_cons, List.append_assoc, chunk_array_load_save _ _ _ hN]
        simp only
        rw [ih type_names arrs _ fs (by simpa using h1) (by simpa using h2)
          (fun x hx => hreg x (List.mem_cons_of_mem _ hx))]
        simp
/-- Counterexample to C30 as stated: the example container has one attribute
of a registered type whose name, of 3 characters, holds a NUL character;
`save` followed by `load` into the empty container returns a container
where the attribute has the name `a`. -/
theorem load_truncates_name_at_nul :
    example_container_nul_name.attributes_paired ∧
    (∀ t ∈ example_container_nul_name.type_names_, t ∈ ["uint32"]) ∧
    (∀ s ∈ example_container_nul_name.names_, s.length < 256) ∧
    (∀ s ∈ example_container_nul_name.type_names_, s.length < 256) ∧
    ∃ fs c1 rest, example_container_nul_name.save = some fs ∧
      empty_container.load ["uint32"] fs = some (c1, true, rest) ∧
      c1.names_ = ["a"] ∧ c1.names_ ≠ example_container_nul_name.names_ :=
  ⟨⟨by decide, by decide, by decide, by decide⟩, by decide, by decide, by decide,
    _, _, _, rfl, rfl, by decide, by decide⟩

/-- Amended C30: for every container whose attributes are paired with their
names and type names, whose type names are all registered and whose names
and type names are shorter than 256 characters and hold no NUL character,
`save` followed by `load` into a fresh container returns `true` and a
container with the same `size()`, the same `end()`, the same names and type
names in the same order, the same used status for every line below `end()`,
arrays of the recorded types and the same attribute values on these lines. -/
theorem save_load_round_trip (registered : List String) (c fresh : ChunkArrayContainer)
    (hp : c.attributes_paired)
    (hn : 2 * c.table_arrays_.length < UINT32_RANGE)
    (hu : c.nb_used_lines_ < UINT32_RANGE) (hm : c.nb_max_lines_ < UINT32_RANGE)
    (hreg : ∀ t ∈ c.type_names_, t ∈ registered)
    (hnames : ∀ s ∈ c.names_, s.length < 256 ∧ ∀ ch ∈ s.data, ch.toNat ≠ 0)
    (htypes : ∀ s ∈ c.type_names_, s.length < 256 ∧ ∀ ch ∈ s.data, ch.toNat ≠ 0)
    (hfresh : fresh.table_arrays_ = []) :
    ∃ fs c1 rest, c.save = some fs ∧ fresh.load registered fs = some (c1, true, rest) ∧
      c1.size = c.size ∧ c1.end_ = c.end_ ∧ c1.names_ = c.names_ ∧
      c1.type_names_ = c.type_names_ ∧
      (∀ i, i < c.end_ → c1.used i = c.used i) ∧
      c1.table_arrays_.map (fun a => a.type_name) = c.type_names_ ∧
      (∀ i, i < c.end_ →
        c1.table_arrays_.map (fun a => a.data i) = c.table_arrays_.map (fun a => a.data i)) := by
  obtain ⟨hp1, hp2, _, _⟩ := hp
  have hn' : 2 * c.table_arrays_.length < 4294967296 := hn
  have hnR : c.table_arrays_.length < UINT32_RANGE := by
    show c.table_arrays_.length < 4294967296; omega
  obtain ⟨ps, hps⟩ : ∃ ps, ps = c.names_.zip c.type_names_ := ⟨_, rfl⟩
  have hpslen : ps.length = c.table_arrays_.length := by
    rw [hps, List.length_zip, hp1, hp2, Nat.min_self]
  have hfst : ps.map Prod.fst = c.names_ := by
    rw [hps]; exact List.map_fst_zip _ _ (by omega)
  have hsnd : ps.map Prod.snd = c.type_names_ := by
    rw [hps]; exact List.map_snd_zip _ _ (by omega)
  have hmemps : ∀ p ∈ ps, p.1 ∈ c.names_ ∧ p.2 ∈ c.type_names_ := by
    intro p hp
    rw [hps] at hp
    exact ⟨(List.of_mem_zip hp).1, (List.of_mem_zip hp).2⟩
  have htake : (c.names_.take c.table_arrays_.length).zip
      (c.type_names_.take c.table_arrays_.length) = ps := by
    rw [hps, List.take_of_length_le (by omega), List.take_of_length_le (by omega)]
  have hsave : c.save = some
      (uint32_bytes c.table_arrays_.length ++ (uint32_bytes c.nb_used_lines_ ++
      (uint32_bytes c.nb_max_lines_ ++
      (ps.flatMap
          (fun p => uint32_bytes (p.1.length + 1) ++ uint32_bytes (p.2.length + 1)) ++
      (ps.flatMap (fun p => c_str p.1 ++ c_str p.2) ++
      (c.table_arrays_.flatMap (fun a => chunk_array_save a.data c.nb_max_lines_) ++
      (chunk_array_save c.refs_ c.nb_max_lines_ ++
        chunk_array_save (fun i => c.holes_stack_.reverse.getD i 0)
          c.holes_stack_.length))))))) := by
    unfold ChunkArrayContainer.save
    simp only
    rw [if_pos ⟨by omega, by omega⟩, htake]
  have hlens : ∀ p ∈ ps, p.1.length + 1 < UINT32_RANGE ∧ p.2.length + 1 < UINT32_RANGE := by
    intro p hp
    have h1 := (hnames p.1 (hmemps p hp).1).1
    have h2 := (htypes p.2 (hmemps p hp).2).1
    constructor
    · show p.1.length + 1 < 4294967296; omega
    · show p.2.length + 1 < 4294967296; omega
  have hmod : (2 * c.table_arrays_.length) % UINT32_RANGE = 2 * ps.length := by
    rw [Nat.mod_eq_of_lt hn, hpslen]
  have hnm := ChunkArrayContainer.load_names_spec ps
    (fun p hp => ⟨hnames p.1 (hmemps p hp).1, htypes p.2 (hmemps p hp).2⟩) 0 []
  have hload : fresh.load registered
      (uint32_bytes c.table_arrays_.length ++ (uint32_bytes c.nb_used_lines_ ++
      (uint32_bytes c.nb_max_lines_ ++
      (ps.flatMap
          (fun p => uint32_bytes (p.1.length + 1) ++ uint32_bytes (p.2.length + 1)) ++
      (ps.flatMap (fun p => c_str p.1 ++ c_str p.2) ++
      (c.table_arrays_.flatMap (fun a => chunk_array_save a.data c.nb_max_lines_) ++
      (chunk_array_save c.refs_ c.nb_max_lines_ ++
        chunk_array_save (fun i => c.holes_stack_.reverse.getD i 0)
          c.holes_stack_.length))))))) =
      some ({ fresh with
        nb_used_lines_ := c.nb_used_lines_
        nb_max_lines_ := c.nb_max_lines_
        names_ := c.names_
        type_names_ := c.type_names_
        table_arrays_ := [] ++ List.zipWith
          (fun t (a : ChunkArrayGen) =>
            ({ type_name := t,
               data := fun i => ((List.range c.nb_max_lines_).map a.data).getD i 0 } :
              ChunkArrayGen))
          c.type_names_ c.table_arrays_
        refs_ := fun i => ((List.range c.nb_max_lines_).map c.refs_).getD i 0
        refs_nb_chunks_ := (c.nb_max_lines_ + fresh.CHUNKSIZE - 1) / fresh.CHUNKSIZE },
        true,
        chunk_array_save (fun i => c.holes_stack_.reverse.getD i 0)
          c.holes_stack_.length) := by
    unfold ChunkArrayContainer.load
    rw [read_uint32s_header _ _ _ _ hnR hu hm]
    simp only
    rw [hmod, read_uint32s_pairs (fun p : String × String => p.1.length + 1)
      (fun p : String × String => p.2.length + 1) ps hlens]
    simp only
    rw [← hpslen]
    have hnm' := hnm
      (c.table_arrays_.flatMap (fun a => chunk_array_save a.data c.nb_max_lines_) ++
        (chunk_array_save c.refs_ c.nb_max_lines_ ++
          chunk_array_save (fun i => c.holes_stack_.reverse.getD i 0)
            c.holes_stack_.length)) rfl
    rw [List.nil_append] at hnm'
    rw [hnm']
    simp only
    rw [hfst, hsnd, hfresh,
      ChunkArrayContainer.load_arrays_spec registered c.nb_max_lines_ hm c.names_
        c.type_names_ c.table_arrays_ [] _ hp1 hp2 hreg]
    simp only
    rw [chunk_array_load_save _ _ _ hm]
  refine ⟨_, _, _, hsave, hload, rfl, rfl, rfl, rfl, ?_, ?_, ?_⟩
  · intro i hi
    have hi' : i < c.nb_max_lines_ := hi
    simp only [ChunkArrayContainer.used]
    rw [chunk_array_loaded_value _ _ _ hi']
  · simp only [List.nil_append]
    exact zipWith_map_type_name _ _ _ hp2
  · intro i hi
    simp only [List.nil_append]
    exact zipWith_map_data _ _ hi _ _ hp2

/-- Witness of the amended C30 on the example container with three
attributes, loaded into the empty container. -/
theorem save_load_round_trip_witness :
    example_container_attributes.attributes_paired ∧
    ∃ fs c1 rest, example_container_attributes.save = some fs ∧
      empty_container.load ["uint32", "float64"] fs = some (c1, true, rest) ∧
      c1.size = example_container_attributes.size ∧
      c1.end_ = example_container_attributes.end_ ∧
      c1.names_ = example_container_attributes.names_ ∧
      c1.type_names_ = example_container_attributes.type_names_ ∧
      (∀ i, i < example_container_attributes.end_ →
        c1.used i = example_container_attributes.used i) ∧
      c1.table_arrays_.map (fun a => a.type_name) =
        example_container_attributes.type_names_ ∧
      (∀ i, i < example_container_attributes.end_ →
        c1.table_arrays_.map (fun a => a.data i) =
          example_container_attributes.table_arrays_.map (fun a => a.data i)) :=
  ⟨example_container_attributes_paired,
    save_load_round_trip ["uint32", "float64"] example_container_attributes empty_container
      example_container_attributes_paired (by decide) (by decide) (by decide) (by decide)
      (by decide) (by decide) rfl⟩

/-- Counterexample to C40 as stated: with reference counts of type
`unsigned char`, the line 0 of the example container has the count 255,
which is at least 2; `ref_line(0)` wraps the count to 0 and the assertion of
`unref_line(0)` fails, so the count is not restored. -/
theorem ref_line_wraps_at_max_count :
    example_container_max_count.refs_ 0 = 255 ∧
    2 ≤ example_container_max_count.refs_ 0 ∧
    (example_container_max_count.ref_line 256 0).refs_ 0 = 0 ∧
    (example_container_max_count.ref_line 256 0).unref_line 0 = none :=
  ⟨rfl, by decide, rfl, rfl⟩

/-- Amended C40: with reference counts of an unsigned type `T_REF` of more
than two values, for a line whose count `c` is at least 2 and below the
greatest value of `T_REF`, `ref_line(index)` followed by
`unref_line(index)` returns `false` and restores the container: the count is
`c` again, `size()` and the stack of holes are unchanged.  For a line of
count 1, as `insert_lines<1>()` leaves the line it returns, the same calls
free the line: `unref_line` returns `true`, the line is unused, its index is
pushed on the stack of holes and `size()` decreases by 1. -/
theorem ref_then_unref_line (T_REF_RANGE : Nat) (c : ChunkArrayContainer) (index : Nat)
    (hT : 2 < T_REF_RANGE) :
    (2 ≤ c.refs_ index → c.refs_ index + 1 < T_REF_RANGE →
      (c.ref_line T_REF_RANGE index).unref_line index = some (c, false)) ∧
    (c.refs_ index = 1 → 0 < c.nb_used_lines_ → c.nb_used_lines_ < UINT32_RANGE →
      ∃ c1, (c.ref_line T_REF_RANGE index).unref_line index = some (c1, true) ∧
        c1.used index = false ∧ c1.size + 1 = c.size ∧
        c1.holes_stack_ = index :: c.holes_stack_ ∧
        (∀ j, j ≠ index → c1.refs_ j = c.refs_ j)) ∧
    (c.well_formed 1 → (c.insert_lines 1).1.refs_ (c.insert_lines 1).2 = 1) := by
  refine ⟨?_, ?_, ?_⟩
  · intro h2 hlt
    have hmod : (c.refs_ index + 1) % T_REF_RANGE = c.refs_ index + 1 :=
      Nat.mod_eq_of_lt hlt
    have h1 : c.refs_ index + 1 > 1 := by omega
    have h3 : ¬ (c.refs_ index + 1 - 1 = 1) := by omega
    have hback : Function.update (Function.update c.refs_ index (c.refs_ index + 1)) index
        (c.refs_ index + 1 - 1) = c.refs_ := by
      rw [Function.update_idem, Nat.add_sub_cancel, Function.update_eq_self]
    simp only [ChunkArrayContainer.unref_line, ChunkArrayContainer.ref_line, hmod,
      Function.update_same, h1, if_true, h3, if_false, hback]
  · intro h1 hpos h32
    have hmod : (c.refs_ index + 1) % T_REF_RANGE = 2 := by
      rw [h1]; exact Nat.mod_eq_of_lt hT
    have hnu := uint32_dec c.nb_used_lines_ hpos h32
    refine ⟨{ c with
      holes_stack_ := index :: c.holes_stack_
      refs_ := Function.update (Function.update (Function.update c.refs_ index 2) index
        (2 - 1)) index 0
      nb_used_lines_ := c.nb_used_lines_ - 1 }, ?_, ?_, ?_, rfl, ?_⟩
    · simp only [ChunkArrayContainer.unref_line, ChunkArrayContainer.ref_line, hmod,
        Function.update_same, hnu]
      rfl
    · show (Function.update (Function.update (Function.update c.refs_ index 2) index
        (2 - 1)) index 0 index != 0) = false
      rw [Function.update_same]
      rfl
    · show c.nb_used_lines_ - 1 + 1 = c.nb_used_lines_
      omega
    · intro j hj
      show Function.update (Function.update (Function.update c.refs_ index 2) index
        (2 - 1)) index 0 j = c.refs_ j
      rw [Function.update_noteq hj, Function.update_noteq hj, Function.update_noteq hj]
  · intro hwf
    have h := (c.insert_lines_one hwf).2.2.1
    rw [h, Function.update_same]

/-- Witness of the amended C40 on the example container with a hole, with
counts of type `unsigned char`: the line 2 has the count 3, the line 0 has
the count 1. -/
theorem ref_then_unref_line_witness :
    (example_container_hole.ref_line 256 2).unref_line 2 =
      some (example_container_hole, false) ∧
    (∃ c1, (example_container_hole.ref_line 256 0).unref_line 0 = some (c1, true) ∧
        c1.used 0 = false ∧ c1.size + 1 = example_container_hole.size ∧
        c1.holes_stack_ = 0 :: example_container_hole.holes_stack_ ∧
        (∀ j, j ≠ 0 → c1.refs_ j = example_container_hole.refs_ j)) :=
  ⟨(ref_then_unref_line 256 example_container_hole 2 (by decide)).1 (by decide) (by decide),
   (ref_then_unref_line 256 example_container_hole 0 (by decide)).2.1 (by decide)
     (by decide) (by decide)⟩

/-- Claim C35: when `phi_1` undoes `phi1` at the darts `d` and `e`, two calls
`phi1_sew(d, e)` in a row give back the map: `phi1` and `phi_1` of every dart
have their values before the first call.  This holds for the primitive of
`CMap1_T` and for the one of `Map1`. -/
theorem phi1_sew_twice (m : CMap1) (d e : Dart)
    (hd : m.phi_1 (m.phi1 d) = d) (he : m.phi_1 (m.phi1 e) = e) :
    (m.phi1_sew d e).phi1_sew d e = m ∧
    Map1.phi1_sew (Map1.phi1_sew m d e) d e = m := by
  have key : (m.phi1_sew d e).phi1_sew d e = m := by
    have hd' : m.phi_1_ (m.phi1_ d.index).index = d := hd
    have he' : m.phi_1_ (m.phi1_ e.index).index = e := he
    by_cases hde : d = e
    · subst hde
      cases m with
      | mk t p q =>
        simp only [CMap1.phi1_sew, CMap1.phi1, Function.update_same, Function.update_idem]
        simp only at hd'
        congr 1
        · exact Function.update_eq_self _ _
        · rw [Function.update_eq_iff]
          exact ⟨hd'.symm, fun _ _ => rfl⟩
    · have hidx : d.index ≠ e.index := fun h => hde ((Dart.eq_iff_index d e).mpr h)
      have hfg : (m.phi1_ d.index).index ≠ (m.phi1_ e.index).index := by
        intro h
        apply hde
        rw [← hd', ← he', h]
      cases m with
      | mk t p q =>
        simp only at hd' he' hfg
        simp only [CMap1.phi1_sew, CMap1.phi1, Function.update_same,
          Function.update_noteq hidx]
        congr 1
        · funext i
          by_cases hi : i = e.index
          · subst hi; simp
          · by_cases hi2 : i = d.index
            · subst hi2; simp [Function.update_noteq hi]
            · simp [Function.update_noteq hi, Function.update_noteq hi2]
        · funext i
          by_cases hi : i = (p e.index).index
          · subst hi; simp [he']
          · by_cases hi2 : i = (p d.index).index
            · subst hi2; simp [Function.update_noteq hi, hd', Function.update_noteq hfg]
            · simp [Function.update_noteq hi, Function.update_noteq hi2]
  exact ⟨key, key⟩

/-- Witness of C35 on the example map: the dart 0 of the face and the
isolated dart 3. -/
theorem phi1_sew_twice_witness :
    (example_map.phi1_sew ⟨0⟩ ⟨3⟩).phi1_sew ⟨0⟩ ⟨3⟩ = example_map ∧
    Map1.phi1_sew (Map1.phi1_sew example_map ⟨0⟩ ⟨3⟩) ⟨0⟩ ⟨3⟩ = example_map :=
  phi1_sew_twice example_map ⟨0⟩ ⟨3⟩ (by decide) (by decide)
/-- Evaluation for C34 at the failing input: in the example map the inherited
2D check and `check_integrity` return `true` on the dart 0 (no dart is on the
boundary), `phi3(phi3(0)) = 0`, `phi3(0) ≠ 0` and
`phi3(phi1(phi3(phi1(0)))) = 0`, yet `phi3(phi1(0)) = 0`: the dart is a
fixed point of `phi3 ∘ phi1`. -/
theorem check_integrity_accepts_fixed_point :
    example_map3_folded.toCMap2.check_integrity ⟨0⟩ = true ∧
    example_map3_folded.check_integrity
      (example_map3_folded.toCMap2.check_integrity ⟨0⟩) (fun _ => false) ⟨0⟩ = true ∧
    example_map3_folded.phi3 (example_map3_folded.phi3 ⟨0⟩) = ⟨0⟩ ∧
    example_map3_folded.phi3 ⟨0⟩ ≠ ⟨0⟩ ∧
    example_map3_folded.phi3 (example_map3_folded.phi1
      (example_map3_folded.phi3 (example_map3_folded.phi1 ⟨0⟩))) = ⟨0⟩ ∧
    example_map3_folded.phi3 (example_map3_folded.phi1 ⟨0⟩) = ⟨0⟩ :=
  ⟨by decide, by decide, by decide, by decide, by decide, by decide⟩

/-- What `check_integrity` does ensure: when it returns `true` on a dart `d`,
the inherited check is true, `phi3(phi3(d)) = d`, `phi3(d) ≠ d`,
`phi3(phi1(phi3(phi1(d)))) = d` and the boundary markers of `d` and `phi2(d)`
agree. -/
theorem CMap3.check_integrity_true (m : CMap3) (inherit_check_integrity : Bool)
    (is_boundary : Dart → Bool) (d : Dart)
    (h : m.check_integrity inherit_check_integrity is_boundary d = true) :
    inherit_check_integrity = true ∧ m.phi3 (m.phi3 d) = d ∧ m.phi3 d ≠ d ∧
    m.phi3 (m.phi1 (m.phi3 (m.phi1 d))) = d ∧ is_boundary d = is_boundary (m.phi2 d) := by
  simp only [CMap3.check_integrity, Bool.and_eq_true, decide_eq_true_eq, beq_iff_eq] at h
  obtain ⟨⟨⟨⟨h1, h2⟩, h3⟩, h4⟩, h5⟩ := h
  exact ⟨h1, h2, h3, h4, h5⟩

/-- Evaluation for C31 at the failing input: the example container has the
hole 1 on its stack, `save` writes the stack after the reference counts (the
units `1, 0, 0, 0, 1` at the end of the stream), and `load` into the empty
container stops after the reference counts: the stack of holes of the
loaded container is empty, and the next `insert_lines<1>()` returns `4`
where the original returns `1`. -/
theorem load_leaves_holes_unread :
    example_container_hole.holes_stack_ = [1] ∧
    (example_container_hole.insert_lines 1).2 = 1 ∧
    ∃ fs c1, example_container_hole.save = some fs ∧
      empty_container.load [] fs = some (c1, true, [1, 0, 0, 0, 1]) ∧
      c1.size = 3 ∧ c1.end_ = 4 ∧
      c1.holes_stack_ = [] ∧ (c1.insert_lines 1).2 = 4 :=
  ⟨rfl, rfl, _, _, rfl, rfl, rfl, rfl, rfl, rfl⟩

/-- Counterexample to C33 as stated: with `CHUNKSIZE = 4` and `PRIMSIZE = 3`
the second call of `insert_lines` on the empty container returns the block
of the lines 3, 4 and 5, which lies in two chunks. -/
theorem insert_lines_block_straddles_chunks :
    (ChunkArrayContainer.insert_lines_seq 3 2 (ChunkArrayContainer.init 4)).2 = [0, 3] ∧
    3 < (ChunkArrayContainer.init 4).CHUNKSIZE ∧
    3 / (ChunkArrayContainer.init 4).CHUNKSIZE ≠
      (3 + 3 - 1) / (ChunkArrayContainer.init 4).CHUNKSIZE :=
  ⟨by decide, by decide, by decide⟩
theorem ChunkArrayContainer.insert_lines_seq_append (P : Nat) :
    ∀ (n : Nat) (c : ChunkArrayContainer) (k : Nat), c.holes_stack_ = [] →
      c.nb_max_lines_ = k * P → (k + n) * P < UINT32_RANGE →
      (ChunkArrayContainer.insert_lines_seq P n c).2 =
        (List.range' k n).map (fun j => j * P) := by
  intro n
  induction n with
  | zero => intro c k _ _ _; rfl
  | succ n ih =>
    intro c k hh hmax hlt
    have hlt' : (k + (n + 1)) * P < 4294967296 := hlt
    have hexp : (k + (n + 1)) * P = k * P + P + n * P := by ring
    have hmod : (c.nb_max_lines_ + P) % UINT32_RANGE = (k + 1) * P := by
      have h1 : c.nb_max_lines_ + P = (k + 1) * P := by rw [hmax]; ring
      rw [h1]
      apply Nat.mod_eq_of_lt
      show (k + 1) * P < 4294967296
      have h2 : (k + 1) * P = k * P + P := by ring
      omega
    have hins2 : (c.insert_lines P).2 = k * P := by
      simp only [ChunkArrayContainer.insert_lines, hh, hmax]
    have hinsh : (c.insert_lines P).1.holes_stack_ = [] := by
      simp only [ChunkArrayContainer.insert_lines, hh]
    have hinsm : (c.insert_lines P).1.nb_max_lines_ = (k + 1) * P := by
      simp only [ChunkArrayContainer.insert_lines, hh]
      exact hmod
    rw [ChunkArrayContainer.insert_lines_seq]
    simp only
    rw [hins2, ih _ (k + 1) hinsh hinsm (by
      show (k + 1 + n) * P < 4294967296
      have h3 : (k + 1 + n) * P = k * P + P + n * P := by ring
      omega), List.range'_succ]
    rfl

theorem block_in_one_chunk (C P j : Nat) (hP : 0 < P) (hdiv : P ∣ C) :
    j * P / C = (j * P + P - 1) / C := by
  obtain ⟨q, rfl⟩ := hdiv
  have h1 : j * P + P - 1 = (P - 1) + j * P := by omega
  have hl : j * P / (P * q) = j / q := by
    rw [← Nat.div_div_eq_div_mul, Nat.mul_div_cancel _ hP]
  have hlt : P - 1 < P := by omega
  have hr : ((P - 1) + j * P) / (P * q) = j / q := by
    rw [← Nat.div_div_eq_div_mul, Nat.add_mul_div_right _ _ hP, Nat.div_eq_of_lt hlt,
      Nat.zero_add]
  rw [h1, hl, hr]

/-- Amended C33: when `PRIMSIZE` is positive and divides `CHUNKSIZE`, a
sequence of `n` calls of `insert_lines<PRIMSIZE>()` on the empty container
(with `n * PRIMSIZE` below `2^32`) returns the indices `0`, `PRIMSIZE`,
`2 * PRIMSIZE`, ... and each returned block lies inside a single chunk:
`index / CHUNKSIZE = (index + PRIMSIZE - 1) / CHUNKSIZE`. -/
theorem insert_lines_blocks_in_chunk (C P n : Nat) (hP : 0 < P) (hdiv : P ∣ C)
    (hn : n * P < UINT32_RANGE) :
    (ChunkArrayContainer.insert_lines_seq P n (ChunkArrayContainer.init C)).2 =
      (List.range n).map (fun j => j * P) ∧
    ∀ index ∈ (ChunkArrayContainer.insert_lines_seq P n (ChunkArrayContainer.init C)).2,
      index / C = (index + P - 1) / C := by
  have h := ChunkArrayContainer.insert_lines_seq_append P n (ChunkArrayContainer.init C) 0
    rfl (by simp [ChunkArrayContainer.init]) (by rw [Nat.zero_add]; exact hn)
  rw [← List.range_eq_range'] at h
  refine ⟨h, ?_⟩
  intro index hi
  rw [h] at hi
  obtain ⟨j, _, rfl⟩ := List.mem_map.mp hi
  exact block_in_one_chunk C P j hP hdiv

/-- Witness of the amended C33: three calls with `PRIMSIZE = 2` and
`CHUNKSIZE = 4`. -/
theorem insert_lines_blocks_in_chunk_witness :
    (ChunkArrayContainer.insert_lines_seq 2 3 (ChunkArrayContainer.init 4)).2 =
      (List.range 3).map (fun j => j * 2) ∧
    ∀ index ∈ (ChunkArrayContainer.insert_lines_seq 2 3 (ChunkArrayContainer.init 4)).2,
      index / 4 = (index + 2 - 1) / 4 :=
  insert_lines_blocks_in_chunk 4 2 3 (by decide) (by decide) (by decide)
theorem count_set_one (refs : Nat → Nat) (b P N : Nat) (hb : b + P ≤ N)
    (hz : ∀ j, b ≤ j → j < b + P → refs j = 0) :
    ((Finset.range N).filter
      (fun j => (if b ≤ j ∧ j < b + P then 1 else refs j) ≠ 0)).card =
      ((Finset.range N).filter (fun j => refs j ≠ 0)).card + P := by
  have hset : (Finset.range N).filter
      (fun j => (if b ≤ j ∧ j < b + P then 1 else refs j) ≠ 0) =
      (Finset.range N).filter (fun j => refs j ≠ 0) ∪ Finset.Ico b (b + P) := by
    ext j
    simp only [Finset.mem_filter, Finset.mem_range, Finset.mem_union, Finset.mem_Ico]
    by_cases hj : b ≤ j ∧ j < b + P
    · rw [if_pos hj]
      constructor
      · intro _; exact Or.inr hj
      · intro _; exact ⟨by omega, by decide⟩
    · rw [if_neg hj]
      constructor
      · intro h; exact Or.inl h
      · rintro (h | h)
        · exact h
        · exact absurd h hj
  have hdisj : Disjoint ((Finset.range N).filter (fun j => refs j ≠ 0))
      (Finset.Ico b (b + P)) := by
    rw [Finset.disjoint_left]
    intro j h1 h2
    simp only [Finset.mem_filter, Finset.mem_range] at h1
    simp only [Finset.mem_Ico] at h2
    exact h1.2 (hz j h2.1 h2.2)
  rw [hset, Finset.card_union_of_disjoint hdisj, Nat.card_Ico, Nat.add_sub_cancel_left]

theorem count_set_zero (refs : Nat → Nat) (b P N : Nat) (hb : b + P ≤ N)
    (hu : ∀ j, b ≤ j → j < b + P → refs j ≠ 0) :
    ((Finset.range N).filter
      (fun j => (if b ≤ j ∧ j < b + P then 0 else refs j) ≠ 0)).card + P =
      ((Finset.range N).filter (fun j => refs j ≠ 0)).card := by
  have hset : (Finset.range N).filter
      (fun j => (if b ≤ j ∧ j < b + P then 0 else refs j) ≠ 0) =
      (Finset.range N).filter (fun j => refs j ≠ 0) \ Finset.Ico b (b + P) := by
    ext j
    simp only [Finset.mem_filter, Finset.mem_range, Finset.mem_sdiff, Finset.mem_Ico]
    by_cases hj : b ≤ j ∧ j < b + P
    · rw [if_pos hj]
      constructor
      · intro h; exact absurd rfl h.2
      · intro h; exact absurd hj h.2
    · rw [if_neg hj]
      constructor
      · intro h; exact ⟨h, hj⟩
      · intro h; exact h.1
  have hsub : Finset.Ico b (b + P) ⊆ (Finset.range N).filter (fun j => refs j ≠ 0) := by
    intro j hj
    simp only [Finset.mem_Ico] at hj
    simp only [Finset.mem_filter, Finset.mem_range]
    exact ⟨by omega, hu j hj.1 hj.2⟩
  have hcard := Finset.card_sdiff_add_card_eq_card hsub
  rw [Nat.card_Ico, Nat.add_sub_cancel_left] at hcard
  rw [hset]
  exact hcard

theorem count_extend (refs : Nat → Nat) (N M : Nat) (hNM : N ≤ M)
    (hz : ∀ j, N ≤ j → refs j = 0) :
    ((Finset.range M).filter (fun j => refs j ≠ 0)).card =
      ((Finset.range N).filter (fun j => refs j ≠ 0)).card := by
  congr 1
  ext j
  simp only [Finset.mem_filter, Finset.mem_range]
  constructor
  · rintro ⟨_, h2⟩
    refine ⟨?_, h2⟩
    by_contra hlt
    exact h2 (hz j (by omega))
  · rintro ⟨h1, h2⟩
    exact ⟨by omega, h2⟩

theorem chunk_crossing (C P n : Nat) (hPC : P < C) :
    (n + P) / C = n / C + (if (n + P) % C < P then 1 else 0) := by
  have hC : 0 < C := by omega
  have hn : n = n % C + C * (n / C) := (Nat.mod_add_div n C).symm
  have hr : n % C < C := Nat.mod_lt n hC
  have hdiv : (n + P) / C = (n % C + P) / C + n / C := by
    have h1 : n + P = (n % C + P) + C * (n / C) := by omega
    have h2 := Nat.add_mul_div_left (n % C + P) (n / C) hC
    rw [← h1] at h2
    exact h2
  have hmod : (n + P) % C = (n % C + P) % C := by
    have h1 : n + P = (n % C + P) + C * (n / C) := by omega
    have h2 := Nat.add_mul_mod_self_left (n % C + P) C (n / C)
    rw [← h1] at h2
    exact h2
  rw [hdiv, hmod]
  by_cases hs : n % C + P < C
  · rw [Nat.div_eq_of_lt hs, Nat.mod_eq_of_lt hs, if_neg (by omega)]
    omega
  · have h3 : (n % C + P) = (n % C + P - C) + C * 1 := by omega
    have h4 : n % C + P - C < C := by omega
    have h5 : (n % C + P) / C = 1 := by
      rw [h3, Nat.add_mul_div_left _ _ hC, Nat.div_eq_of_lt h4]
    have h6 : (n % C + P) % C = n % C + P - C := by
      have h7 := Nat.add_mul_mod_self_left (n % C + P - C) C 1
      rw [← h3] at h7
      rw [h7, Nat.mod_eq_of_lt h4]
    rw [h5, h6, if_pos (by omega)]
    omega
theorem ChunkArrayContainer.insert_lines_nil (P : Nat) (c : ChunkArrayContainer)
    (hh : c.holes_stack_ = []) (hm : c.nb_max_lines_ + P < UINT32_RANGE)
    (hu : c.nb_used_lines_ + P < UINT32_RANGE) :
    c.insert_lines P = ({ c with
      refs_nb_chunks_ :=
        if (c.nb_max_lines_ + P) % c.CHUNKSIZE < P then
          (if c.nb_max_lines_ = 0 then c.refs_nb_chunks_ + 1 else c.refs_nb_chunks_) + 1
        else (if c.nb_max_lines_ = 0 then c.refs_nb_chunks_ + 1 else c.refs_nb_chunks_)
      nb_max_lines_ := c.nb_max_lines_ + P
      refs_ := ChunkArrayContainer.set_refs c.refs_ c.nb_max_lines_ P 1
      nb_used_lines_ := c.nb_used_lines_ + P }, c.nb_max_lines_) := by
  simp only [ChunkArrayContainer.insert_lines, hh, Nat.mod_eq_of_lt hm, Nat.mod_eq_of_lt hu]

theorem ChunkArrayContainer.insert_lines_cons (P : Nat) (c : ChunkArrayContainer)
    (b : Nat) (rest : List Nat) (hh : c.holes_stack_ = b :: rest)
    (hu : c.nb_used_lines_ + P < UINT32_RANGE) :
    c.insert_lines P = ({ c with
      holes_stack_ := rest
      refs_ := ChunkArrayContainer.set_refs c.refs_ b P 1
      nb_used_lines_ := c.nb_used_lines_ + P }, b) := by
  simp only [ChunkArrayContainer.insert_lines, hh, Nat.mod_eq_of_lt hu]

theorem ChunkArrayContainer.remove_lines_eq (P : Nat) (c : ChunkArrayContainer)
    (index : Nat) (hused : c.used ((index / P) * P) = true) (hP : P ≤ c.nb_used_lines_)
    (hu : c.nb_used_lines_ < UINT32_RANGE) :
    c.remove_lines P index = some { c with
      holes_stack_ := (index / P) * P :: c.holes_stack_
      refs_ := ChunkArrayContainer.set_refs c.refs_ ((index / P) * P) P 0
      nb_used_lines_ := c.nb_used_lines_ - P } := by
  have hnu := uint32_sub_mod c.nb_used_lines_ P hP hu
  simp only [ChunkArrayContainer.remove_lines, hused, if_true, hnu]

theorem ChunkArrayContainer.block_inv_init (C P : Nat) :
    (ChunkArrayContainer.init C).block_inv C P := by
  have h0 : (0 : Nat) < UINT32_RANGE := by decide
  refine ⟨rfl, h0, ⟨0, rfl⟩, List.nodup_nil, ?_, fun _ _ => rfl, ?_, ?_, rfl,
    Or.inl ⟨rfl, rfl⟩⟩
  · intro h hh; cases hh
  · intro b _ hb; exact absurd hb (Nat.not_lt_zero b)
  · show 0 + P * 0 = 0
    simp

theorem ChunkArrayContainer.block_inv_insert (C P : Nat) (c : ChunkArrayContainer)
    (hP : 0 < P) (hPC : P < C) (h : c.block_inv C P)
    (hlt : c.nb_max_lines_ + P < UINT32_RANGE) :
    (c.insert_lines P).1.block_inv C P ∧
    (c.insert_lines P).2 + P ≤ (c.insert_lines P).1.nb_max_lines_ ∧
    (c.insert_lines P).1.refs_nb_chunks_ = (c.insert_lines P).1.nb_max_lines_ / C + 1 := by
  have hlt' : c.nb_max_lines_ + P < 4294967296 := hlt
  have hsum := h.sum
  cases hh : c.holes_stack_ with
  | nil =>
    rw [hh] at hsum
    have hun : c.nb_used_lines_ = c.nb_max_lines_ := by simpa using hsum
    have heq := ChunkArrayContainer.insert_lines_nil P c hh hlt (by rw [hun]; exact hlt)
    have hrefs : ∀ j, ChunkArrayContainer.set_refs c.refs_ c.nb_max_lines_ P 1 j =
        if c.nb_max_lines_ ≤ j ∧ j < c.nb_max_lines_ + P then 1 else c.refs_ j :=
      fun j => ChunkArrayContainer.set_refs_apply _ _ _ _ P (le_of_lt hlt)
    have hchunks : (if (c.nb_max_lines_ + P) % c.CHUNKSIZE < P then
          (if c.nb_max_lines_ = 0 then c.refs_nb_chunks_ + 1 else c.refs_nb_chunks_) + 1
        else (if c.nb_max_lines_ = 0 then c.refs_nb_chunks_ + 1 else c.refs_nb_chunks_)) =
        (c.nb_max_lines_ + P) / C + 1 := by
      rw [h.chunksize, chunk_crossing C P c.nb_max_lines_ hPC]
      rcases h.chunks with ⟨h0, hc0⟩ | ⟨hpos, hc⟩
      · rw [if_pos h0, hc0, h0]
        split_ifs <;> simp
      · have hne : ¬ c.nb_max_lines_ = 0 := by omega
        rw [if_neg hne, hc]
        split_ifs <;> omega
    rw [heq]
    refine ⟨⟨h.chunksize, hlt, Dvd.dvd.add h.max_dvd (dvd_refl P), ?_, ?_, ?_, ?_, ?_, ?_, ?_⟩,
      le_refl _, hchunks⟩
    · show c.holes_stack_.Nodup
      rw [hh]; exact List.nodup_nil
    · intro x hx
      have hx' : x ∈ c.holes_stack_ := hx
      rw [hh] at hx'; cases hx'
    · intro i hi
      show ChunkArrayContainer.set_refs c.refs_ c.nb_max_lines_ P 1 i = 0
      have hi' : c.nb_max_lines_ + P ≤ i := hi
      rw [hrefs, if_neg (by omega)]
      exact h.beyond i (by omega)
    · intro b hb hbl _ i hi
      show ChunkArrayContainer.set_refs c.refs_ c.nb_max_lines_ P 1 (b + i) ≠ 0
      have hbl' : b < c.nb_max_lines_ + P := hbl
      rw [hrefs]
      by_cases hin : c.nb_max_lines_ ≤ b + i ∧ b + i < c.nb_max_lines_ + P
      · rw [if_pos hin]; decide
      · rw [if_neg hin]
        have hbN : b < c.nb_max_lines_ := by
          by_contra hge
          have h1 := block_below P c.nb_max_lines_ b h.max_dvd hb
          by_cases hbe : b = c.nb_max_lines_
          · omega
          · have := h1 (by omega); omega
        exact h.blocks b hb hbN (by rw [hh]; exact List.not_mem_nil _) i hi
    · show c.nb_used_lines_ + P + P * c.holes_stack_.length = c.nb_max_lines_ + P
      rw [hh]; simp [hun]
    · show ((Finset.range (c.nb_max_lines_ + P)).filter
        (fun j => ChunkArrayContainer.set_refs c.refs_ c.nb_max_lines_ P 1 j ≠ 0)).card =
        c.nb_used_lines_ + P
      rw [Finset.filter_congr (fun j _ => by rw [hrefs j]),
        count_set_one c.refs_ c.nb_max_lines_ P (c.nb_max_lines_ + P) (le_refl _)
          (fun j hj _ => h.beyond j hj),
        count_extend c.refs_ c.nb_max_lines_ (c.nb_max_lines_ + P) (by omega) h.beyond,
        h.count]
    · right
      exact ⟨by show 0 < c.nb_max_lines_ + P; omega, hchunks⟩
  | cons b rest =>
    rw [hh] at hsum
    have hbH : b ∈ c.holes_stack_ := by rw [hh]; exact List.mem_cons_self _ _
    obtain ⟨hbd, hbN, hbz⟩ := h.holes b hbH
    have hbP : b + P ≤ c.nb_max_lines_ := block_below P b _ hbd h.max_dvd hbN
    have hnd : (b :: rest).Nodup := by rw [← hh]; exact h.nodup
    have hlen : P * (b :: rest).length = P * rest.length + P := by
      rw [List.length_cons, Nat.mul_succ]
    rw [hlen] at hsum
    have heq := ChunkArrayContainer.insert_lines_cons P c b rest hh
      (by show c.nb_used_lines_ + P < 4294967296; omega)
    have hrefs : ∀ j, ChunkArrayContainer.set_refs c.refs_ b P 1 j =
        if b ≤ j ∧ j < b + P then 1 else c.refs_ j :=
      fun j => ChunkArrayContainer.set_refs_apply _ _ _ _ P
        (by show b + P ≤ 4294967296; omega)
    have hchunks : c.refs_nb_chunks_ = c.nb_max_lines_ / C + 1 := by
      rcases h.chunks with ⟨h0, _⟩ | ⟨_, hc⟩
      · omega
      · exact hc
    rw [heq]
    refine ⟨⟨h.chunksize, h.max_lt, h.max_dvd, (List.nodup_cons.mp hnd).2, ?_, ?_, ?_, ?_, ?_,
      Or.inr ⟨(show 0 < c.nb_max_lines_ by omega), hchunks⟩⟩, hbP, hchunks⟩
    · intro x hx
      have hx' : x ∈ rest := hx
      have hxH : x ∈ c.holes_stack_ := by rw [hh]; exact List.mem_cons_of_mem _ hx'
      obtain ⟨hxd, hxN, hxz⟩ := h.holes x hxH
      refine ⟨hxd, hxN, ?_⟩
      intro i hi
      show ChunkArrayContainer.set_refs c.refs_ b P 1 (x + i) = 0
      rw [hrefs]
      have hxb : x ≠ b := fun hxb => (List.nodup_cons.mp hnd).1 (hxb ▸ hx')
      have hnin : ¬ (b ≤ x + i ∧ x + i < b + P) := by
        rintro ⟨h1, h2⟩
        exact hxb (block_start_eq P x b i (x + i - b) hxd hbd hi (by omega) (by omega))
      rw [if_neg hnin]
      exact hxz i hi
    · intro i hi
      show ChunkArrayContainer.set_refs c.refs_ b P 1 i = 0
      have hi' : c.nb_max_lines_ ≤ i := hi
      rw [hrefs, if_neg (by omega)]
      exact h.beyond i hi'
    · intro x hxd hxN hxr i hi
      show ChunkArrayContainer.set_refs c.refs_ b P 1 (x + i) ≠ 0
      have hxr' : x ∉ rest := hxr
      rw [hrefs]
      by_cases hin : b ≤ x + i ∧ x + i < b + P
      · rw [if_pos hin]; decide
      · rw [if_neg hin]
        have hxb : x ≠ b := by
          rintro rfl
          exact hin ⟨by omega, by omega⟩
        refine h.blocks x hxd hxN ?_ i hi
        rw [hh]
        intro hmem
        rcases List.mem_cons.mp hmem with h1 | h1
        · exact hxb h1
        · exact hxr' h1
    · show c.nb_used_lines_ + P + P * rest.length = c.nb_max_lines_
      omega
    · show ((Finset.range c.nb_max_lines_).filter
        (fun j => ChunkArrayContainer.set_refs c.refs_ b P 1 j ≠ 0)).card =
        c.nb_used_lines_ + P
      rw [Finset.filter_congr (fun j _ => by rw [hrefs j]),
        count_set_one c.refs_ b P c.nb_max_lines_ hbP
          (fun j hj1 hj2 => by
            have := hbz (j - b) (by omega)
            rwa [Nat.add_sub_cancel' hj1] at this),
        h.count]

theorem ChunkArrayContainer.block_inv_remove (C P : Nat) (c c1 : ChunkArrayContainer)
    (index : Nat) (hP : 0 < P) (h : c.block_inv C P)
    (hrem : c.remove_lines P index = some c1) : c1.block_inv C P := by
  have hmax : c.nb_max_lines_ < 4294967296 := h.max_lt
  obtain ⟨b, hb⟩ : ∃ b, b = (index / P) * P := ⟨_, rfl⟩
  have hbd : P ∣ b := by rw [hb]; exact Dvd.intro_left _ rfl
  have hused : c.used b = true := by
    by_contra hu
    have hu' : c.used ((index / P) * P) = false := by
      rw [← hb]
      cases hc : c.used b
      · rfl
      · exact absurd hc hu
    simp only [ChunkArrayContainer.remove_lines, hu', Bool.false_eq_true, if_false] at hrem
    cases hrem
  have hbr : c.refs_ b ≠ 0 := by simpa [ChunkArrayContainer.used] using hused
  have hbN : b < c.nb_max_lines_ := by
    by_contra hge
    exact hbr (h.beyond b (by omega))
  have hbH : b ∉ c.holes_stack_ := by
    intro hmem
    have := (h.holes b hmem).2.2 0 hP
    rw [Nat.add_zero] at this
    exact hbr this
  have hblock := h.blocks b hbd hbN hbH
  have hbP : b + P ≤ c.nb_max_lines_ := block_below P b _ hbd h.max_dvd hbN
  have hblock' : ∀ j, b ≤ j → j < b + P → c.refs_ j ≠ 0 := by
    intro j hj1 hj2
    have := hblock (j - b) (by omega)
    rwa [Nat.add_sub_cancel' hj1] at this
  have hrefs : ∀ j, ChunkArrayContainer.set_refs c.refs_ b P 0 j =
      if b ≤ j ∧ j < b + P then 0 else c.refs_ j :=
    fun j => ChunkArrayContainer.set_refs_apply _ _ _ _ P
      (by show b + P ≤ 4294967296; omega)
  have hcount := count_set_zero c.refs_ b P c.nb_max_lines_ hbP hblock'
  rw [h.count] at hcount
  have hPu : P ≤ c.nb_used_lines_ := by omega
  have hsum := h.sum
  have hule : c.nb_used_lines_ ≤ c.nb_max_lines_ := by omega
  have heq := ChunkArrayContainer.remove_lines_eq P c index (by rw [← hb]; exact hused) hPu
    (by show c.nb_used_lines_ < 4294967296; omega)
  rw [heq, ← hb] at hrem
  have hc1 := (Option.some.inj hrem).symm
  subst hc1
  refine ⟨h.chunksize, h.max_lt, h.max_dvd, List.nodup_cons.mpr ⟨hbH, h.nodup⟩, ?_, ?_, ?_,
    ?_, ?_, h.chunks⟩
  · intro x hx
    have hx' : x ∈ b :: c.holes_stack_ := hx
    have hxd : P ∣ x ∧ x < c.nb_max_lines_ := by
      rcases List.mem_cons.mp hx' with h1 | h1
      · rw [h1]; exact ⟨hbd, hbN⟩
      · exact ⟨(h.holes x h1).1, (h.holes x h1).2.1⟩
    refine ⟨hxd.1, hxd.2, ?_⟩
    intro i hi
    show ChunkArrayContainer.set_refs c.refs_ b P 0 (x + i) = 0
    rw [hrefs]
    by_cases hin : b ≤ x + i ∧ x + i < b + P
    · rw [if_pos hin]
    · rw [if_neg hin]
      rcases List.mem_cons.mp hx' with h1 | h1
      · rw [h1] at hin
        exact absurd ⟨by omega, by omega⟩ hin
      · exact (h.holes x h1).2.2 i hi
  · intro i hi
    show ChunkArrayContainer.set_refs c.refs_ b P 0 i = 0
    have hi' : c.nb_max_lines_ ≤ i := hi
    rw [hrefs, if_neg (by omega)]
    exact h.beyond i hi'
  · intro x hxd hxN hxr i hi
    show ChunkArrayContainer.set_refs c.refs_ b P 0 (x + i) ≠ 0
    have hxr' : x ∉ b :: c.holes_stack_ := hxr
    have hxb : x ≠ b := fun hxb => hxr' (hxb ▸ List.mem_cons_self _ _)
    have hxH : x ∉ c.holes_stack_ := fun hm => hxr' (List.mem_cons_of_mem _ hm)
    have hnin : ¬ (b ≤ x + i ∧ x + i < b + P) := by
      rintro ⟨h1, h2⟩
      exact hxb (block_start_eq P x b i (x + i - b) hxd hbd hi (by omega) (by omega))
    rw [hrefs, if_neg hnin]
    exact h.blocks x hxd hxN hxH i hi
  · show c.nb_used_lines_ - P + P * (b :: c.holes_stack_).length = c.nb_max_lines_
    rw [List.length_cons, Nat.mul_succ]
    omega
  · show ((Finset.range c.nb_max_lines_).filter
      (fun j => ChunkArrayContainer.set_refs c.refs_ b P 0 j ≠ 0)).card =
      c.nb_used_lines_ - P
    rw [Finset.filter_congr (fun j _ => by rw [hrefs j])]
    omega

theorem ChunkArrayContainer.reachable_block_inv (C P : Nat) (hP : 0 < P) (hPC : P < C)
    (c : ChunkArrayContainer) (hr : ChunkArrayContainer.reachable C P c) :
    c.block_inv C P := by
  induction hr with
  | init => exact ChunkArrayContainer.block_inv_init C P
  | insert c _ hlt ih => exact (ChunkArrayContainer.block_inv_insert C P c hP hPC ih hlt).1
  | remove c c1 index _ hrem ih =>
    exact ChunkArrayContainer.block_inv_remove C P c c1 index hP ih hrem
/-- Claim C38: for `0 < PRIMSIZE < CHUNKSIZE`, every state reached from the
empty container by `insert_lines<PRIMSIZE>` and `remove_lines<PRIMSIZE>`
(the counter of lines staying below `2^32`) satisfies: `size()` is the
number of used indices below `nb_max_lines_`; the entries of the stack of
holes are pairwise distinct multiples of `PRIMSIZE` below `nb_max_lines_`
whose `PRIMSIZE` lines are all unused; and
`size() + PRIMSIZE * (number of holes) = nb_max_lines_`. -/
theorem reachable_states_invariant (C P : Nat) (c : ChunkArrayContainer) (hP : 0 < P)
    (hPC : P < C) (hr : ChunkArrayContainer.reachable C P c) :
    ((Finset.range c.end_).filter (fun i => c.used i = true)).card = c.size ∧
    c.holes_stack_.Nodup ∧
    (∀ h ∈ c.holes_stack_,
      P ∣ h ∧ h < c.end_ ∧ ∀ i, i < P → c.used (h + i) = false) ∧
    c.size + P * c.holes_stack_.length = c.end_ := by
  have h := ChunkArrayContainer.reachable_block_inv C P hP hPC c hr
  refine ⟨?_, h.nodup, ?_, h.sum⟩
  · have hc := h.count
    show ((Finset.range c.nb_max_lines_).filter (fun i => c.used i = true)).card =
      c.nb_used_lines_
    rw [← hc]
    congr 1
    apply Finset.filter_congr
    intro i _
    simp [ChunkArrayContainer.used]
  · intro x hx
    obtain ⟨h1, h2, h3⟩ := h.holes x hx
    refine ⟨h1, h2, ?_⟩
    intro i hi
    simp [ChunkArrayContainer.used, h3 i hi]

/-- Witness of C38: with `CHUNKSIZE = 4` and `PRIMSIZE = 2`, the state after
two insertions and the removal of the block of the line 1. -/
theorem reachable_states_invariant_witness :
    ∃ c, (((ChunkArrayContainer.init 4).insert_lines 2).1.insert_lines 2).1.remove_lines 2 1 =
        some c ∧
      ChunkArrayContainer.reachable 4 2 c ∧
      c.holes_stack_ = [0] ∧ c.size = 2 ∧ c.end_ = 4 ∧
      ((Finset.range c.end_).filter (fun i => c.used i = true)).card = c.size ∧
      c.holes_stack_.Nodup ∧
      (∀ h ∈ c.holes_stack_,
        2 ∣ h ∧ h < c.end_ ∧ ∀ i, i < 2 → c.used (h + i) = false) ∧
      c.size + 2 * c.holes_stack_.length = c.end_ :=
  ⟨_, rfl,
    ChunkArrayContainer.reachable.remove _ _ 1
      (ChunkArrayContainer.reachable.insert _
        (ChunkArrayContainer.reachable.insert _ ChunkArrayContainer.reachable.init
          (by decide)) (by decide)) rfl,
    rfl, rfl, rfl,
    reachable_states_invariant 4 2 _ (by decide) (by decide)
      (ChunkArrayContainer.reachable.remove _ _ 1
        (ChunkArrayContainer.reachable.insert _
          (ChunkArrayContainer.reachable.insert _ ChunkArrayContainer.reachable.init
            (by decide)) (by decide)) rfl)⟩

/-- Claim C39: for `0 < PRIMSIZE < CHUNKSIZE` and every state reached from the
empty container by `insert_lines<PRIMSIZE>` and `remove_lines<PRIMSIZE>`,
after a call of `insert_lines` (the counter of lines staying below `2^32`)
the arrays have exactly `nb_max_lines_ / CHUNKSIZE + 1` chunks, so
`nb_max_lines_ < capacity()` and every line of the returned block is below
`nb_max_lines_`, hence below the capacity. -/
theorem insert_lines_chunks (C P : Nat) (c : ChunkArrayContainer) (hP : 0 < P)
    (hPC : P < C) (hr : ChunkArrayContainer.reachable C P c)
    (hlt : c.nb_max_lines_ + P < UINT32_RANGE) :
    (c.insert_lines P).1.refs_nb_chunks_ =
      (c.insert_lines P).1.end_ / (c.insert_lines P).1.CHUNKSIZE + 1 ∧
    (c.insert_lines P).1.end_ < (c.insert_lines P).1.capacity ∧
    ∀ i, i < P → (c.insert_lines P).2 + i < (c.insert_lines P).1.end_ ∧
      (c.insert_lines P).2 + i < (c.insert_lines P).1.capacity := by
  have h := ChunkArrayContainer.reachable_block_inv C P hP hPC c hr
  obtain ⟨hinv, hidx, hch⟩ := ChunkArrayContainer.block_inv_insert C P c hP hPC h hlt
  have hC : (c.insert_lines P).1.CHUNKSIZE = C := hinv.chunksize
  have hcap : (c.insert_lines P).1.nb_max_lines_ < (c.insert_lines P).1.capacity := by
    unfold ChunkArrayContainer.capacity
    rw [hch, hC, Nat.mul_comm]
    exact Nat.lt_mul_div_succ _ (by omega)
  refine ⟨?_, hcap, ?_⟩
  · rw [hC]; exact hch
  · intro i hi
    have h1 : (c.insert_lines P).2 + i < (c.insert_lines P).1.nb_max_lines_ := by omega
    exact ⟨h1, lt_trans h1 hcap⟩

/-- Witness of C39: with `CHUNKSIZE = 4` and `PRIMSIZE = 2`, the second
insertion on the empty container. -/
theorem insert_lines_chunks_witness :
    ChunkArrayContainer.reachable 4 2 ((ChunkArrayContainer.init 4).insert_lines 2).1 ∧
    (((ChunkArrayContainer.init 4).insert_lines 2).1.insert_lines 2).1.refs_nb_chunks_ =
      (((ChunkArrayContainer.init 4).insert_lines 2).1.insert_lines 2).1.end_ /
        (((ChunkArrayContainer.init 4).insert_lines 2).1.insert_lines 2).1.CHUNKSIZE + 1 ∧
    (((ChunkArrayContainer.init 4).insert_lines 2).1.insert_lines 2).1.end_ <
      (((ChunkArrayContainer.init 4).insert_lines 2).1.insert_lines 2).1.capacity ∧
    ∀ i, i < 2 →
      (((ChunkArrayContainer.init 4).insert_lines 2).1.insert_lines 2).2 + i <
        (((ChunkArrayContainer.init 4).insert_lines 2).1.insert_lines 2).1.end_ ∧
      (((ChunkArrayContainer.init 4).insert_lines 2).1.insert_lines 2).2 + i <
        (((ChunkArrayContainer.init 4).insert_lines 2).1.insert_lines 2).1.capacity :=
  ⟨ChunkArrayContainer.reachable.insert _ ChunkArrayContainer.reachable.init (by decide),
    insert_lines_chunks 4 2 _ (by decide) (by decide)
      (ChunkArrayContainer.reachable.insert _ ChunkArrayContainer.reachable.init (by decide))
      (by decide)⟩

theorem MapBaseData.set_embedding_foldl (orbit emb : Nat) :
    ∀ (l : List Dart) (E : Nat → Nat → Nat),
      (∀ x, x ∈ l →
        l.foldl (fun e it => MapBaseData.set_embedding e it orbit emb) E orbit x.index = emb) ∧
      (∀ i, (∀ x, x ∈ l → x.index ≠ i) →
        l.foldl (fun e it => MapBaseData.set_embedding e it orbit emb) E orbit i = E orbit i) ∧
      (∀ o, o ≠ orbit →
        l.foldl (fun e it => MapBaseData.set_embedding e it orbit emb) E o = E o) := by
  intro l
  induction l with
  | nil =>
    intro E
    refine ⟨?_, fun _ _ => rfl, fun _ _ => rfl⟩
    intro x hx; cases hx
  | cons a l ih =>
    intro E
    obtain ⟨h1, h2, h3⟩ := ih (MapBaseData.set_embedding E a orbit emb)
    have hset : ∀ i, MapBaseData.set_embedding E a orbit emb orbit i =
        if i = a.index then emb else E orbit i := by
      intro i
      unfold MapBaseData.set_embedding
      rw [Function.update_same]
      by_cases hi : i = a.index
      · rw [if_pos hi, hi, Function.update_same]
      · rw [if_neg hi, Function.update_noteq hi]
    refine ⟨?_, ?_, ?_⟩
    · intro x hx
      rw [List.foldl_cons]
      by_cases hxl : x ∈ l
      · exact h1 x hxl
      · rcases List.mem_cons.mp hx with hxa | hxa
        · by_cases hin : ∃ y, y ∈ l ∧ y.index = x.index
          · obtain ⟨y, hy, hyx⟩ := hin
            rw [← hyx]; exact h1 y hy
          · rw [h2 x.index (fun y hy hyx => hin ⟨y, hy, hyx⟩), hset, hxa, if_pos rfl]
        · exact absurd hxa hxl
    · intro i hi
      rw [List.foldl_cons, h2 i (fun x hx => hi x (List.mem_cons_of_mem _ hx)), hset,
        if_neg (fun h => hi a (List.mem_cons_self _ _) h.symm)]
    · intro o ho
      rw [List.foldl_cons, h3 o ho]
      unfold MapBaseData.set_embedding
      rw [Function.update_noteq ho]

/-- Claim C32: in a `Map1` whose `phi1` is a permutation, for a live dart `d`
whose phi1-cycle has length `n` (which exists) and with fuel for the `n`
turns of the traversal, `set_orbit_embedding` and `init_orbit_embedding` for
the face orbit return embeddings where every dart of the phi1-cycle of `d`
has the embedding `emb` for that orbit and every dart outside the cycle has
its former embedding; for the vertex orbit they change the embedding of `d`
only.  The embeddings of the other orbits are unchanged, and another orbit
identifier fails the assertion. -/
theorem set_orbit_embedding_writes_orbit (VERTEX1 FACE2 : Nat) (m : Map1) (d : Dart)
    (hne : VERTEX1 ≠ FACE2) (hperm : CMap1.phi1_is_permutation m) (hd : CMap1.is_dart m d)
    (E : Nat → Nat → Nat) (emb : Nat) :
    ∃ n, CMap1.is_cycle_length m d n ∧ ∀ fuel, n ≤ fuel →
      (∃ E1, Map1.set_orbit_embedding VERTEX1 FACE2 m E d FACE2 emb fuel = some E1 ∧
        Map1.init_orbit_embedding VERTEX1 FACE2 m E d FACE2 emb fuel = some E1 ∧
        (∀ x, CMap1.in_cycle m d x → E1 FACE2 x.index = emb) ∧
        (∀ x, ¬ CMap1.in_cycle m d x → E1 FACE2 x.index = E FACE2 x.index) ∧
        (∀ o, o ≠ FACE2 → E1 o = E o)) ∧
      (∃ E1, Map1.set_orbit_embedding VERTEX1 FACE2 m E d VERTEX1 emb fuel = some E1 ∧
        Map1.init_orbit_embedding VERTEX1 FACE2 m E d VERTEX1 emb fuel = some E1 ∧
        E1 VERTEX1 d.index = emb ∧
        (∀ x, x ≠ d → E1 VERTEX1 x.index = E VERTEX1 x.index) ∧
        (∀ o, o ≠ VERTEX1 → E1 o = E o)) ∧
      (∀ orbit, orbit ≠ VERTEX1 → orbit ≠ FACE2 →
        Map1.set_orbit_embedding VERTEX1 FACE2 m E d orbit emb fuel = none ∧
        Map1.init_orbit_embedding VERTEX1 FACE2 m E d orbit emb fuel = none) := by
  obtain ⟨n, hn⟩ := CMap1.cycle_length_exists m hperm d hd
  refine ⟨n, hn, ?_⟩
  intro fuel hfuel
  have hmem := cycle_length_mem_iterate m.phi1 d n hn
  have hface : ∀ (f : (Nat → Nat → Nat) → Dart → (Nat → Nat → Nat)),
      Map1.foreach_dart_of_face m d f fuel E = some ((List.iterate m.phi1 d n).foldl f E) := by
    intro f
    unfold Map1.foreach_dart_of_face
    rw [Map1.foreach_dart_of_face_loop_eq]
    exact CMap1.foreach_dart_of_PHI1_eq m d f n hn fuel hfuel E
  refine ⟨?_, ?_, ?_⟩
  · obtain ⟨h1, h2, h3⟩ := MapBaseData.set_embedding_foldl FACE2 emb (List.iterate m.phi1 d n) E
    refine ⟨_, ?_, ?_, ?_, ?_, h3⟩
    · unfold Map1.set_orbit_embedding Map1.foreach_dart_of_orbit
      rw [if_neg (Ne.symm hne), if_pos rfl]
      exact hface _
    · unfold Map1.init_orbit_embedding Map1.foreach_dart_of_orbit
      rw [if_neg (Ne.symm hne), if_pos rfl]
      exact hface _
    · intro x hx
      exact h1 x ((hmem x).mpr hx)
    · intro x hx
      apply h2
      intro y hy hyx
      apply hx
      have : y = x := (Dart.eq_iff_index y x).mpr hyx
      rw [← this]
      exact (hmem y).mp hy
  · refine ⟨MapBaseData.set_embedding E d VERTEX1 emb, ?_, ?_, ?_, ?_, ?_⟩
    · unfold Map1.set_orbit_embedding Map1.foreach_dart_of_orbit
      rw [if_pos rfl]
      rfl
    · unfold Map1.init_orbit_embedding Map1.foreach_dart_of_orbit
      rw [if_pos rfl]
      rfl
    · unfold MapBaseData.set_embedding
      rw [Function.update_same, Function.update_same]
    · intro x hx
      have hidx : x.index ≠ d.index := fun h => hx ((Dart.eq_iff_index x d).mpr h)
      unfold MapBaseData.set_embedding
      rw [Function.update_same, Function.update_noteq hidx]
    · intro o ho
      unfold MapBaseData.set_embedding
      rw [Function.update_noteq ho]
  · intro orbit h1 h2
    constructor
    · unfold Map1.set_orbit_embedding Map1.foreach_dart_of_orbit
      rw [if_neg h1, if_neg h2]
    · unfold Map1.init_orbit_embedding Map1.foreach_dart_of_orbit
      rw [if_neg h1, if_neg h2]

/-- Witness of C32 on the example map: the face of the dart 0, with the orbit
identifiers 0 and 1. -/
theorem set_orbit_embedding_writes_orbit_witness :
    CMap1.phi1_is_permutation example_map ∧ CMap1.is_dart example_map ⟨0⟩ ∧
    ∃ n, CMap1.is_cycle_length example_map ⟨0⟩ n ∧ ∀ fuel, n ≤ fuel →
      (∃ E1, Map1.set_orbit_embedding 0 1 example_map (fun _ _ => 7) ⟨0⟩ 1 5 fuel = some E1 ∧
        Map1.init_orbit_embedding 0 1 example_map (fun _ _ => 7) ⟨0⟩ 1 5 fuel = some E1 ∧
        (∀ x, CMap1.in_cycle example_map ⟨0⟩ x → E1 1 x.index = 5) ∧
        (∀ x, ¬ CMap1.in_cycle example_map ⟨0⟩ x → E1 1 x.index = 7) ∧
        (∀ o, o ≠ 1 → E1 o = (fun _ => 7))) ∧
      (∃ E1, Map1.set_orbit_embedding 0 1 example_map (fun _ _ => 7) ⟨0⟩ 0 5 fuel = some E1 ∧
        Map1.init_orbit_embedding 0 1 example_map (fun _ _ => 7) ⟨0⟩ 0 5 fuel = some E1 ∧
        E1 0 0 = 5 ∧
        (∀ x, x ≠ (⟨0⟩ : Dart) → E1 0 x.index = 7) ∧
        (∀ o, o ≠ 0 → E1 o = (fun _ => 7))) ∧
      (∀ orbit, orbit ≠ 0 → orbit ≠ 1 →
        Map1.set_orbit_embedding 0 1 example_map (fun _ _ => 7) ⟨0⟩ orbit 5 fuel = none ∧
        Map1.init_orbit_embedding 0 1 example_map (fun _ _ => 7) ⟨0⟩ orbit 5 fuel = none) :=
  ⟨example_map_permutation, (example_map_is_dart ⟨0⟩).2 (by decide),
    set_orbit_embedding_writes_orbit 0 1 example_map ⟨0⟩ (by decide) example_map_permutation
      ((example_map_is_dart ⟨0⟩).2 (by decide)) (fun _ _ => 7) 5⟩

/-- Claim C37: in a 1D map whose topology container satisfies the allocator
invariant (with room for one more line) and where `phi_1` is the inverse of
`phi1` on the live darts, for every live dart `d` the call
`e = cut_edge_topo(d)` followed by `collapse_edge_topo(e)` succeeds; `e` is a
new dart, and afterwards `phi1` and `phi_1` of every dart that was live
before the cut have their former values, `e` is removed again, the live
darts are those that were live before and `size()` is unchanged. -/
theorem cut_then_collapse_edge (m : CMap1) (d : Dart)
    (hwf : m.topology_.well_formed 1) (hinv : m.inverse_on m.is_dart) (hd : m.is_dart d)
    (hlt : m.topology_.nb_max_lines_ + 1 < UINT32_RANGE) :
    ∃ m1 e m2, m.cut_edge_topo d = some (m1, e) ∧ m1.collapse_edge_topo e = some m2 ∧
      ¬ m.is_dart e ∧ m1.is_dart e ∧
      (∀ x, m.is_dart x → m2.phi1 x = m.phi1 x ∧ m2.phi_1 x = m.phi_1 x) ∧
      ¬ m2.is_dart e ∧ (∀ x, m2.is_dart x ↔ m.is_dart x) ∧
      m2.topology_.size = m.topology_.size := by
  obtain ⟨ma, e, hadd, hne, hlive, hp1, hp_1, hover⟩ := m.add_dart_internal_spec hwf
  obtain ⟨hwfa, husa, _⟩ := hover hlt
  have hde : d ≠ e := fun h => hne (h ▸ hd)
  have hdei : d.index ≠ e.index := fun h => hde ((Dart.eq_iff_index d e).mpr h)
  have hf : m.is_dart (m.phi1 d) := (hinv d hd).1
  have hfe : m.phi1 d ≠ e := fun h => hne (h ▸ hf)
  have hfei : (m.phi1_ d.index).index ≠ e.index :=
    fun h => hfe ((Dart.eq_iff_index _ e).mpr h)
  have hback : m.phi_1_ (m.phi1_ d.index).index = d := (hinv d hd).2.2.1
  -- the map after the cut
  have hae : ma.phi1 e = e := by
    show ma.phi1_ e.index = e
    rw [hp1, Function.update_same]
  have had : ma.phi1 d = m.phi1 d := by
    show ma.phi1_ d.index = m.phi1_ d.index
    rw [hp1, Function.update_noteq hdei]
  have hcut : m.cut_edge_topo d = some (ma.phi1_sew d e, e) := by
    unfold CMap1.cut_edge_topo
    rw [hadd]
  have h1p : (ma.phi1_sew d e).phi1_ =
      Function.update (Function.update ma.phi1_ d.index e) e.index (m.phi1_ d.index) := by
    show Function.update (Function.update ma.phi1_ d.index (ma.phi1 e)) e.index (ma.phi1 d) = _
    rw [hae, had]; rfl
  have h1q : (ma.phi1_sew d e).phi_1_ =
      Function.update (Function.update ma.phi_1_ e.index d) (m.phi1_ d.index).index e := by
    show Function.update (Function.update ma.phi_1_ (ma.phi1 e).index d) (ma.phi1 d).index e = _
    rw [hae, had]; rfl
  -- the collapse
  have hpe : (ma.phi1_sew d e).phi_1 e = d := by
    show (ma.phi1_sew d e).phi_1_ e.index = d
    rw [h1q, Function.update_noteq (Ne.symm hfei), Function.update_same]
  have h1d : (ma.phi1_sew d e).phi1 d = e := by
    show (ma.phi1_sew d e).phi1_ d.index = e
    rw [h1p, Function.update_noteq hdei, Function.update_same]
  have h1e : (ma.phi1_sew d e).phi1 e = m.phi1_ d.index := by
    show (ma.phi1_sew d e).phi1_ e.index = _
    rw [h1p, Function.update_same]
  obtain ⟨mu, hmu⟩ : ∃ mu, mu = (ma.phi1_sew d e).phi1_unsew d := ⟨_, rfl⟩
  have hmup : mu.phi1_ = Function.update
      (Function.update (ma.phi1_sew d e).phi1_ d.index (m.phi1_ d.index)) e.index e := by
    rw [hmu]
    show Function.update (Function.update (ma.phi1_sew d e).phi1_ d.index
      ((ma.phi1_sew d e).phi1 ((ma.phi1_sew d e).phi1 d)))
      ((ma.phi1_sew d e).phi1 d).index ((ma.phi1_sew d e).phi1 d) = _
    rw [h1d, h1e]
  have hmuq : mu.phi_1_ = Function.update
      (Function.update (ma.phi1_sew d e).phi_1_ (m.phi1_ d.index).index d) e.index e := by
    rw [hmu]
    show Function.update (Function.update (ma.phi1_sew d e).phi_1_
      ((ma.phi1_sew d e).phi1 ((ma.phi1_sew d e).phi1 d)).index d)
      ((ma.phi1_sew d e).phi1 d).index ((ma.phi1_sew d e).phi1 d) = _
    rw [h1d, h1e]
  have hmut : mu.topology_ = ma.topology_ := by rw [hmu]; rfl
  have hmue : mu.is_dart e := by
    show mu.topology_.used e.index = true
    rw [hmut]
    exact (hlive e).mpr (Or.inr rfl)
  obtain ⟨m2, hrem, hr1, hr2, hr3, _, hr5, _, _⟩ :=
    mu.remove_dart_spec (by rw [hmut]; exact hwfa) e hmue
  have hcol : (ma.phi1_sew d e).collapse_edge_topo e = some m2 := by
    unfold CMap1.collapse_edge_topo
    simp only [hpe]
    rw [if_pos hde, ← hmu]
    exact hrem
  have hmud : ∀ x, mu.is_dart x ↔ ma.is_dart x := by
    intro x
    show mu.topology_.used x.index = true ↔ ma.topology_.used x.index = true
    rw [hmut]
  refine ⟨ma.phi1_sew d e, e, m2, hcut, hcol, hne, (hlive e).mpr (Or.inr rfl), ?_, ?_, ?_, ?_⟩
  · intro x hx
    have hxe : x ≠ e := fun h => hne (h ▸ hx)
    have hxei : x.index ≠ e.index := fun h => hxe ((Dart.eq_iff_index x e).mpr h)
    constructor
    · show m2.phi1_ x.index = m.phi1_ x.index
      rw [hr1, hmup, Function.update_noteq hxei]
      by_cases hxd : x.index = d.index
      · rw [hxd, Function.update_same]
      · rw [Function.update_noteq hxd, h1p, Function.update_noteq hxei,
          Function.update_noteq hxd, hp1, Function.update_noteq hxei]
    · show m2.phi_1_ x.index = m.phi_1_ x.index
      rw [hr2, hmuq, Function.update_noteq hxei]
      by_cases hxf : x.index = (m.phi1_ d.index).index
      · rw [hxf, Function.update_same, hback]
      · rw [Function.update_noteq hxf, h1q, Function.update_noteq hxf,
          Function.update_noteq hxei, hp_1, Function.update_noteq hxei]
  · intro h
    exact ((hr3 e).mp h).2 rfl
  · intro x
    rw [hr3, hmud, hlive]
    constructor
    · rintro ⟨h1 | h1, h2⟩
      · exact h1
      · exact absurd h1 h2
    · intro h
      exact ⟨Or.inl h, fun hxe => hne (hxe ▸ h)⟩
  · show m2.topology_.nb_used_lines_ = m.topology_.nb_used_lines_
    have h1 : mu.topology_.nb_used_lines_ = m.topology_.nb_used_lines_ + 1 := by
      rw [hmut]; exact husa
    omega
theorem CMap1.reverse_face_topo_spec (m : CMap1) (S : Dart → Prop) (hinv : m.inverse_on S)
    (d : Dart) (hd : S d) (n : Nat) (hn : m.is_cycle_length d n) (fuel : Nat)
    (hfuel : n - 2 ≤ fuel) :
    ∃ m2, m.reverse_face_topo d fuel = some m2 ∧
      (∀ x, m.in_cycle d x → m2.phi1 x = m.phi_1 x ∧ m2.phi_1 x = m.phi1 x) ∧
      (∀ x, m2.in_cycle d x ↔ m.in_cycle d x) ∧
      (∀ x, ¬ m.in_cycle d x → m2.phi1 x = m.phi1 x ∧ m2.phi_1 x = m.phi_1 x) ∧
      m2.topology_ = m.topology_ ∧
      (n ≤ 2 → m2 = m) := by
  have hc : cycle_length m.phi1 d n := hn
  have hrep0 := CMap1.cycle_rep_self m S hinv d hd n hc
  obtain ⟨hn0, hnd, hmin⟩ := hn
  by_cases hsmall : n ≤ 2
  · have hres : m.reverse_face_topo d fuel = some m := by
      unfold CMap1.reverse_face_topo
      by_cases h1 : n = 1
      · have hfix : m.phi1 d = d := by rw [h1] at hnd; exact hnd
        simp only [hfix, if_true]
      · have h2 : n = 2 := by omega
        have hne : m.phi1 d ≠ d := hmin 1 (by omega) (by omega)
        have hback : m.phi1 (m.phi1 d) = d := by rw [h2] at hnd; exact hnd
        simp only [hne, hback, if_false, if_true]
    have hrep : m.cycle_rep d n m (cycle_prev n) (cycle_next n) := by
      refine CMap1.cycle_rep_congr m d n m _ _ _ _ ?_ ?_ hrep0
      · intro i hi
        simp only [cycle_next, cycle_prev]
        split_ifs <;> omega
      · intro i hi
        simp only [cycle_next, cycle_prev]
        split_ifs <;> omega
    obtain ⟨r1, r2, r3, r4⟩ := CMap1.cycle_rep_reversed m m d n hc hrep0 hrep
    exact ⟨m, hres, r1, r2, r3, r4, fun _ => rfl⟩
  · have hn3 : 3 ≤ n := by omega
    have hne : m.phi1 d ≠ d := hmin 1 (by omega) (by omega)
    have hne2 : m.phi1 (m.phi1 d) ≠ d := hmin 2 (by omega) (by omega)
    have hrep1 : m.cycle_rep d n (m.phi1_unsew d) (reverse_next n 0) (reverse_prev n 0) := by
      have h := CMap1.cycle_rep_unsew m d n hc m _ _ 0 hn0 hrep0
      exact CMap1.cycle_rep_congr m d n _ _ _ _ _
        (fun i hi => reverse_init_next n i hn3 hi) (fun i _ => reverse_init_prev n i hn3) h
    obtain ⟨m2, hloop, hrep2⟩ :=
      CMap1.reverse_face_topo_loop_spec m d n hc fuel 0 (m.phi1_unsew d) (by omega)
        (by omega) hrep1
    have hrep3 : m.cycle_rep d n (m2.phi1_sew (m.phi1 d) d) (cycle_prev n) (cycle_next n) := by
      have h := CMap1.cycle_rep_sew m d n hc m2 _ _ 1 0 (by omega) hn0 hrep2
      exact CMap1.cycle_rep_congr m d n _ _ _ _ _
        (fun i hi => reverse_last_next n i hn3 hi) (fun i hi => reverse_last_prev n i hn3 hi) h
    obtain ⟨r1, r2, r3, r4⟩ :=
      CMap1.cycle_rep_reversed m (m2.phi1_sew (m.phi1 d) d) d n hc hrep0 hrep3
    refine ⟨m2.phi1_sew (m.phi1 d) d, ?_, r1, r2, r3, r4, fun h => absurd h hsmall⟩
    simp only [CMap1.reverse_face_topo, hne, hne2, if_false, hloop]

theorem CMap1.inverse_iterate (m : CMap1) (S : Dart → Prop) (hinv : m.inverse_on S)
    (d : Dart) (hd : S d) (n : Nat) (hc : cycle_length m.phi1 d n) :
    ∀ k, k ≤ n → (m.phi_1)^[k] d = (m.phi1)^[n - k] d := by
  intro k
  induction k with
  | zero =>
    intro _
    rw [Function.iterate_zero, id, Nat.sub_zero, hc.2.1]
  | succ k ih =>
    intro hk
    have h1 : n - k = (n - (k + 1)) + 1 := by omega
    rw [Function.iterate_succ_apply', ih (by omega), h1, Function.iterate_succ_apply']
    exact (hinv _ (CMap1.iterate_mem_of_inverse_on m S hinv d hd _)).2.2.1

theorem CMap1.in_cycle_phi_1 (m : CMap1) (S : Dart → Prop) (hinv : m.inverse_on S)
    (d : Dart) (hd : S d) (n : Nat) (hc : cycle_length m.phi1 d n) (x : Dart)
    (hx : m.in_cycle d x) : m.in_cycle d (m.phi_1 x) ∧ m.in_cycle d (m.phi1 x) ∧ S x := by
  obtain ⟨k, hk⟩ := hx
  have hSx : S x := by rw [← hk]; exact CMap1.iterate_mem_of_inverse_on m S hinv d hd k
  refine ⟨?_, ⟨k + 1, by rw [Function.iterate_succ_apply', hk]⟩, hSx⟩
  cases k with
  | zero =>
    rw [Function.iterate_zero, id] at hk
    refine ⟨n - 1, ?_⟩
    have h1 := CMap1.inverse_iterate m S hinv d hd n hc 1 hc.1
    rw [Function.iterate_one] at h1
    rw [← hk, h1]
  | succ j =>
    refine ⟨j, ?_⟩
    rw [← hk, Function.iterate_succ_apply']
    exact ((hinv _ (CMap1.iterate_mem_of_inverse_on m S hinv d hd j)).2.2.1).symm

/-- Claim C36: in a map where `phi_1` is the inverse of `phi1` on the set `S`
of darts, for a dart `d` of `S` whose phi1-cycle has length `n`,
`reverse_face_topo(d)` applied twice (each call with fuel for the `n - 2`
turns of its loop) gives back the map: `phi1` and `phi_1` of every dart are
restored; and on a face of one or two darts a single call changes
nothing. -/
theorem reverse_face_topo_twice (m : CMap1) (S : Dart → Prop) (hinv : m.inverse_on S)
    (d : Dart) (hd : S d) (n : Nat) (hn : m.is_cycle_length d n) (fuel : Nat)
    (hfuel : n - 2 ≤ fuel) :
    ∃ m2, m.reverse_face_topo d fuel = some m2 ∧
      m2.reverse_face_topo d fuel = some m ∧
      (n ≤ 2 → m2 = m) := by
  have hc : cycle_length m.phi1 d n := hn
  obtain ⟨m2, hrev, r1, r2, r3, r4, r5⟩ :=
    CMap1.reverse_face_topo_spec m S hinv d hd n hn fuel hfuel
  -- the reversed map satisfies the same hypotheses
  have hinv2 : m2.inverse_on S := by
    intro x hx
    by_cases hcx : m.in_cycle d x
    · obtain ⟨c1, c2, _⟩ := CMap1.in_cycle_phi_1 m S hinv d hd n hc x hcx
      obtain ⟨e1, e2⟩ := r1 x hcx
      obtain ⟨s1, s2, s3, s4⟩ := hinv x hx
      refine ⟨by rw [e1]; exact s2, by rw [e2]; exact s1, ?_, ?_⟩
      · rw [e1, (r1 _ c1).2]; exact s4
      · rw [e2, (r1 _ c2).1]; exact s3
    · obtain ⟨e1, e2⟩ := r3 x hcx
      obtain ⟨s1, s2, s3, s4⟩ := hinv x hx
      have hn1 : ¬ m.in_cycle d (m.phi1 x) := by
        intro h
        have := (CMap1.in_cycle_phi_1 m S hinv d hd n hc _ h).1
        rw [s3] at this
        exact hcx this
      have hn2 : ¬ m.in_cycle d (m.phi_1 x) := by
        intro h
        have := (CMap1.in_cycle_phi_1 m S hinv d hd n hc _ h).2.1
        rw [s4] at this
        exact hcx this
      refine ⟨by rw [e1]; exact s1, by rw [e2]; exact s2, ?_, ?_⟩
      · rw [e1, (r3 _ hn1).2]; exact s3
      · rw [e2, (r3 _ hn2).1]; exact s4
  have hiter : ∀ k, k ≤ n → (m2.phi1)^[k] d = (m.phi_1)^[k] d := by
    intro k
    induction k with
    | zero => intro _; rfl
    | succ k ih =>
      intro hk
      rw [Function.iterate_succ_apply', Function.iterate_succ_apply', ih (by omega)]
      have hin : m.in_cycle d ((m.phi_1)^[k] d) :=
        ⟨n - k, (CMap1.inverse_iterate m S hinv d hd n hc k (by omega)).symm⟩
      exact (r1 _ hin).1
  have hc2 : m2.is_cycle_length d n := by
    refine ⟨hc.1, ?_, ?_⟩
    · show (m2.phi1)^[n] d = d
      rw [hiter n (le_refl _), CMap1.inverse_iterate m S hinv d hd n hc n (le_refl _),
        Nat.sub_self]
      rfl
    · intro k hk hk0
      show (m2.phi1)^[k] d ≠ d
      rw [hiter k (by omega), CMap1.inverse_iterate m S hinv d hd n hc k (by omega)]
      exact hc.2.2 (n - k) (by omega) (by omega)
  obtain ⟨m3, hrev2, q1, _, q3, q4, _⟩ :=
    CMap1.reverse_face_topo_spec m2 S hinv2 d hd n hc2 fuel hfuel
  have hall : ∀ x, m3.phi1 x = m.phi1 x ∧ m3.phi_1 x = m.phi_1 x := by
    intro x
    by_cases hcx : m.in_cycle d x
    · have hcx2 : m2.in_cycle d x := (r2 x).mpr hcx
      obtain ⟨a1, a2⟩ := q1 x hcx2
      obtain ⟨b1, b2⟩ := r1 x hcx
      exact ⟨a1.trans b2, a2.trans b1⟩
    · have hcx2 : ¬ m2.in_cycle d x := fun h => hcx ((r2 x).mp h)
      obtain ⟨a1, a2⟩ := q3 x hcx2
      obtain ⟨b1, b2⟩ := r3 x hcx
      exact ⟨a1.trans b1, a2.trans b2⟩
  have hm3 : m3 = m := by
    cases m3 with
    | mk t3 p3 q3' =>
      cases m with
      | mk t p q =>
        have ht : t3 = t := q4.trans r4
        have hp : p3 = p := by
          funext i
          exact (hall ⟨i⟩).1
        have hq : q3' = q := by
          funext i
          exact (hall ⟨i⟩).2
        rw [ht, hp, hq]
  rw [hm3] at hrev2
  exact ⟨m2, hrev, hrev2, r5⟩

/-- Witness of C36 on the example map: the face of the dart `0`, of three
darts, reversed twice. -/
theorem reverse_face_topo_twice_witness :
    example_map.inverse_on (fun x => x.index < 4) ∧ example_map.is_cycle_length ⟨0⟩ 3 ∧
    ∃ m2, example_map.reverse_face_topo ⟨0⟩ 1 = some m2 ∧
      m2.reverse_face_topo ⟨0⟩ 1 = some example_map ∧
      (3 ≤ 2 → m2 = example_map) :=
  have hc : example_map.is_cycle_length ⟨0⟩ 3 := by
    refine ⟨by decide, by decide, ?_⟩
    intro k hk hk0
    interval_cases k <;> decide
  ⟨example_map_inverse_on, hc,
   reverse_face_topo_twice example_map (fun x => x.index < 4) example_map_inverse_on ⟨0⟩
     (by decide) 3 hc 1 (by decide)⟩

/-- Witness of C37 on the example map: the edge of the dart `0` is cut and
the new dart is collapsed. -/
theorem cut_then_collapse_edge_witness :
    example_map.topology_.well_formed 1 ∧ example_map.inverse_on example_map.is_dart ∧
    example_map.is_dart ⟨0⟩ ∧
    ∃ m1 e m2, example_map.cut_edge_topo ⟨0⟩ = some (m1, e) ∧
      m1.collapse_edge_topo e = some m2 ∧
      ¬ example_map.is_dart e ∧ m1.is_dart e ∧
      (∀ x, example_map.is_dart x →
        m2.phi1 x = example_map.phi1 x ∧ m2.phi_1 x = example_map.phi_1 x) ∧
      ¬ m2.is_dart e ∧ (∀ x, m2.is_dart x ↔ example_map.is_dart x) ∧
      m2.topology_.size = example_map.topology_.size :=
  ⟨example_container_well_formed, example_map_inverse_on_darts,
    (example_map_is_dart ⟨0⟩).2 (by decide),
    cut_then_collapse_edge example_map ⟨0⟩ example_container_well_formed
      example_map_inverse_on_darts ((example_map_is_dart ⟨0⟩).2 (by decide)) (by decide)⟩

end cgogn
